import Mathlib

/-!
# TécnicoFS: the operations layer (`fs/operations.c`)

A shallow embedding of the public operations of `fs/operations.c`
(`tfs_open`, `tfs_close`, `tfs_read`, `tfs_write`, `tfs_link`, `tfs_sym_link`,
`tfs_unlink`) as state-passing functions on an explicit file-system state.

Conventions of the embedding.

* A C string is the list of its characters (without the final NUL); a NULL
  pointer is no string and lies outside the type.
* A pointer into a table (`inode_t *`, a block, an open-file entry) is the index
  of the slot it points to; NULL is `none`.
* `size_t` values are natural numbers; the additions and subtractions of
  `tfs_write` and `tfs_read` are taken modulo `2 ^ 64`.  The final `(ssize_t)`
  cast of the two is `ssize_cast`: a count above `SSIZE_MAX` is returned as a
  negative number, `2 ^ 64 - 1` as `-1`.
* An operation returns `none` when the C code does not return: a failed
  `ALWAYS_ASSERT`, or a dereference of a NULL table pointer.
* The operations are run one at a time; the `pthread_rwlock` calls are not part
  of this state.  The calls an operation makes on the path it takes are listed
  by a function of their own (`tfs_write_locks` for `tfs_write`, and so on).
* `memcpy` on a block is the list splice `memcpy_block`; inside the bounds of the
  block it is the C call.  Outside them the C call is undefined; the lists then
  hold what the splice gives, and no statement below is about those bytes.
* `sym_path` holds the characters of the string the caller passed; the caller
  keeps that string alive and unmodified (the C code stores the pointer).

`state.c`, `state.h` and `config.h` are not part of the sources at hand: the
tables and their helper functions are modelled from the specification, each such
definition saying so.
-/

namespace TFS

/-! ## Data model -/

/-- The configuration record of `tfs_params` (`operations.c`, `tfs_default_params`). -/
structure tfs_params where
  max_inode_count : Nat
  max_block_count : Nat
  max_open_files_count : Nat
  block_size : Nat
deriving DecidableEq

/-- The two kinds of inode, `T_FILE` and `T_DIRECTORY`. -/
inductive inode_type where
  | T_FILE
  | T_DIRECTORY
deriving DecidableEq

/-- Modelled from the spec: the inode record of `state.h` (spec section 3, "Inode"),
with the fields `operations.c` reads and writes.  `i_data_block = -1` is NONE. -/
structure inode_t where
  i_node_type : inode_type
  i_size : Nat
  i_data_block : Int
  hard_links : Nat
  sym_link : Bool
  sym_path : List Char
deriving DecidableEq

instance : Inhabited inode_t := ⟨⟨inode_type.T_FILE, 0, -1, 0, false, []⟩⟩

/-- Modelled from the spec: a directory entry of `state.h` (spec section 3,
"DirectoryEntry"): a name and an inumber, free when the inumber is `-1`. -/
structure dir_entry_t where
  d_name : List Char
  d_inumber : Int
deriving DecidableEq

/-- Modelled from the spec: an open-file entry of `state.h` (spec section 3,
"OpenFileEntry"). -/
structure open_file_entry_t where
  of_inumber : Int
  of_offset : Nat
deriving DecidableEq

/-- Allocation state of a slot of a free bitmap. -/
inductive allocation_state_t where
  | FREE
  | TAKEN
deriving DecidableEq

/-- Modelled from the spec: the tables of `state.c` (spec sections 4.1 to 4.4).
`inode_table`/`freeinode_ts` are the inode table and its free bitmap,
`fs_data`/`free_blocks` the block pool and its free bitmap, `dir_entries` the
array of entries held in the root inode's block, `open_file_table` the array of
optional open-file entries.  The lengths of the lists are the capacities. -/
structure tfs_state where
  block_size : Nat
  inode_table : List inode_t
  freeinode_ts : List allocation_state_t
  fs_data : List (List Nat)
  free_blocks : List allocation_state_t
  dir_entries : List dir_entry_t
  open_file_table : List (Option open_file_entry_t)
deriving DecidableEq

/-- The inumber of the root directory (`ROOT_DIR_INUM`). -/
def ROOT_DIR_INUM : Int := 0

/-- Mode flag `TFS_O_CREAT` (spec section 6: `O_CREAT = 1`). -/
def TFS_O_CREAT : Nat := 1

/-- Mode flag `TFS_O_TRUNC` (spec section 6: `O_TRUNC = 2`). -/
def TFS_O_TRUNC : Nat := 2

/-- Mode flag `TFS_O_APPEND` (spec section 6: `O_APPEND = 4`). -/
def TFS_O_APPEND : Nat := 4

/-- The modulus of `size_t` arithmetic. -/
def SIZE_MOD : Nat := 18446744073709551616

/-- The largest `ssize_t` (`SSIZE_MAX`, 64 bits). -/
def SSIZE_MAX : Nat := 9223372036854775807

/-- The cast `(ssize_t)` of a `size_t` value, as in `return (ssize_t)to_write;`:
a value above `SSIZE_MAX` wraps to a negative number. -/
def ssize_cast (n : Nat) : Int :=
  if n % SIZE_MOD ≤ SSIZE_MAX then ((n % SIZE_MOD : Nat) : Int)
  else ((n % SIZE_MOD : Nat) : Int) - (SIZE_MOD : Int)

/-- The C test `mode & flag`. -/
def has_flag (mode flag : Nat) : Bool := (mode &&& flag) != 0

/-! ## The tables of `state.c`, modelled from the specification -/

/-- Index of the lowest free slot of a bitmap. -/
def first_free : List allocation_state_t → Option Nat
  | [] => none
  | allocation_state_t.FREE :: _ => some 0
  | allocation_state_t.TAKEN :: l => (first_free l).map (· + 1)

/-- Index of the lowest empty slot of the open-file table. -/
def first_none : List (Option open_file_entry_t) → Option Nat
  | [] => none
  | none :: _ => some 0
  | some _ :: l => (first_none l).map (· + 1)

/-- Modelled from the spec: `state_block_size` of `state.c`, the `block_size`
parameter fixed at init. -/
def state_block_size (st : tfs_state) : Nat := st.block_size

/-- Modelled from the spec: `data_block_alloc` of `state.c` (4.1: "returns the
lowest-indexed free block, marks it used", `-1` for NoSpace). -/
def data_block_alloc (st : tfs_state) : tfs_state × Int :=
  match first_free st.free_blocks with
  | none => (st, -1)
  | some b =>
    ({ st with free_blocks := st.free_blocks.set b allocation_state_t.TAKEN }, (b : Int))

/-- Modelled from the spec: `data_block_free` of `state.c` (4.1: "marks as
free").  A number that is no block index changes nothing. -/
def data_block_free (st : tfs_state) (block_number : Int) : tfs_state :=
  if 0 ≤ block_number then
    { st with free_blocks := st.free_blocks.set block_number.toNat allocation_state_t.FREE }
  else st

/-- Modelled from the spec: `data_block_get` of `state.c` (4.1: a view of the
block), NULL for a number that is no block index. -/
def data_block_get (st : tfs_state) (block_number : Int) : Option Nat :=
  if 0 ≤ block_number ∧ block_number < (st.fs_data.length : Int) then
    some block_number.toNat
  else none

/-- The bytes of the block a block pointer points to. -/
def block_at (st : tfs_state) (b : Nat) : List Nat := st.fs_data.getD b []

/-- Modelled from the spec: `inode_get` of `state.c` (4.2: "returns a stable
handle to the inode"), NULL for a number outside the table. -/
def inode_get (st : tfs_state) (inumber : Int) : Option Nat :=
  if 0 ≤ inumber ∧ inumber < (st.inode_table.length : Int) then
    some inumber.toNat
  else none

/-- The inode an inode pointer points to. -/
def inode_at (st : tfs_state) (p : Nat) : inode_t := st.inode_table.getD p default

/-- Assignment through an inode pointer. -/
def inode_put (st : tfs_state) (p : Nat) (v : inode_t) : tfs_state :=
  { st with inode_table := st.inode_table.set p v }

/-- Live entry of the directory with the given name. -/
def dir_find : List dir_entry_t → List Char → Int
  | [], _ => -1
  | e :: l, n => if e.d_inumber ≠ -1 ∧ e.d_name = n then e.d_inumber else dir_find l n

/-- Store an entry into the first free slot of the directory array. -/
def dir_insert : List dir_entry_t → dir_entry_t → Option (List dir_entry_t)
  | [], _ => none
  | e :: l, x =>
    if e.d_inumber = -1 then some (x :: l) else (dir_insert l x).map (e :: ·)

/-- Mark the first live slot with the given name free. -/
def dir_clear : List dir_entry_t → List Char → Option (List dir_entry_t)
  | [], _ => none
  | e :: l, n =>
    if e.d_inumber ≠ -1 ∧ e.d_name = n then some ({ e with d_inumber := -1 } :: l)
    else (dir_clear l n).map (e :: ·)

/-- Modelled from the spec: `find_in_dir` of `state.c` (4.3: "linear scan over
entries with matching name"), `-1` for NotFound.  The directory is the root's. -/
def find_in_dir (st : tfs_state) (_inode : Option Nat) (sub_name : List Char) : Int :=
  dir_find st.dir_entries sub_name

/-- Modelled from the spec: `add_dir_entry` of `state.c` (4.3: "rejects
duplicates; appends into the first free slot", `-1` for Full or Exists). -/
def add_dir_entry (st : tfs_state) (_inode : Option Nat) (sub_name : List Char)
    (sub_inumber : Int) : tfs_state × Int :=
  if dir_find st.dir_entries sub_name ≠ -1 then (st, -1)
  else
    match dir_insert st.dir_entries ⟨sub_name, sub_inumber⟩ with
    | none => (st, -1)
    | some d => ({ st with dir_entries := d }, 0)

/-- Modelled from the spec: `clear_dir_entry` of `state.c` (4.3: "marks the
matching slot free", `-1` for NotFound). -/
def clear_dir_entry (st : tfs_state) (_inode : Option Nat) (sub_name : List Char) :
    tfs_state × Int :=
  match dir_clear st.dir_entries sub_name with
  | none => (st, -1)
  | some d => ({ st with dir_entries := d }, 0)

/-- Modelled from the spec: `inode_create` of `state.c` (4.2: "allocates a slot,
zero-initialises fields, sets `hard_links = 1`.  For a directory, allocates a
data block and clears its entries; for a file, leaves `data_block = NONE`"),
`-1` for NoSpace.  The slot taken is the lowest free one. -/
def inode_create (st : tfs_state) (i_type : inode_type) : tfs_state × Int :=
  match first_free st.freeinode_ts with
  | none => (st, -1)
  | some i =>
    match i_type with
    | inode_type.T_FILE =>
      ({ st with
          freeinode_ts := st.freeinode_ts.set i allocation_state_t.TAKEN
          inode_table := st.inode_table.set i ⟨inode_type.T_FILE, 0, -1, 1, false, []⟩ },
        (i : Int))
    | inode_type.T_DIRECTORY =>
      let alloc := data_block_alloc st
      if alloc.2 = -1 then (st, -1)
      else
        ({ alloc.1 with
            freeinode_ts := alloc.1.freeinode_ts.set i allocation_state_t.TAKEN
            inode_table :=
              alloc.1.inode_table.set i ⟨inode_type.T_DIRECTORY, 0, alloc.2, 1, false, []⟩
            dir_entries := alloc.1.dir_entries.map (fun e => { e with d_inumber := -1 }) },
          (i : Int))

/-- Modelled from the spec: `inode_delete` of `state.c` (4.2: "frees
`data_block` if any, marks slot free").  A number outside the table changes
nothing. -/
def inode_delete (st : tfs_state) (inumber : Int) : tfs_state :=
  match inode_get st inumber with
  | none => st
  | some p =>
    let st1 :=
      if (inode_at st p).i_data_block ≠ -1 then data_block_free st (inode_at st p).i_data_block
      else st
    { st1 with freeinode_ts := st1.freeinode_ts.set p allocation_state_t.FREE }

/-- Modelled from the spec: `add_to_open_file_table` of `state.c` (4.4:
"add(inumber, offset) → Handle | Full"), the handle being the lowest empty
slot, `-1` for Full. -/
def add_to_open_file_table (st : tfs_state) (inumber : Int) (offset : Nat) :
    tfs_state × Int :=
  match first_none st.open_file_table with
  | none => (st, -1)
  | some h =>
    ({ st with open_file_table := st.open_file_table.set h (some ⟨inumber, offset⟩) },
      (h : Int))

/-- Modelled from the spec: `remove_from_open_file_table` of `state.c` (4.4:
"remove(Handle)"). -/
def remove_from_open_file_table (st : tfs_state) (fhandle : Int) : tfs_state :=
  if 0 ≤ fhandle then
    { st with open_file_table := st.open_file_table.set fhandle.toNat none }
  else st

/-- Modelled from the spec: `get_open_file_entry` of `state.c` (4.4:
"get(Handle) → entry | Invalid"), NULL when the handle names no live entry. -/
def get_open_file_entry (st : tfs_state) (fhandle : Int) : Option open_file_entry_t :=
  if 0 ≤ fhandle then (st.open_file_table.getD fhandle.toNat none) else none

/-- Assignment to the open-file entry of a handle. -/
def file_put (st : tfs_state) (fhandle : Int) (v : open_file_entry_t) : tfs_state :=
  { st with open_file_table := st.open_file_table.set fhandle.toNat (some v) }

/-- Modelled from the spec: `state_init` of `state.c`: every table empty, every
slot free.  `MAX_DIR_ENTRIES` is the constant of `config.h`. -/
def state_init (MAX_DIR_ENTRIES : Nat) (params : tfs_params) : tfs_state :=
  { block_size := params.block_size
    inode_table := List.replicate params.max_inode_count default
    freeinode_ts := List.replicate params.max_inode_count allocation_state_t.FREE
    fs_data := List.replicate params.max_block_count (List.replicate params.block_size 0)
    free_blocks := List.replicate params.max_block_count allocation_state_t.FREE
    dir_entries := List.replicate MAX_DIR_ENTRIES ⟨[], -1⟩
    open_file_table := List.replicate params.max_open_files_count none }

/-- Modelled from the spec: the return value of `state_init` of `state.c`.  The
pool of data blocks is "a contiguous buffer of `max_block_count * block_size`
bytes" (4.1) and no buffer has more than `SSIZE_MAX` bytes (`PTRDIFF_MAX`, the
same number): `-1` when the pool cannot be allocated, 0 otherwise. -/
def state_init_status (params : tfs_params) : Int :=
  if params.max_block_count * params.block_size ≤ SSIZE_MAX then 0 else -1

/-! ## `operations.c` -/

/-- The default parameters, `tfs_default_params`. -/
def tfs_default_params : tfs_params :=
  { max_inode_count := 64
    max_block_count := 1024
    max_open_files_count := 16
    block_size := 1024 }

/-- Initialisation, `tfs_init`: `none` is the return value `-1`. -/
def tfs_init (MAX_DIR_ENTRIES : Nat) (params_ptr : Option tfs_params) : Option tfs_state :=
  let params :=
    match params_ptr with
    | some p => p
    | none => tfs_default_params
  let st := state_init MAX_DIR_ENTRIES params
  if state_init_status params ≠ 0 then none
  else
    let created := inode_create st inode_type.T_DIRECTORY
    if created.2 ≠ ROOT_DIR_INUM then none else some created.1

/-- Path validation, `valid_pathname`. -/
def valid_pathname (name : List Char) : Bool :=
  decide (name.length > 1) && (name.head? == some '/')

/-- Name resolution in the root directory, `tfs_lookup`. -/
def tfs_lookup (st : tfs_state) (name : List Char) (root_inode : Option Nat) : Int :=
  if !valid_pathname name then -1
  else if inode_get st ROOT_DIR_INUM ≠ root_inode then -1
  else find_in_dir st root_inode name.tail

/-- The part of `tfs_open` after an existing file inode is found (lines 103 to
115 and 136): truncate if requested, choose the offset, insert the handle. -/
def tfs_open_found (st : tfs_state) (inum : Int) (inode : Nat) (mode : Nat) :
    tfs_state × Int :=
  let st1 :=
    if has_flag mode TFS_O_TRUNC then
      if (inode_at st inode).i_size > 0 then
        inode_put (data_block_free st (inode_at st inode).i_data_block) inode
          { inode_at st inode with i_size := 0 }
      else st
    else st
  let offset := if has_flag mode TFS_O_APPEND then (inode_at st1 inode).i_size else 0
  add_to_open_file_table st1 inum offset

/-- Opening a file, `tfs_open`. -/
def tfs_open (st : tfs_state) (name : List Char) (mode : Nat) : Option (tfs_state × Int) :=
  if !valid_pathname name then some (st, -1)
  else
    match inode_get st ROOT_DIR_INUM with
    | none => none
    | some root_dir_inode =>
      let inum := tfs_lookup st name (some root_dir_inode)
      if 0 ≤ inum then
        match inode_get st inum with
        | none => none
        | some inode =>
          if (inode_at st inode).sym_link then
            let inum2 := tfs_lookup st (inode_at st inode).sym_path (some root_dir_inode)
            if inum2 < 0 then some (st, -1)
            else
              match inode_get st inum2 with
              | none => none
              | some inode2 => some (tfs_open_found st inum2 inode2 mode)
          else some (tfs_open_found st inum inode mode)
      else if has_flag mode TFS_O_CREAT then
        let created := inode_create st inode_type.T_FILE
        if created.2 = -1 then some (created.1, -1)
        else
          let added := add_dir_entry created.1 (some root_dir_inode) name.tail created.2
          if added.2 = -1 then some (inode_delete added.1 created.2, -1)
          else some (add_to_open_file_table added.1 created.2 0)
      else some (st, -1)

/-- The end of `tfs_sym_link` (lines 184 to 189): enter the new inode in the root
directory, deleting it again when the directory refuses the entry. -/
def tfs_sym_link_add (st : tfs_state) (root_dir_inode : Option Nat) (link_name : List Char)
    (link_inum : Int) : tfs_state × Int :=
  let added := add_dir_entry st root_dir_inode link_name.tail link_inum
  if added.2 = -1 then (inode_delete added.1 link_inum, -1)
  else (added.1, 0)

/-- Creating a symbolic link, `tfs_sym_link`. -/
def tfs_sym_link (st : tfs_state) (target link_name : List Char) :
    Option (tfs_state × Int) :=
  if !valid_pathname target || !valid_pathname link_name then some (st, -1)
  else
    let root_dir_inode := inode_get st ROOT_DIR_INUM
    let target_inum := tfs_lookup st target root_dir_inode
    if target_inum < 0 then some (st, -1)
    else
      match inode_get st target_inum with
      | none => none
      | some target_inode =>
        if (inode_at st target_inode).sym_link then
          let created := inode_create st inode_type.T_FILE
          if created.2 < 0 then some (created.1, -1)
          else
            match inode_get created.1 created.2 with
            | none => none
            | some link_inode =>
              some (tfs_sym_link_add
                (inode_put created.1 link_inode
                  { inode_at created.1 link_inode with
                    i_size := (inode_at created.1 target_inode).i_size
                    i_data_block := (inode_at created.1 target_inode).i_data_block
                    sym_link := true
                    sym_path := (inode_at created.1 target_inode).sym_path })
                root_dir_inode link_name created.2)
        else
          if tfs_lookup st link_name root_dir_inode > 0 then some (st, -1)
          else
            let created := inode_create st inode_type.T_FILE
            if created.2 < 0 then some (created.1, -1)
            else
              match inode_get created.1 created.2 with
              | none => none
              | some link_inode =>
                some (tfs_sym_link_add
                  (inode_put created.1 link_inode
                    { inode_at created.1 link_inode with
                      sym_path := target
                      sym_link := true })
                  root_dir_inode link_name created.2)

/-- Creating a hard link, `tfs_link`. -/
def tfs_link (st : tfs_state) (target link_name : List Char) : Option (tfs_state × Int) :=
  if !valid_pathname target || !valid_pathname link_name then some (st, -1)
  else
    let root_dir_inode := inode_get st ROOT_DIR_INUM
    let target_inum := tfs_lookup st target root_dir_inode
    if target_inum < 0 then some (st, -1)
    else
      match inode_get st target_inum with
      | none => none
      | some target_inode =>
        if (inode_at st target_inode).sym_link = true then some (st, -1)
        else
          let link_inum := tfs_lookup st link_name root_dir_inode
          if link_inum > 0 then some (st, -1)
          else
            let st1 := inode_put st target_inode
              { inode_at st target_inode with
                hard_links := (inode_at st target_inode).hard_links + 1 }
            let added := add_dir_entry st1 root_dir_inode link_name.tail target_inum
            if added.2 = -1 then some (inode_delete added.1 link_inum, -1)
            else some (added.1, 0)

/-- Closing a handle, `tfs_close`. -/
def tfs_close (st : tfs_state) (fhandle : Int) : tfs_state × Int :=
  match get_open_file_entry st fhandle with
  | none => (st, -1)
  | some _ => (remove_from_open_file_table st fhandle, 0)

/-- The splice `memcpy(block + offset, buffer, n)` on the bytes of a block. -/
def memcpy_block (block : List Nat) (offset : Nat) (buffer : List Nat) (n : Nat) :
    List Nat :=
  block.take offset ++ buffer.take n ++ block.drop (offset + n)

/-- Store into the block a block pointer points to. -/
def block_put (st : tfs_state) (b : Nat) (v : List Nat) : tfs_state :=
  { st with fs_data := st.fs_data.set b v }

/-- Writing through a handle, `tfs_write`.  The return value is the count after
the cast of line 280, `(ssize_t)to_write`. -/
def tfs_write (st : tfs_state) (fhandle : Int) (buffer : List Nat) (to_write : Nat) :
    Option (tfs_state × Int) :=
  match get_open_file_entry st fhandle with
  | none => some (st, -1)
  | some file =>
    match inode_get st file.of_inumber with
    | none => none
    | some inode =>
      let block_size := state_block_size st
      let to_write :=
        if (to_write + file.of_offset) % SIZE_MOD > block_size then
          (block_size + SIZE_MOD - file.of_offset) % SIZE_MOD
        else to_write
      if to_write > 0 then
        let alloc := data_block_alloc st
        if (inode_at st inode).i_size = 0 ∧ alloc.2 = -1 then some (st, -1)
        else
          let st2 :=
            if (inode_at st inode).i_size = 0 then
              inode_put alloc.1 inode { inode_at alloc.1 inode with i_data_block := alloc.2 }
            else st
          match data_block_get st2 (inode_at st2 inode).i_data_block with
          | none => none
          | some block =>
            let st3 := block_put st2 block
              (memcpy_block (block_at st2 block) file.of_offset buffer to_write)
            let of_offset := (file.of_offset + to_write) % SIZE_MOD
            let st4 := file_put st3 fhandle { file with of_offset := of_offset }
            let st5 :=
              if of_offset > (inode_at st4 inode).i_size then
                inode_put st4 inode { inode_at st4 inode with i_size := of_offset }
              else st4
            some (st5, ssize_cast to_write)
      else some (st, ssize_cast to_write)

/-- Reading through a handle, `tfs_read`: the state, the return value (the count
after the cast of line 310, `(ssize_t)to_read`) and the bytes copied to the
start of the caller's buffer.  The list holds the bytes the block has from the
offset on: it is shorter than the count when the count runs past the block,
where the C call reads memory that is no part of the block. -/
def tfs_read (st : tfs_state) (fhandle : Int) (len : Nat) :
    Option (tfs_state × Int × List Nat) :=
  match get_open_file_entry st fhandle with
  | none => some (st, -1, [])
  | some file =>
    match inode_get st file.of_inumber with
    | none => none
    | some inode =>
      let to_read := ((inode_at st inode).i_size + SIZE_MOD - file.of_offset) % SIZE_MOD
      let to_read := if to_read > len then len else to_read
      if to_read > 0 then
        match data_block_get st (inode_at st inode).i_data_block with
        | none => none
        | some block =>
          let out := ((block_at st block).drop file.of_offset).take to_read
          let st1 := file_put st fhandle
            { file with of_offset := (file.of_offset + to_read) % SIZE_MOD }
          some (st1, ssize_cast to_read, out)
      else some (st, ssize_cast to_read, [])

/-- Removing a name, `tfs_unlink`. -/
def tfs_unlink (st : tfs_state) (target : List Char) : Option (tfs_state × Int) :=
  if !valid_pathname target then some (st, -1)
  else
    let root_dir_inode := inode_get st ROOT_DIR_INUM
    let target_inum := tfs_lookup st target root_dir_inode
    if target_inum < 0 then some (st, -1)
    else
      match inode_get st target_inum with
      | none => none
      | some target_inode =>
        if (inode_at st target_inode).sym_link = true then
          some (inode_delete (clear_dir_entry st root_dir_inode target.tail).1 target_inum, 0)
        else if (inode_at st target_inode).hard_links > 1 then
          let st1 := inode_put st target_inode
            { inode_at st target_inode with
              hard_links := (inode_at st target_inode).hard_links - 1 }
          let st2 := (clear_dir_entry st1 root_dir_inode target.tail).1
          let st3 :=
            if (inode_at st2 target_inode).hard_links = 0 then inode_delete st2 target_inum
            else st2
          some (st3, 0)
        else
          let cleared := clear_dir_entry st root_dir_inode target.tail
          if cleared.2 = -1 then some (cleared.1, -1)
          else some (inode_delete cleared.1 target_inum, 0)

/-! ## Sequences of calls -/

/-- One call of a public operation, with its arguments. -/
inductive tfs_call where
  | call_open (name : List Char) (mode : Nat)
  | call_close (fhandle : Int)
  | call_read (fhandle : Int) (len : Nat)
  | call_write (fhandle : Int) (buffer : List Nat) (to_write : Nat)
  | call_link (target link_name : List Char)
  | call_sym_link (target link_name : List Char)
  | call_unlink (target : List Char)
deriving DecidableEq

/-- The state and return value of one call; `none` when the call does not return. -/
def tfs_step (st : tfs_state) : tfs_call → Option (tfs_state × Int)
  | tfs_call.call_open name mode => tfs_open st name mode
  | tfs_call.call_close fhandle => some (tfs_close st fhandle)
  | tfs_call.call_read fhandle len => (tfs_read st fhandle len).map (fun r => (r.1, r.2.1))
  | tfs_call.call_write fhandle buffer to_write => tfs_write st fhandle buffer to_write
  | tfs_call.call_link target link_name => tfs_link st target link_name
  | tfs_call.call_sym_link target link_name => tfs_sym_link st target link_name
  | tfs_call.call_unlink target => tfs_unlink st target

/-- The state after a sequence of calls, whatever they return. -/
def run_calls : tfs_state → List tfs_call → Option tfs_state
  | st, [] => some st
  | st, c :: cs =>
    match tfs_step st c with
    | none => none
    | some r => run_calls r.1 cs

/-- The state after `tfs_init` with the given parameters and a sequence of calls. -/
def boot (MAX_DIR_ENTRIES : Nat) (params_ptr : Option tfs_params) (calls : List tfs_call) :
    Option tfs_state :=
  match tfs_init MAX_DIR_ENTRIES params_ptr with
  | none => none
  | some st => run_calls st calls

/-- A state is reachable when some sequence of calls leads to it from `tfs_init`. -/
def reachable (st : tfs_state) : Prop :=
  ∃ (n : Nat) (params_ptr : Option tfs_params) (calls : List tfs_call),
    boot n params_ptr calls = some st

/-- A small configuration for concrete runs: 4 inodes, 2 blocks, 2 handles and
blocks of 4 bytes. -/
def small_params : tfs_params :=
  { max_inode_count := 4
    max_block_count := 2
    max_open_files_count := 2
    block_size := 4 }

/-- The state after the calls `tfs_sym_link(prev, l0)`, `tfs_sym_link(l0, l1)`,
`tfs_sym_link(l1, l2)`, ..., when every one of them returns 0. -/
def sym_link_chain : tfs_state → List Char → List (List Char) → Option tfs_state
  | st, _, [] => some st
  | st, prev, l :: ls =>
    match tfs_sym_link st prev l with
    | none => none
    | some r => if r.2 = 0 then sym_link_chain r.1 l ls else none

/-- The state a sequence of calls leads to from `tfs_init` on `small_params` with
a directory of 3 entries (the initial tables when a call does not return). -/
def state_after (calls : List tfs_call) : tfs_state :=
  (boot 3 (some small_params) calls).getD (state_init 3 small_params)

/-! ## Well-formedness of a state -/

/-- No two live entries of the directory array carry the same name. -/
def dir_nodup : List dir_entry_t → Prop
  | [] => True
  | e :: l => (e.d_inumber ≠ -1 → dir_find l e.d_name = -1) ∧ dir_nodup l

/-- The sizes kept in an inode fit the block, and an inode with bytes has a
block of the pool. -/
def inode_ok (st : tfs_state) (i : inode_t) : Prop :=
  i.i_size ≤ st.block_size ∧ i.i_size < SIZE_MOD ∧
    (0 < i.i_size → 0 ≤ i.i_data_block ∧ i.i_data_block < (st.fs_data.length : Int))

/-- An open-file entry holds a `size_t` offset and the number of an inode of
the table. -/
def file_ok (st : tfs_state) (f : open_file_entry_t) : Prop :=
  f.of_offset < SIZE_MOD ∧ 0 ≤ f.of_inumber ∧ f.of_inumber < (st.inode_table.length : Int)

/-- A live directory entry holds the number of an inode of the table. -/
def dir_entry_ok (st : tfs_state) (e : dir_entry_t) : Prop :=
  e.d_inumber ≠ -1 → 0 ≤ e.d_inumber ∧ e.d_inumber < (st.inode_table.length : Int)

/-- The invariant of the tables: bitmaps as long as their tables, every inode
of the table `inode_ok`, a directory without duplicate names, every entry of
the open-file table `file_ok`, every directory entry `dir_entry_ok`, and a
block size that an `ssize_t` holds. -/
def state_inv (st : tfs_state) : Prop :=
  st.free_blocks.length = st.fs_data.length ∧
    st.freeinode_ts.length = st.inode_table.length ∧
    (∀ i ∈ st.inode_table, inode_ok st i) ∧
    dir_nodup st.dir_entries ∧
    (∀ f, some f ∈ st.open_file_table → file_ok st f) ∧
    (∀ e ∈ st.dir_entries, dir_entry_ok st e) ∧
    st.block_size ≤ SSIZE_MAX

/-- The name resolves to a live symbolic-link inode whose `sym_path` is `f`. -/
def points_to (st : tfs_state) (f x : List Char) : Prop :=
  ∃ q : Nat, inode_get st (tfs_lookup st x (inode_get st ROOT_DIR_INUM)) = some q ∧
    st.freeinode_ts[q]? = some allocation_state_t.TAKEN ∧
    (inode_at st q).sym_link = true ∧ (inode_at st q).sym_path = f

/-- The name `f` resolves to the live regular file at `inode`, of number `inum`,
in a state that satisfies the invariant. -/
def names_file (st : tfs_state) (f : List Char) (inum : Int) (inode : Nat) : Prop :=
  state_inv st ∧ tfs_lookup st f (inode_get st ROOT_DIR_INUM) = inum ∧
    inode_get st inum = some inode ∧ (inode_at st inode).sym_link = false ∧
    st.freeinode_ts[inode]? = some allocation_state_t.TAKEN

/-! ## Counting links, and runs under a guard -/

/-- The live entries of the directory, in the order of the array. -/
def live_dir (st : tfs_state) : List dir_entry_t :=
  st.dir_entries.filter (fun e => decide (e.d_inumber ≠ -1))

/-- Number of directory entries that hold the inumber. -/
def names_of (st : tfs_state) (inum : Int) : Nat :=
  (st.dir_entries.filter (fun e => decide (e.d_inumber = inum))).length

/-- Sum of `hard_links` over the inodes whose bitmap slot is taken. -/
def hard_links_sum (st : tfs_state) : Nat :=
  (((st.inode_table.zip st.freeinode_ts).filter
    (fun x => decide (x.2 = allocation_state_t.TAKEN))).map (fun x => x.1.hard_links)).sum

/-- The inode slot is marked used in the inode bitmap. -/
def inode_live (st : tfs_state) (p : Nat) : Prop :=
  st.freeinode_ts[p]? = some allocation_state_t.TAKEN

/-- The invariant of names and links: the root slot is taken; a live directory
entry names a live inode other than the root; a live inode has at least as many
`hard_links` as names; a live symbolic link has at most one. -/
def link_inv (st : tfs_state) : Prop :=
  inode_live st 0 ∧
    (∀ e ∈ st.dir_entries, e.d_inumber ≠ -1 →
      0 < e.d_inumber ∧ inode_live st e.d_inumber.toNat) ∧
    (∀ p : Nat, inode_live st p → names_of st (p : Int) ≤ (inode_at st p).hard_links) ∧
    (∀ p : Nat, inode_live st p → (inode_at st p).sym_link = true →
      (inode_at st p).hard_links ≤ 1)

/-- No entry of the open-file table holds the inumber. -/
def no_handle_on (st : tfs_state) (inum : Int) : Bool :=
  st.open_file_table.all (fun e =>
    match e with
    | none => true
    | some f => decide (f.of_inumber ≠ inum))

/-- The inumber `tfs_open` ends on for an existing name (lines 87 to 102): the
name's own, or what the `sym_path` of a symbolic link resolves to. -/
def open_target (st : tfs_state) (name : List Char) : Int :=
  match inode_get st (tfs_lookup st name (inode_get st ROOT_DIR_INUM)) with
  | none => -1
  | some inode =>
    if (inode_at st inode).sym_link then
      tfs_lookup st (inode_at st inode).sym_path (inode_get st ROOT_DIR_INUM)
    else tfs_lookup st name (inode_get st ROOT_DIR_INUM)

/-- The call unlinks no name whose inode an open-file entry holds. -/
def unlink_guard (st : tfs_state) : tfs_call → Bool
  | tfs_call.call_unlink target =>
    no_handle_on st (tfs_lookup st target (inode_get st ROOT_DIR_INUM))
  | _ => true

/-- The call opens with `TFS_O_TRUNC` no file that an open-file entry holds. -/
def trunc_guard (st : tfs_state) : tfs_call → Bool
  | tfs_call.call_open name mode =>
    !has_flag mode TFS_O_TRUNC || no_handle_on st (open_target st name)
  | _ => true

/-- The call opens no name that ends, after the hop of `tfs_open`, on the inode
of a symbolic link. -/
def hop_guard (st : tfs_state) : tfs_call → Bool
  | tfs_call.call_open name _ =>
    match inode_get st (open_target st name) with
    | none => true
    | some p => !(inode_at st p).sym_link
  | _ => true

/-- The state after a sequence of calls each of which passes the guard in the
state it is made in; `none` when a call does not pass or does not return. -/
def run_calls_where (ok : tfs_state → tfs_call → Bool) :
    tfs_state → List tfs_call → Option tfs_state
  | st, [] => some st
  | st, c :: cs =>
    if ok st c then
      match tfs_step st c with
      | none => none
      | some r => run_calls_where ok r.1 cs
    else none

/-- A state reachable from `tfs_init` by calls that pass the guard. -/
def reachable_where (ok : tfs_state → tfs_call → Bool) (st : tfs_state) : Prop :=
  ∃ (n : Nat) (params_ptr : Option tfs_params) (calls : List tfs_call),
    (tfs_init n params_ptr).bind (fun s => run_calls_where ok s calls) = some st

/-- The guard of the offset invariant: no name is unlinked while an open-file
entry holds its inode, and no file is opened with `TFS_O_TRUNC` while an
open-file entry holds it. -/
def offset_guard (st : tfs_state) (c : tfs_call) : Bool :=
  unlink_guard st c && trunc_guard st c

/-- The guard of the symbolic-link invariant: no name is unlinked while an
open-file entry holds its inode, and no `tfs_open` ends on the inode of a
symbolic link. -/
def symlink_guard (st : tfs_state) (c : tfs_call) : Bool :=
  unlink_guard st c && hop_guard st c

/-- The state a sequence of calls that pass the guard leads to from `tfs_init`
on `small_params` with a directory of 3 entries (the initial tables when a call
does not pass or does not return). -/
def state_after_where (ok : tfs_state → tfs_call → Bool) (calls : List tfs_call) :
    tfs_state :=
  ((tfs_init 3 (some small_params)).bind (fun s => run_calls_where ok s calls)).getD
    (state_init 3 small_params)

/-- Every open-file entry holds a live inode and an offset inside its file. -/
def offset_inv (st : tfs_state) : Prop :=
  ∀ f, some f ∈ st.open_file_table →
    inode_live st f.of_inumber.toNat ∧
      f.of_offset ≤ (inode_at st f.of_inumber.toNat).i_size

/-- Every live symbolic link is empty and holds no block, and every open-file
entry holds a live inode that is no symbolic link. -/
def symlink_inv (st : tfs_state) : Prop :=
  (∀ p : Nat, inode_live st p → (inode_at st p).sym_link = true →
    (inode_at st p).i_size = 0 ∧ (inode_at st p).i_data_block = -1) ∧
  ∀ f, some f ∈ st.open_file_table →
    inode_live st f.of_inumber.toNat ∧ (inode_at st f.of_inumber.toNat).sym_link = false

/-! ## Ownership of data blocks -/

/-- The call truncates no file that has bytes: a `tfs_open` with `TFS_O_TRUNC`
ends on an inode of size 0, where lines 104 to 109 do nothing. -/
def trunc_empty_guard (st : tfs_state) : tfs_call → Bool
  | tfs_call.call_open name mode =>
    !has_flag mode TFS_O_TRUNC ||
      (match inode_get st (open_target st name) with
        | none => true
        | some p => decide ((inode_at st p).i_size = 0))
  | _ => true

/-- The call clones no symbolic link that holds a data block: the target of a
`tfs_sym_link` is no symbolic link or has `i_data_block = -1`. -/
def clone_guard (st : tfs_state) : tfs_call → Bool
  | tfs_call.call_sym_link target _ =>
    match inode_get st (tfs_lookup st target (inode_get st ROOT_DIR_INUM)) with
    | none => true
    | some p => !(inode_at st p).sym_link || decide ((inode_at st p).i_data_block = -1)
  | _ => true

/-- The guard of block ownership: no file with bytes is truncated and no
symbolic link that holds a block is cloned. -/
def block_guard (st : tfs_state) (c : tfs_call) : Bool :=
  trunc_empty_guard st c && clone_guard st c

/-- The block a live inode refers to is marked used in the block bitmap, and two
live inodes refer to different blocks. -/
def block_inv (st : tfs_state) : Prop :=
  (∀ p : Nat, inode_live st p → (inode_at st p).i_data_block ≠ -1 →
    0 ≤ (inode_at st p).i_data_block ∧
      st.free_blocks[(inode_at st p).i_data_block.toNat]? =
        some allocation_state_t.TAKEN) ∧
  (∀ p q : Nat, inode_live st p → inode_live st q → p ≠ q →
    (inode_at st p).i_data_block ≠ -1 →
    (inode_at st p).i_data_block ≠ (inode_at st q).i_data_block)

/-! ## The rwlock calls of the operations -/

/-- One call of `pthread_rwlock_rdlock`, `pthread_rwlock_wrlock` or
`pthread_rwlock_unlock` on the `rwlock` of the inode an inode pointer points to. -/
inductive lock_event where
  | rdlock (inode : Nat)
  | wrlock (inode : Nat)
  | unlock (inode : Nat)
deriving DecidableEq

/-- The inodes whose rwlock a call holds after one more lock call; `none` when
the call unlocks an rwlock it does not hold. -/
def lock_step (held : List Nat) : lock_event → Option (List Nat)
  | lock_event.rdlock p => some (p :: held)
  | lock_event.wrlock p => some (p :: held)
  | lock_event.unlock p => if p ∈ held then some (held.erase p) else none

/-- The inodes whose rwlock a call holds after a sequence of lock calls. -/
def lock_run : List Nat → List lock_event → Option (List Nat)
  | held, [] => some held
  | held, e :: es =>
    match lock_step held e with
    | none => none
    | some h => lock_run h es

/-- The lock calls of `tfs_open`, in order: it makes none. -/
def tfs_open_locks (st : tfs_state) (name : List Char) (mode : Nat) :
    Option (List lock_event) :=
  (tfs_open st name mode).map (fun _ => [])

/-- The lock calls of `tfs_read`, in order, on the path it takes (lines 291 and
309); `none` when it does not return. -/
def tfs_read_locks (st : tfs_state) (fhandle : Int) (len : Nat) :
    Option (List lock_event) :=
  match get_open_file_entry st fhandle with
  | none => some []
  | some file =>
    match inode_get st file.of_inumber with
    | none => none
    | some inode =>
      let to_read := ((inode_at st inode).i_size + SIZE_MOD - file.of_offset) % SIZE_MOD
      let to_read := if to_read > len then len else to_read
      if to_read > 0 then
        match data_block_get st (inode_at st inode).i_data_block with
        | none => none
        | some _ => some [lock_event.rdlock inode, lock_event.unlock inode]
      else some [lock_event.rdlock inode, lock_event.unlock inode]

/-- The lock calls of `tfs_write`, in order, on the path it takes (lines 246,
260 and 279); `none` when it does not return. -/
def tfs_write_locks (st : tfs_state) (fhandle : Int) (to_write : Nat) :
    Option (List lock_event) :=
  match get_open_file_entry st fhandle with
  | none => some []
  | some file =>
    match inode_get st file.of_inumber with
    | none => none
    | some inode =>
      let block_size := state_block_size st
      let to_write :=
        if (to_write + file.of_offset) % SIZE_MOD > block_size then
          (block_size + SIZE_MOD - file.of_offset) % SIZE_MOD
        else to_write
      if to_write > 0 then
        let alloc := data_block_alloc st
        if (inode_at st inode).i_size = 0 ∧ alloc.2 = -1 then
          some [lock_event.wrlock inode, lock_event.unlock inode]
        else
          let st2 :=
            if (inode_at st inode).i_size = 0 then
              inode_put alloc.1 inode { inode_at alloc.1 inode with i_data_block := alloc.2 }
            else st
          match data_block_get st2 (inode_at st2 inode).i_data_block with
          | none => none
          | some _ => some [lock_event.wrlock inode, lock_event.unlock inode]
      else some [lock_event.wrlock inode, lock_event.unlock inode]

/-- The lock calls of `tfs_link`, in order, on the path it takes (lines 204,
207, 212, 220 and 223); `none` when it does not return. -/
def tfs_link_locks (st : tfs_state) (target link_name : List Char) :
    Option (List lock_event) :=
  if !valid_pathname target || !valid_pathname link_name then some []
  else
    let root_dir_inode := inode_get st ROOT_DIR_INUM
    let target_inum := tfs_lookup st target root_dir_inode
    if target_inum < 0 then some []
    else
      match inode_get st target_inum with
      | none => none
      | some target_inode =>
        if (inode_at st target_inode).sym_link = true then
          some [lock_event.wrlock target_inode, lock_event.unlock target_inode]
        else
          let link_inum := tfs_lookup st link_name root_dir_inode
          if link_inum > 0 then
            some [lock_event.wrlock target_inode, lock_event.unlock target_inode]
          else
            let st1 := inode_put st target_inode
              { inode_at st target_inode with
                hard_links := (inode_at st target_inode).hard_links + 1 }
            let added := add_dir_entry st1 root_dir_inode link_name.tail target_inum
            if added.2 = -1 then
              some [lock_event.wrlock target_inode, lock_event.unlock target_inode]
            else some [lock_event.wrlock target_inode, lock_event.unlock target_inode]

/-- The lock calls at the end of `tfs_sym_link` (lines 184 to 189): none when
the directory refuses the entry, the unlock of the target otherwise. -/
def tfs_sym_link_add_locks (st : tfs_state) (root_dir_inode : Option Nat)
    (link_name : List Char) (link_inum : Int) (target_inode : Nat) : List lock_event :=
  let added := add_dir_entry st root_dir_inode link_name.tail link_inum
  if added.2 = -1 then []
  else [lock_event.unlock target_inode]

/-- The lock calls of `tfs_sym_link`, in order, on the path it takes (lines 154,
179 and 188); `none` when it does not return. -/
def tfs_sym_link_locks (st : tfs_state) (target link_name : List Char) :
    Option (List lock_event) :=
  if !valid_pathname target || !valid_pathname link_name then some []
  else
    let root_dir_inode := inode_get st ROOT_DIR_INUM
    let target_inum := tfs_lookup st target root_dir_inode
    if target_inum < 0 then some []
    else
      match inode_get st target_inum with
      | none => none
      | some target_inode =>
        if (inode_at st target_inode).sym_link then
          let created := inode_create st inode_type.T_FILE
          if created.2 < 0 then some [lock_event.wrlock target_inode]
          else
            match inode_get created.1 created.2 with
            | none => none
            | some link_inode =>
              some (lock_event.wrlock target_inode ::
                tfs_sym_link_add_locks
                  (inode_put created.1 link_inode
                    { inode_at created.1 link_inode with
                      i_size := (inode_at created.1 target_inode).i_size
                      i_data_block := (inode_at created.1 target_inode).i_data_block
                      sym_link := true
                      sym_path := (inode_at created.1 target_inode).sym_path })
                  root_dir_inode link_name created.2 target_inode)
        else
          if tfs_lookup st link_name root_dir_inode > 0 then
            some [lock_event.wrlock target_inode]
          else
            let created := inode_create st inode_type.T_FILE
            if created.2 < 0 then some [lock_event.wrlock target_inode]
            else
              match inode_get created.1 created.2 with
              | none => none
              | some link_inode =>
                some (lock_event.wrlock target_inode :: lock_event.wrlock link_inode ::
                  tfs_sym_link_add_locks
                    (inode_put created.1 link_inode
                      { inode_at created.1 link_inode with
                        sym_path := target
                        sym_link := true })
                    root_dir_inode link_name created.2 target_inode)

/-- The lock calls of `tfs_unlink`, in order, on the path it takes (lines 321,
326, 340 and 345); `none` when it does not return. -/
def tfs_unlink_locks (st : tfs_state) (target : List Char) : Option (List lock_event) :=
  if !valid_pathname target then some []
  else
    let root_dir_inode := inode_get st ROOT_DIR_INUM
    let target_inum := tfs_lookup st target root_dir_inode
    if target_inum < 0 then
      match root_dir_inode with
      | none => none
      | some root => some [lock_event.unlock root]
    else
      match inode_get st target_inum with
      | none => none
      | some target_inode =>
        if (inode_at st target_inode).sym_link = true then
          some [lock_event.wrlock target_inode]
        else if (inode_at st target_inode).hard_links > 1 then
          some [lock_event.wrlock target_inode, lock_event.unlock target_inode]
        else
          let cleared := clear_dir_entry st root_dir_inode target.tail
          if cleared.2 = -1 then
            some [lock_event.wrlock target_inode, lock_event.unlock target_inode]
          else some [lock_event.wrlock target_inode]

/-- The lock calls of one call of a public operation (`tfs_close` makes none). -/
def tfs_step_locks (st : tfs_state) : tfs_call → Option (List lock_event)
  | tfs_call.call_open name mode => tfs_open_locks st name mode
  | tfs_call.call_close _ => some []
  | tfs_call.call_read fhandle len => tfs_read_locks st fhandle len
  | tfs_call.call_write fhandle _ to_write => tfs_write_locks st fhandle to_write
  | tfs_call.call_link target link_name => tfs_link_locks st target link_name
  | tfs_call.call_sym_link target link_name => tfs_sym_link_locks st target link_name
  | tfs_call.call_unlink target => tfs_unlink_locks st target

open tfs_call

/-! ## Lemmas on the tables -/

theorem first_free_lt {l : List allocation_state_t} {i : Nat} (h : first_free l = some i) :
    i < l.length := by
  induction l generalizing i with
  | nil => simp [first_free] at h
  | cons a l ih =>
    cases a with
    | FREE => simp [first_free] at h; subst h; simp
    | TAKEN =>
      simp only [first_free, Option.map_eq_some'] at h
      obtain ⟨j, hj, rfl⟩ := h
      have := ih hj
      simp; omega

theorem first_free_get {l : List allocation_state_t} {i : Nat} (h : first_free l = some i) :
    l[i]? = some allocation_state_t.FREE := by
  induction l generalizing i with
  | nil => simp [first_free] at h
  | cons a l ih =>
    cases a with
    | FREE => simp [first_free] at h; subst h; simp
    | TAKEN =>
      simp only [first_free, Option.map_eq_some'] at h
      obtain ⟨j, hj, rfl⟩ := h
      simpa using ih hj

theorem first_none_lt {l : List (Option open_file_entry_t)} {i : Nat}
    (h : first_none l = some i) : i < l.length := by
  induction l generalizing i with
  | nil => simp [first_none] at h
  | cons a l ih =>
    cases a with
    | none => simp [first_none] at h; subst h; simp
    | some v =>
      simp only [first_none, Option.map_eq_some'] at h
      obtain ⟨j, hj, rfl⟩ := h
      have := ih hj
      simp; omega

theorem first_none_eq_none {l : List (Option open_file_entry_t)} :
    first_none l = none ↔ ∀ x ∈ l, x ≠ none := by
  induction l with
  | nil => simp [first_none]
  | cons a l ih =>
    cases a with
    | none => simp [first_none]
    | some v => simp [first_none, ih]

theorem get_open_file_entry_bounds {st : tfs_state} {fhandle : Int} {file : open_file_entry_t}
    (h : get_open_file_entry st fhandle = some file) :
    0 ≤ fhandle ∧ fhandle.toNat < st.open_file_table.length ∧
      st.open_file_table[fhandle.toNat]? = some (some file) := by
  unfold get_open_file_entry at h
  split at h
  · rename_i h0
    refine ⟨h0, ?_, ?_⟩
    · by_contra hlt
      rw [List.getD_eq_default _ _ (by omega)] at h
      exact absurd h (by simp)
    · rw [List.getD_eq_getElem?_getD] at h
      cases hx : st.open_file_table[fhandle.toNat]? with
      | none => rw [hx] at h; simp at h
      | some v => rw [hx] at h; simp at h; rw [h]
  · exact absurd h (by simp)

theorem inode_get_lt {st : tfs_state} {inumber : Int} {p : Nat}
    (h : inode_get st inumber = some p) :
    0 ≤ inumber ∧ p = inumber.toNat ∧ p < st.inode_table.length := by
  unfold inode_get at h
  split at h
  · rename_i hc
    simp at h
    exact ⟨hc.1, h.symm, by omega⟩
  · exact absurd h (by simp)

theorem inode_get_cast {st : tfs_state} {p : Nat} (h : p < st.inode_table.length) :
    inode_get st (p : Int) = some p := by
  simp [inode_get, h]

theorem data_block_get_eq {st : tfs_state} {b : Int} {p : Nat}
    (h : data_block_get st b = some p) :
    0 ≤ b ∧ b < (st.fs_data.length : Int) ∧ p = b.toNat := by
  unfold data_block_get at h
  split at h
  · rename_i hc
    simp at h
    exact ⟨hc.1, hc.2, h.symm⟩
  · exact absurd h (by simp)

theorem inode_at_eq {st : tfs_state} {p : Nat} (h : p < st.inode_table.length) :
    st.inode_table[p]? = some (inode_at st p) := by
  simp [inode_at, List.getD_eq_getElem?_getD, h]

theorem inode_at_mem {st : tfs_state} {p : Nat} (h : p < st.inode_table.length) :
    inode_at st p ∈ st.inode_table :=
  List.getElem?_mem (inode_at_eq h)

theorem reachable_state_after (calls : List tfs_call)
    (h : (boot 3 (some small_params) calls).isSome = true) : reachable (state_after calls) := by
  refine ⟨3, some small_params, calls, ?_⟩
  unfold state_after
  cases hb : boot 3 (some small_params) calls with
  | none => rw [hb] at h; cases h
  | some st => rfl

/-! ## Lemmas on the directory array -/

theorem dir_find_insert {l l1 : List dir_entry_t} {n : List Char} {i : Int}
    (hins : dir_insert l ⟨n, i⟩ = some l1) (hfresh : dir_find l n = -1) (hi : i ≠ -1)
    (m : List Char) : dir_find l1 m = if m = n then i else dir_find l m := by
  induction l generalizing l1 with
  | nil => simp [dir_insert] at hins
  | cons e l ih =>
    simp only [dir_insert] at hins
    by_cases he : e.d_inumber = -1
    · simp only [he, if_true, Option.some.injEq] at hins
      subst hins
      simp only [dir_find, he, hi, ne_eq, not_true_eq_false, false_and, if_false,
        not_false_eq_true, true_and] at hfresh ⊢
      by_cases hm : m = n
      · simp [hm]
      · have : ¬ n = m := fun h => hm h.symm
        simp [hm, this]
    · simp only [he, if_false, Option.map_eq_some'] at hins
      obtain ⟨l2, hl2, rfl⟩ := hins
      simp only [dir_find, ne_eq, he, not_false_eq_true, true_and] at hfresh ⊢
      by_cases hen : e.d_name = n
      · simp [hen] at hfresh
        exact absurd hfresh he
      · simp only [hen, if_false] at hfresh
        by_cases hem : e.d_name = m
        · have : ¬ m = n := fun h => hen (hem.trans h)
          simp [hem, this]
        · simp only [hem, if_false]
          exact ih hl2 hfresh

theorem dir_insert_nodup {l l1 : List dir_entry_t} {n : List Char} {i : Int}
    (hins : dir_insert l ⟨n, i⟩ = some l1) (hfresh : dir_find l n = -1)
    (hnd : dir_nodup l) : dir_nodup l1 := by
  induction l generalizing l1 with
  | nil => simp [dir_insert] at hins
  | cons e l ih =>
    simp only [dir_insert] at hins
    by_cases he : e.d_inumber = -1
    · simp only [he, if_true, Option.some.injEq] at hins
      subst hins
      simp only [dir_find, he, ne_eq, not_true_eq_false, false_and, if_false] at hfresh
      exact ⟨fun _ => hfresh, hnd.2⟩
    · simp only [he, if_false, Option.map_eq_some'] at hins
      obtain ⟨l2, hl2, rfl⟩ := hins
      simp only [dir_find, ne_eq, he, not_false_eq_true, true_and] at hfresh
      by_cases hen : e.d_name = n
      · simp [hen] at hfresh
        exact absurd hfresh he
      · simp only [hen, if_false] at hfresh
        refine ⟨fun _ => ?_, ih hl2 hfresh hnd.2⟩
        by_cases hi : i = -1
        · -- the stored entry is itself free: lookups are unchanged
          have key : ∀ (k : List dir_entry_t) (k1 : List dir_entry_t),
              dir_insert k ⟨n, i⟩ = some k1 → ∀ m, dir_find k1 m = dir_find k m := by
            intro k
            induction k with
            | nil => intro k1 h; simp [dir_insert] at h
            | cons a k ihk =>
              intro k1 h m
              simp only [dir_insert] at h
              by_cases ha : a.d_inumber = -1
              · simp only [ha, if_true, Option.some.injEq] at h
                subst h
                simp [dir_find, ha, hi]
              · simp only [ha, if_false, Option.map_eq_some'] at h
                obtain ⟨k2, hk2, rfl⟩ := h
                simp only [dir_find, ihk k2 hk2]
          rw [key l l2 hl2]
          exact hnd.1 he
        · rw [dir_find_insert hl2 hfresh hi]
          simp [hen, hnd.1 he]

theorem dir_clear_isSome {l : List dir_entry_t} {n : List Char} (h : dir_find l n ≠ -1) :
    ∃ l1, dir_clear l n = some l1 := by
  induction l with
  | nil => simp [dir_find] at h
  | cons e l ih =>
    simp only [dir_find] at h
    simp only [dir_clear]
    by_cases hc : e.d_inumber ≠ -1 ∧ e.d_name = n
    · simp [hc]
    · simp only [hc, if_false] at h ⊢
      obtain ⟨l1, hl1⟩ := ih h
      exact ⟨e :: l1, by simp [hl1]⟩

theorem dir_clear_none {l : List dir_entry_t} {n : List Char} (h : dir_find l n = -1) :
    dir_clear l n = none := by
  induction l with
  | nil => simp [dir_clear]
  | cons e l ih =>
    simp only [dir_find] at h
    simp only [dir_clear]
    by_cases hc : e.d_inumber ≠ -1 ∧ e.d_name = n
    · rw [if_pos hc] at h
      exact absurd h hc.1
    · simp only [hc, if_false] at h ⊢
      simp [ih h]

theorem dir_find_clear {l l1 : List dir_entry_t} {n : List Char}
    (hclr : dir_clear l n = some l1) (hnd : dir_nodup l) (m : List Char) :
    dir_find l1 m = if m = n then -1 else dir_find l m := by
  induction l generalizing l1 with
  | nil => simp [dir_clear] at hclr
  | cons e l ih =>
    simp only [dir_clear] at hclr
    by_cases hc : e.d_inumber ≠ -1 ∧ e.d_name = n
    · rw [if_pos hc, Option.some.injEq] at hclr
      subst hclr
      simp only [dir_find, ne_eq, not_true_eq_false, false_and, if_false]
      by_cases hm : m = n
      · subst hm
        simp only [if_true]
        have := hnd.1 hc.1
        rwa [hc.2] at this
      · have : ¬ e.d_name = m := fun h => hm (h.symm.trans hc.2)
        simp [hm, this]
    · simp only [hc, if_false, Option.map_eq_some'] at hclr
      obtain ⟨l2, hl2, rfl⟩ := hclr
      simp only [dir_find]
      by_cases hem : e.d_inumber ≠ -1 ∧ e.d_name = m
      · have : ¬ m = n := fun h => hc ⟨hem.1, hem.2.trans h⟩
        simp [hem, this]
      · simp only [hem, if_false]
        exact ih hl2 hnd.2

theorem dir_clear_nodup {l l1 : List dir_entry_t} {n : List Char}
    (hclr : dir_clear l n = some l1) (hnd : dir_nodup l) : dir_nodup l1 := by
  induction l generalizing l1 with
  | nil => simp [dir_clear] at hclr
  | cons e l ih =>
    simp only [dir_clear] at hclr
    by_cases hc : e.d_inumber ≠ -1 ∧ e.d_name = n
    · rw [if_pos hc, Option.some.injEq] at hclr
      subst hclr
      exact ⟨fun h => absurd rfl h, hnd.2⟩
    · simp only [hc, if_false, Option.map_eq_some'] at hclr
      obtain ⟨l2, hl2, rfl⟩ := hclr
      refine ⟨fun he => ?_, ih hl2 hnd.2⟩
      rw [dir_find_clear hl2 hnd.2]
      split
      · rfl
      · exact hnd.1 he

/-! ## Preservation of the invariant -/

theorem state_inv_frame {st st1 : tfs_state} (hinv : state_inv st)
    (hbs : st1.block_size = st.block_size)
    (hfd : st1.fs_data.length = st.fs_data.length)
    (hfb : st1.free_blocks.length = st.free_blocks.length)
    (hfi : st1.freeinode_ts.length = st.freeinode_ts.length)
    (hit : st1.inode_table.length = st.inode_table.length)
    (hino : ∀ i ∈ st1.inode_table, i ∈ st.inode_table ∨ inode_ok st i)
    (hdir : dir_nodup st1.dir_entries)
    (hoft : ∀ f, some f ∈ st1.open_file_table →
      some f ∈ st.open_file_table ∨ file_ok st f)
    (hde : ∀ e ∈ st1.dir_entries, e ∈ st.dir_entries ∨ dir_entry_ok st e) :
    state_inv st1 := by
  obtain ⟨h1, h2, h3, _, h5, h6, h7⟩ := hinv
  refine ⟨by omega, by omega, ?_, hdir, ?_, ?_, by rw [hbs]; exact h7⟩
  · intro i hi
    have : inode_ok st i := by
      rcases hino i hi with h | h
      · exact h3 i h
      · exact h
    simpa [inode_ok, hbs, hfd] using this
  · intro f hf
    have : file_ok st f := by
      rcases hoft f hf with h | h
      · exact h5 f h
      · exact h
    simpa [file_ok, hit] using this
  · intro e he
    have : dir_entry_ok st e := by
      rcases hde e he with h | h
      · exact h6 e h
      · exact h
    simpa [dir_entry_ok, hit] using this

theorem inode_ok_at {st : tfs_state} (hinv : state_inv st) (p : Nat) :
    inode_ok st (inode_at st p) := by
  by_cases h : p < st.inode_table.length
  · exact hinv.2.2.1 _ (inode_at_mem h)
  · have : inode_at st p = default := by
      simp [inode_at, List.getD_eq_getElem?_getD, List.getElem?_eq_none (by omega : st.inode_table.length ≤ p)]
    rw [this]
    simp [inode_ok, default, SIZE_MOD]

theorem inv_data_block_alloc {st : tfs_state} (hinv : state_inv st) :
    state_inv (data_block_alloc st).1 := by
  unfold data_block_alloc
  split
  · exact hinv
  · exact state_inv_frame hinv rfl rfl (by simp) rfl rfl (fun i hi => Or.inl hi) hinv.2.2.2.1
      (fun f hf => Or.inl hf) (fun e he => Or.inl he)

theorem inv_data_block_free {st : tfs_state} (hinv : state_inv st) (b : Int) :
    state_inv (data_block_free st b) := by
  unfold data_block_free
  split
  · exact state_inv_frame hinv rfl rfl (by simp) rfl rfl (fun i hi => Or.inl hi) hinv.2.2.2.1
      (fun f hf => Or.inl hf) (fun e he => Or.inl he)
  · exact hinv

theorem inv_inode_put {st : tfs_state} (hinv : state_inv st) (p : Nat) {v : inode_t}
    (hv : inode_ok st v) : state_inv (inode_put st p v) := by
  refine state_inv_frame hinv rfl rfl rfl rfl (by simp [inode_put]) ?_ hinv.2.2.2.1
    (fun f hf => Or.inl hf) (fun e he => Or.inl he)
  intro i hi
  rcases List.mem_or_eq_of_mem_set hi with h | h
  · exact Or.inl h
  · exact Or.inr (h ▸ hv)

theorem inv_inode_create_file {st : tfs_state} (hinv : state_inv st) :
    state_inv (inode_create st inode_type.T_FILE).1 := by
  unfold inode_create
  split
  · exact hinv
  · refine state_inv_frame hinv rfl rfl rfl (by simp) (by simp) ?_ hinv.2.2.2.1
      (fun f hf => Or.inl hf) (fun e he => Or.inl he)
    intro i hi
    rcases List.mem_or_eq_of_mem_set hi with h | h
    · exact Or.inl h
    · exact Or.inr (by rw [h]; simp [inode_ok, SIZE_MOD])

theorem inv_inode_delete {st : tfs_state} (hinv : state_inv st) (inumber : Int) :
    state_inv (inode_delete st inumber) := by
  unfold inode_delete
  split
  · exact hinv
  · split
    · exact state_inv_frame (inv_data_block_free hinv _) rfl rfl rfl (by simp) rfl
        (fun i hi => Or.inl hi) (inv_data_block_free hinv _).2.2.2.1 (fun f hf => Or.inl hf) (fun e he => Or.inl he)
    · exact state_inv_frame hinv rfl rfl rfl (by simp) rfl
        (fun i hi => Or.inl hi) hinv.2.2.2.1 (fun f hf => Or.inl hf) (fun e he => Or.inl he)

theorem dir_insert_mem {l l1 : List dir_entry_t} {x : dir_entry_t}
    (h : dir_insert l x = some l1) : ∀ e ∈ l1, e ∈ l ∨ e = x := by
  induction l generalizing l1 with
  | nil => simp [dir_insert] at h
  | cons a l ih =>
    simp only [dir_insert] at h
    split at h
    · simp only [Option.some.injEq] at h
      subst h
      intro e he
      rcases List.mem_cons.mp he with h | h
      · exact Or.inr h
      · exact Or.inl (List.mem_cons_of_mem _ h)
    · simp only [Option.map_eq_some'] at h
      obtain ⟨l2, hl2, rfl⟩ := h
      intro e he
      rcases List.mem_cons.mp he with h | h
      · exact Or.inl (h ▸ List.mem_cons_self _ _)
      · rcases ih hl2 e h with h | h
        · exact Or.inl (List.mem_cons_of_mem _ h)
        · exact Or.inr h

theorem dir_clear_mem {l l1 : List dir_entry_t} {n : List Char}
    (h : dir_clear l n = some l1) : ∀ e ∈ l1, e ∈ l ∨ e.d_inumber = -1 := by
  induction l generalizing l1 with
  | nil => simp [dir_clear] at h
  | cons a l ih =>
    simp only [dir_clear] at h
    split at h
    · simp only [Option.some.injEq] at h
      subst h
      intro e he
      rcases List.mem_cons.mp he with h | h
      · exact Or.inr (by rw [h])
      · exact Or.inl (List.mem_cons_of_mem _ h)
    · simp only [Option.map_eq_some'] at h
      obtain ⟨l2, hl2, rfl⟩ := h
      intro e he
      rcases List.mem_cons.mp he with h | h
      · exact Or.inl (h ▸ List.mem_cons_self _ _)
      · rcases ih hl2 e h with h | h
        · exact Or.inl (List.mem_cons_of_mem _ h)
        · exact Or.inr h

theorem inv_add_dir_entry {st : tfs_state} (hinv : state_inv st) (r : Option Nat)
    (n : List Char) {i : Int} (hi : dir_entry_ok st ⟨n, i⟩) :
    state_inv (add_dir_entry st r n i).1 := by
  unfold add_dir_entry
  split
  · exact hinv
  · rename_i hf
    split
    · exact hinv
    · rename_i d hd
      refine state_inv_frame hinv rfl rfl rfl rfl rfl (fun i hi => Or.inl hi)
        (dir_insert_nodup hd (by simpa using hf) hinv.2.2.2.1) (fun f hf => Or.inl hf) ?_
      intro e he
      rcases dir_insert_mem hd e he with h | h
      · exact Or.inl h
      · exact Or.inr (h ▸ hi)

theorem inv_clear_dir_entry {st : tfs_state} (hinv : state_inv st) (r : Option Nat)
    (n : List Char) : state_inv (clear_dir_entry st r n).1 := by
  unfold clear_dir_entry
  split
  · exact hinv
  · rename_i d hd
    refine state_inv_frame hinv rfl rfl rfl rfl rfl (fun i hi => Or.inl hi)
      (dir_clear_nodup hd hinv.2.2.2.1) (fun f hf => Or.inl hf) ?_
    intro e he
    rcases dir_clear_mem hd e he with h | h
    · exact Or.inl h
    · exact Or.inr (fun hne => absurd h hne)

theorem inv_add_to_open_file_table {st : tfs_state} (hinv : state_inv st) {inum : Int}
    {offset : Nat} (ho : file_ok st ⟨inum, offset⟩) :
    state_inv (add_to_open_file_table st inum offset).1 := by
  unfold add_to_open_file_table
  split
  · exact hinv
  · refine state_inv_frame hinv rfl rfl rfl rfl rfl (fun i hi => Or.inl hi) hinv.2.2.2.1 ?_
      (fun e he => Or.inl he)
    intro f hf
    rcases List.mem_or_eq_of_mem_set hf with h | h
    · exact Or.inl h
    · simp at h; subst h; exact Or.inr ho

theorem inv_remove_from_open_file_table {st : tfs_state} (hinv : state_inv st) (h : Int) :
    state_inv (remove_from_open_file_table st h) := by
  unfold remove_from_open_file_table
  split
  · refine state_inv_frame hinv rfl rfl rfl rfl rfl (fun i hi => Or.inl hi) hinv.2.2.2.1 ?_
      (fun e he => Or.inl he)
    intro f hf
    rcases List.mem_or_eq_of_mem_set hf with h | h
    · exact Or.inl h
    · simp at h
  · exact hinv

theorem inv_file_put {st : tfs_state} (hinv : state_inv st) (h : Int)
    {v : open_file_entry_t} (hv : file_ok st v) : state_inv (file_put st h v) := by
  refine state_inv_frame hinv rfl rfl rfl rfl rfl (fun i hi => Or.inl hi) hinv.2.2.2.1 ?_
    (fun e he => Or.inl he)
  intro f hf
  rcases List.mem_or_eq_of_mem_set hf with h | h
  · exact Or.inl h
  · simp at h; subst h; exact Or.inr hv

theorem inv_block_put {st : tfs_state} (hinv : state_inv st) (b : Nat) (v : List Nat) :
    state_inv (block_put st b v) :=
  state_inv_frame hinv rfl (by simp [block_put]) rfl rfl rfl (fun i hi => Or.inl hi)
    hinv.2.2.2.1 (fun f hf => Or.inl hf) (fun e he => Or.inl he)


theorem inode_ok_size_zero (st : tfs_state) (v : inode_t) (h : v.i_size = 0) :
    inode_ok st v := by
  simp [inode_ok, h, SIZE_MOD]

theorem inode_ok_congr {st st1 : tfs_state} {v : inode_t} (h : inode_ok st v)
    (hbs : st1.block_size = st.block_size) (hfd : st1.fs_data.length = st.fs_data.length) :
    inode_ok st1 v := by
  simpa [inode_ok, hbs, hfd] using h

theorem inode_create_file_range (st : tfs_state) :
    (inode_create st inode_type.T_FILE).2 = -1 ∨
      (0 ≤ (inode_create st inode_type.T_FILE).2 ∧
        (inode_create st inode_type.T_FILE).2 < (st.freeinode_ts.length : Int)) := by
  unfold inode_create
  split
  · exact Or.inl rfl
  · rename_i i hi
    have := first_free_lt hi
    exact Or.inr ⟨by simp, by simp; omega⟩

theorem inode_create_length (st : tfs_state) (t : inode_type) :
    (inode_create st t).1.inode_table.length = st.inode_table.length := by
  unfold inode_create
  split
  · rfl
  · cases t with
    | T_FILE => simp
    | T_DIRECTORY =>
      simp only []
      split
      · rfl
      · unfold data_block_alloc; split <;> simp

theorem add_dir_entry_length (st : tfs_state) (r : Option Nat) (n : List Char) (i : Int) :
    (add_dir_entry st r n i).1.inode_table.length = st.inode_table.length := by
  unfold add_dir_entry
  split
  · rfl
  · split <;> rfl

theorem inv_tfs_open_found {st : tfs_state} (hinv : state_inv st) {inum : Int} {inode : Nat}
    (hget : inode_get st inum = some inode) (mode : Nat) :
    state_inv (tfs_open_found st inum inode mode).1 := by
  unfold tfs_open_found
  obtain ⟨hv0, _, hvlt⟩ := inode_get_lt hget
  have hvlt2 : inum < (st.inode_table.length : Int) := by omega
  have key : ∀ st1 : tfs_state, state_inv st1 →
      st1.inode_table.length = st.inode_table.length →
      state_inv (add_to_open_file_table st1 inum
        (if has_flag mode TFS_O_APPEND = true then (inode_at st1 inode).i_size else 0)).1 := by
    intro st1 h1 hl
    apply inv_add_to_open_file_table h1
    refine ⟨?_, hv0, by rw [hl]; exact hvlt2⟩
    split
    · exact (inode_ok_at h1 inode).2.1
    · simp [SIZE_MOD]
  apply key
  · split
    · split
      · exact inv_inode_put (inv_data_block_free hinv _) _ (inode_ok_size_zero _ _ rfl)
      · exact hinv
    · exact hinv
  · split
    · split
      · unfold data_block_free; split <;> simp [inode_put]
      · rfl
    · rfl

theorem inode_create_entry_ok {st : tfs_state} (hinv : state_inv st) (n : List Char) :
    dir_entry_ok (inode_create st inode_type.T_FILE).1
      ⟨n, (inode_create st inode_type.T_FILE).2⟩ := by
  intro hne
  have hcl := inode_create_length st inode_type.T_FILE
  have hb := hinv.2.1
  rcases inode_create_file_range st with h | h
  · exact absurd h hne
  · refine ⟨h.1, ?_⟩
    show (inode_create st inode_type.T_FILE).2 < _
    rw [hcl]; omega

theorem dir_entry_ok_of_get {st st1 : tfs_state} {i : Int} {p : Nat}
    (h : inode_get st i = some p) (hl : st1.inode_table.length = st.inode_table.length)
    (n : List Char) : dir_entry_ok st1 ⟨n, i⟩ := by
  intro _
  obtain ⟨h0, _, hlt⟩ := inode_get_lt h
  refine ⟨h0, ?_⟩
  show i < _
  rw [hl]; omega

theorem inv_tfs_open {st : tfs_state} {name : List Char} {mode : Nat} {res : tfs_state × Int}
    (hinv : state_inv st) (h : tfs_open st name mode = some res) :
    state_inv res.1 := by
  unfold tfs_open at h
  simp only [] at h
  have hcr := inode_create_file_range st
  have hcl := inode_create_length st inode_type.T_FILE
  have hal := add_dir_entry_length (inode_create st inode_type.T_FILE).1
  have hb := hinv.2.1
  have hA : ∀ r, state_inv (add_dir_entry (inode_create st inode_type.T_FILE).1 r name.tail
      (inode_create st inode_type.T_FILE).2).1 :=
    fun r => inv_add_dir_entry (inv_inode_create_file hinv) r name.tail
      (inode_create_entry_ok hinv name.tail)
  repeat' split at h
  all_goals cases h
  all_goals first
    | exact hinv
    | exact inv_tfs_open_found hinv (by assumption) _
    | exact inv_inode_create_file hinv
    | exact inv_inode_delete (hA _) _
    | (apply inv_add_to_open_file_table (hA _)
       rename_i hne _
       refine ⟨by simp [SIZE_MOD], ?_, ?_⟩
       · rcases hcr with h | h
         · exact absurd h hne
         · exact h.1
       · rcases hcr with h | h
         · exact absurd h hne
         · simp only []
           rw [hal, hcl]; omega)

theorem inv_tfs_close {st : tfs_state} (hinv : state_inv st) (fhandle : Int) :
    state_inv (tfs_close st fhandle).1 := by
  unfold tfs_close
  split
  · exact hinv
  · exact inv_remove_from_open_file_table hinv _

theorem get_open_file_entry_mem {st : tfs_state} {fhandle : Int} {file : open_file_entry_t}
    (h : get_open_file_entry st fhandle = some file) : some file ∈ st.open_file_table :=
  List.getElem?_mem (get_open_file_entry_bounds h).2.2

theorem inv_tfs_read {st : tfs_state} {fhandle : Int} {len : Nat}
    {res : tfs_state × Int × List Nat}
    (hinv : state_inv st) (h : tfs_read st fhandle len = some res) : state_inv res.1 := by
  unfold tfs_read at h
  split at h
  · cases h; exact hinv
  · rename_i file hfile
    have hf := hinv.2.2.2.2.1 _ (get_open_file_entry_mem hfile)
    simp only [] at h
    repeat' split at h
    all_goals cases h
    all_goals first
      | exact hinv
      | exact inv_file_put hinv _ ⟨Nat.mod_lt _ (by simp [SIZE_MOD]), hf.2⟩

theorem inode_ok_hard_links {st : tfs_state} {v : inode_t} (h : inode_ok st v) (n : Nat) :
    inode_ok st { v with hard_links := n } := h

theorem inv_tfs_sym_link_add {st : tfs_state} (hinv : state_inv st) (root : Option Nat)
    (link_name : List Char) {link_inum : Int}
    (hi : dir_entry_ok st ⟨link_name.tail, link_inum⟩) :
    state_inv (tfs_sym_link_add st root link_name link_inum).1 := by
  unfold tfs_sym_link_add
  simp only []
  split
  · exact inv_inode_delete (inv_add_dir_entry hinv _ _ hi) _
  · exact inv_add_dir_entry hinv _ _ hi

theorem inv_tfs_sym_link {st : tfs_state} {target link_name : List Char}
    {res : tfs_state × Int}
    (hinv : state_inv st) (h : tfs_sym_link st target link_name = some res) :
    state_inv res.1 := by
  unfold tfs_sym_link at h
  simp only [] at h
  have hc := inv_inode_create_file hinv
  have hok := inode_create_entry_ok hinv link_name.tail
  have hput : ∀ (q : Nat) (v : inode_t),
      inode_ok (inode_create st inode_type.T_FILE).1 v →
      state_inv (tfs_sym_link_add (inode_put (inode_create st inode_type.T_FILE).1 q v)
        (inode_get st ROOT_DIR_INUM) link_name (inode_create st inode_type.T_FILE).2).1 := by
    intro q v hv
    apply inv_tfs_sym_link_add (inv_inode_put hc q hv)
    simpa [dir_entry_ok, inode_put] using hok
  repeat' split at h
  all_goals cases h
  all_goals first
    | exact hinv
    | exact hc
    | (apply hput
       exact inode_ok_at hc _)

theorem inv_tfs_link {st : tfs_state} {target link_name : List Char} {res : tfs_state × Int}
    (hinv : state_inv st) (h : tfs_link st target link_name = some res) :
    state_inv res.1 := by
  unfold tfs_link at h
  simp only [] at h
  have h1 : ∀ p n, state_inv (inode_put st p { inode_at st p with hard_links := n }) :=
    fun p n => inv_inode_put hinv _ (inode_ok_hard_links (inode_ok_at hinv _) _)
  have hA : ∀ (p q : Nat) (n : Nat),
      inode_get st (tfs_lookup st target (inode_get st ROOT_DIR_INUM)) = some q →
      state_inv (add_dir_entry (inode_put st p { inode_at st p with hard_links := n })
        (inode_get st ROOT_DIR_INUM) link_name.tail
        (tfs_lookup st target (inode_get st ROOT_DIR_INUM))).1 :=
    fun p q n hq => inv_add_dir_entry (h1 p n) _ _
      (dir_entry_ok_of_get hq (by simp [inode_put]) _)
  repeat' split at h
  all_goals cases h
  all_goals first
    | exact hinv
    | exact inv_inode_delete (hA _ _ _ (by assumption)) _
    | exact hA _ _ _ (by assumption)

theorem inv_tfs_unlink {st : tfs_state} {target : List Char} {res : tfs_state × Int}
    (hinv : state_inv st) (h : tfs_unlink st target = some res) :
    state_inv res.1 := by
  unfold tfs_unlink at h
  simp only [] at h
  have h1 : ∀ p n, state_inv (inode_put st p { inode_at st p with hard_links := n }) :=
    fun p n => inv_inode_put hinv _ (inode_ok_hard_links (inode_ok_at hinv _) _)
  repeat' split at h
  all_goals cases h
  all_goals first
    | exact hinv
    | with_reducible exact inv_inode_delete (inv_clear_dir_entry (h1 _ _) _ _) _
    | with_reducible exact inv_clear_dir_entry (h1 _ _) _ _
    | with_reducible exact inv_inode_delete (inv_clear_dir_entry hinv _ _) _
    | with_reducible exact inv_clear_dir_entry hinv _ _

theorem write_offset_le (bs off len : Nat) (hoff : off < SIZE_MOD) :
    (off + (if (len + off) % SIZE_MOD > bs then (bs + SIZE_MOD - off) % SIZE_MOD else len))
      % SIZE_MOD ≤ bs := by
  unfold SIZE_MOD at *
  split <;> omega

theorem inv_tfs_write {st : tfs_state} {fhandle : Int} {buffer : List Nat} {len : Nat}
    {res : tfs_state × Int}
    (hinv : state_inv st) (h : tfs_write st fhandle buffer len = some res) :
    state_inv res.1 := by
  unfold tfs_write at h
  split at h
  · cases h; exact hinv
  · rename_i file hfile
    have hfok := hinv.2.2.2.2.1 _ (get_open_file_entry_mem hfile)
    have hoffM : file.of_offset < SIZE_MOD := hfok.1
    split at h
    · cases h
    · rename_i inode hinode
      simp only [] at h
      have hle := write_offset_le (state_block_size st) file.of_offset len hoffM
      generalize (if (len + file.of_offset) % SIZE_MOD > state_block_size st then
          (state_block_size st + SIZE_MOD - file.of_offset) % SIZE_MOD else len) = tw at h hle
      by_cases hpos : tw > 0
      · rw [if_pos hpos] at h
        by_cases hfail : (inode_at st inode).i_size = 0 ∧ (data_block_alloc st).2 = -1
        · rw [if_pos hfail] at h
          cases h; exact hinv
        · rw [if_neg hfail] at h
          have h2 : state_inv (if (inode_at st inode).i_size = 0 then
              inode_put (data_block_alloc st).1 inode
                { inode_at (data_block_alloc st).1 inode with
                  i_data_block := (data_block_alloc st).2 } else st) := by
            split
            · rename_i hz
              apply inv_inode_put (inv_data_block_alloc hinv)
              have hsame : inode_at (data_block_alloc st).1 inode = inode_at st inode := by
                unfold data_block_alloc; split <;> rfl
              exact inode_ok_size_zero _ _ (by rw [hsame]; exact hz)
            · exact hinv
          have hbs2 : (if (inode_at st inode).i_size = 0 then
              inode_put (data_block_alloc st).1 inode
                { inode_at (data_block_alloc st).1 inode with
                  i_data_block := (data_block_alloc st).2 } else st).block_size = st.block_size := by
            split
            · unfold data_block_alloc; split <;> rfl
            · rfl
          have hlen2 : (if (inode_at st inode).i_size = 0 then
              inode_put (data_block_alloc st).1 inode
                { inode_at (data_block_alloc st).1 inode with
                  i_data_block := (data_block_alloc st).2 } else st).inode_table.length =
              st.inode_table.length := by
            split
            · unfold data_block_alloc; split <;> simp [inode_put]
            · rfl
          generalize (if (inode_at st inode).i_size = 0 then
              inode_put (data_block_alloc st).1 inode
                { inode_at (data_block_alloc st).1 inode with
                  i_data_block := (data_block_alloc st).2 } else st) = st2 at h h2 hbs2 hlen2
          cases hblock : data_block_get st2 (inode_at st2 inode).i_data_block with
          | none => rw [hblock] at h; cases h
          | some block =>
            rw [hblock] at h
            obtain ⟨hb0, hblt, _⟩ := data_block_get_eq hblock
            cases h
            simp only []
            have h4 := @inv_file_put _ (inv_block_put h2 block
              (memcpy_block (block_at st2 block) file.of_offset buffer tw))
              fhandle { file with of_offset := (file.of_offset + tw) % SIZE_MOD }
              ⟨Nat.mod_lt _ (by simp [SIZE_MOD]), hfok.2.1,
                by simp only [block_put]; rw [hlen2]; exact hfok.2.2⟩
            split
            · apply inv_inode_put h4
              refine ⟨?_, Nat.mod_lt _ (by simp [SIZE_MOD]), fun _ => ⟨?_, ?_⟩⟩
              · simpa [file_put, block_put, hbs2, state_block_size] using hle
              · simpa [inode_at, file_put, block_put] using hb0
              · simpa [inode_at, file_put, block_put] using hblt
            · exact h4
      · rw [if_neg hpos] at h
        cases h; exact hinv

theorem inv_tfs_step {st : tfs_state} {c : tfs_call} {res : tfs_state × Int}
    (hinv : state_inv st) (h : tfs_step st c = some res) : state_inv res.1 := by
  cases c with
  | call_open name mode => exact inv_tfs_open hinv h
  | call_close fhandle =>
    simp only [tfs_step, Option.some.injEq] at h
    subst h
    exact inv_tfs_close hinv _
  | call_read fhandle len =>
    simp only [tfs_step, Option.map_eq_some'] at h
    obtain ⟨r, hr, rfl⟩ := h
    exact inv_tfs_read hinv hr
  | call_write fhandle buffer to_write => exact inv_tfs_write hinv h
  | call_link target link_name => exact inv_tfs_link hinv h
  | call_sym_link target link_name => exact inv_tfs_sym_link hinv h
  | call_unlink target => exact inv_tfs_unlink hinv h

theorem inv_run_calls {st st1 : tfs_state} {calls : List tfs_call}
    (hinv : state_inv st) (h : run_calls st calls = some st1) : state_inv st1 := by
  induction calls generalizing st with
  | nil => simp [run_calls] at h; subst h; exact hinv
  | cons c cs ih =>
    simp only [run_calls] at h
    cases hs : tfs_step st c with
    | none => rw [hs] at h; cases h
    | some r =>
      rw [hs] at h
      exact ih (inv_tfs_step hinv hs) h

theorem dir_nodup_free (l : List dir_entry_t) (h : ∀ e ∈ l, e.d_inumber = -1) :
    dir_nodup l := by
  induction l with
  | nil => trivial
  | cons e l ih =>
    exact ⟨fun he => absurd (h e (List.mem_cons_self _ _)) he,
      ih (fun x hx => h x (List.mem_cons_of_mem _ hx))⟩

theorem inv_state_init (n : Nat) (params : tfs_params)
    (hbs : params.block_size ≤ SSIZE_MAX) : state_inv (state_init n params) :=
  ⟨by simp [state_init], by simp [state_init],
    by intro i hi; simp [state_init] at hi; rw [hi.2]; simp [inode_ok, default, SIZE_MOD],
    dir_nodup_free _ (by simp [state_init]), by simp [state_init],
    by intro e he; simp [state_init] at he; rw [he.2]; simp [dir_entry_ok], hbs⟩

/-- The cast `(ssize_t)` is the identity on the counts an `ssize_t` holds. -/
theorem ssize_cast_eq {n : Nat} (h : n ≤ SSIZE_MAX) : ssize_cast n = (n : Int) := by
  have hlt : n < SIZE_MOD := by
    simp only [SSIZE_MAX, SIZE_MOD] at h ⊢
    omega
  unfold ssize_cast
  rw [Nat.mod_eq_of_lt hlt, if_pos h]

theorem ssize_cast_zero : ssize_cast 0 = 0 := by decide

/-- A `tfs_init` that returns has found room for a block of `block_size` bytes. -/
theorem tfs_init_block_size {n : Nat} {params : tfs_params}
    (hs : state_init_status params = 0)
    (hroot : (inode_create (state_init n params) inode_type.T_DIRECTORY).2 = ROOT_DIR_INUM) :
    params.block_size ≤ SSIZE_MAX := by
  have hprod : params.max_block_count * params.block_size ≤ SSIZE_MAX := by
    unfold state_init_status at hs
    by_contra hn
    rw [if_neg hn] at hs
    cases hs
  have hcount : 0 < params.max_block_count := by
    unfold inode_create at hroot
    cases hq : first_free (state_init n params).freeinode_ts with
    | none => rw [hq] at hroot; simp [ROOT_DIR_INUM] at hroot
    | some q =>
      rw [hq] at hroot
      simp only [] at hroot
      by_cases ha : (data_block_alloc (state_init n params)).2 = -1
      · rw [if_pos ha] at hroot
        simp [ROOT_DIR_INUM] at hroot
      · unfold data_block_alloc at ha
        cases hb : first_free (state_init n params).free_blocks with
        | none => rw [hb] at ha; exact absurd rfl ha
        | some b =>
          have := first_free_lt hb
          simpa [state_init] using Nat.lt_of_le_of_lt (Nat.zero_le b) this
  calc params.block_size = 1 * params.block_size := (Nat.one_mul _).symm
    _ ≤ params.max_block_count * params.block_size := Nat.mul_le_mul_right _ hcount
    _ ≤ SSIZE_MAX := hprod

theorem inv_inode_create_dir {st : tfs_state} (hinv : state_inv st) :
    state_inv (inode_create st inode_type.T_DIRECTORY).1 := by
  unfold inode_create
  split
  · exact hinv
  · simp only []
    split
    · exact hinv
    · have ha := inv_data_block_alloc hinv
      refine state_inv_frame ha rfl rfl rfl (by simp) (by simp) ?_
        (dir_nodup_free _ (by simp)) (fun f hf => Or.inl hf) ?_
      · intro i hi
        rcases List.mem_or_eq_of_mem_set hi with h | h
        · exact Or.inl h
        · exact Or.inr (by rw [h]; simp [inode_ok, SIZE_MOD])
      · intro e he
        simp only [List.mem_map] at he
        obtain ⟨a, _, rfl⟩ := he
        exact Or.inr (fun hne => absurd rfl hne)

theorem inv_tfs_init {n : Nat} {params_ptr : Option tfs_params} {st : tfs_state}
    (h : tfs_init n params_ptr = some st) : state_inv st := by
  unfold tfs_init at h
  simp only [] at h
  split at h
  · cases h
  · rename_i hs
    split at h
    · cases h
    · rename_i hroot
      cases h
      simp only [ne_eq, Decidable.not_not] at hs hroot
      exact inv_inode_create_dir (inv_state_init _ _ (tfs_init_block_size hs hroot))

theorem reachable_inv {st : tfs_state} (h : reachable st) : state_inv st := by
  obtain ⟨n, params_ptr, calls, hb⟩ := h
  unfold boot at hb
  split at hb
  · cases hb
  · rename_i s0 h0
    exact inv_run_calls (inv_tfs_init h0) hb

/-! ## What a read and a write do -/

theorem get_open_file_entry_file_put {st : tfs_state} {fhandle : Int}
    {file v : open_file_entry_t} (h : get_open_file_entry st fhandle = some file) :
    get_open_file_entry (file_put st fhandle v) fhandle = some v := by
  obtain ⟨h0, hlt, _⟩ := get_open_file_entry_bounds h
  simp [get_open_file_entry, file_put, h0, List.getD_eq_getElem?_getD,
    List.getElem?_set_self hlt]

theorem inode_at_put_self {st : tfs_state} {p : Nat} {v : inode_t}
    (h : p < st.inode_table.length) : inode_at (inode_put st p v) p = v := by
  simp [inode_at, inode_put, List.getD_eq_getElem?_getD, List.getElem?_set_self h]

theorem inode_at_put_ne {st : tfs_state} {p q : Nat} {v : inode_t} (h : p ≠ q) :
    inode_at (inode_put st p v) q = inode_at st q := by
  simp [inode_at, inode_put, List.getD_eq_getElem?_getD, List.getElem?_set_ne h]

theorem block_at_put_self {st : tfs_state} {b : Nat} {v : List Nat}
    (h : b < st.fs_data.length) : block_at (block_put st b v) b = v := by
  simp [block_at, block_put, List.getD_eq_getElem?_getD, List.getElem?_set_self h]

/-- The number of bytes `tfs_write` decides to copy (lines 250 to 253). -/
theorem write_clamp (bs off len : Nat) (hoff : off ≤ bs) (hsum : off + len < SIZE_MOD) :
    (if (len + off) % SIZE_MOD > bs then (bs + SIZE_MOD - off) % SIZE_MOD else len) =
      min len (bs - off) := by
  unfold SIZE_MOD at *
  split <;> omega

/-- A read through a handle whose inode is in the table, whose offset is inside
the file and whose block, if the file has bytes, is in the pool. -/
theorem tfs_read_core (st : tfs_state) (fhandle : Int) (len : Nat)
    (file : open_file_entry_t) (inode : Nat)
    (hfile : get_open_file_entry st fhandle = some file)
    (hinode : inode_get st file.of_inumber = some inode)
    (hoff : file.of_offset ≤ (inode_at st inode).i_size)
    (hok : inode_ok st (inode_at st inode)) (hbs : st.block_size ≤ SSIZE_MAX) :
    tfs_read st fhandle len =
      some (if 0 < min len ((inode_at st inode).i_size - file.of_offset) then
          file_put st fhandle { file with
            of_offset := file.of_offset + min len ((inode_at st inode).i_size - file.of_offset) }
        else st,
        ((min len ((inode_at st inode).i_size - file.of_offset) : Nat) : Int),
        ((block_at st (inode_at st inode).i_data_block.toNat).drop file.of_offset).take
          (min len ((inode_at st inode).i_size - file.of_offset))) := by
  obtain ⟨hle, hsize, hblock⟩ := hok
  have hcast : ssize_cast (min len ((inode_at st inode).i_size - file.of_offset)) =
      ((min len ((inode_at st inode).i_size - file.of_offset) : Nat) : Int) :=
    ssize_cast_eq (by omega)
  have hmod : ((inode_at st inode).i_size + SIZE_MOD - file.of_offset) % SIZE_MOD =
      (inode_at st inode).i_size - file.of_offset := by
    unfold SIZE_MOD at *; omega
  have hclamp : (if (inode_at st inode).i_size - file.of_offset > len then len
      else (inode_at st inode).i_size - file.of_offset) =
      min len ((inode_at st inode).i_size - file.of_offset) := by
    split <;> omega
  by_cases hpos : 0 < min len ((inode_at st inode).i_size - file.of_offset)
  · have hsz : 0 < (inode_at st inode).i_size := by omega
    obtain ⟨hb0, hblt⟩ := hblock hsz
    have hblk : data_block_get st (inode_at st inode).i_data_block =
        some (inode_at st inode).i_data_block.toNat := by
      simp [data_block_get, hb0, hblt]
    have hadd : (file.of_offset + min len ((inode_at st inode).i_size - file.of_offset)) %
        SIZE_MOD = file.of_offset + min len ((inode_at st inode).i_size - file.of_offset) := by
      unfold SIZE_MOD at *; omega
    simp only [tfs_read, hfile, hinode, hmod, hclamp, hblk, hpos, if_true, hadd, hcast]
  · have hz : min len ((inode_at st inode).i_size - file.of_offset) = 0 := by omega
    rw [hz] at hcast
    simp only [tfs_read, hfile, hinode, hmod, hclamp, hz, hcast]
    simp

theorem file_ok_inode_get {st : tfs_state} {f : open_file_entry_t} (h : file_ok st f) :
    inode_get st f.of_inumber = some f.of_inumber.toNat := by
  simp [inode_get, h.2.1, h.2.2]

theorem list_set_getElem?_self {α : Type} (l : List α) (i : Nat) (v : α)
    (h : l[i]? = some v) : l.set i v = l := by
  apply List.ext_getElem?
  intro j
  by_cases hj : i = j
  · subst hj
    have hlt : i < l.length := by
      by_contra hn
      rw [List.getElem?_eq_none (by omega)] at h
      cases h
    rw [List.getElem?_set_self hlt, h]
  · rw [List.getElem?_set_ne hj]

/-- The effect of a write that copies `c > 0` bytes and finds a block. -/
theorem tfs_write_core (st : tfs_state) (fhandle : Int) (buffer : List Nat) (len : Nat)
    (file : open_file_entry_t) (inode : Nat)
    (hfile : get_open_file_entry st fhandle = some file)
    (hinode : inode_get st file.of_inumber = some inode)
    (hoff : file.of_offset ≤ st.block_size)
    (hsum : file.of_offset + len < SIZE_MOD)
    (hpool : st.free_blocks.length = st.fs_data.length)
    (hok : inode_ok st (inode_at st inode)) (hbs : st.block_size ≤ SSIZE_MAX)
    (hpos : 0 < min len (st.block_size - file.of_offset))
    (hspace : ¬ ((inode_at st inode).i_size = 0 ∧ first_free st.free_blocks = none)) :
    ∃ (st1 : tfs_state) (blk : Nat),
      tfs_write st fhandle buffer len =
        some (st1, ((min len (st.block_size - file.of_offset) : Nat) : Int)) ∧
      blk < st.fs_data.length ∧
      ((inode_at st inode).i_size ≠ 0 → (blk : Int) = (inode_at st inode).i_data_block) ∧
      ((inode_at st inode).i_size = 0 → first_free st.free_blocks = some blk) ∧
      st1.inode_table = st.inode_table.set inode
        { inode_at st inode with
          i_data_block := (blk : Int)
          i_size := max (inode_at st inode).i_size
            (file.of_offset + min len (st.block_size - file.of_offset)) } ∧
      st1.fs_data = st.fs_data.set blk
        (memcpy_block (block_at st blk) file.of_offset buffer
          (min len (st.block_size - file.of_offset))) ∧
      st1.open_file_table = st.open_file_table.set fhandle.toNat
        (some { file with
          of_offset := file.of_offset + min len (st.block_size - file.of_offset) }) ∧
      st1.dir_entries = st.dir_entries ∧ st1.freeinode_ts = st.freeinode_ts ∧
      st1.block_size = st.block_size ∧
      st1.free_blocks = (if (inode_at st inode).i_size = 0 then
        st.free_blocks.set blk allocation_state_t.TAKEN else st.free_blocks) := by
  obtain ⟨hf0, hflt, hfget⟩ := get_open_file_entry_bounds hfile
  obtain ⟨_, _, hilt⟩ := inode_get_lt hinode
  have hclamp := write_clamp st.block_size file.of_offset len hoff hsum
  have hadd : (file.of_offset + min len (st.block_size - file.of_offset)) % SIZE_MOD =
      file.of_offset + min len (st.block_size - file.of_offset) := by
    unfold SIZE_MOD at *; omega
  have hcast : ssize_cast (min len (st.block_size - file.of_offset)) =
      ((min len (st.block_size - file.of_offset) : Nat) : Int) :=
    ssize_cast_eq (by omega)
  generalize hc : min len (st.block_size - file.of_offset) = c at *
  obtain ⟨r, hr⟩ : ∃ r, tfs_write st fhandle buffer len = r := ⟨_, rfl⟩
  have hr0 := hr
  simp only [tfs_write, hfile, hinode, state_block_size, hclamp] at hr
  have hi := inode_at_eq hilt
  obtain ⟨_, _, hblock⟩ := hok
  generalize inode_at st inode = ino at *
  rw [hr0]
  by_cases hsz : ino.i_size = 0
  · cases hff : first_free st.free_blocks with
    | none => exact absurd ⟨hsz, hff⟩ hspace
    | some b =>
      have hb := first_free_lt hff
      have hb2 : b < st.fs_data.length := by omega
      simp [hpos, hsz, data_block_alloc, hff, inode_at, inode_put, data_block_get, block_put,
        file_put, List.getElem?_set_self hilt, hi, hb2, hadd, hcast] at hr
      subst hr
      refine ⟨_, b, rfl, hb2, fun h => absurd hsz h, fun _ => rfl, ?_, ?_, rfl, rfl, rfl, rfl, ?_⟩
      · simp [hsz]
      · simp [block_at]
      · simp [hsz]
  · have hsz2 : 0 < ino.i_size := by omega
    obtain ⟨hb0, hblt⟩ := hblock hsz2
    have hblt2 : ino.i_data_block.toNat < st.fs_data.length := by omega
    simp [hpos, hsz, hb0, hblt, hadd, inode_at, inode_put, data_block_get, block_put,
        file_put, List.getElem?_set_self hilt, hi, hcast] at hr
    subst hr
    have hcast : ((ino.i_data_block.toNat : Nat) : Int) = ino.i_data_block :=
      Int.toNat_of_nonneg hb0
    refine ⟨_, ino.i_data_block.toNat, rfl, hblt2, fun _ => hcast, fun h => absurd h hsz,
      ?_, ?_, ?_, ?_, ?_, ?_, ?_⟩
    · split
      · rename_i hlt
        have hmax : max ino.i_size (file.of_offset + c) = file.of_offset + c := by omega
        simp only [hcast, hmax]
      · have hmax : max ino.i_size (file.of_offset + c) = ino.i_size := by omega
        simp only [hcast, hmax]
        exact (list_set_getElem?_self _ _ _ hi).symm
    · split <;> simp [block_at]
    · split <;> rfl
    · split <;> rfl
    · split <;> rfl
    · split <;> rfl
    · split <;> simp [hsz]


/-- A write that copies nothing returns 0 and changes nothing. -/
theorem tfs_write_zero (st : tfs_state) (fhandle : Int) (buffer : List Nat) (len : Nat)
    (file : open_file_entry_t) (inode : Nat)
    (hfile : get_open_file_entry st fhandle = some file)
    (hinode : inode_get st file.of_inumber = some inode)
    (hoff : file.of_offset ≤ st.block_size)
    (hsum : file.of_offset + len < SIZE_MOD)
    (hzero : min len (st.block_size - file.of_offset) = 0) :
    tfs_write st fhandle buffer len = some (st, 0) := by
  have hclamp := write_clamp st.block_size file.of_offset len hoff hsum
  simp only [tfs_write, hfile, hinode, state_block_size, hclamp, hzero]
  simp [ssize_cast_zero]

/-- A write that needs a block when the pool has none returns `-1` and changes
nothing. -/
theorem tfs_write_nospace (st : tfs_state) (fhandle : Int) (buffer : List Nat) (len : Nat)
    (file : open_file_entry_t) (inode : Nat)
    (hfile : get_open_file_entry st fhandle = some file)
    (hinode : inode_get st file.of_inumber = some inode)
    (hoff : file.of_offset ≤ st.block_size)
    (hsum : file.of_offset + len < SIZE_MOD)
    (hpos : 0 < min len (st.block_size - file.of_offset))
    (hsize : (inode_at st inode).i_size = 0)
    (hfull : first_free st.free_blocks = none) :
    tfs_write st fhandle buffer len = some (st, -1) := by
  have hclamp := write_clamp st.block_size file.of_offset len hoff hsum
  simp only [tfs_write, hfile, hinode, state_block_size, hclamp, hpos, if_true, hsize,
    data_block_alloc, hfull]
  simp

/-! ## What `tfs_open` does -/

theorem tfs_lookup_nonneg_valid {st : tfs_state} {name : List Char} {r : Option Nat}
    (h : 0 ≤ tfs_lookup st name r) : valid_pathname name = true := by
  unfold tfs_lookup at h
  by_cases hv : valid_pathname name = true
  · exact hv
  · simp [hv] at h

theorem tfs_lookup_eq {st : tfs_state} {name : List Char}
    (hv : valid_pathname name = true) :
    tfs_lookup st name (inode_get st ROOT_DIR_INUM) = dir_find st.dir_entries name.tail := by
  simp [tfs_lookup, hv, find_in_dir]

theorem inode_get_root {st : tfs_state} {p : Nat} (h : p < st.inode_table.length) :
    inode_get st ROOT_DIR_INUM = some 0 := by
  have : 0 < st.inode_table.length := by omega
  simp [inode_get, ROOT_DIR_INUM, this]

/-- Opening a name that resolves to an inode that is no symbolic link. -/
theorem tfs_open_existing {st : tfs_state} {name : List Char} {mode : Nat} {inode : Nat}
    (hget : inode_get st (tfs_lookup st name (inode_get st ROOT_DIR_INUM)) = some inode)
    (hreg : (inode_at st inode).sym_link = false) :
    tfs_open st name mode =
      some (tfs_open_found st (tfs_lookup st name (inode_get st ROOT_DIR_INUM)) inode mode) := by
  obtain ⟨h0, _, hlt⟩ := inode_get_lt hget
  have hv := tfs_lookup_nonneg_valid h0
  have hroot := inode_get_root hlt
  rw [hroot] at hget h0
  simp only [tfs_open, hv, hroot, h0, hget, hreg]
  simp

/-- The handle `add_to_open_file_table` hands out. -/
theorem add_to_open_file_table_some {st : tfs_state} {inum : Int} {offset : Nat}
    {res : tfs_state × Int} (h : add_to_open_file_table st inum offset = res)
    (hne : res.2 ≠ -1) :
    ∃ k : Nat, first_none st.open_file_table = some k ∧ res.2 = (k : Int) ∧
      res.1 = { st with open_file_table := st.open_file_table.set k (some ⟨inum, offset⟩) } ∧
      get_open_file_entry res.1 res.2 = some ⟨inum, offset⟩ := by
  unfold add_to_open_file_table at h
  split at h
  · subst h; exact absurd rfl hne
  · rename_i k hk
    subst h
    have hlt := first_none_lt hk
    exact ⟨k, hk, rfl, rfl, by
      simp [get_open_file_entry, List.getD_eq_getElem?_getD, List.getElem?_set_self hlt]⟩

theorem add_to_open_file_table_full {st : tfs_state} (inum : Int) (offset : Nat)
    (h : first_none st.open_file_table = none) :
    add_to_open_file_table st inum offset = (st, -1) := by
  simp [add_to_open_file_table, h]

/-- Without `TFS_O_TRUNC` and `TFS_O_APPEND` the found file is opened at offset 0
and left as it is. -/
theorem tfs_open_found_plain {st : tfs_state} (inum : Int) (inode : Nat) {mode : Nat}
    (htr : has_flag mode TFS_O_TRUNC = false) (hap : has_flag mode TFS_O_APPEND = false) :
    tfs_open_found st inum inode mode = add_to_open_file_table st inum 0 := by
  simp [tfs_open_found, htr, hap]


theorem inode_at_congr {st st1 : tfs_state} (h : st1.inode_table = st.inode_table) (p : Nat) :
    inode_at st1 p = inode_at st p := by
  simp [inode_at, h]

theorem block_at_congr {st st1 : tfs_state} (h : st1.fs_data = st.fs_data) (b : Nat) :
    block_at st1 b = block_at st b := by
  simp [block_at, h]

theorem inode_get_congr {st st1 : tfs_state}
    (h : st1.inode_table.length = st.inode_table.length) (i : Int) :
    inode_get st1 i = inode_get st i := by
  simp [inode_get, h]

theorem tfs_lookup_congr {st st1 : tfs_state} (hd : st1.dir_entries = st.dir_entries)
    (hl : st1.inode_table.length = st.inode_table.length) (name : List Char) :
    tfs_lookup st1 name (inode_get st1 ROOT_DIR_INUM) =
      tfs_lookup st name (inode_get st ROOT_DIR_INUM) := by
  simp [tfs_lookup, find_in_dir, hd, inode_get_congr hl]

theorem tfs_close_fields (st : tfs_state) (fhandle : Int) :
    (tfs_close st fhandle).1.inode_table = st.inode_table ∧
      (tfs_close st fhandle).1.fs_data = st.fs_data ∧
      (tfs_close st fhandle).1.dir_entries = st.dir_entries ∧
      (tfs_close st fhandle).1.block_size = st.block_size ∧
      (tfs_close st fhandle).1.free_blocks = st.free_blocks ∧
      (tfs_close st fhandle).1.freeinode_ts = st.freeinode_ts := by
  unfold tfs_close
  split
  · exact ⟨rfl, rfl, rfl, rfl, rfl, rfl⟩
  · unfold remove_from_open_file_table
    split <;> exact ⟨rfl, rfl, rfl, rfl, rfl, rfl⟩

theorem take_memcpy_block (block buffer : List Nat) (c : Nat) (h : c ≤ buffer.length) :
    (memcpy_block block 0 buffer c).take c = buffer.take c := by
  unfold memcpy_block
  simp only [List.take_zero, List.nil_append]
  rw [List.take_append_of_le_length (by simp; omega)]
  simp

/-! ## What the directory operations, `tfs_link` and `tfs_unlink` do -/

theorem valid_pathname_cons {name : List Char} (h : valid_pathname name = true) :
    name = '/' :: name.tail := by
  cases name with
  | nil => simp [valid_pathname] at h
  | cons c t =>
    simp [valid_pathname] at h
    simp [h.2]

theorem tail_ne_of_valid {a b : List Char} (ha : valid_pathname a = true)
    (hb : valid_pathname b = true) (hne : a ≠ b) : a.tail ≠ b.tail := by
  intro h
  apply hne
  rw [valid_pathname_cons ha, valid_pathname_cons hb, h]

theorem add_dir_entry_ok {st : tfs_state} {r : Option Nat} {n : List Char} {i : Int}
    (h : (add_dir_entry st r n i).2 ≠ -1) :
    ∃ d, dir_find st.dir_entries n = -1 ∧ dir_insert st.dir_entries ⟨n, i⟩ = some d ∧
      add_dir_entry st r n i = ({ st with dir_entries := d }, 0) := by
  unfold add_dir_entry at h ⊢
  split at h
  · exact absurd rfl h
  · rename_i hf
    simp only [ne_eq, Decidable.not_not] at hf
    cases hd : dir_insert st.dir_entries ⟨n, i⟩ with
    | none => rw [hd] at h; exact absurd rfl h
    | some d => exact ⟨d, hf, rfl, by simp [hf]⟩

theorem add_dir_entry_fail {st : tfs_state} {r : Option Nat} {n : List Char} {i : Int}
    (h : (add_dir_entry st r n i).2 = -1) : (add_dir_entry st r n i).1 = st := by
  by_contra hne
  have h2 : (add_dir_entry st r n i).2 ≠ -1 := by
    intro _
    apply hne
    unfold add_dir_entry at h ⊢
    split
    · rfl
    · split
      · rfl
      · rename_i hf _ d hd
        simp [hf, hd] at h
  exact h2 h

theorem clear_dir_entry_ok {st : tfs_state} (r : Option Nat) {n : List Char}
    (h : dir_find st.dir_entries n ≠ -1) :
    ∃ d, dir_clear st.dir_entries n = some d ∧
      clear_dir_entry st r n = ({ st with dir_entries := d }, 0) := by
  obtain ⟨d, hd⟩ := dir_clear_isSome h
  exact ⟨d, hd, by simp [clear_dir_entry, hd]⟩

theorem inode_delete_fields (st : tfs_state) {inumber : Int} {p : Nat}
    (h : inode_get st inumber = some p) :
    (inode_delete st inumber).inode_table = st.inode_table ∧
      (inode_delete st inumber).dir_entries = st.dir_entries ∧
      (inode_delete st inumber).open_file_table = st.open_file_table ∧
      (inode_delete st inumber).fs_data = st.fs_data ∧
      (inode_delete st inumber).block_size = st.block_size ∧
      (inode_delete st inumber).freeinode_ts =
        st.freeinode_ts.set p allocation_state_t.FREE ∧
      (inode_delete st inumber).free_blocks =
        (data_block_free st (inode_at st p).i_data_block).free_blocks := by
  unfold inode_delete
  rw [h]
  simp only []
  split
  · unfold data_block_free
    split <;> exact ⟨rfl, rfl, rfl, rfl, rfl, rfl, rfl⟩
  · rename_i hn
    simp only [ne_eq, Decidable.not_not] at hn
    refine ⟨rfl, rfl, rfl, rfl, rfl, rfl, ?_⟩
    simp [data_block_free, hn]

theorem inode_delete_none (st : tfs_state) {inumber : Int}
    (h : inode_get st inumber = none) : inode_delete st inumber = st := by
  unfold inode_delete
  rw [h]

/-- The two ways `tfs_link` ends once its checks have passed (lines 215 to 224). -/
theorem tfs_link_unfold {st : tfs_state} {target link_name : List Char} {inode : Nat}
    (hvl : valid_pathname link_name = true)
    (hname : inode_get st (tfs_lookup st target (inode_get st ROOT_DIR_INUM)) = some inode)
    (hreg : (inode_at st inode).sym_link = false)
    (hfree : ¬ tfs_lookup st link_name (inode_get st ROOT_DIR_INUM) > 0) :
    tfs_link st target link_name =
      if (add_dir_entry (inode_put st inode
            { inode_at st inode with hard_links := (inode_at st inode).hard_links + 1 })
          (inode_get st ROOT_DIR_INUM) link_name.tail
          (tfs_lookup st target (inode_get st ROOT_DIR_INUM))).2 = -1 then
        some (inode_delete (add_dir_entry (inode_put st inode
            { inode_at st inode with hard_links := (inode_at st inode).hard_links + 1 })
          (inode_get st ROOT_DIR_INUM) link_name.tail
          (tfs_lookup st target (inode_get st ROOT_DIR_INUM))).1
          (tfs_lookup st link_name (inode_get st ROOT_DIR_INUM)), -1)
      else
        some ((add_dir_entry (inode_put st inode
            { inode_at st inode with hard_links := (inode_at st inode).hard_links + 1 })
          (inode_get st ROOT_DIR_INUM) link_name.tail
          (tfs_lookup st target (inode_get st ROOT_DIR_INUM))).1, 0) := by
  obtain ⟨h0, _, _⟩ := inode_get_lt hname
  have hvt := tfs_lookup_nonneg_valid h0
  have hnl : ¬ tfs_lookup st target (inode_get st ROOT_DIR_INUM) < 0 := by omega
  simp only [tfs_link, hvt, hvl, hnl, hname, hreg, hfree]
  simp

/-- Unlinking a symbolic link (lines 328 to 332). -/
theorem tfs_unlink_sym {st : tfs_state} {target : List Char} {inode : Nat}
    (hname : inode_get st (tfs_lookup st target (inode_get st ROOT_DIR_INUM)) = some inode)
    (hsym : (inode_at st inode).sym_link = true) :
    tfs_unlink st target =
      some (inode_delete (clear_dir_entry st (inode_get st ROOT_DIR_INUM) target.tail).1
        (tfs_lookup st target (inode_get st ROOT_DIR_INUM)), 0) := by
  obtain ⟨h0, _, _⟩ := inode_get_lt hname
  have hvt := tfs_lookup_nonneg_valid h0
  have hnl : ¬ tfs_lookup st target (inode_get st ROOT_DIR_INUM) < 0 := by omega
  simp only [tfs_unlink, hvt, hnl, hname, hsym]
  simp

/-- Unlinking one of several names of a file (lines 334 to 342). -/
theorem tfs_unlink_hard {st : tfs_state} {target : List Char} {inode : Nat}
    (hname : inode_get st (tfs_lookup st target (inode_get st ROOT_DIR_INUM)) = some inode)
    (hreg : (inode_at st inode).sym_link = false)
    (hhl : (inode_at st inode).hard_links > 1) :
    tfs_unlink st target =
      some ((clear_dir_entry (inode_put st inode
          { inode_at st inode with hard_links := (inode_at st inode).hard_links - 1 })
        (inode_get st ROOT_DIR_INUM) target.tail).1, 0) := by
  obtain ⟨h0, _, hlt⟩ := inode_get_lt hname
  have hvt := tfs_lookup_nonneg_valid h0
  have hnl : ¬ tfs_lookup st target (inode_get st ROOT_DIR_INUM) < 0 := by omega
  have hat : ∀ v : inode_t, inode_at (clear_dir_entry (inode_put st inode v)
      (inode_get st ROOT_DIR_INUM) target.tail).1 inode = v := by
    intro v
    have : (clear_dir_entry (inode_put st inode v)
        (inode_get st ROOT_DIR_INUM) target.tail).1.inode_table =
        (inode_put st inode v).inode_table := by
      unfold clear_dir_entry; split <;> rfl
    rw [inode_at_congr this, inode_at_put_self hlt]
  have hne : ¬ (inode_at st inode).hard_links - 1 = 0 := by omega
  simp only [tfs_unlink, hvt, hnl, hname, hreg, hhl, hat, hne]
  simp

/-- Unlinking the last name of a file (lines 343 to 349). -/
theorem tfs_unlink_last {st : tfs_state} {target : List Char} {inode : Nat}
    (hname : inode_get st (tfs_lookup st target (inode_get st ROOT_DIR_INUM)) = some inode)
    (hreg : (inode_at st inode).sym_link = false)
    (hhl : ¬ (inode_at st inode).hard_links > 1) :
    tfs_unlink st target =
      some (inode_delete (clear_dir_entry st (inode_get st ROOT_DIR_INUM) target.tail).1
        (tfs_lookup st target (inode_get st ROOT_DIR_INUM)), 0) := by
  obtain ⟨h0, _, hlt⟩ := inode_get_lt hname
  have hvt := tfs_lookup_nonneg_valid h0
  have hnl : ¬ tfs_lookup st target (inode_get st ROOT_DIR_INUM) < 0 := by omega
  have hfound : dir_find st.dir_entries target.tail ≠ -1 := by
    rw [← tfs_lookup_eq hvt]; omega
  obtain ⟨d, _, hclr⟩ := clear_dir_entry_ok (inode_get st ROOT_DIR_INUM) hfound
  simp only [tfs_unlink, hvt, hnl, hname, hreg, hhl, hclr]
  simp


/-- A successful `tfs_link`: one more hard link on the target inode and one more
directory entry, for the same inumber. -/
theorem tfs_link_success {st st1 : tfs_state} {target link_name : List Char} {inode : Nat}
    (hvl : valid_pathname link_name = true)
    (hname : inode_get st (tfs_lookup st target (inode_get st ROOT_DIR_INUM)) = some inode)
    (hreg : (inode_at st inode).sym_link = false)
    (hfree : ¬ tfs_lookup st link_name (inode_get st ROOT_DIR_INUM) > 0)
    (hlink : tfs_link st target link_name = some (st1, 0)) :
    ∃ d, dir_find st.dir_entries link_name.tail = -1 ∧
      dir_insert st.dir_entries
        ⟨link_name.tail, tfs_lookup st target (inode_get st ROOT_DIR_INUM)⟩ = some d ∧
      st1 = { inode_put st inode
          { inode_at st inode with hard_links := (inode_at st inode).hard_links + 1 } with
        dir_entries := d } := by
  rw [tfs_link_unfold hvl hname hreg hfree] at hlink
  split at hlink
  · simp at hlink
  · rename_i hadd
    obtain ⟨d, hf, hd, he⟩ := add_dir_entry_ok hadd
    rw [he] at hlink
    simp only [Option.some.injEq, Prod.mk.injEq, and_true] at hlink
    exact ⟨d, hf, hd, hlink.symm⟩

/-! ## Reachability is closed under calls -/

theorem run_calls_append {st st1 : tfs_state} {calls : List tfs_call} {c : tfs_call}
    {res : tfs_state × Int} (h : run_calls st calls = some st1) (hc : tfs_step st1 c = some res) :
    run_calls st (calls ++ [c]) = some res.1 := by
  induction calls generalizing st with
  | nil =>
    simp only [run_calls, Option.some.injEq] at h
    subst h
    simp [run_calls, hc]
  | cons x xs ih =>
    simp only [run_calls, List.cons_append] at h ⊢
    cases hx : tfs_step st x with
    | none => rw [hx] at h; cases h
    | some r =>
      rw [hx] at h
      exact ih h

theorem reachable_step {st : tfs_state} {c : tfs_call} {res : tfs_state × Int}
    (h : reachable st) (hc : tfs_step st c = some res) : reachable res.1 := by
  obtain ⟨n, params_ptr, calls, hb⟩ := h
  refine ⟨n, params_ptr, calls ++ [c], ?_⟩
  unfold boot at hb ⊢
  cases hi : tfs_init n params_ptr with
  | none => rw [hi] at hb; cases hb
  | some s0 =>
    rw [hi] at hb
    exact run_calls_append hb hc

/-! ## What `tfs_sym_link` does -/

theorem inode_create_file_ok {st : tfs_state} (h : ¬ (inode_create st inode_type.T_FILE).2 < 0) :
    ∃ q : Nat, first_free st.freeinode_ts = some q ∧
      inode_create st inode_type.T_FILE =
        ({ st with
            freeinode_ts := st.freeinode_ts.set q allocation_state_t.TAKEN
            inode_table := st.inode_table.set q ⟨inode_type.T_FILE, 0, -1, 1, false, []⟩ },
          (q : Int)) := by
  unfold inode_create at h ⊢
  cases hq : first_free st.freeinode_ts with
  | none => rw [hq] at h; simp at h
  | some q => exact ⟨q, rfl, rfl⟩

theorem inode_create_file_fail {st : tfs_state}
    (h : (inode_create st inode_type.T_FILE).2 < 0) :
    (inode_create st inode_type.T_FILE).1 = st := by
  unfold inode_create at h ⊢
  cases hq : first_free st.freeinode_ts with
  | none => rfl
  | some q =>
    rw [hq] at h
    simp only [] at h
    omega

theorem tfs_sym_link_add_ok {st st1 : tfs_state} {r : Option Nat} {l : List Char} {q : Int}
    (h : tfs_sym_link_add st r l q = (st1, 0)) :
    ∃ d, dir_find st.dir_entries l.tail = -1 ∧
      dir_insert st.dir_entries ⟨l.tail, q⟩ = some d ∧ st1 = { st with dir_entries := d } := by
  unfold tfs_sym_link_add at h
  simp only [] at h
  split at h
  · simp at h
  · rename_i hadd
    obtain ⟨d, hf, hd, he⟩ := add_dir_entry_ok hadd
    rw [he] at h
    simp only [Prod.mk.injEq, and_true] at h
    exact ⟨d, hf, hd, h.symm⟩

/-- A successful `tfs_sym_link` on a live target: a new inode in the lowest free
slot, flagged as symbolic link, entered in the directory under `link_name`.  Its
`sym_path`, `i_size` and `i_data_block` are the target's when the target is
itself a symbolic link, and the target string, 0 and NONE otherwise. -/
theorem tfs_sym_link_success {st st1 : tfs_state} {target link_name : List Char} {p : Nat}
    (hname : inode_get st (tfs_lookup st target (inode_get st ROOT_DIR_INUM)) = some p)
    (hlive : st.freeinode_ts[p]? = some allocation_state_t.TAKEN)
    (hlink : tfs_sym_link st target link_name = some (st1, 0)) :
    ∃ (q : Nat) (d : List dir_entry_t),
      valid_pathname link_name = true ∧
      first_free st.freeinode_ts = some q ∧ q < st.inode_table.length ∧ q ≠ p ∧
      dir_find st.dir_entries link_name.tail = -1 ∧
      dir_insert st.dir_entries ⟨link_name.tail, (q : Int)⟩ = some d ∧
      st1 = { st with
        freeinode_ts := st.freeinode_ts.set q allocation_state_t.TAKEN
        inode_table := st.inode_table.set q
          (if (inode_at st p).sym_link = true then
            ⟨inode_type.T_FILE, (inode_at st p).i_size, (inode_at st p).i_data_block, 1, true,
              (inode_at st p).sym_path⟩
          else ⟨inode_type.T_FILE, 0, -1, 1, true, target⟩)
        dir_entries := d } := by
  obtain ⟨h0, _, hplt⟩ := inode_get_lt hname
  have hvt := tfs_lookup_nonneg_valid h0
  have hnl : ¬ tfs_lookup st target (inode_get st ROOT_DIR_INUM) < 0 := by omega
  unfold tfs_sym_link at hlink
  by_cases hvl : valid_pathname link_name = true
  · simp only [hvt, hvl, Bool.not_true, Bool.or_self, Bool.false_eq_true, if_false, hnl,
      hname] at hlink
    have hcreate : ¬ (inode_create st inode_type.T_FILE).2 < 0 := by
      intro hc
      split at hlink
      · simp [hc] at hlink
      · split at hlink
        · simp at hlink
        · simp [hc] at hlink
    obtain ⟨q, hq, hcr⟩ := inode_create_file_ok hcreate
    have hqlt : q < st.freeinode_ts.length := first_free_lt hq
    have hqp : q ≠ p := by
      intro hqp
      have := first_free_get hq
      rw [hqp, hlive] at this
      cases this
    rw [hcr] at hlink
    simp only [] at hlink
    by_cases hql : q < st.inode_table.length
    · have hqget : inode_get ({ st with
          freeinode_ts := st.freeinode_ts.set q allocation_state_t.TAKEN
          inode_table := st.inode_table.set q ⟨inode_type.T_FILE, 0, -1, 1, false, []⟩ } :
            tfs_state) (q : Int) = some q := by
        simp [inode_get, hql]
      have hneg : ¬ ((q : Int) < 0) := by omega
      simp only [hqget, hneg, if_false] at hlink
      have hatq : ∀ s : tfs_state, s.inode_table =
          st.inode_table.set q ⟨inode_type.T_FILE, 0, -1, 1, false, []⟩ →
          inode_at s q = ⟨inode_type.T_FILE, 0, -1, 1, false, []⟩ ∧
          inode_at s p = inode_at st p := by
        intro s hs
        constructor
        · simp [inode_at, hs, List.getD_eq_getElem?_getD, List.getElem?_set_self hql]
        · simp [inode_at, hs, List.getD_eq_getElem?_getD, List.getElem?_set_ne hqp]
      obtain ⟨haq, hap⟩ := hatq ({ st with
          freeinode_ts := st.freeinode_ts.set q allocation_state_t.TAKEN
          inode_table := st.inode_table.set q ⟨inode_type.T_FILE, 0, -1, 1, false, []⟩ } :
            tfs_state) rfl
      rw [haq, hap] at hlink
      split at hlink
      · rename_i hsym
        obtain ⟨d, hf, hd, he⟩ := tfs_sym_link_add_ok (Option.some.inj hlink)
        refine ⟨q, d, hvl, hq, hql, hqp, hf, hd, ?_⟩
        rw [he]
        simp [inode_put, hsym]
      · rename_i hsym
        split at hlink
        · simp at hlink
        · obtain ⟨d, hf, hd, he⟩ := tfs_sym_link_add_ok (Option.some.inj hlink)
          refine ⟨q, d, hvl, hq, hql, hqp, hf, hd, ?_⟩
          rw [he]
          simp [inode_put, hsym]
    · have hqget : inode_get ({ st with
          freeinode_ts := st.freeinode_ts.set q allocation_state_t.TAKEN
          inode_table := st.inode_table.set q ⟨inode_type.T_FILE, 0, -1, 1, false, []⟩ } :
            tfs_state) (q : Int) = none := by
        simp [inode_get, hql]
      have hneg : ¬ ((q : Int) < 0) := by omega
      simp only [hqget, hneg, if_false] at hlink
      split at hlink
      · simp at hlink
      · split at hlink <;> simp at hlink
  · simp [hvl] at hlink


/-- Opening a symbolic link whose `sym_path` does not resolve (lines 95 to 100). -/
theorem tfs_open_broken {st : tfs_state} {name : List Char} (mode : Nat) {q : Nat}
    (hname : inode_get st (tfs_lookup st name (inode_get st ROOT_DIR_INUM)) = some q)
    (hsym : (inode_at st q).sym_link = true)
    (hgone : tfs_lookup st (inode_at st q).sym_path (inode_get st ROOT_DIR_INUM) < 0) :
    tfs_open st name mode = some (st, -1) := by
  obtain ⟨h0, _, hlt⟩ := inode_get_lt hname
  have hv := tfs_lookup_nonneg_valid h0
  have hroot := inode_get_root hlt
  rw [hroot] at hname h0 hgone
  simp only [tfs_open, hv, hroot, h0, hname, hsym, hgone]
  simp

/-- Opening a symbolic link whose `sym_path` resolves: one hop (lines 95 to 102). -/
theorem tfs_open_symlink {st : tfs_state} {name : List Char} (mode : Nat) {q p : Nat}
    (hname : inode_get st (tfs_lookup st name (inode_get st ROOT_DIR_INUM)) = some q)
    (hsym : (inode_at st q).sym_link = true)
    (htarget : inode_get st
      (tfs_lookup st (inode_at st q).sym_path (inode_get st ROOT_DIR_INUM)) = some p) :
    tfs_open st name mode =
      some (tfs_open_found st
        (tfs_lookup st (inode_at st q).sym_path (inode_get st ROOT_DIR_INUM)) p mode) := by
  obtain ⟨h0, _, hlt⟩ := inode_get_lt hname
  obtain ⟨ht0, _, _⟩ := inode_get_lt htarget
  have hv := tfs_lookup_nonneg_valid h0
  have hroot := inode_get_root hlt
  rw [hroot] at hname h0 htarget ht0 ⊢
  have hnl : ¬ tfs_lookup st (inode_at st q).sym_path (some 0) < 0 := by omega
  simp only [tfs_open, hv, hroot, h0, hname, hsym, hnl, htarget]
  simp

/-- What `tfs_unlink` of a name of a regular file leaves: the entry is cleared
and every inode other than the target keeps its fields. -/
theorem tfs_unlink_regular {st st1 : tfs_state} {target : List Char} {p : Nat} {r : Int}
    (hname : inode_get st (tfs_lookup st target (inode_get st ROOT_DIR_INUM)) = some p)
    (hreg : (inode_at st p).sym_link = false)
    (hunlink : tfs_unlink st target = some (st1, r)) :
    r = 0 ∧ (∃ d, dir_clear st.dir_entries target.tail = some d ∧ st1.dir_entries = d) ∧
      st1.inode_table.length = st.inode_table.length ∧
      st1.open_file_table = st.open_file_table ∧
      (∀ q, q ≠ p → inode_at st1 q = inode_at st q) := by
  obtain ⟨h0, _, hlt⟩ := inode_get_lt hname
  have hvt := tfs_lookup_nonneg_valid h0
  have hfound : dir_find st.dir_entries target.tail ≠ -1 := by
    rw [← tfs_lookup_eq hvt]; omega
  by_cases hhl : (inode_at st p).hard_links > 1
  · rw [tfs_unlink_hard hname hreg hhl] at hunlink
    obtain ⟨d, hd, hc⟩ := @clear_dir_entry_ok (inode_put st p
      { inode_at st p with hard_links := (inode_at st p).hard_links - 1 })
      (inode_get st ROOT_DIR_INUM) target.tail hfound
    rw [hc] at hunlink
    simp only [Option.some.injEq, Prod.mk.injEq] at hunlink
    obtain ⟨rfl, rfl⟩ := hunlink
    refine ⟨rfl, ⟨d, hd, rfl⟩, by simp [inode_put], rfl, fun q hq => ?_⟩
    simp [inode_at, inode_put, List.getD_eq_getElem?_getD, List.getElem?_set_ne (Ne.symm hq)]
  · rw [tfs_unlink_last hname hreg hhl] at hunlink
    obtain ⟨d, hd, hc⟩ := clear_dir_entry_ok (inode_get st ROOT_DIR_INUM) hfound
    rw [hc] at hunlink
    simp only [Option.some.injEq, Prod.mk.injEq] at hunlink
    obtain ⟨rfl, rfl⟩ := hunlink
    have hget : inode_get ({ st with dir_entries := d } : tfs_state)
        (tfs_lookup st target (inode_get st ROOT_DIR_INUM)) = some p := hname
    obtain ⟨hit, hde, hoft, _⟩ := inode_delete_fields _ hget
    refine ⟨rfl, ⟨d, hd, hde⟩, by rw [hit], hoft, fun q _ => ?_⟩
    exact inode_at_congr hit q


/-- What a successful write at offset 0 leaves behind for a later read. -/
theorem write_then_read_facts (st : tfs_state) (fhandle : Int) (buf : List Nat) (n : Nat)
    (file : open_file_entry_t) (res : tfs_state × Int)
    (hinv : state_inv st)
    (hfile : get_open_file_entry st fhandle = some file)
    (hoff : file.of_offset = 0)
    (hn : n < SIZE_MOD) (hbuf : n ≤ buf.length)
    (hwrite : tfs_write st fhandle buf n = some res) (hr : res.2 ≠ -1) :
    res.1.dir_entries = st.dir_entries ∧
    res.1.inode_table.length = st.inode_table.length ∧
    (inode_at res.1 file.of_inumber.toNat).sym_link =
      (inode_at st file.of_inumber.toNat).sym_link ∧
    min n (inode_at res.1 file.of_inumber.toNat).i_size = min n st.block_size ∧
    ((block_at res.1 (inode_at res.1 file.of_inumber.toNat).i_data_block.toNat).take
      (min n st.block_size)) = buf.take (min n st.block_size) := by
  have hfok := hinv.2.2.2.2.1 _ (get_open_file_entry_mem hfile)
  have hinode := file_ok_inode_get hfok
  obtain ⟨_, _, hilt⟩ := inode_get_lt hinode
  have hok := inode_ok_at hinv file.of_inumber.toNat
  have hoffle : file.of_offset ≤ st.block_size := by omega
  have hsum : file.of_offset + n < SIZE_MOD := by omega
  have hc : min n (st.block_size - file.of_offset) = min n st.block_size := by rw [hoff]; rfl
  by_cases hpos : 0 < min n (st.block_size - file.of_offset)
  · by_cases hspace : (inode_at st file.of_inumber.toNat).i_size = 0 ∧
        first_free st.free_blocks = none
    · rw [tfs_write_nospace st fhandle buf n file _ hfile hinode hoffle hsum hpos
        hspace.1 hspace.2] at hwrite
      cases hwrite
      exact absurd rfl hr
    · obtain ⟨st1, blk, hw, hblk, _, _, hit, hfd, _, hde, _, _, _⟩ :=
        tfs_write_core st fhandle buf n file _ hfile hinode hoffle hsum hinv.1 hok
          hinv.2.2.2.2.2.2 hpos hspace
      rw [hw] at hwrite
      cases hwrite
      have hat : inode_at st1 file.of_inumber.toNat =
          { inode_at st file.of_inumber.toNat with
            i_data_block := (blk : Int)
            i_size := max (inode_at st file.of_inumber.toNat).i_size
              (file.of_offset + min n (st.block_size - file.of_offset)) } := by
        simp [inode_at, hit, List.getD_eq_getElem?_getD, List.getElem?_set_self hilt]
      have hbl : block_at st1 blk = memcpy_block (block_at st blk) file.of_offset buf
          (min n (st.block_size - file.of_offset)) := by
        simp [block_at, hfd, List.getD_eq_getElem?_getD, List.getElem?_set_self hblk]
      refine ⟨hde, by simp [hit], by simp [hat], ?_, ?_⟩
      · simp only [hat]
        have := hok.1
        omega
      · simp only [hat, Int.toNat_ofNat, hbl, hc, hoff]
        exact take_memcpy_block _ _ _ (by omega)
  · have hz : min n (st.block_size - file.of_offset) = 0 := by omega
    rw [tfs_write_zero st fhandle buf n file _ hfile hinode hoffle hsum hz] at hwrite
    cases hwrite
    have hz2 : min n st.block_size = 0 := by omega
    refine ⟨rfl, rfl, rfl, ?_, ?_⟩
    · show min n (inode_at st file.of_inumber.toNat).i_size = min n st.block_size
      have := hok.1
      omega
    · simp [hz2]

/-- The round trip of a successful write at offset 0, a reopening of the file and
a read, in a state that satisfies the invariant. -/
theorem write_read_round_trip_core (st : tfs_state) (fhandle : Int) (buf : List Nat) (n : Nat)
    (file : open_file_entry_t) (path : List Char) (mode : Nat) (reclose : Bool)
    (st1 st2 : tfs_state) (r h2 : Int)
    (hinv : state_inv st)
    (hfile : get_open_file_entry st fhandle = some file)
    (hoff : file.of_offset = 0)
    (hreg : (inode_at st file.of_inumber.toNat).sym_link = false)
    (hn : n < SIZE_MOD) (hbuf : n ≤ buf.length)
    (hwrite : tfs_write st fhandle buf n = some (st1, r)) (hr : r ≠ -1)
    (hpath : tfs_lookup st path (inode_get st ROOT_DIR_INUM) = file.of_inumber)
    (htr : has_flag mode TFS_O_TRUNC = false) (hap : has_flag mode TFS_O_APPEND = false)
    (hopen : tfs_open (if reclose = true then (tfs_close st1 fhandle).1 else st1) path mode =
      some (st2, h2))
    (hh2 : h2 ≠ -1) :
    ∃ st3 : tfs_state,
      tfs_read st2 h2 n =
        some (st3, ((min n st.block_size : Nat) : Int), buf.take (min n st.block_size)) := by
  have hfok := hinv.2.2.2.2.1 _ (get_open_file_entry_mem hfile)
  have hinode := file_ok_inode_get hfok
  obtain ⟨hde, hlen, hsl, hmin, htake⟩ :=
    write_then_read_facts st fhandle buf n file (st1, r) hinv hfile hoff hn hbuf hwrite hr
  simp only [] at hde hlen hsl hmin htake
  have hinv1 : state_inv st1 := inv_tfs_write hinv hwrite
  -- the state the file is reopened in
  generalize hs : (if reclose = true then (tfs_close st1 fhandle).1 else st1) = sr at hopen
  have hsr : sr.inode_table = st1.inode_table ∧ sr.fs_data = st1.fs_data ∧
      sr.dir_entries = st1.dir_entries := by
    subst hs
    split
    · exact ⟨(tfs_close_fields _ _).1, (tfs_close_fields _ _).2.1, (tfs_close_fields _ _).2.2.1⟩
    · exact ⟨rfl, rfl, rfl⟩
  have hinvr : state_inv sr := by
    subst hs
    split
    · exact inv_tfs_close hinv1 _
    · exact hinv1
  have hlenr : sr.inode_table.length = st.inode_table.length := by rw [hsr.1, hlen]
  have hlook : tfs_lookup sr path (inode_get sr ROOT_DIR_INUM) = file.of_inumber := by
    rw [tfs_lookup_congr (hsr.2.2.trans hde) hlenr, hpath]
  have hgetr : inode_get sr file.of_inumber = some file.of_inumber.toNat := by
    rw [inode_get_congr hlenr, hinode]
  have hregr : (inode_at sr file.of_inumber.toNat).sym_link = false := by
    rw [inode_at_congr hsr.1, hsl, hreg]
  have hgetr2 : inode_get sr (tfs_lookup sr path (inode_get sr ROOT_DIR_INUM)) =
      some file.of_inumber.toNat := by rw [hlook]; exact hgetr
  have hop := @tfs_open_existing sr path mode _ hgetr2 hregr
  rw [hlook, tfs_open_found_plain _ _ htr hap, hopen] at hop
  obtain ⟨k, _, _, hst2, hentry⟩ := add_to_open_file_table_some
    (Option.some.inj hop).symm hh2
  simp only [] at hst2 hentry
  have hinv2 : state_inv st2 := inv_tfs_open hinvr hopen
  have hit2 : st2.inode_table = st1.inode_table := by rw [hst2]; exact hsr.1
  have hfd2 : st2.fs_data = st1.fs_data := by rw [hst2]; exact hsr.2.1
  have hlen2 : st2.inode_table.length = st.inode_table.length := by rw [hit2, hlen]
  have hget2 : inode_get st2 file.of_inumber = some file.of_inumber.toNat := by
    rw [inode_get_congr hlen2, hinode]
  have hcore := tfs_read_core st2 h2 n ⟨file.of_inumber, 0⟩ _ hentry hget2 (Nat.zero_le _)
    (inode_ok_at hinv2 _) hinv2.2.2.2.2.2.2
  simp only [Nat.sub_zero, List.drop_zero] at hcore
  rw [inode_at_congr hit2, block_at_congr hfd2, hmin, htake] at hcore
  exact ⟨_, hcore⟩

/-- C1 (amended): when `tfs_write(h, buf, n)` through a handle at offset 0 on a
regular file succeeds, and the file is then reopened (with or without closing
`h` first) with a mode that has neither `TFS_O_APPEND` nor `TFS_O_TRUNC`, a
`tfs_read` of `n` bytes through the new handle returns `min n block_size` and
hands back `buf[0 .. min n block_size]`. -/
theorem C1_write_read_round_trip (st : tfs_state) (fhandle : Int) (buf : List Nat) (n : Nat)
    (file : open_file_entry_t) (path : List Char) (mode : Nat) (reclose : Bool)
    (st1 st2 : tfs_state) (r h2 : Int)
    (hreach : reachable st)
    (hfile : get_open_file_entry st fhandle = some file)
    (hoff : file.of_offset = 0)
    (hreg : (inode_at st file.of_inumber.toNat).sym_link = false)
    (hn : n < SIZE_MOD) (hbuf : n ≤ buf.length)
    (hwrite : tfs_write st fhandle buf n = some (st1, r)) (hr : r ≠ -1)
    (hpath : tfs_lookup st path (inode_get st ROOT_DIR_INUM) = file.of_inumber)
    (htr : has_flag mode TFS_O_TRUNC = false) (hap : has_flag mode TFS_O_APPEND = false)
    (hopen : tfs_open (if reclose = true then (tfs_close st1 fhandle).1 else st1) path mode =
      some (st2, h2))
    (hh2 : h2 ≠ -1) :
    ∃ st3 : tfs_state,
      tfs_read st2 h2 n =
        some (st3, ((min n st.block_size : Nat) : Int), buf.take (min n st.block_size)) :=
  write_read_round_trip_core st fhandle buf n file path mode reclose st1 st2 r h2
    (reachable_inv hreach) hfile hoff hreg hn hbuf hwrite hr hpath htr hap hopen hh2

/-- Witness for C1: create `/f`, write three bytes, close, reopen and read them back. -/
theorem C1_witness :
    ∃ st3 : tfs_state,
      tfs_read (state_after [call_open ['/', 'f'] TFS_O_CREAT, call_write 0 [65, 66, 67] 3,
          call_close 0, call_open ['/', 'f'] 0]) 0 3 =
        some (st3,
          ((min 3 (state_after [call_open ['/', 'f'] TFS_O_CREAT]).block_size : Nat) : Int),
          [65, 66, 67].take (min 3 (state_after [call_open ['/', 'f'] TFS_O_CREAT]).block_size)) :=
  C1_write_read_round_trip (state_after [call_open ['/', 'f'] TFS_O_CREAT]) 0 [65, 66, 67] 3
    ⟨1, 0⟩ ['/', 'f'] 0 true
    (state_after [call_open ['/', 'f'] TFS_O_CREAT, call_write 0 [65, 66, 67] 3])
    (state_after [call_open ['/', 'f'] TFS_O_CREAT, call_write 0 [65, 66, 67] 3,
      call_close 0, call_open ['/', 'f'] 0]) 3 0
    (reachable_state_after _ (by decide)) (by decide) rfl (by decide) (by decide) (by decide)
    (by decide) (by decide) (by decide) (by decide) (by decide) (by decide) (by decide)

/-- Counterexample to C1 as stated: with the only free block taken by `/f`, a
write of one byte to the empty file `/g` returns `-1`; after closing and
reopening `/g` a read of one byte returns 0 bytes, not `min 1 block_size = 1`. -/
theorem C1_counterexample :
    reachable (state_after [call_open ['/', 'f'] TFS_O_CREAT, call_write 0 [7] 1,
      call_open ['/', 'g'] TFS_O_CREAT]) ∧
    get_open_file_entry (state_after [call_open ['/', 'f'] TFS_O_CREAT, call_write 0 [7] 1,
      call_open ['/', 'g'] TFS_O_CREAT]) 1 = some ⟨2, 0⟩ ∧
    (inode_at (state_after [call_open ['/', 'f'] TFS_O_CREAT, call_write 0 [7] 1,
      call_open ['/', 'g'] TFS_O_CREAT]) 2).sym_link = false ∧
    tfs_write (state_after [call_open ['/', 'f'] TFS_O_CREAT, call_write 0 [7] 1,
      call_open ['/', 'g'] TFS_O_CREAT]) 1 [9] 1 =
      some (state_after [call_open ['/', 'f'] TFS_O_CREAT, call_write 0 [7] 1,
        call_open ['/', 'g'] TFS_O_CREAT], -1) ∧
    tfs_open (tfs_close (state_after [call_open ['/', 'f'] TFS_O_CREAT, call_write 0 [7] 1,
      call_open ['/', 'g'] TFS_O_CREAT]) 1).1 ['/', 'g'] 0 =
      some (state_after [call_open ['/', 'f'] TFS_O_CREAT, call_write 0 [7] 1,
        call_open ['/', 'g'] TFS_O_CREAT], 1) ∧
    tfs_read (state_after [call_open ['/', 'f'] TFS_O_CREAT, call_write 0 [7] 1,
      call_open ['/', 'g'] TFS_O_CREAT]) 1 1 =
      some (state_after [call_open ['/', 'f'] TFS_O_CREAT, call_write 0 [7] 1,
        call_open ['/', 'g'] TFS_O_CREAT], 0, []) ∧
    min 1 (state_after [call_open ['/', 'f'] TFS_O_CREAT, call_write 0 [7] 1,
      call_open ['/', 'g'] TFS_O_CREAT]).block_size = 1 :=
  ⟨reachable_state_after _ (by decide), by decide, by decide, by decide, by decide, by decide,
    by decide⟩

/-- C2 (amended): for a valid handle with `offset ≤ block_size` and `offset + len`
not overflowing, with `c = min len (block_size - offset)`: when `c > 0`, the
inode is empty and no data block is free, `tfs_write` returns `-1` and changes
nothing; otherwise it returns `c`, advances the handle's offset by exactly `c`,
sets the inode's size to `max (old size) (new offset)` when `c > 0`, and changes
nothing when `c = 0`. -/
theorem C2_tfs_write_count_offset_size (st : tfs_state) (fhandle : Int) (buffer : List Nat)
    (len : Nat) (file : open_file_entry_t)
    (hreach : reachable st)
    (hfile : get_open_file_entry st fhandle = some file)
    (hoff : file.of_offset ≤ st.block_size)
    (hsum : file.of_offset + len < SIZE_MOD) :
    (0 < min len (st.block_size - file.of_offset) ∧
        (inode_at st file.of_inumber.toNat).i_size = 0 ∧ first_free st.free_blocks = none →
      tfs_write st fhandle buffer len = some (st, -1)) ∧
    (¬ (0 < min len (st.block_size - file.of_offset) ∧
        (inode_at st file.of_inumber.toNat).i_size = 0 ∧ first_free st.free_blocks = none) →
      ∃ st1 : tfs_state,
        tfs_write st fhandle buffer len =
          some (st1, ((min len (st.block_size - file.of_offset) : Nat) : Int)) ∧
        get_open_file_entry st1 fhandle =
          some { file with
            of_offset := file.of_offset + min len (st.block_size - file.of_offset) } ∧
        (0 < min len (st.block_size - file.of_offset) →
          (inode_at st1 file.of_inumber.toNat).i_size =
            max (inode_at st file.of_inumber.toNat).i_size
              (file.of_offset + min len (st.block_size - file.of_offset))) ∧
        (min len (st.block_size - file.of_offset) = 0 → st1 = st)) := by
  have hinv := reachable_inv hreach
  have hfok := hinv.2.2.2.2.1 _ (get_open_file_entry_mem hfile)
  have hinode := file_ok_inode_get hfok
  obtain ⟨hf0, hflt, _⟩ := get_open_file_entry_bounds hfile
  obtain ⟨_, _, hilt⟩ := inode_get_lt hinode
  constructor
  · rintro ⟨hpos, hsz, hfull⟩
    exact tfs_write_nospace st fhandle buffer len file _ hfile hinode hoff hsum hpos hsz hfull
  · intro hnot
    by_cases hpos : 0 < min len (st.block_size - file.of_offset)
    · have hspace : ¬ ((inode_at st file.of_inumber.toNat).i_size = 0 ∧
          first_free st.free_blocks = none) := fun h => hnot ⟨hpos, h.1, h.2⟩
      obtain ⟨st1, blk, hw, _, _, _, hit, _, hoft, _⟩ :=
        tfs_write_core st fhandle buffer len file _ hfile hinode hoff hsum hinv.1
          (inode_ok_at hinv _) hinv.2.2.2.2.2.2 hpos hspace
      refine ⟨st1, hw, ?_, fun _ => ?_, fun h => by omega⟩
      · simp [get_open_file_entry, hf0, hoft, List.getD_eq_getElem?_getD,
          List.getElem?_set_self hflt]
      · simp [inode_at, hit, List.getD_eq_getElem?_getD, List.getElem?_set_self hilt]
    · have hz : min len (st.block_size - file.of_offset) = 0 := by omega
      refine ⟨st, ?_, ?_, fun h => absurd h hpos, fun _ => rfl⟩
      · rw [tfs_write_zero st fhandle buffer len file _ hfile hinode hoff hsum hz, hz]
        rfl
      · rw [hz]; simpa using hfile

/-- Witness for C2: the first write of three bytes to a new file. -/
theorem C2_witness :
    ∃ st1 : tfs_state,
      tfs_write (state_after [call_open ['/', 'f'] TFS_O_CREAT]) 0 [65, 66, 67] 3 =
        some (st1, 3) ∧
      get_open_file_entry st1 0 = some ⟨1, 3⟩ ∧
      (inode_at st1 1).i_size = 3 := by
  obtain ⟨st1, h1, h2, h3, _⟩ :=
    (C2_tfs_write_count_offset_size (state_after [call_open ['/', 'f'] TFS_O_CREAT]) 0
      [65, 66, 67] 3 ⟨1, 0⟩ (reachable_state_after _ (by decide)) (by decide) (by decide)
      (by decide)).2 (by decide)
  exact ⟨st1, h1, h2, h3 (by decide)⟩

/-- Counterexample to C2 as stated.  First run: the only free block is taken by
`/f`; a write of one byte through the handle of the empty file `/g` (offset 0)
returns `-1`, not `min 1 (4 - 0) = 1`.  Second run: handle 0 of `/f` stands at
offset 2 after the file was truncated through a second `open`; a write of no
bytes returns 0 and leaves the size 0, not `max 0 (2 + 0) = 2`. -/
theorem C2_counterexample :
    (reachable (state_after [call_open ['/', 'f'] TFS_O_CREAT, call_write 0 [7] 1,
        call_open ['/', 'g'] TFS_O_CREAT]) ∧
      get_open_file_entry (state_after [call_open ['/', 'f'] TFS_O_CREAT, call_write 0 [7] 1,
        call_open ['/', 'g'] TFS_O_CREAT]) 1 = some ⟨2, 0⟩ ∧
      tfs_write (state_after [call_open ['/', 'f'] TFS_O_CREAT, call_write 0 [7] 1,
        call_open ['/', 'g'] TFS_O_CREAT]) 1 [9] 1 =
        some (state_after [call_open ['/', 'f'] TFS_O_CREAT, call_write 0 [7] 1,
          call_open ['/', 'g'] TFS_O_CREAT], -1) ∧
      min 1 ((state_after [call_open ['/', 'f'] TFS_O_CREAT, call_write 0 [7] 1,
        call_open ['/', 'g'] TFS_O_CREAT]).block_size - 0) = 1) ∧
    (reachable (state_after [call_open ['/', 'f'] TFS_O_CREAT, call_write 0 [7, 7] 2,
        call_open ['/', 'f'] TFS_O_TRUNC]) ∧
      get_open_file_entry (state_after [call_open ['/', 'f'] TFS_O_CREAT, call_write 0 [7, 7] 2,
        call_open ['/', 'f'] TFS_O_TRUNC]) 0 = some ⟨1, 2⟩ ∧
      tfs_write (state_after [call_open ['/', 'f'] TFS_O_CREAT, call_write 0 [7, 7] 2,
        call_open ['/', 'f'] TFS_O_TRUNC]) 0 [] 0 =
        some (state_after [call_open ['/', 'f'] TFS_O_CREAT, call_write 0 [7, 7] 2,
          call_open ['/', 'f'] TFS_O_TRUNC], 0) ∧
      (inode_at (state_after [call_open ['/', 'f'] TFS_O_CREAT, call_write 0 [7, 7] 2,
        call_open ['/', 'f'] TFS_O_TRUNC]) 1).i_size = 0 ∧
      max 0 (2 + 0) = 2) :=
  ⟨⟨reachable_state_after _ (by decide), by decide, by decide, by decide⟩,
    ⟨reachable_state_after _ (by decide), by decide, by decide, by decide, by decide⟩⟩

/-- C3: through a valid handle whose offset is at most the size of its inode,
`tfs_read` returns `min len (size - offset)`, hands back exactly those bytes of
the inode's block from `offset` on, advances the handle's offset by that count
and leaves inodes, directory, blocks and bitmaps as they were; on an empty file
it returns 0. -/
theorem C3_tfs_read_returns_clamped_bytes (st : tfs_state) (fhandle : Int) (len : Nat)
    (file : open_file_entry_t)
    (hreach : reachable st)
    (hfile : get_open_file_entry st fhandle = some file)
    (hoff : file.of_offset ≤ (inode_at st file.of_inumber.toNat).i_size) :
    ∃ st1 : tfs_state,
      tfs_read st fhandle len =
        some (st1,
          ((min len ((inode_at st file.of_inumber.toNat).i_size - file.of_offset) : Nat) : Int),
          ((block_at st (inode_at st file.of_inumber.toNat).i_data_block.toNat).drop
            file.of_offset).take
              (min len ((inode_at st file.of_inumber.toNat).i_size - file.of_offset))) ∧
      get_open_file_entry st1 fhandle =
        some { file with
          of_offset := file.of_offset +
            min len ((inode_at st file.of_inumber.toNat).i_size - file.of_offset) } ∧
      st1.inode_table = st.inode_table ∧ st1.freeinode_ts = st.freeinode_ts ∧
      st1.dir_entries = st.dir_entries ∧ st1.fs_data = st.fs_data ∧
      st1.free_blocks = st.free_blocks ∧
      ((inode_at st file.of_inumber.toNat).i_size = 0 →
        tfs_read st fhandle len = some (st, 0, [])) := by
  have hinv := reachable_inv hreach
  have hfok := hinv.2.2.2.2.1 _ (get_open_file_entry_mem hfile)
  have hinode := file_ok_inode_get hfok
  have hcore := tfs_read_core st fhandle len file _ hfile hinode hoff (inode_ok_at hinv _)
    hinv.2.2.2.2.2.2
  refine ⟨_, hcore, ?_, ?_, ?_, ?_, ?_, ?_, ?_⟩
  · split
    · exact get_open_file_entry_file_put hfile
    · rename_i hz
      have : min len ((inode_at st file.of_inumber.toNat).i_size - file.of_offset) = 0 := by
        omega
      rw [this]; simpa using hfile
  · split <;> rfl
  · split <;> rfl
  · split <;> rfl
  · split <;> rfl
  · split <;> rfl
  · intro hz
    rw [hcore]
    have : min len ((inode_at st file.of_inumber.toNat).i_size - file.of_offset) = 0 := by
      omega
    simp [this]

/-- Witness for C3: after `open("/f", O_CREAT)`, a write of three bytes and a
second `open("/f", 0)`, the second handle reads the first two bytes. -/
theorem C3_witness :
    reachable (state_after [call_open ['/', 'f'] TFS_O_CREAT, call_write 0 [65, 66, 67] 3,
      call_open ['/', 'f'] 0]) ∧
    ∃ st1 : tfs_state,
      tfs_read (state_after [call_open ['/', 'f'] TFS_O_CREAT, call_write 0 [65, 66, 67] 3,
        call_open ['/', 'f'] 0]) 1 2 = some (st1, 2, [65, 66]) ∧
      get_open_file_entry st1 1 = some ⟨1, 2⟩ := by
  have hreach : reachable (state_after [call_open ['/', 'f'] TFS_O_CREAT,
      call_write 0 [65, 66, 67] 3, call_open ['/', 'f'] 0]) :=
    reachable_state_after _ (by decide)
  obtain ⟨st1, h1, h2, _⟩ := C3_tfs_read_returns_clamped_bytes _ 1 2 ⟨1, 0⟩ hreach
    (by decide) (by decide)
  exact ⟨hreach, st1, h1, h2⟩

/-- C4 (amended): a successful `tfs_open` with `TFS_O_TRUNC` of an existing
regular file with `size > 0` marks the file's data block free in the block
bitmap and leaves the inode with `size = 0`, the `i_data_block` field still
holding the index of the freed block; the handle stands at offset 0 and a
following read of any length through it returns 0 bytes. -/
theorem C4_truncate_on_open (st st1 : tfs_state) (path : List Char) (mode : Nat)
    (inode : Nat) (h : Int)
    (hreach : reachable st)
    (hname : inode_get st (tfs_lookup st path (inode_get st ROOT_DIR_INUM)) = some inode)
    (hreg : (inode_at st inode).sym_link = false)
    (hsize : 0 < (inode_at st inode).i_size)
    (htrunc : has_flag mode TFS_O_TRUNC = true)
    (hopen : tfs_open st path mode = some (st1, h))
    (hh : h ≠ -1) :
    (inode_at st1 inode).i_size = 0 ∧
    (inode_at st1 inode).i_data_block = (inode_at st inode).i_data_block ∧
    st1.free_blocks =
      st.free_blocks.set (inode_at st inode).i_data_block.toNat allocation_state_t.FREE ∧
    get_open_file_entry st1 h =
      some ⟨tfs_lookup st path (inode_get st ROOT_DIR_INUM), 0⟩ ∧
    ∀ len : Nat, tfs_read st1 h len = some (st1, 0, []) := by
  have hinv := reachable_inv hreach
  have hinv1 : state_inv st1 := inv_tfs_open hinv hopen
  obtain ⟨_, _, hilt⟩ := inode_get_lt hname
  obtain ⟨hb0, _⟩ := (inode_ok_at hinv inode).2.2 hsize
  have hop := @tfs_open_existing st path mode inode hname hreg
  rw [hopen] at hop
  have hop2 := (Option.some.inj hop).symm
  simp only [tfs_open_found, htrunc, if_true, gt_iff_lt, hsize] at hop2
  have hlen : (data_block_free st (inode_at st inode).i_data_block).inode_table.length =
      st.inode_table.length := by
    simp [data_block_free, hb0]
  have hat := @inode_at_put_self (data_block_free st (inode_at st inode).i_data_block) inode
    { inode_at st inode with i_size := 0 } (by rw [hlen]; exact hilt)
  rw [hat] at hop2
  simp only [ite_self] at hop2
  obtain ⟨k, _, _, hst1, hentry⟩ := add_to_open_file_table_some hop2 hh
  simp only [] at hst1 hentry
  have hit : st1.inode_table = (inode_put (data_block_free st (inode_at st inode).i_data_block)
      inode { inode_at st inode with i_size := 0 }).inode_table := by rw [hst1]
  have hat1 : inode_at st1 inode = { inode_at st inode with i_size := 0 } := by
    rw [inode_at_congr hit, hat]
  have hget1 : inode_get st1 (tfs_lookup st path (inode_get st ROOT_DIR_INUM)) = some inode := by
    have hlen1 : st1.inode_table.length = st.inode_table.length := by
      rw [hit]; simp [inode_put, hlen]
    rw [inode_get_congr hlen1, hname]
  refine ⟨by rw [hat1], by rw [hat1], ?_, hentry, fun len => ?_⟩
  · rw [hst1]; simp [inode_put, data_block_free, hb0]
  · have hcore := tfs_read_core st1 h len
      ⟨tfs_lookup st path (inode_get st ROOT_DIR_INUM), 0⟩ inode hentry hget1
      (Nat.zero_le _) (inode_ok_at hinv1 _) hinv1.2.2.2.2.2.2
    rw [hcore, hat1]
    simp

/-- Witness for C4: `/f` holds two bytes in block 1; `open("/f", TFS_O_TRUNC)`
empties it and a read of four bytes returns 0. -/
theorem C4_witness :
    ∃ st1 : tfs_state,
      tfs_open (state_after [call_open ['/', 'f'] TFS_O_CREAT, call_write 0 [7, 7] 2,
        call_close 0]) ['/', 'f'] TFS_O_TRUNC = some (st1, 0) ∧
      (inode_at st1 1).i_size = 0 ∧
      tfs_read st1 0 4 = some (st1, 0, []) := by
  have hopen : tfs_open (state_after [call_open ['/', 'f'] TFS_O_CREAT, call_write 0 [7, 7] 2,
      call_close 0]) ['/', 'f'] TFS_O_TRUNC =
      some (state_after [call_open ['/', 'f'] TFS_O_CREAT, call_write 0 [7, 7] 2,
        call_close 0, call_open ['/', 'f'] TFS_O_TRUNC], 0) := by decide
  obtain ⟨h1, _, _, _, h5⟩ := C4_truncate_on_open _ _ ['/', 'f'] TFS_O_TRUNC 1 0
    (reachable_state_after _ (by decide)) (by decide) (by decide) (by decide) (by decide)
    hopen (by decide)
  exact ⟨_, hopen, h1, h5 4⟩

/-- Counterexample to C4 as stated: `/f` holds two bytes in block 1; after a
successful `open("/f", TFS_O_TRUNC)` the inode's `i_data_block` is still 1, not
NONE (`-1`). -/
theorem C4_counterexample :
    reachable (state_after [call_open ['/', 'f'] TFS_O_CREAT, call_write 0 [7, 7] 2,
      call_close 0]) ∧
    (inode_at (state_after [call_open ['/', 'f'] TFS_O_CREAT, call_write 0 [7, 7] 2,
      call_close 0]) 1).i_size = 2 ∧
    ∃ st1 : tfs_state,
      tfs_open (state_after [call_open ['/', 'f'] TFS_O_CREAT, call_write 0 [7, 7] 2,
        call_close 0]) ['/', 'f'] TFS_O_TRUNC = some (st1, 0) ∧
      (inode_at st1 1).i_size = 0 ∧
      (inode_at st1 1).i_data_block = 1 ∧
      (inode_at st1 1).i_data_block ≠ -1 :=
  ⟨reachable_state_after _ (by decide), by decide,
    state_after [call_open ['/', 'f'] TFS_O_CREAT, call_write 0 [7, 7] 2,
      call_close 0, call_open ['/', 'f'] TFS_O_TRUNC],
    by decide, by decide, by decide, by decide⟩

/-- C5 (amended): for distinct valid names `a`, `b` where `a` names a live regular
file with `hard_links = 1` and `b` is unused, after a successful `tfs_link(a, b)`:
`tfs_unlink(a)` succeeds and the inode's bitmap slot stays taken; `tfs_open(b, 0)`
returns a handle `≥ 0` on that same inumber when the open-file table has an empty
slot, and `-1` when it has none; a following `tfs_unlink(b)` succeeds, the
inode's bitmap slot is free and neither name resolves. -/
theorem C5_hard_link_reference_counting (st st1 : tfs_state) (a b : List Char) (inode : Nat)
    (hreach : reachable st)
    (hvb : valid_pathname b = true) (hne : a ≠ b)
    (hname : inode_get st (tfs_lookup st a (inode_get st ROOT_DIR_INUM)) = some inode)
    (hreg : (inode_at st inode).sym_link = false)
    (hhl : (inode_at st inode).hard_links = 1)
    (hlive : st.freeinode_ts[inode]? = some allocation_state_t.TAKEN)
    (hunused : tfs_lookup st b (inode_get st ROOT_DIR_INUM) = -1)
    (hlink : tfs_link st a b = some (st1, 0)) :
    ∃ (st2 st3 st4 : tfs_state) (h : Int),
      tfs_unlink st1 a = some (st2, 0) ∧
      st2.freeinode_ts[inode]? = some allocation_state_t.TAKEN ∧
      tfs_open st2 b 0 = some (st3, h) ∧
      (first_none st2.open_file_table ≠ none →
        0 ≤ h ∧ get_open_file_entry st3 h =
          some ⟨tfs_lookup st a (inode_get st ROOT_DIR_INUM), 0⟩) ∧
      (first_none st2.open_file_table = none → h = -1) ∧
      tfs_unlink st3 b = some (st4, 0) ∧
      st4.freeinode_ts[inode]? = some allocation_state_t.FREE ∧
      tfs_lookup st4 a (inode_get st4 ROOT_DIR_INUM) = -1 ∧
      tfs_lookup st4 b (inode_get st4 ROOT_DIR_INUM) = -1 := by
  have hinv := reachable_inv hreach
  obtain ⟨h0, _, hilt⟩ := inode_get_lt hname
  have hva := tfs_lookup_nonneg_valid h0
  have htail : a.tail ≠ b.tail := tail_ne_of_valid hva hvb hne
  have htail2 : b.tail ≠ a.tail := fun h => htail h.symm
  have hroot := inode_get_root hilt
  generalize hinum : tfs_lookup st a (inode_get st ROOT_DIR_INUM) = inum at *
  have hinum1 : inum ≠ -1 := by omega
  have hfa : dir_find st.dir_entries a.tail = inum := by rw [← tfs_lookup_eq hva]; exact hinum
  -- the link
  obtain ⟨d, hfb, hd, hst1⟩ := tfs_link_success hvb (by rw [hinum]; exact hname) hreg
    (by rw [hunused]; decide) hlink
  rw [hinum] at hd
  have hfd := dir_find_insert hd hfb hinum1
  have hnd : dir_nodup d := dir_insert_nodup hd hfb hinv.2.2.2.1
  have hlook : ∀ (s : tfs_state) (x : List Char), valid_pathname x = true →
      s.inode_table.length = st.inode_table.length →
      tfs_lookup s x (inode_get s ROOT_DIR_INUM) = dir_find s.dir_entries x.tail := by
    intro s x hx _
    exact tfs_lookup_eq hx
  have hget : ∀ s : tfs_state, s.inode_table.length = st.inode_table.length →
      inode_get s inum = some inode := by
    intro s hs
    rw [inode_get_congr hs]; exact hname
  -- unlink a
  have hlen1 : st1.inode_table.length = st.inode_table.length := by
    rw [hst1]; simp [inode_put]
  have hat1 : inode_at st1 inode =
      { inode_at st inode with hard_links := (inode_at st inode).hard_links + 1 } := by
    rw [hst1]
    exact inode_at_put_self hilt
  have hl1a : tfs_lookup st1 a (inode_get st1 ROOT_DIR_INUM) = inum := by
    rw [hlook st1 a hva hlen1, hst1]
    simp only []
    rw [hfd, if_neg htail, hfa]
  have hu1 := @tfs_unlink_hard st1 a inode (by rw [hl1a]; exact hget st1 hlen1)
    (by rw [hat1]; exact hreg) (by rw [hat1]; simp [hhl])
  have hfound1 : dir_find (inode_put st1 inode
      { inode_at st1 inode with hard_links := (inode_at st1 inode).hard_links - 1 }).dir_entries
      a.tail ≠ -1 := by
    show dir_find st1.dir_entries a.tail ≠ -1
    rw [hst1]; simp only []
    rw [hfd, if_neg htail, hfa]; exact hinum1
  obtain ⟨d2, hd2, hc2⟩ := clear_dir_entry_ok (inode_get st1 ROOT_DIR_INUM) hfound1
  rw [hc2] at hu1
  simp only [] at hu1
  have hd2' : dir_clear d a.tail = some d2 := by
    have : (inode_put st1 inode
      { inode_at st1 inode with hard_links := (inode_at st1 inode).hard_links - 1 }).dir_entries
        = d := by rw [hst1]; rfl
    rw [this] at hd2; exact hd2
  have hfd2 := dir_find_clear hd2' hnd
  have hnd2 : dir_nodup d2 := dir_clear_nodup hd2' hnd
  generalize hst2 : ({ inode_put st1 inode
      { inode_at st1 inode with hard_links := (inode_at st1 inode).hard_links - 1 } with
      dir_entries := d2 } : tfs_state) = st2 at hu1
  have hit2 : st2.inode_table = st1.inode_table.set inode
      { inode_at st1 inode with hard_links := (inode_at st1 inode).hard_links - 1 } := by
    rw [← hst2]; rfl
  have hlen2 : st2.inode_table.length = st.inode_table.length := by
    rw [hit2]; simp [hlen1]
  have hde2 : st2.dir_entries = d2 := by rw [← hst2]
  have hfi2 : st2.freeinode_ts = st.freeinode_ts := by rw [← hst2, hst1]; rfl
  have hat2 : inode_at st2 inode =
      { inode_at st1 inode with hard_links := (inode_at st1 inode).hard_links - 1 } := by
    simp [inode_at, hit2, List.getD_eq_getElem?_getD,
      List.getElem?_set_self (by rw [hlen1]; exact hilt : inode < st1.inode_table.length)]
  have hl2b : tfs_lookup st2 b (inode_get st2 ROOT_DIR_INUM) = inum := by
    rw [hlook st2 b hvb hlen2, hde2, hfd2, if_neg htail2, hfd, if_pos rfl]
  -- open b
  have ho := @tfs_open_existing st2 b 0 inode (by rw [hl2b]; exact hget st2 hlen2)
    (by rw [hat2, hat1]; exact hreg)
  rw [hl2b, tfs_open_found_plain inum inode (by decide) (by decide)] at ho
  generalize hres : add_to_open_file_table st2 inum 0 = res at ho
  have hres3 : res.1.inode_table = st2.inode_table ∧ res.1.dir_entries = st2.dir_entries ∧
      res.1.freeinode_ts = st2.freeinode_ts := by
    rw [← hres]; unfold add_to_open_file_table
    split <;> exact ⟨rfl, rfl, rfl⟩
  have hlen3 : res.1.inode_table.length = st.inode_table.length := by rw [hres3.1, hlen2]
  have hl3b : tfs_lookup res.1 b (inode_get res.1 ROOT_DIR_INUM) = inum := by
    rw [tfs_lookup_congr hres3.2.1 (by rw [hres3.1]), hl2b]
  have hat3 : inode_at res.1 inode = inode_at st2 inode := inode_at_congr hres3.1 _
  -- unlink b
  have hu3 := @tfs_unlink_last res.1 b inode (by rw [hl3b]; exact hget res.1 hlen3)
    (by rw [hat3, hat2, hat1]; exact hreg) (by rw [hat3, hat2, hat1]; simp [hhl])
  have hfound3 : dir_find res.1.dir_entries b.tail ≠ -1 := by
    rw [hres3.2.1, hde2, hfd2, if_neg htail2, hfd, if_pos rfl]; exact hinum1
  obtain ⟨d4, hd4, hc4⟩ := clear_dir_entry_ok (inode_get res.1 ROOT_DIR_INUM) hfound3
  rw [hc4, hl3b] at hu3
  simp only [] at hu3
  rw [hres3.2.1, hde2] at hd4
  have hfd4 := dir_find_clear hd4 hnd2
  have hget4 : inode_get ({ res.1 with dir_entries := d4 } : tfs_state) inum = some inode :=
    hget _ hlen3
  obtain ⟨hit4, hde4, _, _, _, hfi4, _⟩ := inode_delete_fields _ hget4
  refine ⟨st2, res.1, _, res.2, hu1, by rw [hfi2]; exact hlive, ho, ?_, ?_, hu3, ?_, ?_, ?_⟩
  · intro hsome
    have hne1 : res.2 ≠ -1 := by
      rw [← hres]; unfold add_to_open_file_table
      split
      · rename_i hn; exact absurd hn hsome
      · simp
    obtain ⟨k, _, hk, _, hentry⟩ := add_to_open_file_table_some hres hne1
    exact ⟨by rw [hk]; simp, hentry⟩
  · intro hnone
    rw [← hres, add_to_open_file_table_full _ _ hnone]
  · rw [hfi4]
    simp only []
    rw [hres3.2.2, hfi2]
    have : inode < st.freeinode_ts.length := by rw [hinv.2.1]; exact hilt
    exact List.getElem?_set_self this
  · rw [hlook _ a hva (by rw [hit4]; exact hlen3), hde4]
    simp only []
    rw [hfd4, if_neg htail, hfd2, if_pos rfl]
  · rw [hlook _ b hvb (by rw [hit4]; exact hlen3), hde4]
    simp only []
    rw [hfd4, if_pos rfl]


/-- Witness for C5: the scenario `open("/a", O_CREAT); close; link("/a", "/b");
unlink("/a"); open("/b", 0); unlink("/b")`. -/
theorem C5_witness :
    ∃ (st2 st3 st4 : tfs_state) (h : Int),
      tfs_unlink (state_after [call_open ['/', 'a'] TFS_O_CREAT, call_close 0,
        call_link ['/', 'a'] ['/', 'b']]) ['/', 'a'] = some (st2, 0) ∧
      tfs_open st2 ['/', 'b'] 0 = some (st3, h) ∧
      tfs_unlink st3 ['/', 'b'] = some (st4, 0) ∧
      st4.freeinode_ts[1]? = some allocation_state_t.FREE := by
  obtain ⟨st2, st3, st4, h, h1, _, h3, _, _, h6, h7, _⟩ :=
    C5_hard_link_reference_counting
      (state_after [call_open ['/', 'a'] TFS_O_CREAT, call_close 0])
      (state_after [call_open ['/', 'a'] TFS_O_CREAT, call_close 0,
        call_link ['/', 'a'] ['/', 'b']])
      ['/', 'a'] ['/', 'b'] 1 (reachable_state_after _ (by decide)) (by decide) (by decide)
      (by decide) (by decide) (by decide) (by decide) (by decide) (by decide)
  exact ⟨st2, st3, st4, h, h1, h3, h6, h7⟩

/-- Counterexample to C5 as stated: both slots of the open-file table are in use
(`/a` and `/c` are open); `link("/a", "/b")` and `unlink("/a")` succeed, but
`open("/b", 0)` returns `-1`, not a handle `≥ 0`. -/
theorem C5_counterexample :
    reachable (state_after [call_open ['/', 'a'] TFS_O_CREAT,
      call_open ['/', 'c'] TFS_O_CREAT]) ∧
    inode_get (state_after [call_open ['/', 'a'] TFS_O_CREAT,
      call_open ['/', 'c'] TFS_O_CREAT])
      (tfs_lookup (state_after [call_open ['/', 'a'] TFS_O_CREAT,
        call_open ['/', 'c'] TFS_O_CREAT]) ['/', 'a']
        (inode_get (state_after [call_open ['/', 'a'] TFS_O_CREAT,
          call_open ['/', 'c'] TFS_O_CREAT]) ROOT_DIR_INUM)) = some 1 ∧
    (inode_at (state_after [call_open ['/', 'a'] TFS_O_CREAT,
      call_open ['/', 'c'] TFS_O_CREAT]) 1).hard_links = 1 ∧
    tfs_lookup (state_after [call_open ['/', 'a'] TFS_O_CREAT,
      call_open ['/', 'c'] TFS_O_CREAT]) ['/', 'b']
      (inode_get (state_after [call_open ['/', 'a'] TFS_O_CREAT,
        call_open ['/', 'c'] TFS_O_CREAT]) ROOT_DIR_INUM) = -1 ∧
    tfs_link (state_after [call_open ['/', 'a'] TFS_O_CREAT,
      call_open ['/', 'c'] TFS_O_CREAT]) ['/', 'a'] ['/', 'b'] =
      some (state_after [call_open ['/', 'a'] TFS_O_CREAT, call_open ['/', 'c'] TFS_O_CREAT,
        call_link ['/', 'a'] ['/', 'b']], 0) ∧
    tfs_unlink (state_after [call_open ['/', 'a'] TFS_O_CREAT,
      call_open ['/', 'c'] TFS_O_CREAT, call_link ['/', 'a'] ['/', 'b']]) ['/', 'a'] =
      some (state_after [call_open ['/', 'a'] TFS_O_CREAT, call_open ['/', 'c'] TFS_O_CREAT,
        call_link ['/', 'a'] ['/', 'b'], call_unlink ['/', 'a']], 0) ∧
    tfs_open (state_after [call_open ['/', 'a'] TFS_O_CREAT, call_open ['/', 'c'] TFS_O_CREAT,
      call_link ['/', 'a'] ['/', 'b'], call_unlink ['/', 'a']]) ['/', 'b'] 0 =
      some (state_after [call_open ['/', 'a'] TFS_O_CREAT, call_open ['/', 'c'] TFS_O_CREAT,
        call_link ['/', 'a'] ['/', 'b'], call_unlink ['/', 'a']], -1) :=
  ⟨reachable_state_after _ (by decide), by decide, by decide, by decide, by decide, by decide,
    by decide⟩

theorem sym_link_step {st st1 : tfs_state} {f prev l : List Char} {inum : Int} {inode : Nat}
    (hF : names_file st f inum inode)
    (hprev : prev = f ∨ points_to st f prev)
    (hlink : tfs_sym_link st prev l = some (st1, 0)) :
    names_file st1 f inum inode ∧ points_to st1 f l ∧
      ∀ x, points_to st f x → points_to st1 f x := by
  obtain ⟨hinv, hlf, hgf, hregf, hlivef⟩ := hF
  have hinv1 : state_inv st1 := inv_tfs_sym_link hinv hlink
  -- the inode `prev` resolves to
  obtain ⟨p, hnamep, hlivep, hpath⟩ : ∃ p : Nat,
      inode_get st (tfs_lookup st prev (inode_get st ROOT_DIR_INUM)) = some p ∧
      st.freeinode_ts[p]? = some allocation_state_t.TAKEN ∧
      (if (inode_at st p).sym_link = true then (inode_at st p).sym_path else prev) = f := by
    rcases hprev with h | ⟨q, h1, h2, h3, h4⟩
    · subst h
      exact ⟨inode, by rw [hlf]; exact hgf, hlivef, by simp [hregf]⟩
    · exact ⟨q, h1, h2, by simp [h3, h4]⟩
  obtain ⟨q, d, hvl, hq, hql, hqp, hf, hd, hst1⟩ := tfs_sym_link_success hnamep hlivep hlink
  have hq1 : (q : Int) ≠ -1 := by omega
  have hfd := dir_find_insert hd hf hq1
  have hqfree := first_free_get hq
  have hqlt := first_free_lt hq
  have hlen1 : st1.inode_table.length = st.inode_table.length := by rw [hst1]; simp
  have hde1 : st1.dir_entries = d := by rw [hst1]
  have hfi1 : st1.freeinode_ts = st.freeinode_ts.set q allocation_state_t.TAKEN := by rw [hst1]
  have hatq : (inode_at st1 q).sym_link = true ∧ (inode_at st1 q).sym_path = f := by
    rw [hst1, ← hpath]
    generalize inode_at st p = ip
    simp only [inode_at, List.getD_eq_getElem?_getD, List.getElem?_set_self hql,
      Option.getD_some]
    split <;> simp
  -- whatever resolved before and was live, resolves to the same unchanged inode
  have hkeep : ∀ (x : List Char) (r : Nat),
      inode_get st (tfs_lookup st x (inode_get st ROOT_DIR_INUM)) = some r →
      st.freeinode_ts[r]? = some allocation_state_t.TAKEN →
      inode_get st1 (tfs_lookup st1 x (inode_get st1 ROOT_DIR_INUM)) = some r ∧
        st1.freeinode_ts[r]? = some allocation_state_t.TAKEN ∧
        inode_at st1 r = inode_at st r ∧
        tfs_lookup st1 x (inode_get st1 ROOT_DIR_INUM) =
          tfs_lookup st x (inode_get st ROOT_DIR_INUM) := by
    intro x r hx hr
    obtain ⟨hx0, _, _⟩ := inode_get_lt hx
    have hvx := tfs_lookup_nonneg_valid hx0
    have hxl : x.tail ≠ l.tail := by
      intro h
      rw [tfs_lookup_eq hvx, h, hf] at hx0
      omega
    have hqr : q ≠ r := by
      intro h
      rw [h, hr] at hqfree
      cases hqfree
    have hlx : tfs_lookup st1 x (inode_get st1 ROOT_DIR_INUM) =
        tfs_lookup st x (inode_get st ROOT_DIR_INUM) := by
      rw [tfs_lookup_eq hvx, tfs_lookup_eq hvx, hde1, hfd, if_neg hxl]
    refine ⟨by rw [hlx, inode_get_congr hlen1]; exact hx, ?_, ?_, hlx⟩
    · rw [hfi1, List.getElem?_set_ne hqr]; exact hr
    · rw [hst1]
      simp [inode_at, List.getD_eq_getElem?_getD, List.getElem?_set_ne hqr]
  refine ⟨?_, ?_, ?_⟩
  · obtain ⟨_, h2, h3, h4⟩ := hkeep f inode (by rw [hlf]; exact hgf) hlivef
    exact ⟨hinv1, by rw [h4, hlf], by rw [inode_get_congr hlen1]; exact hgf,
      by rw [h3]; exact hregf, h2⟩
  · refine ⟨q, ?_, ?_, hatq.1, hatq.2⟩
    · rw [tfs_lookup_eq hvl, hde1, hfd, if_pos rfl]
      exact inode_get_cast (by rw [hlen1]; exact hql)
    · rw [hfi1]; exact List.getElem?_set_self hqlt
  · rintro x ⟨r, h1, h2, h3, h4⟩
    obtain ⟨k1, k2, k3, _⟩ := hkeep x r h1 h2
    exact ⟨r, k1, k2, by rw [k3]; exact h3, by rw [k3]; exact h4⟩

theorem sym_link_chain_points {f : List Char} {inum : Int} {inode : Nat}
    (links : List (List Char)) :
    ∀ (st st1 : tfs_state) (prev : List Char), names_file st f inum inode →
      (prev = f ∨ points_to st f prev) → sym_link_chain st prev links = some st1 →
      names_file st1 f inum inode ∧ (∀ l ∈ links, points_to st1 f l) ∧
        ∀ x, points_to st f x → points_to st1 f x := by
  induction links with
  | nil =>
    intro st st1 prev hF _ h
    simp only [sym_link_chain, Option.some.injEq] at h
    subst h
    exact ⟨hF, by simp, fun x hx => hx⟩
  | cons l ls ih =>
    intro st st1 prev hF hprev h
    simp only [sym_link_chain] at h
    cases hs : tfs_sym_link st prev l with
    | none => rw [hs] at h; cases h
    | some r =>
      rw [hs] at h
      simp only [] at h
      by_cases hr : r.2 = 0
      · rw [if_pos hr] at h
        have hs2 : tfs_sym_link st prev l = some (r.1, 0) := by rw [hs, ← hr]
        obtain ⟨hF1, hl, hold⟩ := sym_link_step hF hprev hs2
        obtain ⟨hF2, hls, hold2⟩ := ih r.1 st1 l hF1 (Or.inr hl) h
        refine ⟨hF2, ?_, fun x hx => hold2 x (hold x hx)⟩
        intro x hx
        rcases List.mem_cons.mp hx with h | h
        · rw [h]; exact hold2 l hl
        · exact hls x h
      · rw [if_neg hr] at h
        cases h


/-- C6 (amended): after a live regular file `f` and the symbolic links `l0 .. lk`
have been created with `tfs_sym_link(f, l0)`, `tfs_sym_link(l0, l1)`, ..., each
call returning 0, `tfs_open(li, 0)` for every `i` returns a handle at offset 0 on
`f`'s inumber when the open-file table has an empty slot, and `-1` when it has
none; and when a write at that handle succeeds, reopening `f` and reading gives
back the bytes written. -/
theorem C6_symlink_chain_reaches_file (st st1 : tfs_state) (f : List Char)
    (links : List (List Char)) (inode : Nat)
    (hreach : reachable st)
    (hname : inode_get st (tfs_lookup st f (inode_get st ROOT_DIR_INUM)) = some inode)
    (hreg : (inode_at st inode).sym_link = false)
    (hlive : st.freeinode_ts[inode]? = some allocation_state_t.TAKEN)
    (hchain : sym_link_chain st f links = some st1) :
    ∀ l ∈ links, ∃ (st2 : tfs_state) (h : Int),
      tfs_open st1 l 0 = some (st2, h) ∧
      (first_none st1.open_file_table ≠ none →
        0 ≤ h ∧ get_open_file_entry st2 h =
          some ⟨tfs_lookup st f (inode_get st ROOT_DIR_INUM), 0⟩) ∧
      (first_none st1.open_file_table = none → h = -1) ∧
      (h ≠ -1 → ∀ (buf : List Nat) (n : Nat) (reclose : Bool) (st3 st4 : tfs_state)
          (r h4 : Int),
        n < SIZE_MOD → n ≤ buf.length →
        tfs_write st2 h buf n = some (st3, r) → r ≠ -1 →
        tfs_open (if reclose = true then (tfs_close st3 h).1 else st3) f 0 = some (st4, h4) →
        h4 ≠ -1 →
        ∃ st5 : tfs_state,
          tfs_read st4 h4 n =
            some (st5, ((min n st2.block_size : Nat) : Int),
              buf.take (min n st2.block_size))) := by
  intro l hl
  have hF : names_file st f (tfs_lookup st f (inode_get st ROOT_DIR_INUM)) inode :=
    ⟨reachable_inv hreach, rfl, hname, hreg, hlive⟩
  obtain ⟨⟨hinv1, hlf1, hgf1, hreg1, _⟩, hpts, _⟩ :=
    sym_link_chain_points links st st1 f hF (Or.inl rfl) hchain
  obtain ⟨q, hq1, _, hq3, hq4⟩ := hpts l hl
  generalize hinum : tfs_lookup st f (inode_get st ROOT_DIR_INUM) = inum at *
  obtain ⟨_, hieq, hilt⟩ := inode_get_lt hgf1
  have ho := tfs_open_symlink 0 hq1 hq3 (by rw [hq4, hlf1]; exact hgf1)
  rw [hq4, hlf1, tfs_open_found_plain inum inode (by decide) (by decide)] at ho
  generalize hres : add_to_open_file_table st1 inum 0 = res at ho
  refine ⟨res.1, res.2, ho, ?_, ?_, ?_⟩
  · intro hsome
    have hne1 : res.2 ≠ -1 := by
      rw [← hres]; unfold add_to_open_file_table
      split
      · rename_i hn; exact absurd hn hsome
      · simp
    obtain ⟨k, _, hk, _, hentry⟩ := add_to_open_file_table_some hres hne1
    exact ⟨by rw [hk]; simp, hentry⟩
  · intro hnone
    rw [← hres, add_to_open_file_table_full _ _ hnone]
  · intro hne1 buf n reclose st3 st4 r h4 hn hbuf hwrite hr hopen hh4
    obtain ⟨k, _, _, hst2, hentry⟩ := add_to_open_file_table_some hres hne1
    have hinv2 : state_inv res.1 := inv_tfs_open hinv1 ho
    have hit2 : res.1.inode_table = st1.inode_table := by rw [hst2]
    have hde2 : res.1.dir_entries = st1.dir_entries := by rw [hst2]
    exact write_read_round_trip_core res.1 res.2 buf n ⟨inum, 0⟩ f 0 reclose st3 st4 r h4
      hinv2 hentry rfl
      (by
        show (inode_at res.1 inum.toNat).sym_link = false
        rw [inode_at_congr hit2, ← hieq]; exact hreg1)
      hn hbuf hwrite hr
      (by
        show tfs_lookup res.1 f (inode_get res.1 ROOT_DIR_INUM) = inum
        rw [tfs_lookup_congr hde2 (by rw [hit2]), hlf1])
      (by decide) (by decide) hopen hh4

/-- Witness for C6: `/l0` links to the file `/f` and `/l1` to `/l0`; opening `/l1`
gives handle 0 on inode 1, the inode of `/f`. -/
theorem C6_witness :
    ∃ (st2 : tfs_state) (h : Int),
      tfs_open (state_after [call_open ['/', 'f'] TFS_O_CREAT, call_close 0,
        call_sym_link ['/', 'f'] ['/', 'l', '0'],
        call_sym_link ['/', 'l', '0'] ['/', 'l', '1']]) ['/', 'l', '1'] 0 = some (st2, h) ∧
      (0 ≤ h ∧ get_open_file_entry st2 h = some ⟨1, 0⟩) := by
  obtain ⟨st2, h, h1, h2, _⟩ := C6_symlink_chain_reaches_file
    (state_after [call_open ['/', 'f'] TFS_O_CREAT, call_close 0])
    (state_after [call_open ['/', 'f'] TFS_O_CREAT, call_close 0,
      call_sym_link ['/', 'f'] ['/', 'l', '0'],
      call_sym_link ['/', 'l', '0'] ['/', 'l', '1']])
    ['/', 'f'] [['/', 'l', '0'], ['/', 'l', '1']] 1
    (reachable_state_after _ (by decide)) (by decide) (by decide) (by decide) (by decide)
    ['/', 'l', '1'] (by decide)
  exact ⟨st2, h, h1, h2 (by decide)⟩

/-- Counterexample to C6 as stated (`k = 0`): with both slots of the open-file
table in use (`/f` and `/g` are open), `sym_link("/f", "/l0")` succeeds but
`open("/l0", 0)` returns `-1`. -/
theorem C6_counterexample :
    reachable (state_after [call_open ['/', 'f'] TFS_O_CREAT,
      call_open ['/', 'g'] TFS_O_CREAT]) ∧
    sym_link_chain (state_after [call_open ['/', 'f'] TFS_O_CREAT,
      call_open ['/', 'g'] TFS_O_CREAT]) ['/', 'f'] [['/', 'l', '0']] =
      some (state_after [call_open ['/', 'f'] TFS_O_CREAT, call_open ['/', 'g'] TFS_O_CREAT,
        call_sym_link ['/', 'f'] ['/', 'l', '0']]) ∧
    tfs_open (state_after [call_open ['/', 'f'] TFS_O_CREAT, call_open ['/', 'g'] TFS_O_CREAT,
      call_sym_link ['/', 'f'] ['/', 'l', '0']]) ['/', 'l', '0'] 0 =
      some (state_after [call_open ['/', 'f'] TFS_O_CREAT, call_open ['/', 'g'] TFS_O_CREAT,
        call_sym_link ['/', 'f'] ['/', 'l', '0']], -1) :=
  ⟨reachable_state_after _ (by decide), by decide, by decide⟩

/-- C7 (amended): a successful `tfs_sym_link(target, link_name)` on a live target
adds a directory entry for `link_name` naming a new inode with `sym_link = true`.
When the target is a regular file the new inode has `sym_path` equal to the
target string, `size = 0` and no data block; when the target is itself a
symbolic link the new inode's `sym_path`, `size` and `i_data_block` are copies
of the target inode's.  No field of the target inode changes. -/
theorem C7_sym_link_new_inode (st st1 : tfs_state) (target link_name : List Char) (p : Nat)
    (hname : inode_get st (tfs_lookup st target (inode_get st ROOT_DIR_INUM)) = some p)
    (hlive : st.freeinode_ts[p]? = some allocation_state_t.TAKEN)
    (hlink : tfs_sym_link st target link_name = some (st1, 0)) :
    ∃ q : Nat,
      tfs_lookup st link_name (inode_get st ROOT_DIR_INUM) = -1 ∧
      tfs_lookup st1 link_name (inode_get st1 ROOT_DIR_INUM) = (q : Int) ∧
      inode_get st1 (q : Int) = some q ∧ q ≠ p ∧
      st.freeinode_ts[q]? = some allocation_state_t.FREE ∧
      (inode_at st1 q).sym_link = true ∧
      ((inode_at st p).sym_link = false →
        (inode_at st1 q).sym_path = target ∧ (inode_at st1 q).i_size = 0 ∧
          (inode_at st1 q).i_data_block = -1) ∧
      ((inode_at st p).sym_link = true →
        (inode_at st1 q).sym_path = (inode_at st p).sym_path ∧
          (inode_at st1 q).i_size = (inode_at st p).i_size ∧
          (inode_at st1 q).i_data_block = (inode_at st p).i_data_block) ∧
      inode_at st1 p = inode_at st p := by
  obtain ⟨q, d, hvl, hq, hql, hqp, hf, hd, hst1⟩ := tfs_sym_link_success hname hlive hlink
  have hq1 : (q : Int) ≠ -1 := by omega
  have hfd := dir_find_insert hd hf hq1
  have hatq : inode_at st1 q = (if (inode_at st p).sym_link = true then
      ⟨inode_type.T_FILE, (inode_at st p).i_size, (inode_at st p).i_data_block, 1, true,
        (inode_at st p).sym_path⟩
      else ⟨inode_type.T_FILE, 0, -1, 1, true, target⟩) := by
    rw [hst1]
    simp only [inode_at, List.getD_eq_getElem?_getD, List.getElem?_set_self hql,
      Option.getD_some]
  refine ⟨q, ?_, ?_, ?_, hqp, first_free_get hq, ?_, ?_, ?_, ?_⟩
  · rw [tfs_lookup_eq hvl]; exact hf
  · rw [tfs_lookup_eq hvl, hst1]
    simp only []
    rw [hfd, if_pos rfl]
  · rw [hst1]; simp [inode_get, hql]
  · rw [hatq]; split <;> rfl
  · intro hreg
    rw [hatq]; simp [hreg]
  · intro hsym
    rw [hatq]; simp [hsym]
  · rw [hst1]
    simp [inode_at, List.getD_eq_getElem?_getD, List.getElem?_set_ne hqp]

/-- Witness for C7: `sym_link("/f", "/l")` on a fresh regular file `/f` (inode 1)
creates inode 2 pointing to `"/f"`. -/
theorem C7_witness :
    ∃ (st1 : tfs_state) (q : Nat),
      tfs_sym_link (state_after [call_open ['/', 'f'] TFS_O_CREAT, call_close 0])
        ['/', 'f'] ['/', 'l'] = some (st1, 0) ∧
      tfs_lookup st1 ['/', 'l'] (inode_get st1 ROOT_DIR_INUM) = (q : Int) ∧
      (inode_at st1 q).sym_link = true ∧ (inode_at st1 q).sym_path = ['/', 'f'] := by
  have hlink : tfs_sym_link (state_after [call_open ['/', 'f'] TFS_O_CREAT, call_close 0])
      ['/', 'f'] ['/', 'l'] =
      some (state_after [call_open ['/', 'f'] TFS_O_CREAT, call_close 0,
        call_sym_link ['/', 'f'] ['/', 'l']], 0) := by decide
  obtain ⟨q, _, h2, _, _, _, h6, h7, _⟩ := C7_sym_link_new_inode _ _ ['/', 'f'] ['/', 'l'] 1
    (by decide) (by decide) hlink
  exact ⟨_, q, hlink, h2, h6, (h7 (by decide)).1⟩

/-- Counterexample to C7 as stated: `/l0` is a symbolic link to `/f`;
`sym_link("/l0", "/l1")` succeeds and the new inode (inode 3) has `sym_path`
`"/f"`, not the target string `"/l0"` that was passed in. -/
theorem C7_counterexample :
    reachable (state_after [call_open ['/', 'f'] TFS_O_CREAT, call_close 0,
      call_sym_link ['/', 'f'] ['/', 'l', '0']]) ∧
    tfs_lookup (state_after [call_open ['/', 'f'] TFS_O_CREAT, call_close 0,
      call_sym_link ['/', 'f'] ['/', 'l', '0']]) ['/', 'l', '1']
      (inode_get (state_after [call_open ['/', 'f'] TFS_O_CREAT, call_close 0,
        call_sym_link ['/', 'f'] ['/', 'l', '0']]) ROOT_DIR_INUM) = -1 ∧
    tfs_sym_link (state_after [call_open ['/', 'f'] TFS_O_CREAT, call_close 0,
      call_sym_link ['/', 'f'] ['/', 'l', '0']]) ['/', 'l', '0'] ['/', 'l', '1'] =
      some (state_after [call_open ['/', 'f'] TFS_O_CREAT, call_close 0,
        call_sym_link ['/', 'f'] ['/', 'l', '0'],
        call_sym_link ['/', 'l', '0'] ['/', 'l', '1']], 0) ∧
    tfs_lookup (state_after [call_open ['/', 'f'] TFS_O_CREAT, call_close 0,
      call_sym_link ['/', 'f'] ['/', 'l', '0'],
      call_sym_link ['/', 'l', '0'] ['/', 'l', '1']]) ['/', 'l', '1']
      (inode_get (state_after [call_open ['/', 'f'] TFS_O_CREAT, call_close 0,
        call_sym_link ['/', 'f'] ['/', 'l', '0'],
        call_sym_link ['/', 'l', '0'] ['/', 'l', '1']]) ROOT_DIR_INUM) = 3 ∧
    (inode_at (state_after [call_open ['/', 'f'] TFS_O_CREAT, call_close 0,
      call_sym_link ['/', 'f'] ['/', 'l', '0'],
      call_sym_link ['/', 'l', '0'] ['/', 'l', '1']]) 3).sym_path = ['/', 'f'] ∧
    (inode_at (state_after [call_open ['/', 'f'] TFS_O_CREAT, call_close 0,
      call_sym_link ['/', 'f'] ['/', 'l', '0'],
      call_sym_link ['/', 'l', '0'] ['/', 'l', '1']]) 3).sym_path ≠ ['/', 'l', '0'] :=
  ⟨reachable_state_after _ (by decide), by decide, by decide, by decide, by decide, by decide⟩

/-- C8 (amended): when the symbolic link `s` was created with `tfs_sym_link(t, s)`
on a live regular file `t` and `t` was then removed with `tfs_unlink(t)`,
`tfs_open(s, mode)` returns `-1` for every mode and leaves the whole state (inode
table, bitmaps, directory, open-file table) as it was, and `s` still resolves to
its own inode. -/
theorem C8_broken_link (st st1 st2 : tfs_state) (t s : List Char) (p : Nat) (r : Int)
    (hreach : reachable st)
    (hname : inode_get st (tfs_lookup st t (inode_get st ROOT_DIR_INUM)) = some p)
    (hreg : (inode_at st p).sym_link = false)
    (hlive : st.freeinode_ts[p]? = some allocation_state_t.TAKEN)
    (hlink : tfs_sym_link st t s = some (st1, 0))
    (hunlink : tfs_unlink st1 t = some (st2, r)) :
    r = 0 ∧ tfs_lookup st2 t (inode_get st2 ROOT_DIR_INUM) = -1 ∧
    (∀ mode : Nat, tfs_open st2 s mode = some (st2, -1)) ∧
    ∃ q : Nat, tfs_lookup st2 s (inode_get st2 ROOT_DIR_INUM) = (q : Int) ∧
      (inode_at st2 q).sym_link = true ∧ (inode_at st2 q).sym_path = t := by
  have hinv := reachable_inv hreach
  obtain ⟨h0, _, hplt⟩ := inode_get_lt hname
  have hvt := tfs_lookup_nonneg_valid h0
  obtain ⟨q, d, hvs, hq, hql, hqp, hf, hd, hst1⟩ := tfs_sym_link_success hname hlive hlink
  rw [hreg] at hst1
  simp only [Bool.false_eq_true, if_false] at hst1
  have hq1 : (q : Int) ≠ -1 := by omega
  have hfd := dir_find_insert hd hf hq1
  have hnd : dir_nodup d := dir_insert_nodup hd hf hinv.2.2.2.1
  have hft : dir_find st.dir_entries t.tail =
      tfs_lookup st t (inode_get st ROOT_DIR_INUM) := (tfs_lookup_eq hvt).symm
  have hts : t.tail ≠ s.tail := by
    intro h
    rw [h, hf] at hft
    omega
  have hst : s.tail ≠ t.tail := fun h => hts h.symm
  have hlen1 : st1.inode_table.length = st.inode_table.length := by rw [hst1]; simp
  have hde1 : st1.dir_entries = d := by rw [hst1]
  have hatq1 : inode_at st1 q = ⟨inode_type.T_FILE, 0, -1, 1, true, t⟩ := by
    rw [hst1]
    simp [inode_at, List.getD_eq_getElem?_getD, List.getElem?_set_self hql]
  have hatp1 : inode_at st1 p = inode_at st p := by
    rw [hst1]
    simp [inode_at, List.getD_eq_getElem?_getD, List.getElem?_set_ne hqp]
  have hl1t : tfs_lookup st1 t (inode_get st1 ROOT_DIR_INUM) =
      tfs_lookup st t (inode_get st ROOT_DIR_INUM) := by
    rw [tfs_lookup_eq hvt, hde1, hfd, if_neg hts, hft]
  have hname1 : inode_get st1 (tfs_lookup st1 t (inode_get st1 ROOT_DIR_INUM)) = some p := by
    rw [hl1t, inode_get_congr hlen1, hname]
  obtain ⟨hr, ⟨d2, hd2, hde2⟩, hlen2, _, hother⟩ :=
    tfs_unlink_regular hname1 (by rw [hatp1]; exact hreg) hunlink
  rw [hde1] at hd2
  have hfd2 := dir_find_clear hd2 hnd
  have hlen2' : st2.inode_table.length = st.inode_table.length := by rw [hlen2, hlen1]
  have hatq2 : inode_at st2 q = ⟨inode_type.T_FILE, 0, -1, 1, true, t⟩ := by
    rw [hother q hqp, hatq1]
  have hl2s : tfs_lookup st2 s (inode_get st2 ROOT_DIR_INUM) = (q : Int) := by
    rw [tfs_lookup_eq hvs, hde2, hfd2, if_neg hst, hfd, if_pos rfl]
  have hl2t : tfs_lookup st2 t (inode_get st2 ROOT_DIR_INUM) = -1 := by
    rw [tfs_lookup_eq hvt, hde2, hfd2, if_pos rfl]
  have hname2 : inode_get st2 (tfs_lookup st2 s (inode_get st2 ROOT_DIR_INUM)) = some q := by
    rw [hl2s]
    exact inode_get_cast (by rw [hlen2']; exact hql)
  refine ⟨hr, hl2t, fun mode => ?_, q, hl2s, by rw [hatq2], by rw [hatq2]⟩
  apply tfs_open_broken mode hname2 (by rw [hatq2])
  rw [hatq2]
  simp only []
  rw [hl2t]
  decide

/-- Witness for C8: `/s` links to the regular file `/f`; after `unlink("/f")`,
`open("/s", TFS_O_CREAT)` returns `-1`. -/
theorem C8_witness :
    tfs_open (state_after [call_open ['/', 'f'] TFS_O_CREAT, call_close 0,
      call_sym_link ['/', 'f'] ['/', 's'], call_unlink ['/', 'f']]) ['/', 's'] TFS_O_CREAT =
      some (state_after [call_open ['/', 'f'] TFS_O_CREAT, call_close 0,
        call_sym_link ['/', 'f'] ['/', 's'], call_unlink ['/', 'f']], -1) :=
  (C8_broken_link (state_after [call_open ['/', 'f'] TFS_O_CREAT, call_close 0])
    (state_after [call_open ['/', 'f'] TFS_O_CREAT, call_close 0,
      call_sym_link ['/', 'f'] ['/', 's']])
    (state_after [call_open ['/', 'f'] TFS_O_CREAT, call_close 0,
      call_sym_link ['/', 'f'] ['/', 's'], call_unlink ['/', 'f']])
    ['/', 'f'] ['/', 's'] 1 0 (reachable_state_after _ (by decide)) (by decide) (by decide)
    (by decide) (by decide) (by decide)).2.2.1 TFS_O_CREAT

/-- Counterexample to C8 as stated: `/t` is a symbolic link to `/f` and `/s` is
created with `sym_link("/t", "/s")`; after `unlink("/t")`, `open("/s", 0)`
succeeds with handle 0 and adds an open-file entry on inode 1 (`/f`). -/
theorem C8_counterexample :
    reachable (state_after [call_open ['/', 'f'] TFS_O_CREAT, call_close 0,
      call_sym_link ['/', 'f'] ['/', 't']]) ∧
    tfs_sym_link (state_after [call_open ['/', 'f'] TFS_O_CREAT, call_close 0,
      call_sym_link ['/', 'f'] ['/', 't']]) ['/', 't'] ['/', 's'] =
      some (state_after [call_open ['/', 'f'] TFS_O_CREAT, call_close 0,
        call_sym_link ['/', 'f'] ['/', 't'], call_sym_link ['/', 't'] ['/', 's']], 0) ∧
    tfs_unlink (state_after [call_open ['/', 'f'] TFS_O_CREAT, call_close 0,
      call_sym_link ['/', 'f'] ['/', 't'], call_sym_link ['/', 't'] ['/', 's']]) ['/', 't'] =
      some (state_after [call_open ['/', 'f'] TFS_O_CREAT, call_close 0,
        call_sym_link ['/', 'f'] ['/', 't'], call_sym_link ['/', 't'] ['/', 's'],
        call_unlink ['/', 't']], 0) ∧
    tfs_lookup (state_after [call_open ['/', 'f'] TFS_O_CREAT, call_close 0,
      call_sym_link ['/', 'f'] ['/', 't'], call_sym_link ['/', 't'] ['/', 's'],
      call_unlink ['/', 't']]) ['/', 't']
      (inode_get (state_after [call_open ['/', 'f'] TFS_O_CREAT, call_close 0,
        call_sym_link ['/', 'f'] ['/', 't'], call_sym_link ['/', 't'] ['/', 's'],
        call_unlink ['/', 't']]) ROOT_DIR_INUM) = -1 ∧
    ∃ st3 : tfs_state,
      tfs_open (state_after [call_open ['/', 'f'] TFS_O_CREAT, call_close 0,
        call_sym_link ['/', 'f'] ['/', 't'], call_sym_link ['/', 't'] ['/', 's'],
        call_unlink ['/', 't']]) ['/', 's'] 0 = some (st3, 0) ∧
      get_open_file_entry st3 0 = some ⟨1, 0⟩ :=
  ⟨reachable_state_after _ (by decide), by decide, by decide, by decide,
    state_after [call_open ['/', 'f'] TFS_O_CREAT, call_close 0,
      call_sym_link ['/', 'f'] ['/', 't'], call_sym_link ['/', 't'] ['/', 's'],
      call_unlink ['/', 't'], call_open ['/', 's'] 0],
    by decide, by decide⟩

/-! ## Calls that return an error -/

theorem list_set_set_restore {α : Type} (l : List α) (i : Nat) (a b : α)
    (h : l[i]? = some b) : (l.set i a).set i b = l := by
  rw [List.set_set]
  exact list_set_getElem?_self l i b h

/-- The slip left out of C9: `link("/f", "/x")` into a full directory returns
`-1` and leaves the link count of `/f` incremented (3 names, count 4). -/
theorem tfs_link_full_directory_count :
    (inode_at (state_after [call_open ['/', 'f'] TFS_O_CREAT, call_close 0,
      call_link ['/', 'f'] ['/', 'g'], call_link ['/', 'f'] ['/', 'h']]) 1).hard_links = 3 ∧
    (tfs_link (state_after [call_open ['/', 'f'] TFS_O_CREAT, call_close 0,
      call_link ['/', 'f'] ['/', 'g'], call_link ['/', 'f'] ['/', 'h']])
      ['/', 'f'] ['/', 'x']).map (fun r => (r.2, (inode_at r.1 1).hard_links)) =
      some (-1, 4) := by
  decide

theorem dir_find_mem {l : List dir_entry_t} {n : List Char} (h : dir_find l n ≠ -1) :
    ∃ e ∈ l, e.d_inumber ≠ -1 ∧ dir_find l n = e.d_inumber := by
  induction l with
  | nil => simp [dir_find] at h
  | cons a l ih =>
    simp only [dir_find] at h ⊢
    by_cases hc : a.d_inumber ≠ -1 ∧ a.d_name = n
    · rw [if_pos hc]
      exact ⟨a, List.mem_cons_self _ _, hc.1, rfl⟩
    · rw [if_neg hc] at h ⊢
      obtain ⟨e, he, h1, h2⟩ := ih h
      exact ⟨e, List.mem_cons_of_mem _ he, h1, h2⟩

theorem dir_filter_none {l : List dir_entry_t} {n : List Char} (h : dir_find l n = -1) :
    l.filter (fun e => decide (e.d_inumber ≠ -1 ∧ e.d_name = n)) = [] := by
  induction l with
  | nil => rfl
  | cons a l ih =>
    simp only [dir_find] at h
    by_cases hc : a.d_inumber ≠ -1 ∧ a.d_name = n
    · rw [if_pos hc] at h
      exact absurd h hc.1
    · rw [if_neg hc] at h
      rw [List.filter_cons_of_neg (by simpa using hc)]
      exact ih h

/-- In a directory without duplicates a name that resolves has exactly one live
entry, the one `dir_find` returns. -/
theorem dir_filter_one {l : List dir_entry_t} {n : List Char} (hnd : dir_nodup l)
    (h : dir_find l n ≠ -1) :
    l.filter (fun e => decide (e.d_inumber ≠ -1 ∧ e.d_name = n)) = [⟨n, dir_find l n⟩] := by
  induction l with
  | nil => simp [dir_find] at h
  | cons a l ih =>
    simp only [dir_find] at h ⊢
    by_cases hc : a.d_inumber ≠ -1 ∧ a.d_name = n
    · rw [if_pos hc]
      rw [List.filter_cons_of_pos (by simpa using hc)]
      have hrest := hnd.1 hc.1
      rw [hc.2] at hrest
      rw [dir_filter_none hrest]
      cases a
      simp only [] at hc
      simp [hc.2]
    · rw [if_neg hc] at h ⊢
      rw [List.filter_cons_of_neg (by simpa using hc)]
      exact ih hnd.2 h

theorem lookup_inode_get {st : tfs_state} {name : List Char} (hinv : state_inv st)
    (h : 0 ≤ tfs_lookup st name (inode_get st ROOT_DIR_INUM)) :
    ∃ p, inode_get st (tfs_lookup st name (inode_get st ROOT_DIR_INUM)) = some p := by
  have hv := tfs_lookup_nonneg_valid h
  rw [tfs_lookup_eq hv] at h ⊢
  have hne : dir_find st.dir_entries name.tail ≠ -1 := by omega
  obtain ⟨e, he, h1, h2⟩ := dir_find_mem hne
  have hok := hinv.2.2.2.2.2.1 e he h1
  rw [h2]
  exact ⟨e.d_inumber.toNat, by simp [inode_get, hok.1, hok.2]⟩

theorem add_dir_entry_exists {st : tfs_state} (r : Option Nat) {n : List Char} (i : Int)
    (h : dir_find st.dir_entries n ≠ -1) : add_dir_entry st r n i = (st, -1) := by
  simp [add_dir_entry, h]

theorem inode_delete_dir (st : tfs_state) (i : Int) :
    (inode_delete st i).dir_entries = st.dir_entries := by
  unfold inode_delete
  split
  · rfl
  · simp only []
    split
    · unfold data_block_free; split <;> rfl
    · rfl

theorem tfs_sym_link_add_exists {st : tfs_state} (r : Option Nat) {l : List Char} (q : Int)
    (h : dir_find st.dir_entries l.tail ≠ -1) :
    (tfs_sym_link_add st r l q).2 = -1 ∧
      (tfs_sym_link_add st r l q).1.dir_entries = st.dir_entries := by
  unfold tfs_sym_link_add
  rw [add_dir_entry_exists r q h]
  exact ⟨rfl, inode_delete_dir _ _⟩

/-- C10: when `link_name` already resolves, `tfs_link(target, link_name)` and
`tfs_sym_link(target, link_name)` return `-1` for every target and leave the
directory as it was, with exactly one live entry for `link_name`, naming the
inumber it named before. -/
theorem C10_no_duplicate_names (st : tfs_state) (target link_name : List Char)
    (hreach : reachable st)
    (hexists : 0 ≤ tfs_lookup st link_name (inode_get st ROOT_DIR_INUM)) :
    (∃ st1 : tfs_state, tfs_link st target link_name = some (st1, -1) ∧
      st1.dir_entries = st.dir_entries) ∧
    (∃ st1 : tfs_state, tfs_sym_link st target link_name = some (st1, -1) ∧
      st1.dir_entries = st.dir_entries) ∧
    st.dir_entries.filter
        (fun e => decide (e.d_inumber ≠ -1 ∧ e.d_name = link_name.tail)) =
      [⟨link_name.tail, tfs_lookup st link_name (inode_get st ROOT_DIR_INUM)⟩] := by
  have hinv := reachable_inv hreach
  have hvl := tfs_lookup_nonneg_valid hexists
  have hfl : dir_find st.dir_entries link_name.tail ≠ -1 := by
    rw [← tfs_lookup_eq hvl]; omega
  refine ⟨?_, ?_, ?_⟩
  · -- tfs_link
    by_cases hvt : valid_pathname target = true
    · by_cases hneg : tfs_lookup st target (inode_get st ROOT_DIR_INUM) < 0
      · exact ⟨st, by simp [tfs_link, hvt, hvl, hneg], rfl⟩
      · obtain ⟨p, hp⟩ := lookup_inode_get hinv (by omega :
          0 ≤ tfs_lookup st target (inode_get st ROOT_DIR_INUM))
        by_cases hsym : (inode_at st p).sym_link = true
        · exact ⟨st, by simp [tfs_link, hvt, hvl, hneg, hp, hsym], rfl⟩
        · by_cases hpos : tfs_lookup st link_name (inode_get st ROOT_DIR_INUM) > 0
          · exact ⟨st, by simp [tfs_link, hvt, hvl, hneg, hp, hsym, hpos], rfl⟩
          · have hreg : (inode_at st p).sym_link = false := by simpa using hsym
            rw [tfs_link_unfold hvl hp hreg hpos]
            have hex := @add_dir_entry_exists (inode_put st p
              { inode_at st p with hard_links := (inode_at st p).hard_links + 1 })
              (inode_get st ROOT_DIR_INUM) link_name.tail
              (tfs_lookup st target (inode_get st ROOT_DIR_INUM)) hfl
            rw [hex]
            simp only [if_true]
            exact ⟨_, rfl, by rw [inode_delete_dir]; rfl⟩
    · exact ⟨st, by simp [tfs_link, hvt], rfl⟩
  · -- tfs_sym_link
    by_cases hvt : valid_pathname target = true
    · by_cases hneg : tfs_lookup st target (inode_get st ROOT_DIR_INUM) < 0
      · exact ⟨st, by simp [tfs_sym_link, hvt, hvl, hneg], rfl⟩
      · obtain ⟨p, hp⟩ := lookup_inode_get hinv (by omega :
          0 ≤ tfs_lookup st target (inode_get st ROOT_DIR_INUM))
        -- whichever branch creates the inode, the directory refuses the entry
        have hfinish : ∀ v : inode_t → inode_t,
            ∃ st1 : tfs_state,
              (if (inode_create st inode_type.T_FILE).2 < 0 then
                some ((inode_create st inode_type.T_FILE).1, (-1 : Int))
              else
                match inode_get (inode_create st inode_type.T_FILE).1
                    (inode_create st inode_type.T_FILE).2 with
                | none => none
                | some link_inode =>
                  some (tfs_sym_link_add
                    (inode_put (inode_create st inode_type.T_FILE).1 link_inode
                      (v (inode_at (inode_create st inode_type.T_FILE).1 link_inode)))
                    (inode_get st ROOT_DIR_INUM) link_name
                    (inode_create st inode_type.T_FILE).2)) = some (st1, -1) ∧
              st1.dir_entries = st.dir_entries := by
          intro v
          by_cases hc : (inode_create st inode_type.T_FILE).2 < 0
          · rw [if_pos hc]
            exact ⟨_, rfl, by rw [inode_create_file_fail hc]⟩
          · rw [if_neg hc]
            obtain ⟨q, hq, hcr⟩ := inode_create_file_ok hc
            have hqlt : q < st.inode_table.length := by
              have := first_free_lt hq
              rw [hinv.2.1] at this
              exact this
            rw [hcr]
            simp only []
            have hqget : inode_get ({ st with
                freeinode_ts := st.freeinode_ts.set q allocation_state_t.TAKEN
                inode_table := st.inode_table.set q ⟨inode_type.T_FILE, 0, -1, 1, false, []⟩ } :
                  tfs_state) (q : Int) = some q := by
              simp [inode_get, hqlt]
            rw [hqget]
            simp only []
            obtain ⟨h1, h2⟩ := @tfs_sym_link_add_exists (inode_put ({ st with
                freeinode_ts := st.freeinode_ts.set q allocation_state_t.TAKEN
                inode_table := st.inode_table.set q ⟨inode_type.T_FILE, 0, -1, 1, false, []⟩ } :
                  tfs_state) q (v (inode_at ({ st with
                freeinode_ts := st.freeinode_ts.set q allocation_state_t.TAKEN
                inode_table := st.inode_table.set q ⟨inode_type.T_FILE, 0, -1, 1, false, []⟩ } :
                  tfs_state) q))) (inode_get st ROOT_DIR_INUM) link_name (q : Int) hfl
            exact ⟨_, congrArg some (Prod.ext rfl h1), h2⟩
        by_cases hsym : (inode_at st p).sym_link = true
        · obtain ⟨st1, h1, h2⟩ := hfinish (fun i =>
            { i with
              i_size := (inode_at (inode_create st inode_type.T_FILE).1 p).i_size
              i_data_block := (inode_at (inode_create st inode_type.T_FILE).1 p).i_data_block
              sym_link := true
              sym_path := (inode_at (inode_create st inode_type.T_FILE).1 p).sym_path })
          refine ⟨st1, ?_, h2⟩
          simp only [tfs_sym_link, hvt, hvl, hneg, hp, hsym]
          simp only [Bool.not_true, Bool.or_self, Bool.false_eq_true, if_false, if_true]
          exact h1
        · by_cases hpos : tfs_lookup st link_name (inode_get st ROOT_DIR_INUM) > 0
          · exact ⟨st, by simp [tfs_sym_link, hvt, hvl, hneg, hp, hsym, hpos], rfl⟩
          · obtain ⟨st1, h1, h2⟩ := hfinish (fun i =>
              { i with sym_path := target, sym_link := true })
            refine ⟨st1, ?_, h2⟩
            simp only [tfs_sym_link, hvt, hvl, hneg, hp, hsym, hpos]
            simp only [Bool.not_true, Bool.or_self, Bool.false_eq_true, if_false, if_true]
            exact h1
    · exact ⟨st, by simp [tfs_sym_link, hvt], rfl⟩
  · rw [tfs_lookup_eq hvl]
    exact dir_filter_one hinv.2.2.2.1 hfl

/-- Witness for C10: `/f` is a regular file and `/l` a symbolic link to it;
`link` and `sym_link` of either target under the existing name `/f` return `-1`,
and `/f` still names inode 1. -/
theorem C10_witness :
    (tfs_link (state_after [call_open ['/', 'f'] TFS_O_CREAT, call_close 0,
      call_sym_link ['/', 'f'] ['/', 'l']]) ['/', 'l'] ['/', 'f']).map Prod.snd = some (-1) ∧
    (tfs_sym_link (state_after [call_open ['/', 'f'] TFS_O_CREAT, call_close 0,
      call_sym_link ['/', 'f'] ['/', 'l']]) ['/', 'l'] ['/', 'f']).map Prod.snd = some (-1) ∧
    (state_after [call_open ['/', 'f'] TFS_O_CREAT, call_close 0,
      call_sym_link ['/', 'f'] ['/', 'l']]).dir_entries.filter
        (fun e => decide (e.d_inumber ≠ -1 ∧ e.d_name = ['f'])) = [⟨['f'], 1⟩] := by
  obtain ⟨⟨s1, h1, _⟩, ⟨s2, h2, _⟩, h3⟩ :=
    C10_no_duplicate_names
      (state_after [call_open ['/', 'f'] TFS_O_CREAT, call_close 0,
        call_sym_link ['/', 'f'] ['/', 'l']])
      ['/', 'l'] ['/', 'f'] (reachable_state_after _ (by decide)) (by decide)
  refine ⟨?_, ?_, ?_⟩
  · rw [h1]; rfl
  · rw [h2]; rfl
  · have h4 : tfs_lookup (state_after [call_open ['/', 'f'] TFS_O_CREAT, call_close 0,
        call_sym_link ['/', 'f'] ['/', 'l']]) ['/', 'f']
        (inode_get (state_after [call_open ['/', 'f'] TFS_O_CREAT, call_close 0,
          call_sym_link ['/', 'f'] ['/', 'l']]) ROOT_DIR_INUM) = 1 := by decide
    rw [h4] at h3
    exact h3

/-! ## The ways the operations end -/

theorem first_none_get {l : List (Option open_file_entry_t)} {k : Nat}
    (h : first_none l = some k) : l[k]? = some none := by
  induction l generalizing k with
  | nil => simp [first_none] at h
  | cons a l ih =>
    cases a with
    | none => simp [first_none] at h; subst h; simp
    | some v =>
      simp only [first_none, Option.map_eq_some'] at h
      obtain ⟨j, hj, rfl⟩ := h
      simpa using ih hj

theorem inode_create_file_nonneg {st : tfs_state}
    (h : (inode_create st inode_type.T_FILE).2 ≠ -1) :
    ¬ (inode_create st inode_type.T_FILE).2 < 0 := by
  intro hlt
  apply h
  unfold inode_create at hlt ⊢
  cases hq : first_free st.freeinode_ts with
  | none => rfl
  | some q => rw [hq] at hlt; simp only [] at hlt; omega

theorem open_target_direct {st : tfs_state} {name : List Char} {p : Nat}
    (hget : inode_get st (tfs_lookup st name (inode_get st ROOT_DIR_INUM)) = some p)
    (hreg : (inode_at st p).sym_link = false) :
    open_target st name = tfs_lookup st name (inode_get st ROOT_DIR_INUM) := by
  simp [open_target, hget, hreg]

theorem open_target_hop {st : tfs_state} {name : List Char} {p : Nat}
    (hget : inode_get st (tfs_lookup st name (inode_get st ROOT_DIR_INUM)) = some p)
    (hsym : (inode_at st p).sym_link = true) :
    open_target st name =
      tfs_lookup st (inode_at st p).sym_path (inode_get st ROOT_DIR_INUM) := by
  simp [open_target, hget, hsym]

/-- The four ways `tfs_open` ends: nothing done; an existing inode opened (the
name's own or the one a symbolic link leads to); a created inode deleted again;
a file created and handed to the open-file table. -/
theorem tfs_open_cases {st : tfs_state} {name : List Char} {mode : Nat}
    {res : tfs_state × Int} (h : tfs_open st name mode = some res) :
    res = (st, -1) ∨
    (∃ p, 0 ≤ tfs_lookup st name (inode_get st ROOT_DIR_INUM) ∧
      inode_get st (open_target st name) = some p ∧
      res = tfs_open_found st (open_target st name) p mode) ∨
    (∃ q : Nat, tfs_lookup st name (inode_get st ROOT_DIR_INUM) < 0 ∧
      first_free st.freeinode_ts = some q ∧
      res = (inode_delete { st with
        freeinode_ts := st.freeinode_ts.set q allocation_state_t.TAKEN
        inode_table := st.inode_table.set q ⟨inode_type.T_FILE, 0, -1, 1, false, []⟩ }
        (q : Int), -1)) ∨
    (∃ (q : Nat) (d : List dir_entry_t),
      tfs_lookup st name (inode_get st ROOT_DIR_INUM) < 0 ∧
      valid_pathname name = true ∧ has_flag mode TFS_O_CREAT = true ∧
      first_free st.freeinode_ts = some q ∧
      dir_find st.dir_entries name.tail = -1 ∧
      dir_insert st.dir_entries ⟨name.tail, (q : Int)⟩ = some d ∧
      res = add_to_open_file_table { st with
        freeinode_ts := st.freeinode_ts.set q allocation_state_t.TAKEN
        inode_table := st.inode_table.set q ⟨inode_type.T_FILE, 0, -1, 1, false, []⟩
        dir_entries := d } (q : Int) 0) := by
  unfold tfs_open at h
  simp only [] at h
  split at h
  · cases h; exact Or.inl rfl
  · rename_i hv
    have hv : valid_pathname name = true := by simpa using hv
    split at h
    · cases h
    · rename_i root hroot
      rw [← hroot] at h
      split at h
      · rename_i hpos
        split at h
        · cases h
        · rename_i inode hinode
          split at h
          · rename_i hsym
            split at h
            · cases h; exact Or.inl rfl
            · split at h
              · cases h
              · rename_i inode2 hinode2
                cases h
                refine Or.inr (Or.inl ⟨inode2, hpos, ?_, ?_⟩)
                · rw [open_target_hop hinode hsym]; exact hinode2
                · rw [open_target_hop hinode hsym]
          · rename_i hsym
            cases h
            have hreg : (inode_at st inode).sym_link = false := by simpa using hsym
            refine Or.inr (Or.inl ⟨inode, hpos, ?_, ?_⟩)
            · rw [open_target_direct hinode hreg]; exact hinode
            · rw [open_target_direct hinode hreg]
      · rename_i hneg
        have hneg : tfs_lookup st name (inode_get st ROOT_DIR_INUM) < 0 := by omega
        split at h
        · rename_i hcreat
          split at h
          · rename_i hc
            cases h
            rw [inode_create_file_fail (by rw [hc]; decide)]
            exact Or.inl rfl
          · rename_i hc
            obtain ⟨q, hq, hcr⟩ := inode_create_file_ok (inode_create_file_nonneg hc)
            rw [hcr] at h
            simp only [] at h
            split at h
            · rename_i ha
              cases h
              rw [add_dir_entry_fail ha]
              exact Or.inr (Or.inr (Or.inl ⟨q, hneg, hq, rfl⟩))
            · rename_i ha
              cases h
              obtain ⟨d, hfind, hins, hadd⟩ := add_dir_entry_ok ha
              rw [hadd]
              exact Or.inr (Or.inr (Or.inr ⟨q, d, hneg, hv, hcreat, hq, hfind, hins, rfl⟩))
        · cases h; exact Or.inl rfl

/-- The state `tfs_open_found` hands to the open-file table: the file truncated
when `TFS_O_TRUNC` is set. -/
theorem tfs_open_found_eq (st : tfs_state) (inum : Int) (p : Nat) (mode : Nat) :
    ∃ st1 : tfs_state,
      tfs_open_found st inum p mode =
        add_to_open_file_table st1 inum
          (if has_flag mode TFS_O_APPEND then (inode_at st1 p).i_size else 0) ∧
      st1.freeinode_ts = st.freeinode_ts ∧ st1.dir_entries = st.dir_entries ∧
      st1.fs_data = st.fs_data ∧ st1.block_size = st.block_size ∧
      st1.open_file_table = st.open_file_table ∧
      st1.inode_table.length = st.inode_table.length ∧
      (∀ q, q ≠ p → inode_at st1 q = inode_at st q) ∧
      inode_at st1 p =
        (if has_flag mode TFS_O_TRUNC then { inode_at st p with i_size := 0 }
          else inode_at st p) ∧
      (has_flag mode TFS_O_TRUNC = false → st1 = st) ∧
      (st1.free_blocks = st.free_blocks ∨
        (0 < (inode_at st p).i_size ∧ 0 ≤ (inode_at st p).i_data_block ∧
          st1.free_blocks = st.free_blocks.set (inode_at st p).i_data_block.toNat
            allocation_state_t.FREE)) := by
  unfold tfs_open_found
  simp only []
  by_cases htr : has_flag mode TFS_O_TRUNC = true
  · by_cases hsz : (inode_at st p).i_size > 0
    · simp only [htr, hsz, if_true]
      refine ⟨_, rfl, ?_, ?_, ?_, ?_, ?_, ?_, ?_, ?_, ?_, ?_⟩
      · unfold data_block_free; split <;> rfl
      · unfold data_block_free; split <;> rfl
      · unfold data_block_free; split <;> rfl
      · unfold data_block_free; split <;> rfl
      · unfold data_block_free; split <;> rfl
      · unfold data_block_free; split <;> simp [inode_put]
      · intro q hq
        rw [inode_at_put_ne (Ne.symm hq)]
        unfold data_block_free; split <;> rfl
      · have hlt : p < st.inode_table.length := by
          by_contra hn
          have : inode_at st p = default := by
            simp [inode_at, List.getD_eq_getElem?_getD,
              List.getElem?_eq_none (by omega : st.inode_table.length ≤ p)]
          rw [this] at hsz
          exact absurd hsz (by decide)
        rw [inode_at_put_self (by unfold data_block_free; split <;> exact hlt)]
      · intro h; cases h
      · unfold data_block_free
        split
        · rename_i hb
          exact Or.inr ⟨trivial, hb, rfl⟩
        · exact Or.inl rfl
    · have hz : (inode_at st p).i_size = 0 := by omega
      simp only [htr, hsz, if_true, if_false]
      refine ⟨_, rfl, rfl, rfl, rfl, rfl, rfl, rfl, fun _ _ => rfl, ?_, fun _ => rfl,
        Or.inl rfl⟩
      rw [← hz]
  · simp only [htr, if_false]
    exact ⟨_, rfl, rfl, rfl, rfl, rfl, rfl, rfl, fun _ _ => rfl, rfl, fun _ => rfl,
      Or.inl rfl⟩

/-- The two ways `add_to_open_file_table` ends. -/
theorem add_to_open_file_table_cases (st : tfs_state) (inum : Int) (offset : Nat) :
    (first_none st.open_file_table = none ∧
      add_to_open_file_table st inum offset = (st, -1)) ∨
    (∃ k : Nat, first_none st.open_file_table = some k ∧
      add_to_open_file_table st inum offset =
        ({ st with open_file_table := st.open_file_table.set k (some ⟨inum, offset⟩) },
          (k : Int))) := by
  unfold add_to_open_file_table
  cases hk : first_none st.open_file_table with
  | none => exact Or.inl ⟨rfl, rfl⟩
  | some k => exact Or.inr ⟨k, rfl, rfl⟩

/-! ## Names and links -/

theorem count_insert {l d : List dir_entry_t} {x : dir_entry_t} (h : dir_insert l x = some d)
    (i : Int) (hi : i ≠ -1) :
    (d.filter (fun e => decide (e.d_inumber = i))).length =
      (l.filter (fun e => decide (e.d_inumber = i))).length +
        (if x.d_inumber = i then 1 else 0) := by
  induction l generalizing d with
  | nil => simp [dir_insert] at h
  | cons a l ih =>
    simp only [dir_insert] at h
    by_cases ha : a.d_inumber = -1
    · simp only [ha, if_true, Option.some.injEq] at h
      subst h
      have hai : ¬ a.d_inumber = i := by rw [ha]; exact fun h => hi h.symm
      simp only [List.filter_cons, hai, decide_False, Bool.false_eq_true, if_false]
      split <;> simp_all
    · simp only [ha, if_false, Option.map_eq_some'] at h
      obtain ⟨l2, hl2, rfl⟩ := h
      simp only [List.filter_cons]
      have := ih hl2
      split
      · simp only [List.length_cons, this]; omega
      · exact this

theorem count_clear {l d : List dir_entry_t} {n : List Char} (h : dir_clear l n = some d)
    (i : Int) (hi : i ≠ -1) :
    (d.filter (fun e => decide (e.d_inumber = i))).length + (if dir_find l n = i then 1 else 0) =
      (l.filter (fun e => decide (e.d_inumber = i))).length := by
  induction l generalizing d with
  | nil => simp [dir_clear] at h
  | cons a l ih =>
    simp only [dir_clear] at h
    by_cases hc : a.d_inumber ≠ -1 ∧ a.d_name = n
    · rw [if_pos hc, Option.some.injEq] at h
      subst h
      simp only [dir_find, if_pos hc, List.filter_cons]
      have h1 : ¬ ((-1 : Int) = i) := fun h => hi h.symm
      simp only [h1, decide_False, Bool.false_eq_true, if_false]
      split <;> simp_all
    · simp only [hc, if_false, Option.map_eq_some'] at h
      obtain ⟨l2, hl2, rfl⟩ := h
      simp only [dir_find, if_neg hc, List.filter_cons]
      have := ih hl2
      split
      · simp only [List.length_cons]; omega
      · exact this

theorem count_zero {l : List dir_entry_t} {i : Int} (h : ∀ e ∈ l, e.d_inumber ≠ i) :
    (l.filter (fun e => decide (e.d_inumber = i))).length = 0 := by
  rw [List.length_eq_zero, List.filter_eq_nil_iff]
  intro e he
  simpa using h e he

theorem count_zero_mem {l : List dir_entry_t} {i : Int}
    (h : (l.filter (fun e => decide (e.d_inumber = i))).length = 0) :
    ∀ e ∈ l, e.d_inumber ≠ i := by
  rw [List.length_eq_zero, List.filter_eq_nil_iff] at h
  intro e he
  simpa using h e he

/-- A free inode has no name. -/
theorem names_of_free {st : tfs_state} (hl : link_inv st) {q : Nat}
    (hq : st.freeinode_ts[q]? = some allocation_state_t.FREE) : names_of st (q : Int) = 0 := by
  apply count_zero
  intro e he heq
  have h1 := (hl.2.1 e he (by rw [heq]; omega)).2
  rw [heq] at h1
  unfold inode_live at h1
  simp only [Int.toNat_ofNat] at h1
  rw [hq] at h1
  cases h1

theorem inode_at_set_self {st st1 : tfs_state} {q : Nat} {v : inode_t}
    (ht : st1.inode_table = st.inode_table.set q v) (hq : q < st.inode_table.length) :
    inode_at st1 q = v := by
  simp [inode_at, ht, List.getD_eq_getElem?_getD, List.getElem?_set_self hq]

theorem inode_at_set_ne {st st1 : tfs_state} {q p : Nat} {v : inode_t}
    (ht : st1.inode_table = st.inode_table.set q v) (h : q ≠ p) :
    inode_at st1 p = inode_at st p := by
  simp [inode_at, ht, List.getD_eq_getElem?_getD, List.getElem?_set_ne h]

theorem live_set_taken {l : List allocation_state_t} {q p : Nat} (hq : q < l.length)
    (h : l[p]? = some allocation_state_t.TAKEN) :
    (l.set q allocation_state_t.TAKEN)[p]? = some allocation_state_t.TAKEN := by
  by_cases hqp : q = p
  · subst hqp; exact List.getElem?_set_self hq
  · rw [List.getElem?_set_ne hqp]; exact h

/-- The invariant of names and links looks at the inode bitmap, the directory
and, for live inodes, at `hard_links` and `sym_link` only. -/
theorem link_inv_same {st st1 : tfs_state} (hl : link_inv st)
    (hf : st1.freeinode_ts = st.freeinode_ts) (hd : st1.dir_entries = st.dir_entries)
    (hi : ∀ p, inode_live st p →
      (inode_at st1 p).hard_links = (inode_at st p).hard_links ∧
        (inode_at st1 p).sym_link = (inode_at st p).sym_link) : link_inv st1 := by
  obtain ⟨h0, h2, h3, h4⟩ := hl
  unfold link_inv inode_live names_of at *
  rw [hf, hd]
  refine ⟨h0, h2, fun p hp => ?_, fun p hp hs => ?_⟩
  · rw [(hi p hp).1]; exact h3 p hp
  · rw [(hi p hp).1]
    rw [(hi p hp).2] at hs
    exact h4 p hp hs

/-- A new inode with `hard_links = 1` in the lowest free slot, entered in the
directory under one name. -/
theorem link_inv_create {st st1 : tfs_state} (hl : link_inv st) {q : Nat} {v : inode_t}
    {n : List Char} (hq : first_free st.freeinode_ts = some q)
    (hql : q < st.inode_table.length)
    (hf : st1.freeinode_ts = st.freeinode_ts.set q allocation_state_t.TAKEN)
    (ht : st1.inode_table = st.inode_table.set q v) (hv : v.hard_links = 1)
    (hd : dir_insert st.dir_entries ⟨n, (q : Int)⟩ = some st1.dir_entries) :
    link_inv st1 := by
  have hfree := first_free_get hq
  have hqf := first_free_lt hq
  have hn0 := names_of_free hl hfree
  obtain ⟨h0, h2, h3, h4⟩ := hl
  unfold link_inv inode_live names_of at *
  have hq0 : q ≠ 0 := by
    intro h
    rw [h, h0] at hfree
    cases hfree
  rw [hf]
  refine ⟨live_set_taken hqf h0, fun e he hlive => ?_, fun p hp => ?_, fun p hp hs => ?_⟩
  · rcases dir_insert_mem hd e he with h | h
    · exact ⟨(h2 e h hlive).1, live_set_taken hqf (h2 e h hlive).2⟩
    · subst h
      simp only [Int.toNat_ofNat]
      exact ⟨by omega, List.getElem?_set_self hqf⟩
  · rw [count_insert hd (p : Int) (by omega)]
    by_cases hpq : q = p
    · subst hpq
      rw [inode_at_set_self ht hql, hv, hn0]
      simp
    · rw [List.getElem?_set_ne hpq] at hp
      rw [inode_at_set_ne ht hpq]
      have : ¬ ((q : Int) = (p : Int)) := by omega
      simp only [this, if_false, Nat.add_zero]
      exact h3 p hp
  · by_cases hpq : q = p
    · subst hpq
      rw [inode_at_set_self ht hql, hv]
    · rw [List.getElem?_set_ne hpq] at hp
      rw [inode_at_set_ne ht hpq] at hs ⊢
      exact h4 p hp hs

/-- One more `hard_links` on a live inode that is no symbolic link, with or
without one more name for it. -/
theorem link_inv_link {st st1 : tfs_state} (hl : link_inv st) {p : Nat} {n : List Char}
    (hpl : p < st.inode_table.length) (hreg : (inode_at st p).sym_link = false)
    (hf : st1.freeinode_ts = st.freeinode_ts)
    (ht : st1.inode_table = st.inode_table.set p
      { inode_at st p with hard_links := (inode_at st p).hard_links + 1 })
    (hd : st1.dir_entries = st.dir_entries ∨
      (inode_live st p ∧ 0 < p ∧
        dir_insert st.dir_entries ⟨n, (p : Int)⟩ = some st1.dir_entries)) :
    link_inv st1 := by
  obtain ⟨h0, h2, h3, h4⟩ := hl
  unfold link_inv inode_live names_of at *
  rw [hf]
  have hself := inode_at_set_self ht hpl
  refine ⟨h0, fun e he hlive => ?_, fun q hq => ?_, fun q hq hs => ?_⟩
  · rcases hd with hd | ⟨hlp, hp0, hd⟩
    · rw [hd] at he; exact h2 e he hlive
    · rcases dir_insert_mem hd e he with h | h
      · exact h2 e h hlive
      · subst h
        simp only [Int.toNat_ofNat]
        exact ⟨by omega, hlp⟩
  · by_cases hpq : p = q
    · subst hpq
      rw [hself]
      simp only []
      rcases hd with hd | ⟨_, _, hd⟩
      · rw [hd]; have := h3 p hq; omega
      · rw [count_insert hd (p : Int) (by omega)]
        simp only [if_true]
        have := h3 p hq; omega
    · rw [inode_at_set_ne ht hpq]
      rcases hd with hd | ⟨_, _, hd⟩
      · rw [hd]; exact h3 q hq
      · rw [count_insert hd (q : Int) (by omega)]
        have : ¬ ((p : Int) = (q : Int)) := by omega
        simp only [this, if_false, Nat.add_zero]
        exact h3 q hq
  · by_cases hpq : p = q
    · subst hpq
      rw [hself] at hs
      simp only [] at hs
      rw [hreg] at hs
      cases hs
    · rw [inode_at_set_ne ht hpq] at hs ⊢
      exact h4 q hq hs

/-- The last name of a live inode cleared and the inode deleted. -/
theorem link_inv_unlink_delete {st st1 : tfs_state} (hl : link_inv st) {p : Nat}
    {n : List Char} (hfind : dir_find st.dir_entries n = (p : Int))
    (hhl : (inode_at st p).hard_links ≤ 1)
    (hd : dir_clear st.dir_entries n = some st1.dir_entries)
    (hf : st1.freeinode_ts = st.freeinode_ts.set p allocation_state_t.FREE)
    (ht : st1.inode_table = st.inode_table) : link_inv st1 := by
  have hne : dir_find st.dir_entries n ≠ -1 := by rw [hfind]; omega
  obtain ⟨e0, he0, hlive0, heq0⟩ := dir_find_mem hne
  obtain ⟨h0, h2, h3, h4⟩ := hl
  unfold link_inv inode_live names_of at *
  have hp := h2 e0 he0 hlive0
  rw [← heq0, hfind] at hp
  simp only [Int.toNat_ofNat] at hp
  have hcp := count_clear hd (p : Int) (by omega)
  rw [hfind] at hcp
  simp only [if_true] at hcp
  have hzero : (st1.dir_entries.filter (fun e => decide (e.d_inumber = (p : Int)))).length = 0 := by
    have := h3 p hp.2
    omega
  rw [hf]
  have hp0 : p ≠ 0 := by omega
  refine ⟨?_, fun e he hlive => ?_, fun q hq => ?_, fun q hq hs => ?_⟩
  · rw [List.getElem?_set_ne hp0]; exact h0
  · rcases dir_clear_mem hd e he with h | h
    · refine ⟨(h2 e h hlive).1, ?_⟩
      have hne : e.d_inumber ≠ (p : Int) := count_zero_mem hzero e he
      have hpos := (h2 e h hlive).1
      rw [List.getElem?_set_ne (by omega)]
      exact (h2 e h hlive).2
    · exact absurd h hlive
  · by_cases hpq : p = q
    · subst hpq
      rw [hzero]; omega
    · rw [List.getElem?_set_ne hpq] at hq
      rw [inode_at_congr ht]
      have := count_clear hd (q : Int) (by omega)
      have := h3 q hq
      omega
  · by_cases hpq : p = q
    · subst hpq
      rw [inode_at_congr ht]
      exact hhl
    · rw [List.getElem?_set_ne hpq] at hq
      rw [inode_at_congr ht] at hs ⊢
      exact h4 q hq hs

/-- One name of a live inode with more than one `hard_links` cleared and the
count decremented. -/
theorem link_inv_unlink_dec {st st1 : tfs_state} (hl : link_inv st) {p : Nat}
    {n : List Char} (hpl : p < st.inode_table.length)
    (hfind : dir_find st.dir_entries n = (p : Int))
    (hreg : (inode_at st p).sym_link = false)
    (hd : dir_clear st.dir_entries n = some st1.dir_entries)
    (hf : st1.freeinode_ts = st.freeinode_ts)
    (ht : st1.inode_table = st.inode_table.set p
      { inode_at st p with hard_links := (inode_at st p).hard_links - 1 }) :
    link_inv st1 := by
  obtain ⟨h0, h2, h3, h4⟩ := hl
  unfold link_inv inode_live names_of at *
  rw [hf]
  have hself := inode_at_set_self ht hpl
  refine ⟨h0, fun e he hlive => ?_, fun q hq => ?_, fun q hq hs => ?_⟩
  · rcases dir_clear_mem hd e he with h | h
    · exact h2 e h hlive
    · exact absurd h hlive
  · have hc := count_clear hd (q : Int) (by omega)
    have := h3 q hq
    by_cases hpq : p = q
    · subst hpq
      rw [hself]
      simp only []
      rw [hfind] at hc
      simp only [if_true] at hc
      omega
    · rw [inode_at_set_ne ht hpq]
      omega
  · by_cases hpq : p = q
    · subst hpq
      rw [hself] at hs
      simp only [] at hs
      rw [hreg] at hs
      cases hs
    · rw [inode_at_set_ne ht hpq] at hs ⊢
      exact h4 q hq hs

/-! ## The ways `tfs_link`, `tfs_sym_link` and `tfs_unlink` end -/

/-- The three ways `tfs_link` ends: nothing done; the count incremented and the
name entered; the count incremented and the name refused. -/
theorem tfs_link_cases {st : tfs_state} {target link_name : List Char}
    {res : tfs_state × Int} (h : tfs_link st target link_name = some res) :
    res = (st, -1) ∨
    ∃ p : Nat, inode_get st (tfs_lookup st target (inode_get st ROOT_DIR_INUM)) = some p ∧
      (inode_at st p).sym_link = false ∧
      tfs_lookup st link_name (inode_get st ROOT_DIR_INUM) ≤ 0 ∧
      ((∃ d, dir_insert st.dir_entries
            ⟨link_name.tail, tfs_lookup st target (inode_get st ROOT_DIR_INUM)⟩ = some d ∧
          res = ({ inode_put st p
            { inode_at st p with hard_links := (inode_at st p).hard_links + 1 } with
            dir_entries := d }, 0)) ∨
        res = (inode_delete (inode_put st p
            { inode_at st p with hard_links := (inode_at st p).hard_links + 1 })
          (tfs_lookup st link_name (inode_get st ROOT_DIR_INUM)), -1)) := by
  unfold tfs_link at h
  simp only [] at h
  split at h
  · cases h; exact Or.inl rfl
  · split at h
    · cases h; exact Or.inl rfl
    · split at h
      · cases h
      · rename_i p hp
        split at h
        · cases h; exact Or.inl rfl
        · rename_i hs
          have hreg : (inode_at st p).sym_link = false := by simpa using hs
          split at h
          · cases h; exact Or.inl rfl
          · rename_i hl
            refine Or.inr ⟨p, hp, hreg, by omega, ?_⟩
            split at h
            · rename_i ha
              cases h
              rw [add_dir_entry_fail ha]
              exact Or.inr rfl
            · rename_i ha
              cases h
              obtain ⟨d, _, hins, hadd⟩ := add_dir_entry_ok ha
              rw [hadd]
              exact Or.inl ⟨d, hins, rfl⟩

/-- The four ways `tfs_unlink` ends: nothing done; a symbolic link or the last
name of a file cleared and the inode deleted; one of several names cleared and
the count decremented. -/
theorem tfs_unlink_cases {st : tfs_state} {target : List Char} {res : tfs_state × Int}
    (h : tfs_unlink st target = some res) :
    res = (st, -1) ∨
    ∃ (p : Nat) (d : List dir_entry_t),
      inode_get st (tfs_lookup st target (inode_get st ROOT_DIR_INUM)) = some p ∧
      dir_find st.dir_entries target.tail = tfs_lookup st target (inode_get st ROOT_DIR_INUM) ∧
      dir_clear st.dir_entries target.tail = some d ∧
      (((inode_at st p).sym_link = true ∨ (inode_at st p).hard_links ≤ 1) ∧
          res = (inode_delete { st with dir_entries := d }
            (tfs_lookup st target (inode_get st ROOT_DIR_INUM)), 0) ∨
        ((inode_at st p).sym_link = false ∧ 1 < (inode_at st p).hard_links ∧
          res = ({ inode_put st p
            { inode_at st p with hard_links := (inode_at st p).hard_links - 1 } with
            dir_entries := d }, 0))) := by
  by_cases hv : valid_pathname target = true
  swap
  · simp [tfs_unlink, hv] at h
    exact Or.inl h.symm
  by_cases hneg : tfs_lookup st target (inode_get st ROOT_DIR_INUM) < 0
  · simp [tfs_unlink, hv, hneg] at h
    exact Or.inl h.symm
  cases hp : inode_get st (tfs_lookup st target (inode_get st ROOT_DIR_INUM)) with
  | none => simp [tfs_unlink, hv, hneg, hp] at h
  | some p =>
    have hfind := @tfs_lookup_eq st target hv
    have hfound : dir_find st.dir_entries target.tail ≠ -1 := by
      rw [← hfind]; omega
    right
    by_cases hsym : (inode_at st p).sym_link = true
    · obtain ⟨d, hd, hclr⟩ := clear_dir_entry_ok (inode_get st ROOT_DIR_INUM) hfound
      rw [tfs_unlink_sym hp hsym, hclr] at h
      cases h
      exact ⟨p, d, rfl, hfind.symm, hd, Or.inl ⟨Or.inl hsym, rfl⟩⟩
    · have hreg : (inode_at st p).sym_link = false := by simpa using hsym
      by_cases hhl : (inode_at st p).hard_links > 1
      · obtain ⟨d, hd, hclr⟩ := @clear_dir_entry_ok (inode_put st p
          { inode_at st p with hard_links := (inode_at st p).hard_links - 1 })
          (inode_get st ROOT_DIR_INUM) target.tail hfound
        rw [tfs_unlink_hard hp hreg hhl, hclr] at h
        cases h
        exact ⟨p, d, rfl, hfind.symm, hd, Or.inr ⟨hreg, hhl, rfl⟩⟩
      · obtain ⟨d, hd, hclr⟩ := clear_dir_entry_ok (inode_get st ROOT_DIR_INUM) hfound
        rw [tfs_unlink_last hp hreg hhl, hclr] at h
        cases h
        exact ⟨p, d, rfl, hfind.symm, hd, Or.inl ⟨Or.inr (by omega), rfl⟩⟩

/-- The three ways `tfs_sym_link` ends: nothing done; a new inode `v` with
`sym_link = true` in the lowest free slot and entered in the directory; the new
inode deleted again.  The new inode holds no block, or holds the size and block
of the symbolic link it was cloned from. -/
theorem tfs_sym_link_cases {st : tfs_state} {target link_name : List Char}
    {res : tfs_state × Int} (hinv : state_inv st)
    (h : tfs_sym_link st target link_name = some res) :
    res = (st, -1) ∨
    ∃ (p q : Nat) (v : inode_t),
      inode_get st (tfs_lookup st target (inode_get st ROOT_DIR_INUM)) = some p ∧
      first_free st.freeinode_ts = some q ∧ q < st.inode_table.length ∧
      v.hard_links = 1 ∧ v.sym_link = true ∧
      ((v.i_size = 0 ∧ v.i_data_block = -1) ∨
        (p ≠ q ∧ (inode_at st p).sym_link = true ∧ v.i_size = (inode_at st p).i_size ∧
          v.i_data_block = (inode_at st p).i_data_block)) ∧
      ((∃ d, dir_insert st.dir_entries ⟨link_name.tail, (q : Int)⟩ = some d ∧
          res = ({ st with
            freeinode_ts := st.freeinode_ts.set q allocation_state_t.TAKEN
            inode_table := st.inode_table.set q v
            dir_entries := d }, 0)) ∨
        res = (inode_delete { st with
            freeinode_ts := st.freeinode_ts.set q allocation_state_t.TAKEN
            inode_table := st.inode_table.set q v } (q : Int), -1)) := by
  have hfin : ∀ (q : Nat) (v : inode_t), q < st.inode_table.length →
      ((∃ d, dir_insert st.dir_entries ⟨link_name.tail, (q : Int)⟩ = some d ∧
          tfs_sym_link_add (inode_put { st with
            freeinode_ts := st.freeinode_ts.set q allocation_state_t.TAKEN
            inode_table := st.inode_table.set q ⟨inode_type.T_FILE, 0, -1, 1, false, []⟩ }
            q v) (inode_get st ROOT_DIR_INUM) link_name (q : Int) = ({ st with
            freeinode_ts := st.freeinode_ts.set q allocation_state_t.TAKEN
            inode_table := st.inode_table.set q v
            dir_entries := d }, 0)) ∨
        tfs_sym_link_add (inode_put { st with
            freeinode_ts := st.freeinode_ts.set q allocation_state_t.TAKEN
            inode_table := st.inode_table.set q ⟨inode_type.T_FILE, 0, -1, 1, false, []⟩ }
            q v) (inode_get st ROOT_DIR_INUM) link_name (q : Int) =
          (inode_delete { st with
            freeinode_ts := st.freeinode_ts.set q allocation_state_t.TAKEN
            inode_table := st.inode_table.set q v } (q : Int), -1)) := by
    intro q v hql
    have hput : inode_put { st with
        freeinode_ts := st.freeinode_ts.set q allocation_state_t.TAKEN
        inode_table := st.inode_table.set q ⟨inode_type.T_FILE, 0, -1, 1, false, []⟩ } q v =
        { st with
          freeinode_ts := st.freeinode_ts.set q allocation_state_t.TAKEN
          inode_table := st.inode_table.set q v } := by
      simp [inode_put, List.set_set]
    rw [hput]
    unfold tfs_sym_link_add
    simp only []
    split
    · rename_i ha
      rw [add_dir_entry_fail ha]
      exact Or.inr rfl
    · rename_i ha
      obtain ⟨d, _, hins, hadd⟩ := add_dir_entry_ok ha
      rw [hadd]
      exact Or.inl ⟨d, hins, rfl⟩
  unfold tfs_sym_link at h
  simp only [] at h
  split at h
  · cases h; exact Or.inl rfl
  · split at h
    · cases h; exact Or.inl rfl
    · split at h
      · cases h
      · rename_i p hp
        split at h
        · rename_i hsym
          split at h
          · rename_i hc
            cases h
            rw [inode_create_file_fail hc]
            exact Or.inl rfl
          · rename_i hc
            obtain ⟨q, hq, hcr⟩ := inode_create_file_ok hc
            have hql : q < st.inode_table.length := by
              have := first_free_lt hq
              rw [hinv.2.1] at this
              exact this
            rw [hcr] at h
            simp only [] at h
            have hget : inode_get { st with
                freeinode_ts := st.freeinode_ts.set q allocation_state_t.TAKEN
                inode_table := st.inode_table.set q ⟨inode_type.T_FILE, 0, -1, 1, false, []⟩ }
                (q : Int) = some q := by
              simp [inode_get, hql]
            rw [hget] at h
            simp only [] at h
            cases h
            refine Or.inr ⟨p, q, _, hp, hq, hql, ?_, rfl, ?_, hfin q _ hql⟩
            · simp [inode_at, List.getD_eq_getElem?_getD, List.getElem?_set_self hql]
            · by_cases hpq : p = q
              · subst hpq
                left
                simp [inode_at, List.getD_eq_getElem?_getD, List.getElem?_set_self hql]
              · right
                refine ⟨hpq, hsym, ?_, ?_⟩ <;>
                  simp [inode_at, List.getD_eq_getElem?_getD,
                    List.getElem?_set_ne (Ne.symm hpq)]
        · split at h
          · cases h; exact Or.inl rfl
          · split at h
            · rename_i hc
              cases h
              rw [inode_create_file_fail hc]
              exact Or.inl rfl
            · rename_i hc
              obtain ⟨q, hq, hcr⟩ := inode_create_file_ok hc
              have hql : q < st.inode_table.length := by
                have := first_free_lt hq
                rw [hinv.2.1] at this
                exact this
              rw [hcr] at h
              simp only [] at h
              have hget : inode_get { st with
                  freeinode_ts := st.freeinode_ts.set q allocation_state_t.TAKEN
                  inode_table := st.inode_table.set q ⟨inode_type.T_FILE, 0, -1, 1, false, []⟩ }
                  (q : Int) = some q := by
                simp [inode_get, hql]
              rw [hget] at h
              simp only [] at h
              cases h
              refine Or.inr ⟨p, q, _, hp, hq, hql, ?_, rfl, Or.inl ⟨?_, ?_⟩, hfin q _ hql⟩ <;>
                simp [inode_at, List.getD_eq_getElem?_getD, List.getElem?_set_self hql]

/-! ## What a write, a read and a close leave -/

/-- A `tfs_write` hands back the state it was given, or moves the offset of its
handle to `o` and leaves the inode of the handle with a size that is at least
the old size and at least `o`; names, links and other inodes stay. -/
theorem tfs_write_effect {st : tfs_state} {fhandle : Int} {buffer : List Nat}
    {to_write : Nat} {res : tfs_state × Int}
    (h : tfs_write st fhandle buffer to_write = some res) :
    res.1 = st ∨
    ∃ (file : open_file_entry_t) (inode o : Nat),
      get_open_file_entry st fhandle = some file ∧
      inode_get st file.of_inumber = some inode ∧
      res.1.freeinode_ts = st.freeinode_ts ∧ res.1.dir_entries = st.dir_entries ∧
      res.1.open_file_table =
        st.open_file_table.set fhandle.toNat (some ⟨file.of_inumber, o⟩) ∧
      res.1.inode_table.length = st.inode_table.length ∧
      (∀ q, q ≠ inode → inode_at res.1 q = inode_at st q) ∧
      (inode_at res.1 inode).hard_links = (inode_at st inode).hard_links ∧
      (inode_at res.1 inode).sym_link = (inode_at st inode).sym_link ∧
      (inode_at st inode).i_size ≤ (inode_at res.1 inode).i_size ∧
      o ≤ (inode_at res.1 inode).i_size := by
  unfold tfs_write at h
  split at h
  · cases h; exact Or.inl rfl
  · rename_i file hfile
    split at h
    · cases h
    · rename_i inode hinode
      obtain ⟨_, _, hlt⟩ := inode_get_lt hinode
      simp only [] at h
      generalize (if (to_write + file.of_offset) % SIZE_MOD > state_block_size st then
          (state_block_size st + SIZE_MOD - file.of_offset) % SIZE_MOD else to_write) = tw at h
      by_cases hpos : tw > 0
      swap
      · rw [if_neg hpos] at h
        cases h; exact Or.inl rfl
      rw [if_pos hpos] at h
      by_cases hfail : (inode_at st inode).i_size = 0 ∧ (data_block_alloc st).2 = -1
      · rw [if_pos hfail] at h
        cases h; exact Or.inl rfl
      rw [if_neg hfail] at h
      have hal : (data_block_alloc st).1.inode_table = st.inode_table ∧
          (data_block_alloc st).1.freeinode_ts = st.freeinode_ts ∧
          (data_block_alloc st).1.dir_entries = st.dir_entries ∧
          (data_block_alloc st).1.open_file_table = st.open_file_table := by
        unfold data_block_alloc; split <;> exact ⟨rfl, rfl, rfl, rfl⟩
      have h2 : (if (inode_at st inode).i_size = 0 then
            inode_put (data_block_alloc st).1 inode
              { inode_at (data_block_alloc st).1 inode with
                i_data_block := (data_block_alloc st).2 }
            else st).freeinode_ts = st.freeinode_ts ∧
          (if (inode_at st inode).i_size = 0 then
            inode_put (data_block_alloc st).1 inode
              { inode_at (data_block_alloc st).1 inode with
                i_data_block := (data_block_alloc st).2 }
            else st).dir_entries = st.dir_entries ∧
          (if (inode_at st inode).i_size = 0 then
            inode_put (data_block_alloc st).1 inode
              { inode_at (data_block_alloc st).1 inode with
                i_data_block := (data_block_alloc st).2 }
            else st).open_file_table = st.open_file_table ∧
          (if (inode_at st inode).i_size = 0 then
            inode_put (data_block_alloc st).1 inode
              { inode_at (data_block_alloc st).1 inode with
                i_data_block := (data_block_alloc st).2 }
            else st).inode_table.length = st.inode_table.length ∧
          (∀ q, q ≠ inode → inode_at (if (inode_at st inode).i_size = 0 then
            inode_put (data_block_alloc st).1 inode
              { inode_at (data_block_alloc st).1 inode with
                i_data_block := (data_block_alloc st).2 }
            else st) q = inode_at st q) ∧
          (inode_at (if (inode_at st inode).i_size = 0 then
            inode_put (data_block_alloc st).1 inode
              { inode_at (data_block_alloc st).1 inode with
                i_data_block := (data_block_alloc st).2 }
            else st) inode).hard_links = (inode_at st inode).hard_links ∧
          (inode_at (if (inode_at st inode).i_size = 0 then
            inode_put (data_block_alloc st).1 inode
              { inode_at (data_block_alloc st).1 inode with
                i_data_block := (data_block_alloc st).2 }
            else st) inode).sym_link = (inode_at st inode).sym_link ∧
          (inode_at (if (inode_at st inode).i_size = 0 then
            inode_put (data_block_alloc st).1 inode
              { inode_at (data_block_alloc st).1 inode with
                i_data_block := (data_block_alloc st).2 }
            else st) inode).i_size = (inode_at st inode).i_size := by
        split
        · have hlt2 : inode < (data_block_alloc st).1.inode_table.length := by
            rw [hal.1]; exact hlt
          refine ⟨hal.2.1, hal.2.2.1, hal.2.2.2, by simp [inode_put, hal.1], ?_, ?_, ?_, ?_⟩
          · intro q hq
            rw [inode_at_put_ne (Ne.symm hq), inode_at_congr hal.1]
          · rw [inode_at_put_self hlt2, inode_at_congr hal.1]
          · rw [inode_at_put_self hlt2, inode_at_congr hal.1]
          · rw [inode_at_put_self hlt2, inode_at_congr hal.1]
        · exact ⟨rfl, rfl, rfl, rfl, fun _ _ => rfl, rfl, rfl, rfl⟩
      generalize (if (inode_at st inode).i_size = 0 then
          inode_put (data_block_alloc st).1 inode
            { inode_at (data_block_alloc st).1 inode with
              i_data_block := (data_block_alloc st).2 }
          else st) = st2 at h h2
      obtain ⟨g1, g2, g3, g4, g5, g6, g7, g8⟩ := h2
      cases hblock : data_block_get st2 (inode_at st2 inode).i_data_block with
      | none => rw [hblock] at h; cases h
      | some block =>
        rw [hblock] at h
        simp only [Option.some.injEq] at h
        subst h
        simp only []
        have hat4 : ∀ (b : Nat) (w : List Nat) (e : open_file_entry_t) (q : Nat),
            inode_at (file_put (block_put st2 b w) fhandle e) q = inode_at st2 q :=
          fun _ _ _ _ => rfl
        right
        refine ⟨file, inode, (file.of_offset + tw) % SIZE_MOD, hfile, hinode, ?_⟩
        split
        · rename_i hgt
          rw [hat4] at hgt
          refine ⟨g1, g2, ?_, by simp [inode_put, file_put, block_put, g4], ?_, ?_, ?_, ?_, ?_⟩
          · simp only [inode_put, file_put, block_put, g3]
          · intro q hq
            rw [inode_at_put_ne (Ne.symm hq), hat4, g5 q hq]
          · rw [inode_at_put_self (by simp [file_put, block_put, g4, hlt]), hat4]
            exact g6
          · rw [inode_at_put_self (by simp [file_put, block_put, g4, hlt]), hat4]
            exact g7
          · rw [inode_at_put_self (by simp [file_put, block_put, g4, hlt])]
            simp only []
            rw [g8] at hgt
            omega
          · rw [inode_at_put_self (by simp [file_put, block_put, g4, hlt])]
        · rename_i hgt
          rw [hat4] at hgt
          refine ⟨g1, g2, ?_, by simp [file_put, block_put, g4], ?_, ?_, ?_, ?_, ?_⟩
          · simp only [file_put, block_put, g3]
          · intro q hq
            rw [hat4, g5 q hq]
          · rw [hat4]; exact g6
          · rw [hat4]; exact g7
          · rw [hat4, g8]
          · rw [hat4]; omega

/-- A `tfs_read` hands back the state it was given, or moves the offset of its
handle forward by the count read, which is at most `len` and at most
`(size - offset) mod 2^64`. -/
theorem tfs_read_effect {st : tfs_state} {fhandle : Int} {len : Nat}
    {res : tfs_state × Int × List Nat} (h : tfs_read st fhandle len = some res) :
    res.1 = st ∨
    ∃ (file : open_file_entry_t) (inode c : Nat),
      get_open_file_entry st fhandle = some file ∧
      inode_get st file.of_inumber = some inode ∧
      c ≤ ((inode_at st inode).i_size + SIZE_MOD - file.of_offset) % SIZE_MOD ∧
      res.1 = { st with
        open_file_table := st.open_file_table.set fhandle.toNat
          (some ⟨file.of_inumber, (file.of_offset + c) % SIZE_MOD⟩) } := by
  unfold tfs_read at h
  split at h
  · cases h; exact Or.inl rfl
  · rename_i file hfile
    split at h
    · cases h
    · rename_i inode hinode
      simp only [] at h
      have hle : (if ((inode_at st inode).i_size + SIZE_MOD - file.of_offset) % SIZE_MOD > len
          then len
          else ((inode_at st inode).i_size + SIZE_MOD - file.of_offset) % SIZE_MOD) ≤
          ((inode_at st inode).i_size + SIZE_MOD - file.of_offset) % SIZE_MOD := by
        split <;> omega
      generalize (if ((inode_at st inode).i_size + SIZE_MOD - file.of_offset) % SIZE_MOD > len
          then len
          else ((inode_at st inode).i_size + SIZE_MOD - file.of_offset) % SIZE_MOD) = c
        at h hle
      by_cases hpos : c > 0
      · rw [if_pos hpos] at h
        cases hblock : data_block_get st (inode_at st inode).i_data_block with
        | none => rw [hblock] at h; cases h
        | some block =>
          rw [hblock] at h
          cases h
          exact Or.inr ⟨file, inode, c, hfile, hinode, hle, rfl⟩
      · rw [if_neg hpos] at h
        cases h; exact Or.inl rfl

/-- A `tfs_close` hands back the state it was given or empties one slot of the
open-file table. -/
theorem tfs_close_effect (st : tfs_state) (fhandle : Int) :
    (tfs_close st fhandle).1 = st ∨
    (tfs_close st fhandle).1 =
      { st with open_file_table := st.open_file_table.set fhandle.toNat none } := by
  unfold tfs_close
  split
  · exact Or.inl rfl
  · unfold remove_from_open_file_table
    split
    · exact Or.inr rfl
    · exact Or.inl rfl

/-! ## The invariant of names and links holds in every reachable state -/

/-- A name that resolves names a live inode other than the root. -/
theorem lookup_live {st : tfs_state} (hl : link_inv st) {name : List Char}
    (h : 0 ≤ tfs_lookup st name (inode_get st ROOT_DIR_INUM)) :
    0 < tfs_lookup st name (inode_get st ROOT_DIR_INUM) ∧
      inode_live st (tfs_lookup st name (inode_get st ROOT_DIR_INUM)).toNat := by
  have hv := tfs_lookup_nonneg_valid h
  rw [tfs_lookup_eq hv] at h ⊢
  obtain ⟨e, he, h1, h2⟩ := dir_find_mem (by omega : dir_find st.dir_entries name.tail ≠ -1)
  rw [h2]
  exact hl.2.1 e he h1

theorem inode_get_neg (st : tfs_state) {i : Int} (h : i < 0) : inode_get st i = none := by
  unfold inode_get
  rw [if_neg (by omega)]

theorem rollback_fields {st : tfs_state} {q : Nat} {v : inode_t}
    (hq : first_free st.freeinode_ts = some q) (hql : q < st.inode_table.length) :
    (inode_delete { st with
        freeinode_ts := st.freeinode_ts.set q allocation_state_t.TAKEN
        inode_table := st.inode_table.set q v } (q : Int)).freeinode_ts = st.freeinode_ts ∧
    (inode_delete { st with
        freeinode_ts := st.freeinode_ts.set q allocation_state_t.TAKEN
        inode_table := st.inode_table.set q v } (q : Int)).dir_entries = st.dir_entries ∧
    (inode_delete { st with
        freeinode_ts := st.freeinode_ts.set q allocation_state_t.TAKEN
        inode_table := st.inode_table.set q v } (q : Int)).open_file_table =
      st.open_file_table ∧
    (inode_delete { st with
        freeinode_ts := st.freeinode_ts.set q allocation_state_t.TAKEN
        inode_table := st.inode_table.set q v } (q : Int)).inode_table =
      st.inode_table.set q v := by
  have hget : inode_get { st with
      freeinode_ts := st.freeinode_ts.set q allocation_state_t.TAKEN
      inode_table := st.inode_table.set q v } (q : Int) = some q := by
    simp [inode_get, hql]
  obtain ⟨h1, h2, h3, _, _, h6, _⟩ := inode_delete_fields _ hget
  refine ⟨?_, h2, h3, h1⟩
  rw [h6]
  exact list_set_set_restore _ _ _ _ (first_free_get hq)

theorem link_inv_rollback {st st1 : tfs_state} (hl : link_inv st) {q : Nat} {v : inode_t}
    (hq : first_free st.freeinode_ts = some q)
    (hf : st1.freeinode_ts = st.freeinode_ts) (hd : st1.dir_entries = st.dir_entries)
    (ht : st1.inode_table = st.inode_table.set q v) : link_inv st1 := by
  apply link_inv_same hl hf hd
  intro p hp
  have hqp : q ≠ p := by
    intro h
    have := first_free_get hq
    unfold inode_live at hp
    rw [h, hp] at this
    cases this
  rw [inode_at_set_ne ht hqp]
  exact ⟨rfl, rfl⟩

theorem link_inv_tfs_open {st : tfs_state} {name : List Char} {mode : Nat}
    {res : tfs_state × Int} (hinv : state_inv st) (hl : link_inv st)
    (h : tfs_open st name mode = some res) : link_inv res.1 := by
  rcases tfs_open_cases h with h1 | ⟨p, _, _, h1⟩ | ⟨q, _, hq, h1⟩ |
    ⟨q, d, _, _, _, hq, _, hins, h1⟩
  · rw [h1]; exact hl
  · obtain ⟨s, hs, g1, g2, _, _, _, _, g7, g8, _, _⟩ :=
      tfs_open_found_eq st (open_target st name) p mode
    have hls : link_inv s := by
      apply link_inv_same hl g1 g2
      intro r _
      by_cases hr : r = p
      · subst hr
        rw [g8]
        split <;> exact ⟨rfl, rfl⟩
      · rw [g7 r hr]; exact ⟨rfl, rfl⟩
    rw [h1, hs]
    rcases add_to_open_file_table_cases s (open_target st name)
        (if has_flag mode TFS_O_APPEND then (inode_at s p).i_size else 0)
      with ⟨_, h2⟩ | ⟨k, _, h2⟩
    · rw [h2]; exact hls
    · rw [h2]
      exact link_inv_same hls rfl rfl (fun _ _ => ⟨rfl, rfl⟩)
  · have hql : q < st.inode_table.length := by
      have := first_free_lt hq
      rw [hinv.2.1] at this
      exact this
    obtain ⟨f1, f2, _, f4⟩ :=
      @rollback_fields st q ⟨inode_type.T_FILE, 0, -1, 1, false, []⟩ hq hql
    rw [h1]
    exact link_inv_rollback hl hq f1 f2 f4
  · have hql : q < st.inode_table.length := by
      have := first_free_lt hq
      rw [hinv.2.1] at this
      exact this
    have hc : link_inv { st with
        freeinode_ts := st.freeinode_ts.set q allocation_state_t.TAKEN
        inode_table := st.inode_table.set q ⟨inode_type.T_FILE, 0, -1, 1, false, []⟩
        dir_entries := d } :=
      link_inv_create hl hq hql rfl rfl rfl hins
    rw [h1]
    rcases add_to_open_file_table_cases { st with
        freeinode_ts := st.freeinode_ts.set q allocation_state_t.TAKEN
        inode_table := st.inode_table.set q ⟨inode_type.T_FILE, 0, -1, 1, false, []⟩
        dir_entries := d } (q : Int) 0 with ⟨_, h2⟩ | ⟨k, _, h2⟩
    · rw [h2]; exact hc
    · rw [h2]
      exact link_inv_same hc rfl rfl (fun _ _ => ⟨rfl, rfl⟩)

theorem link_inv_tfs_write {st : tfs_state} {fhandle : Int} {buffer : List Nat}
    {to_write : Nat} {res : tfs_state × Int} (hl : link_inv st)
    (h : tfs_write st fhandle buffer to_write = some res) : link_inv res.1 := by
  rcases tfs_write_effect h with h1 | ⟨file, inode, o, _, _, g1, g2, _, _, g5, g6, g7, _, _⟩
  · rw [h1]; exact hl
  · apply link_inv_same hl g1 g2
    intro p _
    by_cases hp : p = inode
    · subst hp; exact ⟨g6, g7⟩
    · rw [g5 p hp]; exact ⟨rfl, rfl⟩

theorem link_inv_tfs_read {st : tfs_state} {fhandle : Int} {len : Nat}
    {res : tfs_state × Int × List Nat} (hl : link_inv st)
    (h : tfs_read st fhandle len = some res) : link_inv res.1 := by
  rcases tfs_read_effect h with h1 | ⟨_, _, _, _, _, _, h1⟩
  · rw [h1]; exact hl
  · rw [h1]
    exact link_inv_same hl rfl rfl (fun _ _ => ⟨rfl, rfl⟩)

theorem link_inv_tfs_close {st : tfs_state} (hl : link_inv st) (fhandle : Int) :
    link_inv (tfs_close st fhandle).1 := by
  rcases tfs_close_effect st fhandle with h1 | h1
  · rw [h1]; exact hl
  · rw [h1]
    exact link_inv_same hl rfl rfl (fun _ _ => ⟨rfl, rfl⟩)

theorem link_inv_tfs_link {st : tfs_state} {target link_name : List Char}
    {res : tfs_state × Int} (hl : link_inv st)
    (h : tfs_link st target link_name = some res) : link_inv res.1 := by
  rcases tfs_link_cases h with h1 | ⟨p, hp, hreg, hle, h1⟩
  · rw [h1]; exact hl
  · obtain ⟨h0, hpe, hpl⟩ := inode_get_lt hp
    obtain ⟨hpos, hlive⟩ := lookup_live hl h0
    rw [← hpe] at hlive
    have hcast : tfs_lookup st target (inode_get st ROOT_DIR_INUM) = (p : Int) := by omega
    rcases h1 with ⟨d, hins, h1⟩ | h1
    · rw [h1]
      rw [hcast] at hins
      exact link_inv_link hl hpl hreg rfl rfl (Or.inr ⟨hlive, by omega, hins⟩)
    · have hneg : tfs_lookup st link_name (inode_get st ROOT_DIR_INUM) < 0 := by
        by_contra hn
        have := (lookup_live hl (by omega :
          0 ≤ tfs_lookup st link_name (inode_get st ROOT_DIR_INUM))).1
        omega
      have hnone : inode_get (inode_put st p
          { inode_at st p with hard_links := (inode_at st p).hard_links + 1 })
          (tfs_lookup st link_name (inode_get st ROOT_DIR_INUM)) = none :=
        inode_get_neg _ hneg
      rw [h1, inode_delete_none _ hnone]
      exact @link_inv_link st _ hl p [] hpl hreg rfl rfl (Or.inl rfl)

theorem link_inv_tfs_sym_link {st : tfs_state} {target link_name : List Char}
    {res : tfs_state × Int} (hinv : state_inv st) (hl : link_inv st)
    (h : tfs_sym_link st target link_name = some res) : link_inv res.1 := by
  rcases tfs_sym_link_cases hinv h with h1 | ⟨p, q, v, _, hq, hql, hv, _, _, h1⟩
  · rw [h1]; exact hl
  · rcases h1 with ⟨d, hins, h1⟩ | h1
    · rw [h1]
      exact link_inv_create hl hq hql rfl rfl hv hins
    · obtain ⟨f1, f2, _, f4⟩ := @rollback_fields st q v hq hql
      rw [h1]
      exact link_inv_rollback hl hq f1 f2 f4

theorem link_inv_tfs_unlink {st : tfs_state} {target : List Char}
    {res : tfs_state × Int} (hl : link_inv st)
    (h : tfs_unlink st target = some res) : link_inv res.1 := by
  rcases tfs_unlink_cases h with h1 | ⟨p, d, hp, hfind, hclr, h1⟩
  · rw [h1]; exact hl
  · obtain ⟨h0, hpe, hpl⟩ := inode_get_lt hp
    obtain ⟨hpos, hlive⟩ := lookup_live hl h0
    rw [← hpe] at hlive
    have hcast : tfs_lookup st target (inode_get st ROOT_DIR_INUM) = (p : Int) := by omega
    rw [hcast] at hfind
    rcases h1 with ⟨hcond, h1⟩ | ⟨hreg, hhl, h1⟩
    · have hhl : (inode_at st p).hard_links ≤ 1 := by
        rcases hcond with hs | hh
        · exact hl.2.2.2 p hlive hs
        · exact hh
      have hget : inode_get { st with dir_entries := d }
          (tfs_lookup st target (inode_get st ROOT_DIR_INUM)) = some p := hp
      obtain ⟨g1, g2, _, _, _, g6, _⟩ := inode_delete_fields _ hget
      rw [h1]
      exact link_inv_unlink_delete hl hfind hhl (by rw [g2]; exact hclr) g6 g1
    · rw [h1]
      exact link_inv_unlink_dec hl hpl hfind hreg hclr rfl rfl

theorem link_inv_step {st : tfs_state} {c : tfs_call} {res : tfs_state × Int}
    (hinv : state_inv st) (hl : link_inv st) (h : tfs_step st c = some res) :
    link_inv res.1 := by
  cases c with
  | call_open name mode => exact link_inv_tfs_open hinv hl h
  | call_close fhandle =>
    simp only [tfs_step, Option.some.injEq] at h
    subst h
    exact link_inv_tfs_close hl _
  | call_read fhandle len =>
    simp only [tfs_step, Option.map_eq_some'] at h
    obtain ⟨r, hr, rfl⟩ := h
    exact link_inv_tfs_read hl hr
  | call_write fhandle buffer to_write => exact link_inv_tfs_write hl h
  | call_link target link_name => exact link_inv_tfs_link hl h
  | call_sym_link target link_name => exact link_inv_tfs_sym_link hinv hl h
  | call_unlink target => exact link_inv_tfs_unlink hl h

theorem link_inv_run_calls {st st1 : tfs_state} {calls : List tfs_call}
    (hinv : state_inv st) (hl : link_inv st) (h : run_calls st calls = some st1) :
    link_inv st1 := by
  induction calls generalizing st with
  | nil => simp [run_calls] at h; subst h; exact hl
  | cons c cs ih =>
    simp only [run_calls] at h
    cases hs : tfs_step st c with
    | none => rw [hs] at h; cases h
    | some r =>
      rw [hs] at h
      exact ih (inv_tfs_step hinv hs) (link_inv_step hinv hl hs) h

theorem inode_create_dir_root {s : tfs_state}
    (h : (inode_create s inode_type.T_DIRECTORY).2 = ROOT_DIR_INUM) :
    first_free s.freeinode_ts = some 0 ∧
      (inode_create s inode_type.T_DIRECTORY).1.freeinode_ts =
        s.freeinode_ts.set 0 allocation_state_t.TAKEN ∧
      (inode_create s inode_type.T_DIRECTORY).1.dir_entries =
        s.dir_entries.map (fun e => { e with d_inumber := -1 }) ∧
      (inode_create s inode_type.T_DIRECTORY).1.open_file_table = s.open_file_table ∧
      (inode_at (inode_create s inode_type.T_DIRECTORY).1 0).sym_link = false := by
  have hfb : (data_block_alloc s).1.freeinode_ts = s.freeinode_ts ∧
      (data_block_alloc s).1.dir_entries = s.dir_entries ∧
      (data_block_alloc s).1.open_file_table = s.open_file_table ∧
      (data_block_alloc s).1.inode_table = s.inode_table := by
    unfold data_block_alloc; split <;> exact ⟨rfl, rfl, rfl, rfl⟩
  unfold inode_create at h ⊢
  cases hq : first_free s.freeinode_ts with
  | none => rw [hq] at h; simp [ROOT_DIR_INUM] at h
  | some q =>
    rw [hq] at h
    simp only [] at h ⊢
    by_cases ha : (data_block_alloc s).2 = -1
    · rw [if_pos ha] at h
      simp [ROOT_DIR_INUM] at h
    · rw [if_neg ha] at h
      simp only [ROOT_DIR_INUM] at h
      have hq0 : q = 0 := by omega
      subst hq0
      rw [if_neg ha]
      simp only []
      rw [hfb.1, hfb.2.1, hfb.2.2.1]
      refine ⟨trivial, rfl, rfl, rfl, ?_⟩
      simp only [inode_at, List.getD_eq_getElem?_getD]
      by_cases hlt : 0 < (data_block_alloc s).1.inode_table.length
      · rw [List.getElem?_set_self hlt]; rfl
      · rw [List.getElem?_eq_none (by rw [List.length_set]; omega)]; rfl

/-- After `tfs_init` the root is the only live inode, it is no symbolic link,
and the directory and the open-file table are empty. -/
theorem tfs_init_fields {n : Nat} {params_ptr : Option tfs_params} {st : tfs_state}
    (h : tfs_init n params_ptr = some st) :
    st.freeinode_ts[0]? = some allocation_state_t.TAKEN ∧
      (∀ p, p ≠ 0 → st.freeinode_ts[p]? ≠ some allocation_state_t.TAKEN) ∧
      (∀ e ∈ st.dir_entries, e.d_inumber = -1) ∧
      (∀ x ∈ st.open_file_table, x = none) ∧
      (inode_at st 0).sym_link = false := by
  unfold tfs_init at h
  simp only [] at h
  generalize (match params_ptr with
    | some p => p
    | none => tfs_default_params) = params at h
  split at h
  · cases h
  split at h
  · cases h
  · rename_i hroot
    cases h
    simp only [ne_eq, Decidable.not_not] at hroot
    obtain ⟨hq, g1, g2, g3, g4⟩ := inode_create_dir_root hroot
    have hlt := first_free_lt hq
    rw [g1, g2, g3]
    refine ⟨List.getElem?_set_self hlt, fun p hp => ?_, fun e he => ?_, fun x hx => ?_, g4⟩
    · rw [List.getElem?_set_ne (Ne.symm hp)]
      simp only [state_init]
      intro hc
      have := List.getElem?_mem hc
      simp at this
    · simp only [List.mem_map] at he
      obtain ⟨a, _, rfl⟩ := he
      rfl
    · simp only [state_init] at hx
      exact (List.mem_replicate.mp hx).2

theorem link_inv_tfs_init {n : Nat} {params_ptr : Option tfs_params} {st : tfs_state}
    (h : tfs_init n params_ptr = some st) : link_inv st := by
  obtain ⟨h0, hfree, hdir, _, hroot⟩ := tfs_init_fields h
  refine ⟨h0, fun e he hlive => absurd (hdir e he) hlive, fun p hp => ?_, fun p hp hs => ?_⟩
  · have : names_of st (p : Int) = 0 := by
      apply count_zero
      intro e he heq
      have := hdir e he
      omega
    omega
  · by_cases hp0 : p = 0
    · subst hp0
      rw [hroot] at hs
      cases hs
    · exact absurd hp (hfree p hp0)

/-- In every reachable state the root is live, a directory entry names a live
inode other than the root, a live inode has at least as many `hard_links` as
names, and a live symbolic link has at most one. -/
theorem reachable_link_inv {st : tfs_state} (h : reachable st) : link_inv st := by
  obtain ⟨n, params_ptr, calls, hb⟩ := h
  unfold boot at hb
  split at hb
  · cases hb
  · rename_i s0 h0
    exact link_inv_run_calls (inv_tfs_init h0) (link_inv_tfs_init h0) hb

/-! ## Runs under a guard -/

theorem run_calls_of_where {ok : tfs_state → tfs_call → Bool} {st st1 : tfs_state}
    {calls : List tfs_call} (h : run_calls_where ok st calls = some st1) :
    run_calls st calls = some st1 := by
  induction calls generalizing st with
  | nil => exact h
  | cons c cs ih =>
    simp only [run_calls_where] at h
    simp only [run_calls]
    split at h
    · cases hs : tfs_step st c with
      | none => rw [hs] at h; cases h
      | some r =>
        rw [hs] at h
        exact ih h
    · cases h

theorem reachable_of_where {ok : tfs_state → tfs_call → Bool} {st : tfs_state}
    (h : reachable_where ok st) : reachable st := by
  obtain ⟨n, params_ptr, calls, hb⟩ := h
  refine ⟨n, params_ptr, calls, ?_⟩
  unfold boot
  cases hi : tfs_init n params_ptr with
  | none => rw [hi] at hb; cases hb
  | some s0 =>
    rw [hi] at hb
    exact run_calls_of_where hb

theorem run_calls_where_induct {ok : tfs_state → tfs_call → Bool} {P : tfs_state → Prop}
    (hstep : ∀ (st : tfs_state) (c : tfs_call) (res : tfs_state × Int), reachable st → P st →
      ok st c = true → tfs_step st c = some res → P res.1)
    {st st1 : tfs_state} {calls : List tfs_call} (hr : reachable st) (hp : P st)
    (h : run_calls_where ok st calls = some st1) : P st1 := by
  induction calls generalizing st with
  | nil => simp [run_calls_where] at h; subst h; exact hp
  | cons c cs ih =>
    simp only [run_calls_where] at h
    split at h
    · rename_i hok
      cases hs : tfs_step st c with
      | none => rw [hs] at h; cases h
      | some r =>
        rw [hs] at h
        exact ih (reachable_step hr hs) (hstep st c r hr hp hok hs) h
    · cases h

/-- A property that holds after `tfs_init` and that every call passing the guard
keeps, holds in every state reachable under the guard. -/
theorem reachable_where_induct {ok : tfs_state → tfs_call → Bool} {P : tfs_state → Prop}
    (h0 : ∀ (n : Nat) (params_ptr : Option tfs_params) (st : tfs_state),
      tfs_init n params_ptr = some st → P st)
    (hstep : ∀ (st : tfs_state) (c : tfs_call) (res : tfs_state × Int), reachable st → P st →
      ok st c = true → tfs_step st c = some res → P res.1)
    {st : tfs_state} (h : reachable_where ok st) : P st := by
  obtain ⟨n, params_ptr, calls, hb⟩ := h
  cases hi : tfs_init n params_ptr with
  | none => rw [hi] at hb; cases hb
  | some s0 =>
    rw [hi] at hb
    have hr0 : reachable s0 := ⟨n, params_ptr, [], by simp [boot, hi, run_calls]⟩
    exact run_calls_where_induct hstep hr0 (h0 n params_ptr s0 hi) hb

theorem reachable_where_state_after (ok : tfs_state → tfs_call → Bool)
    (calls : List tfs_call)
    (h : ((tfs_init 3 (some small_params)).bind
      (fun s => run_calls_where ok s calls)).isSome = true) :
    reachable_where ok (state_after_where ok calls) := by
  refine ⟨3, some small_params, calls, ?_⟩
  unfold state_after_where
  cases hb : (tfs_init 3 (some small_params)).bind (fun s => run_calls_where ok s calls) with
  | none => rw [hb] at h; cases h
  | some st => rfl

/-! ## Open-file entries under a guard -/

theorem mem_set_some {l : List (Option open_file_entry_t)} {k : Nat}
    {g : Option open_file_entry_t} {f : open_file_entry_t} (h : some f ∈ l.set k g) :
    some f ∈ l ∨ g = some f := by
  rcases List.mem_or_eq_of_mem_set h with h1 | h1
  · exact Or.inl h1
  · exact Or.inr h1.symm

theorem no_handle_on_mem {st : tfs_state} {inum : Int} (h : no_handle_on st inum = true)
    {f : open_file_entry_t} (hf : some f ∈ st.open_file_table) : f.of_inumber ≠ inum := by
  unfold no_handle_on at h
  rw [List.all_eq_true] at h
  have := h (some f) hf
  simpa using this

/-- What `tfs_open` ends on, when it is an inode of the table, is a live inode. -/
theorem open_target_live {st : tfs_state} (hl : link_inv st) {name : List Char} {p : Nat}
    (h : inode_get st (open_target st name) = some p) :
    open_target st name = (p : Int) ∧ inode_live st p := by
  obtain ⟨h0, hpe, _⟩ := inode_get_lt h
  have hcast : open_target st name = (p : Int) := by omega
  refine ⟨hcast, ?_⟩
  have key : ∃ x : List Char, open_target st name =
      tfs_lookup st x (inode_get st ROOT_DIR_INUM) := by
    unfold open_target
    split
    · rename_i hn
      unfold open_target at h0
      rw [hn] at h0
      simp at h0
    · split
      · exact ⟨_, rfl⟩
      · exact ⟨_, rfl⟩
  obtain ⟨x, hx⟩ := key
  rw [hx] at h0
  have := (lookup_live hl h0).2
  rw [← hx, hcast] at this
  simpa using this

/-! ## Offsets stay inside the file -/

theorem offset_inv_transfer {st st1 : tfs_state} (ho : offset_inv st)
    (hoft : ∀ f, some f ∈ st1.open_file_table → some f ∈ st.open_file_table ∨
      (inode_live st1 f.of_inumber.toNat ∧
        f.of_offset ≤ (inode_at st1 f.of_inumber.toNat).i_size))
    (hkeep : ∀ f, some f ∈ st.open_file_table →
      inode_live st1 f.of_inumber.toNat ∧
        (inode_at st f.of_inumber.toNat).i_size ≤ (inode_at st1 f.of_inumber.toNat).i_size) :
    offset_inv st1 := by
  intro f hf
  rcases hoft f hf with h | h
  · exact ⟨(hkeep f h).1, le_trans (ho f h).2 (hkeep f h).2⟩
  · exact h

theorem handle_not_free {st : tfs_state} {f : open_file_entry_t} {q : Nat}
    (hlive : inode_live st f.of_inumber.toNat)
    (hq : first_free st.freeinode_ts = some q) : q ≠ f.of_inumber.toNat := by
  intro h
  have := first_free_get hq
  unfold inode_live at hlive
  rw [h, hlive] at this
  cases this

theorem offset_inv_tfs_open {st : tfs_state} {name : List Char} {mode : Nat}
    {res : tfs_state × Int} (hinv : state_inv st) (hl : link_inv st) (ho : offset_inv st)
    (hg : has_flag mode TFS_O_TRUNC = true → no_handle_on st (open_target st name) = true)
    (h : tfs_open st name mode = some res) : offset_inv res.1 := by
  rcases tfs_open_cases h with h1 | ⟨p, _, hp, h1⟩ | ⟨q, _, hq, h1⟩ |
    ⟨q, d, _, _, _, hq, _, hins, h1⟩
  · rw [h1]; exact ho
  · obtain ⟨hcast, hlive⟩ := open_target_live hl hp
    obtain ⟨s, hs, g1, g2, _, _, g5, _, g7, g8, g9, _⟩ :=
      tfs_open_found_eq st (open_target st name) p mode
    have hkeep : ∀ f, some f ∈ st.open_file_table →
        inode_at s f.of_inumber.toNat = inode_at st f.of_inumber.toNat := by
      intro f hf
      by_cases htr : has_flag mode TFS_O_TRUNC = true
      · have hne := no_handle_on_mem (hg htr) hf
        have h0 := (hinv.2.2.2.2.1 f hf).2.1
        rw [hcast] at hne
        exact g7 _ (by omega)
      · rw [g9 (by simpa using htr)]
    rw [h1, hs]
    rcases add_to_open_file_table_cases s (open_target st name)
        (if has_flag mode TFS_O_APPEND then (inode_at s p).i_size else 0)
      with ⟨_, h2⟩ | ⟨k, _, h2⟩
    · rw [h2]
      apply offset_inv_transfer ho
      · intro f hf; rw [g5] at hf; exact Or.inl hf
      · intro f hf
        refine ⟨?_, by rw [hkeep f hf]⟩
        unfold inode_live; rw [g1]; exact (ho f hf).1
    · rw [h2]
      apply offset_inv_transfer ho
      · intro f hf
        simp only [g5] at hf
        rcases mem_set_some hf with h3 | h3
        · exact Or.inl h3
        · right
          simp only [Option.some.injEq] at h3
          subst h3
          simp only [hcast, Int.toNat_ofNat]
          refine ⟨by unfold inode_live; simp only []; rw [g1]; exact hlive, ?_⟩
          show _ ≤ (inode_at s p).i_size
          split <;> omega
      · intro f hf
        refine ⟨by unfold inode_live; simp only []; rw [g1]; exact (ho f hf).1, ?_⟩
        show _ ≤ (inode_at s f.of_inumber.toNat).i_size
        rw [hkeep f hf]
  · have hql : q < st.inode_table.length := by
      have := first_free_lt hq
      rw [hinv.2.1] at this
      exact this
    obtain ⟨f1, _, f3, f4⟩ :=
      @rollback_fields st q ⟨inode_type.T_FILE, 0, -1, 1, false, []⟩ hq hql
    rw [h1]
    apply offset_inv_transfer ho
    · intro f hf; rw [f3] at hf; exact Or.inl hf
    · intro f hf
      refine ⟨by unfold inode_live; rw [f1]; exact (ho f hf).1, ?_⟩
      rw [inode_at_set_ne f4 (handle_not_free (ho f hf).1 hq)]
  · have hqf := first_free_lt hq
    have hkeep : ∀ (s : tfs_state),
        s.freeinode_ts = st.freeinode_ts.set q allocation_state_t.TAKEN →
        s.inode_table = st.inode_table.set q ⟨inode_type.T_FILE, 0, -1, 1, false, []⟩ →
        ∀ f, some f ∈ st.open_file_table →
        inode_live s f.of_inumber.toNat ∧
          (inode_at st f.of_inumber.toNat).i_size ≤ (inode_at s f.of_inumber.toNat).i_size := by
      intro s hsf hst f hf
      refine ⟨by unfold inode_live; rw [hsf]; exact live_set_taken hqf (ho f hf).1, ?_⟩
      rw [inode_at_set_ne hst (handle_not_free (ho f hf).1 hq)]
    rw [h1]
    rcases add_to_open_file_table_cases { st with
        freeinode_ts := st.freeinode_ts.set q allocation_state_t.TAKEN
        inode_table := st.inode_table.set q ⟨inode_type.T_FILE, 0, -1, 1, false, []⟩
        dir_entries := d } (q : Int) 0 with ⟨_, h2⟩ | ⟨k, _, h2⟩
    · rw [h2]
      exact offset_inv_transfer ho (fun f hf => Or.inl hf) (hkeep _ rfl rfl)
    · rw [h2]
      apply offset_inv_transfer ho
      · intro f hf
        rcases mem_set_some hf with h3 | h3
        · exact Or.inl h3
        · right
          simp only [Option.some.injEq] at h3
          subst h3
          exact ⟨List.getElem?_set_self hqf, Nat.zero_le _⟩
      · exact hkeep _ rfl rfl

theorem offset_inv_tfs_write {st : tfs_state} {fhandle : Int} {buffer : List Nat}
    {to_write : Nat} {res : tfs_state × Int} (ho : offset_inv st)
    (h : tfs_write st fhandle buffer to_write = some res) : offset_inv res.1 := by
  rcases tfs_write_effect h with h1 |
    ⟨file, inode, o, hfile, hinode, g1, _, g3, _, g5, _, _, g8, g9⟩
  · rw [h1]; exact ho
  · obtain ⟨_, hie, _⟩ := inode_get_lt hinode
    have hmem := get_open_file_entry_mem hfile
    apply offset_inv_transfer ho
    · intro f hf
      rw [g3] at hf
      rcases mem_set_some hf with h3 | h3
      · exact Or.inl h3
      · right
        simp only [Option.some.injEq] at h3
        subst h3
        simp only []
        rw [← hie]
        exact ⟨by unfold inode_live; rw [g1]; rw [hie]; exact (ho file hmem).1, g9⟩
    · intro f hf
      refine ⟨by unfold inode_live; rw [g1]; exact (ho f hf).1, ?_⟩
      by_cases hq : f.of_inumber.toNat = inode
      · rw [hq]; exact g8
      · rw [g5 _ hq]

theorem offset_inv_tfs_read {st : tfs_state} {fhandle : Int} {len : Nat}
    {res : tfs_state × Int × List Nat} (hinv : state_inv st) (ho : offset_inv st)
    (h : tfs_read st fhandle len = some res) : offset_inv res.1 := by
  rcases tfs_read_effect h with h1 | ⟨file, inode, c, hfile, hinode, hc, h1⟩
  · rw [h1]; exact ho
  · obtain ⟨_, hie, hlt⟩ := inode_get_lt hinode
    have hmem := get_open_file_entry_mem hfile
    have hoff := (ho file hmem).2
    rw [← hie] at hoff
    have hsz : (inode_at st inode).i_size < SIZE_MOD := (inode_ok_at hinv inode).2.1
    rw [h1]
    apply offset_inv_transfer ho
    · intro f hf
      rcases mem_set_some hf with h3 | h3
      · exact Or.inl h3
      · right
        simp only [Option.some.injEq] at h3
        subst h3
        simp only []
        refine ⟨(ho file hmem).1, ?_⟩
        show _ ≤ (inode_at st file.of_inumber.toNat).i_size
        rw [← hie]
        unfold SIZE_MOD at *
        omega
    · intro f hf
      exact ⟨(ho f hf).1, le_refl _⟩

theorem offset_inv_tfs_close {st : tfs_state} (ho : offset_inv st) (fhandle : Int) :
    offset_inv (tfs_close st fhandle).1 := by
  rcases tfs_close_effect st fhandle with h1 | h1
  · rw [h1]; exact ho
  · rw [h1]
    apply offset_inv_transfer ho
    · intro f hf
      rcases mem_set_some hf with h3 | h3
      · exact Or.inl h3
      · cases h3
    · intro f hf
      exact ⟨(ho f hf).1, le_refl _⟩

theorem offset_inv_tfs_link {st : tfs_state} {target link_name : List Char}
    {res : tfs_state × Int} (hl : link_inv st) (ho : offset_inv st)
    (h : tfs_link st target link_name = some res) : offset_inv res.1 := by
  rcases tfs_link_cases h with h1 | ⟨p, hp, hreg, hle, h1⟩
  · rw [h1]; exact ho
  · obtain ⟨_, _, hpl⟩ := inode_get_lt hp
    have hsize : ∀ q, (inode_at (inode_put st p
        { inode_at st p with hard_links := (inode_at st p).hard_links + 1 }) q).i_size =
        (inode_at st q).i_size := by
      intro q
      by_cases hq : p = q
      · subst hq; rw [inode_at_put_self hpl]
      · rw [inode_at_put_ne hq]
    rcases h1 with ⟨d, hins, h1⟩ | h1
    · rw [h1]
      apply offset_inv_transfer ho
      · intro f hf; exact Or.inl hf
      · intro f hf
        refine ⟨(ho f hf).1, ?_⟩
        show _ ≤ (inode_at (inode_put st p _) f.of_inumber.toNat).i_size
        rw [hsize]
    · have hneg : tfs_lookup st link_name (inode_get st ROOT_DIR_INUM) < 0 := by
        by_contra hn
        have := (lookup_live hl (by omega :
          0 ≤ tfs_lookup st link_name (inode_get st ROOT_DIR_INUM))).1
        omega
      rw [h1, inode_delete_none _ (inode_get_neg _ hneg)]
      apply offset_inv_transfer ho
      · intro f hf; exact Or.inl hf
      · intro f hf
        refine ⟨(ho f hf).1, ?_⟩
        rw [hsize]

theorem offset_inv_tfs_sym_link {st : tfs_state} {target link_name : List Char}
    {res : tfs_state × Int} (hinv : state_inv st) (ho : offset_inv st)
    (h : tfs_sym_link st target link_name = some res) : offset_inv res.1 := by
  rcases tfs_sym_link_cases hinv h with h1 | ⟨p, q, v, _, hq, hql, _, _, _, h1⟩
  · rw [h1]; exact ho
  · have hqf := first_free_lt hq
    rcases h1 with ⟨d, hins, h1⟩ | h1
    · rw [h1]
      apply offset_inv_transfer ho
      · intro f hf; exact Or.inl hf
      · intro f hf
        refine ⟨live_set_taken hqf (ho f hf).1, ?_⟩
        simp only [inode_at, List.getD_eq_getElem?_getD,
          List.getElem?_set_ne (handle_not_free (ho f hf).1 hq)]
        exact le_refl _
    · obtain ⟨f1, _, f3, f4⟩ := @rollback_fields st q v hq hql
      rw [h1]
      apply offset_inv_transfer ho
      · intro f hf; rw [f3] at hf; exact Or.inl hf
      · intro f hf
        refine ⟨by unfold inode_live; rw [f1]; exact (ho f hf).1, ?_⟩
        rw [inode_at_set_ne f4 (handle_not_free (ho f hf).1 hq)]

theorem offset_inv_tfs_unlink {st : tfs_state} {target : List Char}
    {res : tfs_state × Int} (hinv : state_inv st) (ho : offset_inv st)
    (hg : no_handle_on st (tfs_lookup st target (inode_get st ROOT_DIR_INUM)) = true)
    (h : tfs_unlink st target = some res) : offset_inv res.1 := by
  rcases tfs_unlink_cases h with h1 | ⟨p, d, hp, hfind, hclr, h1⟩
  · rw [h1]; exact ho
  · obtain ⟨h0, hpe, hpl⟩ := inode_get_lt hp
    rcases h1 with ⟨_, h1⟩ | ⟨_, _, h1⟩
    · have hget : inode_get { st with dir_entries := d }
          (tfs_lookup st target (inode_get st ROOT_DIR_INUM)) = some p := hp
      obtain ⟨g1, _, g3, _, _, g6, _⟩ := inode_delete_fields _ hget
      rw [h1]
      apply offset_inv_transfer ho
      · intro f hf; rw [g3] at hf; exact Or.inl hf
      · intro f hf
        have hne := no_handle_on_mem hg hf
        have hf0 := (hinv.2.2.2.2.1 f hf).2.1
        refine ⟨?_, ?_⟩
        · unfold inode_live
          rw [g6]
          simp only []
          rw [List.getElem?_set_ne (by omega)]
          exact (ho f hf).1
        · rw [inode_at_congr g1]
          exact le_refl _
    · rw [h1]
      apply offset_inv_transfer ho
      · intro f hf; exact Or.inl hf
      · intro f hf
        refine ⟨(ho f hf).1, ?_⟩
        show _ ≤ (inode_at (inode_put st p _) f.of_inumber.toNat).i_size
        by_cases hq : p = f.of_inumber.toNat
        · rw [← hq, inode_at_put_self hpl]
        · rw [inode_at_put_ne hq]

theorem offset_inv_step {st : tfs_state} {c : tfs_call} {res : tfs_state × Int}
    (hinv : state_inv st) (hl : link_inv st) (ho : offset_inv st)
    (hg : offset_guard st c = true) (h : tfs_step st c = some res) : offset_inv res.1 := by
  cases c with
  | call_open name mode =>
    apply offset_inv_tfs_open hinv hl ho _ h
    intro htr
    simpa [offset_guard, unlink_guard, trunc_guard, htr] using hg
  | call_close fhandle =>
    simp only [tfs_step, Option.some.injEq] at h
    subst h
    exact offset_inv_tfs_close ho _
  | call_read fhandle len =>
    simp only [tfs_step, Option.map_eq_some'] at h
    obtain ⟨r, hr, rfl⟩ := h
    exact offset_inv_tfs_read hinv ho hr
  | call_write fhandle buffer to_write => exact offset_inv_tfs_write ho h
  | call_link target link_name => exact offset_inv_tfs_link hl ho h
  | call_sym_link target link_name => exact offset_inv_tfs_sym_link hinv ho h
  | call_unlink target =>
    apply offset_inv_tfs_unlink hinv ho _ h
    simpa [offset_guard, unlink_guard, trunc_guard] using hg

theorem offset_inv_tfs_init {n : Nat} {params_ptr : Option tfs_params} {st : tfs_state}
    (h : tfs_init n params_ptr = some st) : offset_inv st := by
  obtain ⟨_, _, _, hoft, _⟩ := tfs_init_fields h
  intro f hf
  cases hoft _ hf

/-! ## Symbolic links stay empty -/

theorem symlink_inv_transfer {st st1 : tfs_state} (hs : symlink_inv st)
    (hS : ∀ p, inode_live st1 p → (inode_at st1 p).sym_link = true →
      ((inode_at st1 p).i_size = 0 ∧ (inode_at st1 p).i_data_block = -1) ∨
      (inode_live st p ∧ (inode_at st p).sym_link = true ∧
        (inode_at st1 p).i_data_block = (inode_at st p).i_data_block ∧
        ((inode_at st1 p).i_size = (inode_at st p).i_size ∨ (inode_at st1 p).i_size = 0)))
    (hoft : ∀ f, some f ∈ st1.open_file_table → some f ∈ st.open_file_table ∨
      (inode_live st1 f.of_inumber.toNat ∧
        (inode_at st1 f.of_inumber.toNat).sym_link = false))
    (hkeep : ∀ f, some f ∈ st.open_file_table →
      inode_live st1 f.of_inumber.toNat ∧
        (inode_at st1 f.of_inumber.toNat).sym_link =
          (inode_at st f.of_inumber.toNat).sym_link) :
    symlink_inv st1 := by
  refine ⟨fun p hp hsym => ?_, fun f hf => ?_⟩
  · rcases hS p hp hsym with h | ⟨h1, h2, h3, h4⟩
    · exact h
    · obtain ⟨g1, g2⟩ := hs.1 p h1 h2
      refine ⟨by omega, by rw [h3, g2]⟩
  · rcases hoft f hf with h | h
    · exact ⟨(hkeep f h).1, by rw [(hkeep f h).2]; exact (hs.2 f h).2⟩
    · exact h

/-- The state differs from `st` in the open-file table only. -/
theorem symlink_S_same {st st1 : tfs_state} (hf : st1.freeinode_ts = st.freeinode_ts)
    (ht : ∀ p, inode_at st1 p = inode_at st p) :
    ∀ p, inode_live st1 p → (inode_at st1 p).sym_link = true →
      ((inode_at st1 p).i_size = 0 ∧ (inode_at st1 p).i_data_block = -1) ∨
      (inode_live st p ∧ (inode_at st p).sym_link = true ∧
        (inode_at st1 p).i_data_block = (inode_at st p).i_data_block ∧
        ((inode_at st1 p).i_size = (inode_at st p).i_size ∨ (inode_at st1 p).i_size = 0)) := by
  intro p hp hsym
  unfold inode_live at hp
  rw [hf] at hp
  rw [ht] at hsym ⊢
  exact Or.inr ⟨hp, hsym, rfl, Or.inl rfl⟩

theorem symlink_inv_tfs_open {st : tfs_state} {name : List Char} {mode : Nat}
    {res : tfs_state × Int} (hinv : state_inv st) (hl : link_inv st) (hs : symlink_inv st)
    (hg : ∀ p, inode_get st (open_target st name) = some p → (inode_at st p).sym_link = false)
    (h : tfs_open st name mode = some res) : symlink_inv res.1 := by
  rcases tfs_open_cases h with h1 | ⟨p, _, hp, h1⟩ | ⟨q, _, hq, h1⟩ |
    ⟨q, d, _, _, _, hq, _, hins, h1⟩
  · rw [h1]; exact hs
  · obtain ⟨hcast, hlive⟩ := open_target_live hl hp
    have hreg := hg p hp
    obtain ⟨s, hse, g1, g2, _, _, g5, _, g7, g8, _, _⟩ :=
      tfs_open_found_eq st (open_target st name) p mode
    have hsym : ∀ r, (inode_at s r).sym_link = (inode_at st r).sym_link := by
      intro r
      by_cases hr : r = p
      · subst hr; rw [g8]; split <;> rfl
      · rw [g7 r hr]
    have hS : ∀ r, inode_live s r → (inode_at s r).sym_link = true →
        ((inode_at s r).i_size = 0 ∧ (inode_at s r).i_data_block = -1) ∨
        (inode_live st r ∧ (inode_at st r).sym_link = true ∧
          (inode_at s r).i_data_block = (inode_at st r).i_data_block ∧
          ((inode_at s r).i_size = (inode_at st r).i_size ∨ (inode_at s r).i_size = 0)) := by
      intro r hr hsr
      unfold inode_live at hr
      rw [g1] at hr
      rw [hsym] at hsr
      by_cases hrp : r = p
      · subst hrp
        rw [hreg] at hsr
        cases hsr
      · rw [g7 r hrp]
        exact Or.inr ⟨hr, hsr, rfl, Or.inl rfl⟩
    rw [h1, hse]
    rcases add_to_open_file_table_cases s (open_target st name)
        (if has_flag mode TFS_O_APPEND then (inode_at s p).i_size else 0)
      with ⟨_, h2⟩ | ⟨k, _, h2⟩
    · rw [h2]
      apply symlink_inv_transfer hs
      · exact fun r hr hsr => hS r hr hsr
      · intro f hf; rw [g5] at hf; exact Or.inl hf
      · intro f hf
        exact ⟨by unfold inode_live; rw [g1]; exact (hs.2 f hf).1, hsym _⟩
    · rw [h2]
      apply symlink_inv_transfer hs
      · exact fun r hr hsr => hS r hr hsr
      · intro f hf
        simp only [g5] at hf
        rcases mem_set_some hf with h3 | h3
        · exact Or.inl h3
        · right
          simp only [Option.some.injEq] at h3
          subst h3
          simp only [hcast, Int.toNat_ofNat]
          refine ⟨by unfold inode_live; simp only []; rw [g1]; exact hlive, ?_⟩
          show (inode_at s p).sym_link = false
          rw [hsym]; exact hreg
      · intro f hf
        exact ⟨by unfold inode_live; simp only []; rw [g1]; exact (hs.2 f hf).1, hsym _⟩
  · have hql : q < st.inode_table.length := by
      have := first_free_lt hq
      rw [hinv.2.1] at this
      exact this
    obtain ⟨f1, _, f3, f4⟩ :=
      @rollback_fields st q ⟨inode_type.T_FILE, 0, -1, 1, false, []⟩ hq hql
    rw [h1]
    apply symlink_inv_transfer hs
    · intro r hr hsr
      unfold inode_live at hr
      rw [f1] at hr
      have hqr : q ≠ r := by
        intro hqr
        have := first_free_get hq
        rw [hqr, hr] at this
        cases this
      rw [inode_at_set_ne f4 hqr] at hsr ⊢
      exact Or.inr ⟨hr, hsr, rfl, Or.inl rfl⟩
    · intro f hf; rw [f3] at hf; exact Or.inl hf
    · intro f hf
      refine ⟨by unfold inode_live; rw [f1]; exact (hs.2 f hf).1, ?_⟩
      rw [inode_at_set_ne f4 (handle_not_free (hs.2 f hf).1 hq)]
  · have hqf := first_free_lt hq
    have hql : q < st.inode_table.length := by
      rw [hinv.2.1] at hqf
      exact hqf
    have hS : ∀ (s : tfs_state),
        s.freeinode_ts = st.freeinode_ts.set q allocation_state_t.TAKEN →
        s.inode_table = st.inode_table.set q ⟨inode_type.T_FILE, 0, -1, 1, false, []⟩ →
        ∀ r, inode_live s r → (inode_at s r).sym_link = true →
        ((inode_at s r).i_size = 0 ∧ (inode_at s r).i_data_block = -1) ∨
        (inode_live st r ∧ (inode_at st r).sym_link = true ∧
          (inode_at s r).i_data_block = (inode_at st r).i_data_block ∧
          ((inode_at s r).i_size = (inode_at st r).i_size ∨ (inode_at s r).i_size = 0)) := by
      intro s hsf hst r hr hsr
      by_cases hqr : q = r
      · subst hqr
        rw [inode_at_set_self hst hql]
        exact Or.inl ⟨rfl, rfl⟩
      · unfold inode_live at hr
        rw [hsf, List.getElem?_set_ne hqr] at hr
        rw [inode_at_set_ne hst hqr] at hsr ⊢
        exact Or.inr ⟨hr, hsr, rfl, Or.inl rfl⟩
    have hkeep : ∀ (s : tfs_state),
        s.freeinode_ts = st.freeinode_ts.set q allocation_state_t.TAKEN →
        s.inode_table = st.inode_table.set q ⟨inode_type.T_FILE, 0, -1, 1, false, []⟩ →
        ∀ f, some f ∈ st.open_file_table →
        inode_live s f.of_inumber.toNat ∧
          (inode_at s f.of_inumber.toNat).sym_link =
            (inode_at st f.of_inumber.toNat).sym_link := by
      intro s hsf hst f hf
      refine ⟨by unfold inode_live; rw [hsf]; exact live_set_taken hqf (hs.2 f hf).1, ?_⟩
      rw [inode_at_set_ne hst (handle_not_free (hs.2 f hf).1 hq)]
    rw [h1]
    rcases add_to_open_file_table_cases { st with
        freeinode_ts := st.freeinode_ts.set q allocation_state_t.TAKEN
        inode_table := st.inode_table.set q ⟨inode_type.T_FILE, 0, -1, 1, false, []⟩
        dir_entries := d } (q : Int) 0 with ⟨_, h2⟩ | ⟨k, _, h2⟩
    · rw [h2]
      apply symlink_inv_transfer hs
      · exact hS _ rfl rfl
      · intro f hf; exact Or.inl hf
      · exact hkeep _ rfl rfl
    · rw [h2]
      apply symlink_inv_transfer hs
      · exact hS _ rfl rfl
      · intro f hf
        rcases mem_set_some hf with h3 | h3
        · exact Or.inl h3
        · right
          simp only [Option.some.injEq] at h3
          subst h3
          refine ⟨List.getElem?_set_self hqf, ?_⟩
          simp [inode_at, List.getD_eq_getElem?_getD, List.getElem?_set_self hql]
      · exact hkeep _ rfl rfl

theorem symlink_inv_tfs_write {st : tfs_state} {fhandle : Int} {buffer : List Nat}
    {to_write : Nat} {res : tfs_state × Int} (hs : symlink_inv st)
    (h : tfs_write st fhandle buffer to_write = some res) : symlink_inv res.1 := by
  rcases tfs_write_effect h with h1 |
    ⟨file, inode, o, hfile, hinode, g1, _, g3, _, g5, _, g7, _, _⟩
  · rw [h1]; exact hs
  · obtain ⟨_, hie, _⟩ := inode_get_lt hinode
    have hmem := get_open_file_entry_mem hfile
    have hreg := (hs.2 file hmem).2
    rw [← hie] at hreg
    have hsym : ∀ r, (inode_at res.1 r).sym_link = (inode_at st r).sym_link := by
      intro r
      by_cases hr : r = inode
      · subst hr; exact g7
      · rw [g5 r hr]
    apply symlink_inv_transfer hs
    · intro r hr hsr
      unfold inode_live at hr
      rw [g1] at hr
      by_cases hri : r = inode
      · subst hri
        rw [g7, hreg] at hsr
        cases hsr
      · rw [g5 r hri] at hsr ⊢
        exact Or.inr ⟨hr, hsr, rfl, Or.inl rfl⟩
    · intro f hf
      rw [g3] at hf
      rcases mem_set_some hf with h3 | h3
      · exact Or.inl h3
      · right
        simp only [Option.some.injEq] at h3
        subst h3
        simp only []
        refine ⟨by unfold inode_live; rw [g1]; exact (hs.2 file hmem).1, ?_⟩
        rw [hsym]
        exact (hs.2 file hmem).2
    · intro f hf
      exact ⟨by unfold inode_live; rw [g1]; exact (hs.2 f hf).1, hsym _⟩

theorem symlink_inv_tfs_read {st : tfs_state} {fhandle : Int} {len : Nat}
    {res : tfs_state × Int × List Nat} (hs : symlink_inv st)
    (h : tfs_read st fhandle len = some res) : symlink_inv res.1 := by
  rcases tfs_read_effect h with h1 | ⟨file, inode, c, hfile, hinode, hc, h1⟩
  · rw [h1]; exact hs
  · have hmem := get_open_file_entry_mem hfile
    rw [h1]
    apply symlink_inv_transfer hs
    · exact symlink_S_same rfl (fun _ => rfl)
    · intro f hf
      rcases mem_set_some hf with h3 | h3
      · exact Or.inl h3
      · right
        simp only [Option.some.injEq] at h3
        subst h3
        exact hs.2 file hmem
    · intro f hf
      exact ⟨(hs.2 f hf).1, rfl⟩

theorem symlink_inv_tfs_close {st : tfs_state} (hs : symlink_inv st) (fhandle : Int) :
    symlink_inv (tfs_close st fhandle).1 := by
  rcases tfs_close_effect st fhandle with h1 | h1
  · rw [h1]; exact hs
  · rw [h1]
    apply symlink_inv_transfer hs
    · exact symlink_S_same rfl (fun _ => rfl)
    · intro f hf
      rcases mem_set_some hf with h3 | h3
      · exact Or.inl h3
      · cases h3
    · intro f hf
      exact ⟨(hs.2 f hf).1, rfl⟩

theorem symlink_inv_hard_links {st st1 : tfs_state} (hs : symlink_inv st) {p : Nat}
    {v : inode_t} (hf : st1.freeinode_ts = st.freeinode_ts)
    (ho : st1.open_file_table = st.open_file_table)
    (ht : st1.inode_table = st.inode_table.set p v) (hpl : p < st.inode_table.length)
    (h1 : v.sym_link = (inode_at st p).sym_link) (h2 : v.i_size = (inode_at st p).i_size)
    (h3 : v.i_data_block = (inode_at st p).i_data_block) : symlink_inv st1 := by
  have hat : ∀ r, (inode_at st1 r).sym_link = (inode_at st r).sym_link ∧
      (inode_at st1 r).i_size = (inode_at st r).i_size ∧
      (inode_at st1 r).i_data_block = (inode_at st r).i_data_block := by
    intro r
    by_cases hr : p = r
    · subst hr
      rw [inode_at_set_self ht hpl]
      exact ⟨h1, h2, h3⟩
    · rw [inode_at_set_ne ht hr]
      exact ⟨rfl, rfl, rfl⟩
  apply symlink_inv_transfer hs
  · intro r hr hsr
    unfold inode_live at hr
    rw [hf] at hr
    rw [(hat r).1] at hsr
    exact Or.inr ⟨hr, hsr, (hat r).2.2, Or.inl (hat r).2.1⟩
  · intro f hf2; rw [ho] at hf2; exact Or.inl hf2
  · intro f hf2
    exact ⟨by unfold inode_live; rw [hf]; exact (hs.2 f hf2).1, (hat _).1⟩

theorem symlink_inv_tfs_link {st : tfs_state} {target link_name : List Char}
    {res : tfs_state × Int} (hl : link_inv st) (hs : symlink_inv st)
    (h : tfs_link st target link_name = some res) : symlink_inv res.1 := by
  rcases tfs_link_cases h with h1 | ⟨p, hp, hreg, hle, h1⟩
  · rw [h1]; exact hs
  · obtain ⟨_, _, hpl⟩ := inode_get_lt hp
    rcases h1 with ⟨d, hins, h1⟩ | h1
    · rw [h1]
      exact symlink_inv_hard_links hs rfl rfl rfl hpl rfl rfl rfl
    · have hneg : tfs_lookup st link_name (inode_get st ROOT_DIR_INUM) < 0 := by
        by_contra hn
        have := (lookup_live hl (by omega :
          0 ≤ tfs_lookup st link_name (inode_get st ROOT_DIR_INUM))).1
        omega
      rw [h1, inode_delete_none _ (inode_get_neg _ hneg)]
      exact symlink_inv_hard_links hs rfl rfl rfl hpl rfl rfl rfl

theorem symlink_inv_tfs_sym_link {st : tfs_state} {target link_name : List Char}
    {res : tfs_state × Int} (hinv : state_inv st) (hl : link_inv st) (hs : symlink_inv st)
    (h : tfs_sym_link st target link_name = some res) : symlink_inv res.1 := by
  rcases tfs_sym_link_cases hinv h with h1 | ⟨p, q, v, hp, hq, hql, _, _, hv, h1⟩
  · rw [h1]; exact hs
  · have hqf := first_free_lt hq
    obtain ⟨h0, hpe, _⟩ := inode_get_lt hp
    have hplive : inode_live st p := by
      have := (lookup_live hl h0).2
      rw [← hpe] at this
      exact this
    have hvz : v.i_size = 0 ∧ v.i_data_block = -1 := by
      rcases hv with hv | ⟨_, hsp, hv1, hv2⟩
      · exact hv
      · obtain ⟨g1, g2⟩ := hs.1 p hplive hsp
        exact ⟨by rw [hv1, g1], by rw [hv2, g2]⟩
    rcases h1 with ⟨d, hins, h1⟩ | h1
    · rw [h1]
      apply symlink_inv_transfer hs
      · intro r hr hsr
        by_cases hqr : q = r
        · subst hqr
          left
          simp only [inode_at, List.getD_eq_getElem?_getD, List.getElem?_set_self hql,
            Option.getD_some]
          exact hvz
        · unfold inode_live at hr
          simp only [] at hr
          rw [List.getElem?_set_ne hqr] at hr
          simp only [inode_at, List.getD_eq_getElem?_getD, List.getElem?_set_ne hqr] at hsr ⊢
          exact Or.inr ⟨hr, hsr, trivial, Or.inl trivial⟩
      · intro f hf; exact Or.inl hf
      · intro f hf
        refine ⟨live_set_taken hqf (hs.2 f hf).1, ?_⟩
        simp only [inode_at, List.getD_eq_getElem?_getD,
          List.getElem?_set_ne (handle_not_free (hs.2 f hf).1 hq)]
    · obtain ⟨f1, _, f3, f4⟩ := @rollback_fields st q v hq hql
      rw [h1]
      apply symlink_inv_transfer hs
      · intro r hr hsr
        unfold inode_live at hr
        rw [f1] at hr
        have hqr : q ≠ r := by
          intro hqr
          have := first_free_get hq
          rw [hqr, hr] at this
          cases this
        rw [inode_at_set_ne f4 hqr] at hsr ⊢
        exact Or.inr ⟨hr, hsr, rfl, Or.inl rfl⟩
      · intro f hf; rw [f3] at hf; exact Or.inl hf
      · intro f hf
        refine ⟨by unfold inode_live; rw [f1]; exact (hs.2 f hf).1, ?_⟩
        rw [inode_at_set_ne f4 (handle_not_free (hs.2 f hf).1 hq)]

theorem symlink_inv_tfs_unlink {st : tfs_state} {target : List Char}
    {res : tfs_state × Int} (hinv : state_inv st) (hs : symlink_inv st)
    (hg : no_handle_on st (tfs_lookup st target (inode_get st ROOT_DIR_INUM)) = true)
    (h : tfs_unlink st target = some res) : symlink_inv res.1 := by
  rcases tfs_unlink_cases h with h1 | ⟨p, d, hp, hfind, hclr, h1⟩
  · rw [h1]; exact hs
  · obtain ⟨h0, hpe, hpl⟩ := inode_get_lt hp
    rcases h1 with ⟨_, h1⟩ | ⟨_, _, h1⟩
    · have hget : inode_get { st with dir_entries := d }
          (tfs_lookup st target (inode_get st ROOT_DIR_INUM)) = some p := hp
      obtain ⟨g1, _, g3, _, _, g6, _⟩ := inode_delete_fields _ hget
      have hat : ∀ r, inode_at (inode_delete { st with dir_entries := d }
          (tfs_lookup st target (inode_get st ROOT_DIR_INUM))) r = inode_at st r :=
        fun r => inode_at_congr g1 r
      rw [h1]
      apply symlink_inv_transfer hs
      · intro r hr hsr
        unfold inode_live at hr
        rw [g6] at hr
        simp only [] at hr
        have hpr : p ≠ r := by
          intro hpr
          rw [hpr, List.getElem?_set_self (by
            by_contra hn
            rw [List.getElem?_eq_none (by rw [List.length_set]; omega)] at hr
            cases hr)] at hr
          cases hr
        rw [List.getElem?_set_ne hpr] at hr
        rw [hat] at hsr ⊢
        exact Or.inr ⟨hr, hsr, rfl, Or.inl rfl⟩
      · intro f hf; rw [g3] at hf; exact Or.inl hf
      · intro f hf
        have hne := no_handle_on_mem hg hf
        have hf0 := (hinv.2.2.2.2.1 f hf).2.1
        refine ⟨?_, by rw [hat]⟩
        unfold inode_live
        rw [g6]
        simp only []
        rw [List.getElem?_set_ne (by omega)]
        exact (hs.2 f hf).1
    · rw [h1]
      exact symlink_inv_hard_links hs rfl rfl rfl hpl rfl rfl rfl

theorem symlink_inv_step {st : tfs_state} {c : tfs_call} {res : tfs_state × Int}
    (hinv : state_inv st) (hl : link_inv st) (hs : symlink_inv st)
    (hg : symlink_guard st c = true) (h : tfs_step st c = some res) : symlink_inv res.1 := by
  cases c with
  | call_open name mode =>
    apply symlink_inv_tfs_open hinv hl hs _ h
    intro p hp
    simpa [symlink_guard, unlink_guard, hop_guard, hp] using hg
  | call_close fhandle =>
    simp only [tfs_step, Option.some.injEq] at h
    subst h
    exact symlink_inv_tfs_close hs _
  | call_read fhandle len =>
    simp only [tfs_step, Option.map_eq_some'] at h
    obtain ⟨r, hr, rfl⟩ := h
    exact symlink_inv_tfs_read hs hr
  | call_write fhandle buffer to_write => exact symlink_inv_tfs_write hs h
  | call_link target link_name => exact symlink_inv_tfs_link hl hs h
  | call_sym_link target link_name => exact symlink_inv_tfs_sym_link hinv hl hs h
  | call_unlink target =>
    apply symlink_inv_tfs_unlink hinv hs _ h
    simpa [symlink_guard, unlink_guard, hop_guard] using hg

theorem symlink_inv_tfs_init {n : Nat} {params_ptr : Option tfs_params} {st : tfs_state}
    (h : tfs_init n params_ptr = some st) : symlink_inv st := by
  obtain ⟨_, hfree, _, hoft, hroot⟩ := tfs_init_fields h
  refine ⟨fun p hp hsym => ?_, fun f hf => ?_⟩
  · by_cases hp0 : p = 0
    · subst hp0
      rw [hroot] at hsym
      cases hsym
    · exact absurd hp (hfree p hp0)
  · cases hoft _ hf

theorem dir_insert_isSome {l : List dir_entry_t} (x : dir_entry_t)
    (h : ∃ e ∈ l, e.d_inumber = -1) : ∃ d, dir_insert l x = some d := by
  induction l with
  | nil => obtain ⟨e, he, _⟩ := h; cases he
  | cons a l ih =>
    simp only [dir_insert]
    by_cases ha : a.d_inumber = -1
    · exact ⟨_, by rw [if_pos ha]⟩
    · rw [if_neg ha]
      obtain ⟨e, he, h1⟩ := h
      rcases List.mem_cons.mp he with h2 | h2
      · rw [h2] at h1; exact absurd h1 ha
      · obtain ⟨d, hd⟩ := ih ⟨e, h2, h1⟩
        exact ⟨a :: d, by rw [hd]; rfl⟩

/-- Opening an existing name whose inode is no symbolic link: nothing is
created; without `TFS_O_TRUNC` inodes and blocks stay; the handle is the lowest
empty slot, or `-1` when the table has none. -/
theorem tfs_open_existing_regular {st : tfs_state} {name : List Char} {mode : Nat} {p : Nat}
    (hname : inode_get st (tfs_lookup st name (inode_get st ROOT_DIR_INUM)) = some p)
    (hreg : (inode_at st p).sym_link = false) :
    ∃ (st1 : tfs_state) (h : Int), tfs_open st name mode = some (st1, h) ∧
      st1.freeinode_ts = st.freeinode_ts ∧ st1.dir_entries = st.dir_entries ∧
      st1.inode_table.length = st.inode_table.length ∧
      (∀ q, q ≠ p → inode_at st1 q = inode_at st q) ∧
      inode_at st1 p =
        (if has_flag mode TFS_O_TRUNC then { inode_at st p with i_size := 0 }
          else inode_at st p) ∧
      (has_flag mode TFS_O_TRUNC = false →
        st1.inode_table = st.inode_table ∧ st1.fs_data = st.fs_data ∧
          st1.free_blocks = st.free_blocks) ∧
      (first_none st.open_file_table = none →
        h = -1 ∧ st1.open_file_table = st.open_file_table) ∧
      (∀ k : Nat, first_none st.open_file_table = some k →
        h = (k : Int) ∧
        get_open_file_entry st1 h =
          some ⟨tfs_lookup st name (inode_get st ROOT_DIR_INUM),
            if has_flag mode TFS_O_APPEND then (inode_at st1 p).i_size else 0⟩) := by
  rw [tfs_open_existing hname hreg]
  obtain ⟨s, hs, g1, g2, g3, g4, g5, g6, g7, g8, g9, _⟩ :=
    tfs_open_found_eq st (tfs_lookup st name (inode_get st ROOT_DIR_INUM)) p mode
  rw [hs]
  rcases add_to_open_file_table_cases s (tfs_lookup st name (inode_get st ROOT_DIR_INUM))
      (if has_flag mode TFS_O_APPEND then (inode_at s p).i_size else 0)
    with ⟨hn, h2⟩ | ⟨k, hk, h2⟩
  · rw [h2]
    refine ⟨s, -1, rfl, g1, g2, g6, g7, g8, ?_, fun _ => ⟨rfl, g5⟩, ?_⟩
    · intro htr; rw [g9 htr]; exact ⟨rfl, rfl, rfl⟩
    · intro k hk
      rw [g5] at hn
      rw [hn] at hk
      cases hk
  · rw [h2]
    have hkl := first_none_lt hk
    refine ⟨_, (k : Int), rfl, g1, g2, g6, g7, g8, ?_, ?_, ?_⟩
    · intro htr; rw [g9 htr]; exact ⟨rfl, rfl, rfl⟩
    · intro hn
      rw [g5] at hk
      rw [hn] at hk
      cases hk
    · intro k2 hk2
      rw [g5] at hk
      rw [hk] at hk2
      cases hk2
      refine ⟨rfl, ?_⟩
      simp only [get_open_file_entry, Int.natCast_nonneg, if_true, Int.toNat_ofNat,
        List.getD_eq_getElem?_getD, List.getElem?_set_self hkl, Option.getD_some]
      rfl

theorem dir_find_neg {st : tfs_state} (hinv : state_inv st) {n : List Char}
    (h : dir_find st.dir_entries n < 0) : dir_find st.dir_entries n = -1 := by
  by_contra hne
  obtain ⟨e, he, h1, h2⟩ := dir_find_mem hne
  have := (hinv.2.2.2.2.2.1 e he h1).1
  omega

theorem first_none_after_close {st : tfs_state} {fhandle : Int}
    (h : (tfs_close st fhandle).2 = 0) :
    ∃ k, first_none (tfs_close st fhandle).1.open_file_table = some k := by
  unfold tfs_close at h ⊢
  cases hf : get_open_file_entry st fhandle with
  | none => rw [hf] at h; simp at h
  | some f =>
    obtain ⟨h0, hlt, _⟩ := get_open_file_entry_bounds hf
    simp only [remove_from_open_file_table, h0, if_true]
    cases hk : first_none (st.open_file_table.set fhandle.toNat none) with
    | some k => exact ⟨k, rfl⟩
    | none =>
      rw [first_none_eq_none] at hk
      exact absurd rfl (hk none (List.mem_iff_getElem?.mpr
        ⟨fhandle.toNat, List.getElem?_set_self hlt⟩))

/-- C11 (amended): in a reachable state, `tfs_open` with `TFS_O_CREAT` on a name
that resolves to an inode that is no symbolic link allocates no inode and adds
no directory entry; without `TFS_O_TRUNC` it leaves every inode and block as it
was; when the open-file table has an empty slot it returns a handle on the
existing inumber at offset 0 (at the size with `TFS_O_APPEND`), and `-1` when it
has none.  And when `tfs_open(name, TFS_O_CREAT)` on an unused name finds a free
inode and a free directory entry but a full open-file table, it returns `-1`,
the name then resolves to the new live inode, and after any `tfs_close` that
returns 0 a `tfs_open(name, TFS_O_CREAT)` returns a handle on that inumber at
offset 0 without creating anything. -/
theorem C11_open_creat_finds_existing (st : tfs_state) (name : List Char)
    (hreach : reachable st) :
    (∀ (mode : Nat) (p : Nat), has_flag mode TFS_O_CREAT = true →
      inode_get st (tfs_lookup st name (inode_get st ROOT_DIR_INUM)) = some p →
      (inode_at st p).sym_link = false →
      ∃ (st1 : tfs_state) (h : Int), tfs_open st name mode = some (st1, h) ∧
        st1.freeinode_ts = st.freeinode_ts ∧ st1.dir_entries = st.dir_entries ∧
        (has_flag mode TFS_O_TRUNC = false →
          st1.inode_table = st.inode_table ∧ st1.fs_data = st.fs_data ∧
            st1.free_blocks = st.free_blocks) ∧
        (first_none st.open_file_table = none →
          h = -1 ∧ st1.open_file_table = st.open_file_table) ∧
        (∀ k : Nat, first_none st.open_file_table = some k →
          h = (k : Int) ∧
          get_open_file_entry st1 h =
            some ⟨tfs_lookup st name (inode_get st ROOT_DIR_INUM),
              if has_flag mode TFS_O_APPEND then (inode_at st1 p).i_size else 0⟩)) ∧
    (∀ (mode : Nat) (q : Nat), has_flag mode TFS_O_CREAT = true →
      valid_pathname name = true →
      tfs_lookup st name (inode_get st ROOT_DIR_INUM) < 0 →
      first_none st.open_file_table = none →
      first_free st.freeinode_ts = some q →
      (∃ e ∈ st.dir_entries, e.d_inumber = -1) →
      ∃ st1 : tfs_state, tfs_open st name mode = some (st1, -1) ∧
        tfs_lookup st1 name (inode_get st1 ROOT_DIR_INUM) = (q : Int) ∧
        inode_live st1 q ∧
        ∀ (fhandle : Int) (mode2 : Nat), (tfs_close st1 fhandle).2 = 0 →
          has_flag mode2 TFS_O_CREAT = true →
          ∃ (st3 : tfs_state) (k : Nat),
            tfs_open (tfs_close st1 fhandle).1 name mode2 = some (st3, (k : Int)) ∧
            get_open_file_entry st3 (k : Int) = some ⟨(q : Int), 0⟩ ∧
            st3.freeinode_ts = st1.freeinode_ts ∧ st3.dir_entries = st1.dir_entries) := by
  have hinv := reachable_inv hreach
  constructor
  · intro mode p _ hname hreg
    obtain ⟨st1, h, h1, h2, h3, _, _, _, h7, h8, h9⟩ :=
      @tfs_open_existing_regular st name mode p hname hreg
    exact ⟨st1, h, h1, h2, h3, h7, h8, h9⟩
  · intro mode q hcreat hv hunused hfull hq hroom
    have hql : q < st.inode_table.length := by
      have := first_free_lt hq
      rw [hinv.2.1] at this
      exact this
    have hroot := inode_get_root hql
    have hfind : dir_find st.dir_entries name.tail = -1 := by
      apply dir_find_neg hinv
      rw [← tfs_lookup_eq hv]
      exact hunused
    obtain ⟨d, hins⟩ := dir_insert_isSome ⟨name.tail, (q : Int)⟩ hroom
    have hneg : ¬ 0 ≤ tfs_lookup st name (some 0) := by
      rw [← hroot]; omega
    have hopen : tfs_open st name mode = some ({ st with
        freeinode_ts := st.freeinode_ts.set q allocation_state_t.TAKEN
        inode_table := st.inode_table.set q ⟨inode_type.T_FILE, 0, -1, 1, false, []⟩
        dir_entries := d }, -1) := by
      simp only [tfs_open, hv, Bool.not_true, Bool.false_eq_true, if_false, hroot, hneg,
        hcreat, if_true, inode_create, hq, add_dir_entry, hfind, ne_eq, not_true_eq_false,
        hins, add_to_open_file_table, hfull]
      simp
    obtain ⟨st1, hst1⟩ : ∃ st1, st1 = ({ st with
        freeinode_ts := st.freeinode_ts.set q allocation_state_t.TAKEN
        inode_table := st.inode_table.set q ⟨inode_type.T_FILE, 0, -1, 1, false, []⟩
        dir_entries := d } : tfs_state) := ⟨_, rfl⟩
    rw [← hst1] at hopen
    have hd1 : st1.dir_entries = d := by rw [hst1]
    have ht1 : st1.inode_table =
        st.inode_table.set q ⟨inode_type.T_FILE, 0, -1, 1, false, []⟩ := by rw [hst1]
    have hf1 : st1.freeinode_ts = st.freeinode_ts.set q allocation_state_t.TAKEN := by
      rw [hst1]
    have hlook : tfs_lookup st1 name (inode_get st1 ROOT_DIR_INUM) = (q : Int) := by
      rw [tfs_lookup_eq hv, hd1, dir_find_insert hins hfind (by omega)]
      simp
    have hreach1 : reachable st1 :=
      @reachable_step st (call_open name mode) (st1, -1) hreach hopen
    refine ⟨st1, hopen, hlook, ?_, ?_⟩
    · unfold inode_live
      rw [hf1]
      exact List.getElem?_set_self (first_free_lt hq)
    · intro fhandle mode2 hclose _
      obtain ⟨c1, _, c3, _, _, c6⟩ := tfs_close_fields st1 fhandle
      obtain ⟨k, hk⟩ := first_none_after_close hclose
      have hlen2 : (tfs_close st1 fhandle).1.inode_table.length = st1.inode_table.length := by
        rw [c1]
      have hlook2 : tfs_lookup (tfs_close st1 fhandle).1 name
          (inode_get (tfs_close st1 fhandle).1 ROOT_DIR_INUM) = (q : Int) := by
        rw [tfs_lookup_congr c3 hlen2, hlook]
      have hget2 : inode_get (tfs_close st1 fhandle).1
          (tfs_lookup (tfs_close st1 fhandle).1 name
            (inode_get (tfs_close st1 fhandle).1 ROOT_DIR_INUM)) = some q := by
        rw [hlook2]
        exact inode_get_cast (by rw [c1, ht1]; simpa using hql)
      have hat2 : inode_at (tfs_close st1 fhandle).1 q =
          ⟨inode_type.T_FILE, 0, -1, 1, false, []⟩ := by
        rw [inode_at_congr c1]
        simp [inode_at, ht1, List.getD_eq_getElem?_getD, List.getElem?_set_self hql]
      obtain ⟨st3, h, h1, h2, h3, _, _, h6, _, _, h9⟩ :=
        @tfs_open_existing_regular (tfs_close st1 fhandle).1 name mode2 q hget2
          (by rw [hat2])
      obtain ⟨h10, h11⟩ := h9 k hk
      subst h10
      refine ⟨st3, k, h1, ?_, by rw [h2, c6], by rw [h3, c3]⟩
      have hsz : (inode_at st3 q).i_size = 0 := by
        rw [h6]
        split
        · rfl
        · rw [hat2]
      rw [h11, hlook2, hsz]
      simp

/-- Witness for C11: `/f` exists and is closed; `open("/f", O_CREAT | O_APPEND)`
returns handle 0 on inode 1 and creates nothing. -/
theorem C11_witness :
    ∃ (st1 : tfs_state) (h : Int),
      tfs_open (state_after [call_open ['/', 'f'] TFS_O_CREAT, call_write 0 [7, 8] 2,
        call_close 0]) ['/', 'f'] 5 = some (st1, h) ∧
      h = 0 ∧ get_open_file_entry st1 h = some ⟨1, 2⟩ ∧
      st1.freeinode_ts = (state_after [call_open ['/', 'f'] TFS_O_CREAT,
        call_write 0 [7, 8] 2, call_close 0]).freeinode_ts ∧
      st1.dir_entries = (state_after [call_open ['/', 'f'] TFS_O_CREAT,
        call_write 0 [7, 8] 2, call_close 0]).dir_entries := by
  obtain ⟨st1, h, h1, h2, h3, h4, _, h6⟩ :=
    (C11_open_creat_finds_existing (state_after [call_open ['/', 'f'] TFS_O_CREAT,
      call_write 0 [7, 8] 2, call_close 0]) ['/', 'f']
      (reachable_state_after _ (by decide))).1 5 1 (by decide) (by decide) (by decide)
  obtain ⟨h7, h8⟩ := h6 0 (by decide)
  refine ⟨st1, h, h1, by simpa using h7, ?_, h2, h3⟩
  rw [h8]
  have hsz : (inode_at st1 1).i_size = 2 := by
    rw [inode_at_congr (h4 (by decide)).1]
    decide
  rw [hsz]
  decide

/-- Counterexample to C11 as stated.  First state: `/f` and `/g` are open and
fill the open-file table; `open("/f", O_CREAT)` on the existing `/f` returns
`-1`, not a handle.  Second state: `/s` is a symbolic link whose target was
unlinked, the table is empty; `open("/s", O_CREAT)` on the existing name `/s`
returns `-1`. -/
theorem C11_counterexample :
    reachable (state_after [call_open ['/', 'f'] TFS_O_CREAT,
      call_open ['/', 'g'] TFS_O_CREAT]) ∧
    tfs_lookup (state_after [call_open ['/', 'f'] TFS_O_CREAT,
      call_open ['/', 'g'] TFS_O_CREAT]) ['/', 'f'] (some 0) = 1 ∧
    (tfs_open (state_after [call_open ['/', 'f'] TFS_O_CREAT,
      call_open ['/', 'g'] TFS_O_CREAT]) ['/', 'f'] TFS_O_CREAT).map Prod.snd = some (-1) ∧
    reachable (state_after [call_open ['/', 'f'] TFS_O_CREAT, call_close 0,
      call_sym_link ['/', 'f'] ['/', 's'], call_unlink ['/', 'f']]) ∧
    tfs_lookup (state_after [call_open ['/', 'f'] TFS_O_CREAT, call_close 0,
      call_sym_link ['/', 'f'] ['/', 's'], call_unlink ['/', 'f']]) ['/', 's'] (some 0) = 2 ∧
    (state_after [call_open ['/', 'f'] TFS_O_CREAT, call_close 0,
      call_sym_link ['/', 'f'] ['/', 's'], call_unlink ['/', 'f']]).open_file_table =
      [none, none] ∧
    (tfs_open (state_after [call_open ['/', 'f'] TFS_O_CREAT, call_close 0,
      call_sym_link ['/', 'f'] ['/', 's'], call_unlink ['/', 'f']])
      ['/', 's'] TFS_O_CREAT).map Prod.snd = some (-1) :=
  ⟨reachable_state_after _ (by decide), by decide, by decide,
    reachable_state_after _ (by decide), by decide, by decide, by decide⟩

/-- Entering a new name in the directory and clearing it again leaves the live
entries as they were. -/
theorem dir_insert_clear_live {l d d1 : List dir_entry_t} {n : List Char} {i : Int}
    (hfresh : dir_find l n = -1) (hi : i ≠ -1) (hins : dir_insert l ⟨n, i⟩ = some d)
    (hclr : dir_clear d n = some d1) :
    d1.filter (fun e => decide (e.d_inumber ≠ -1)) =
      l.filter (fun e => decide (e.d_inumber ≠ -1)) := by
  induction l generalizing d d1 with
  | nil => simp [dir_insert] at hins
  | cons e l ih =>
    simp only [dir_insert] at hins
    by_cases he : e.d_inumber = -1
    · simp only [he, if_true, Option.some.injEq] at hins
      subst hins
      simp only [dir_clear, ne_eq, hi, not_false_eq_true, and_self, if_true,
        Option.some.injEq] at hclr
      subst hclr
      simp [he]
    · simp only [he, if_false, Option.map_eq_some'] at hins
      obtain ⟨l2, hl2, rfl⟩ := hins
      simp only [dir_find, ne_eq, he, not_false_eq_true, true_and] at hfresh
      by_cases hn : e.d_name = n
      · rw [if_pos hn] at hfresh
        exact absurd hfresh he
      · rw [if_neg hn] at hfresh
        simp only [dir_clear, ne_eq, he, not_false_eq_true, hn, and_false, if_false,
          Option.map_eq_some'] at hclr
        obtain ⟨l3, hl3, rfl⟩ := hclr
        simp only [List.filter_cons, ne_eq, he, not_false_eq_true, decide_True, if_true]
        rw [ih hfresh hl2 hl3]

/-- C12: in a reachable state, when `tfs_open(p, mode)` on an unused name `p`
returns a handle `h ≥ 0` (so `mode` holds `TFS_O_CREAT`), `tfs_close(h)` returns
0 and `tfs_unlink(p)` returns 0, and afterwards the inode bitmap, the block
bitmap, the open-file table and the live directory entries are what they were
before the `tfs_open`. -/
theorem C12_create_close_unlink_round_trip (st st1 : tfs_state) (p : List Char)
    (mode : Nat) (h : Int) (hreach : reachable st)
    (hunused : tfs_lookup st p (inode_get st ROOT_DIR_INUM) < 0)
    (hopen : tfs_open st p mode = some (st1, h)) (hh : 0 ≤ h) :
    (tfs_close st1 h).2 = 0 ∧
    ∃ st3 : tfs_state, tfs_unlink (tfs_close st1 h).1 p = some (st3, 0) ∧
      st3.freeinode_ts = st.freeinode_ts ∧ st3.free_blocks = st.free_blocks ∧
      st3.open_file_table = st.open_file_table ∧ live_dir st3 = live_dir st := by
  have hinv := reachable_inv hreach
  rcases tfs_open_cases hopen with h1 | ⟨_, h1, _⟩ | ⟨_, _, _, h1⟩ |
    ⟨q, d, _, hv, _, hq, hfind, hins, h1⟩
  · cases h1; omega
  · omega
  · cases h1; omega
  · have hql : q < st.inode_table.length := by
      have := first_free_lt hq
      rw [hinv.2.1] at this
      exact this
    rcases add_to_open_file_table_cases { st with
        freeinode_ts := st.freeinode_ts.set q allocation_state_t.TAKEN
        inode_table := st.inode_table.set q ⟨inode_type.T_FILE, 0, -1, 1, false, []⟩
        dir_entries := d } (q : Int) 0 with ⟨_, h2⟩ | ⟨k, hk, h2⟩
    · rw [h2] at h1; cases h1; omega
    · rw [h2] at h1
      cases h1
      have hkl := first_none_lt hk
      have hkget := first_none_get hk
      simp only [] at hkl hkget
      have hclose : tfs_close { st with
          freeinode_ts := st.freeinode_ts.set q allocation_state_t.TAKEN
          inode_table := st.inode_table.set q ⟨inode_type.T_FILE, 0, -1, 1, false, []⟩
          dir_entries := d
          open_file_table := st.open_file_table.set k (some ⟨(q : Int), 0⟩) } (k : Int) =
          ({ st with
            freeinode_ts := st.freeinode_ts.set q allocation_state_t.TAKEN
            inode_table := st.inode_table.set q ⟨inode_type.T_FILE, 0, -1, 1, false, []⟩
            dir_entries := d }, 0) := by
        simp only [tfs_close, get_open_file_entry, Int.natCast_nonneg, if_true,
          Int.toNat_ofNat, List.getD_eq_getElem?_getD, List.getElem?_set_self hkl,
          Option.getD_some, remove_from_open_file_table, List.set_set]
        rw [list_set_getElem?_self _ _ _ hkget]
      rw [hclose]
      refine ⟨rfl, ?_⟩
      obtain ⟨r, hr⟩ : ∃ r, r = ({ st with
            freeinode_ts := st.freeinode_ts.set q allocation_state_t.TAKEN
            inode_table := st.inode_table.set q ⟨inode_type.T_FILE, 0, -1, 1, false, []⟩
            dir_entries := d } : tfs_state) := ⟨_, rfl⟩
      have hrd : r.dir_entries = d := by rw [hr]
      have hrt : r.inode_table =
          st.inode_table.set q ⟨inode_type.T_FILE, 0, -1, 1, false, []⟩ := by rw [hr]
      have hrf : r.freeinode_ts = st.freeinode_ts.set q allocation_state_t.TAKEN := by
        rw [hr]
      have hrb : r.free_blocks = st.free_blocks := by rw [hr]
      have hro : r.open_file_table = st.open_file_table := by rw [hr]
      rw [← hr]
      have hlook : tfs_lookup r p (inode_get r ROOT_DIR_INUM) = (q : Int) := by
        rw [tfs_lookup_eq hv, hrd, dir_find_insert hins hfind (by omega)]
        simp
      have hget : inode_get r (tfs_lookup r p (inode_get r ROOT_DIR_INUM)) = some q := by
        rw [hlook]
        exact inode_get_cast (by rw [hrt]; simpa using hql)
      have hat : inode_at r q = ⟨inode_type.T_FILE, 0, -1, 1, false, []⟩ := by
        simp [inode_at, hrt, List.getD_eq_getElem?_getD, List.getElem?_set_self hql]
      have hfound : dir_find r.dir_entries p.tail ≠ -1 := by
        rw [← tfs_lookup_eq hv, hlook]; omega
      obtain ⟨d1, hd1, hclr⟩ := clear_dir_entry_ok (inode_get r ROOT_DIR_INUM) hfound
      rw [tfs_unlink_last hget (by rw [hat]) (by rw [hat]; decide), hclr, hlook]
      have hget2 : inode_get { r with dir_entries := d1 } (q : Int) = some q :=
        inode_get_cast (by simp only []; rw [hrt]; simpa using hql)
      obtain ⟨_, g2, g3, _, _, g6, g7⟩ :=
        inode_delete_fields { r with dir_entries := d1 } hget2
      refine ⟨_, rfl, ?_, ?_, ?_, ?_⟩
      · rw [g6]
        simp only []
        rw [hrf]
        exact list_set_set_restore _ _ _ _ (first_free_get hq)
      · rw [g7]
        have : inode_at { r with dir_entries := d1 } q = inode_at r q := rfl
        rw [this, hat]
        simp [data_block_free, hrb]
      · rw [g3]; exact hro
      · unfold live_dir
        rw [g2]
        simp only []
        rw [hrd] at hd1
        exact dir_insert_clear_live hfind (by omega) hins hd1

/-- Witness for C12: with `/f` open, `open("/g", O_CREAT)`, `close`, `unlink("/g")`
bring back the bitmaps, the open-file table and the live directory entries. -/
theorem C12_witness :
    ∃ st3 : tfs_state,
      tfs_unlink (tfs_close (state_after [call_open ['/', 'f'] TFS_O_CREAT,
        call_open ['/', 'g'] TFS_O_CREAT]) 1).1 ['/', 'g'] = some (st3, 0) ∧
      st3.freeinode_ts = (state_after [call_open ['/', 'f'] TFS_O_CREAT]).freeinode_ts ∧
      st3.free_blocks = (state_after [call_open ['/', 'f'] TFS_O_CREAT]).free_blocks ∧
      st3.open_file_table =
        (state_after [call_open ['/', 'f'] TFS_O_CREAT]).open_file_table ∧
      live_dir st3 = live_dir (state_after [call_open ['/', 'f'] TFS_O_CREAT]) :=
  (C12_create_close_unlink_round_trip (state_after [call_open ['/', 'f'] TFS_O_CREAT])
    (state_after [call_open ['/', 'f'] TFS_O_CREAT, call_open ['/', 'g'] TFS_O_CREAT])
    ['/', 'g'] TFS_O_CREAT 1 (reachable_state_after _ (by decide)) (by decide) (by decide)
    (by decide)).2

theorem first_free_all_taken {l : List allocation_state_t}
    (h : ∀ a ∈ l, a = allocation_state_t.TAKEN) : first_free l = none := by
  induction l with
  | nil => rfl
  | cons a l ih =>
    have ha := h a (List.mem_cons_self _ _)
    subst ha
    simp [first_free, ih (fun b hb => h b (List.mem_cons_of_mem _ hb))]

/-- The count `tfs_write` settles on (lines 250 to 253) is 0 only at offset
`block_size`, when the sum does not wrap. -/
theorem write_count_pos (bs off len : Nat) (hoff : off < SIZE_MOD) (hlen : 0 < len)
    (hlen2 : len < SIZE_MOD) (hne : off ≠ bs ∨ SIZE_MOD ≤ len + bs) :
    0 < (if (len + off) % SIZE_MOD > bs then (bs + SIZE_MOD - off) % SIZE_MOD else len) := by
  unfold SIZE_MOD at *
  split <;> omega

theorem write_count_zero (bs len : Nat) (hlen : 0 < len) (hsum : len + bs < SIZE_MOD) :
    (if (len + bs) % SIZE_MOD > bs then (bs + SIZE_MOD - bs) % SIZE_MOD else len) = 0 := by
  unfold SIZE_MOD at *
  split <;> omega

/-- C13 (amended): in a reachable state where every data block is allocated, a
`tfs_write` of `len > 0` bytes through a valid handle on an inode of size 0
hands back the state it was given (inode, handle offset and block bitmap are
unchanged); it returns `-1`, except that it returns 0 when the handle's offset is
exactly `block_size` and `len + block_size` does not wrap. -/
theorem C13_no_space_write (st : tfs_state) (fhandle : Int) (file : open_file_entry_t)
    (buffer : List Nat) (len : Nat) (hreach : reachable st)
    (hfile : get_open_file_entry st fhandle = some file)
    (hsize : (inode_at st file.of_inumber.toNat).i_size = 0)
    (hfull : ∀ a ∈ st.free_blocks, a = allocation_state_t.TAKEN)
    (hlen : 0 < len) (hlen2 : len < SIZE_MOD) :
    tfs_write st fhandle buffer len =
      some (st, if file.of_offset = st.block_size ∧ len + st.block_size < SIZE_MOD then 0
        else -1) := by
  have hinv := reachable_inv hreach
  have hf := hinv.2.2.2.2.1 _ (get_open_file_entry_mem hfile)
  have hinode := file_ok_inode_get hf
  have hnone := first_free_all_taken hfull
  by_cases hc : file.of_offset = st.block_size ∧ len + st.block_size < SIZE_MOD
  · rw [if_pos hc]
    have hz := write_count_zero st.block_size len hlen hc.2
    rw [← hc.1] at hz
    simp only [tfs_write, hfile, hinode, state_block_size]
    rw [hc.1] at hz ⊢
    simp only [hz]
    simp [ssize_cast_zero]
  · rw [if_neg hc]
    have hp := write_count_pos st.block_size file.of_offset len hf.1 hlen hlen2 (by
      by_cases h1 : file.of_offset = st.block_size
      · exact Or.inr (by have := fun h2 => hc ⟨h1, h2⟩; omega)
      · exact Or.inl h1)
    simp only [tfs_write, hfile, hinode, state_block_size, hp, if_true, hsize,
      data_block_alloc, hnone]
    simp

/-- Witness for C13: `/f` took the only free block; a write of one byte through
the handle of the empty file `/g` returns `-1` and changes nothing. -/
theorem C13_witness :
    tfs_write (state_after [call_open ['/', 'f'] TFS_O_CREAT, call_write 0 [7] 1,
        call_open ['/', 'g'] TFS_O_CREAT]) 1 [5] 1 =
      some (state_after [call_open ['/', 'f'] TFS_O_CREAT, call_write 0 [7] 1,
        call_open ['/', 'g'] TFS_O_CREAT], -1) :=
  C13_no_space_write _ 1 ⟨2, 0⟩ [5] 1 (reachable_state_after _ (by decide)) (by decide)
    (by decide) (by decide) (by decide) (by decide)

/-- Counterexample to C13 as stated: handle 0 stands at offset 4 (the block
size) on `/f`, which a second `open` with `TFS_O_TRUNC` emptied; `/g` then took
the freed block, so every block is allocated.  A write of one byte through
handle 0 returns 0, not an error. -/
theorem C13_counterexample :
    reachable (state_after [call_open ['/', 'f'] TFS_O_CREAT, call_write 0 [1, 2, 3, 4] 4,
      call_open ['/', 'f'] TFS_O_TRUNC, call_close 1, call_open ['/', 'g'] TFS_O_CREAT,
      call_write 1 [9] 1]) ∧
    (state_after [call_open ['/', 'f'] TFS_O_CREAT, call_write 0 [1, 2, 3, 4] 4,
      call_open ['/', 'f'] TFS_O_TRUNC, call_close 1, call_open ['/', 'g'] TFS_O_CREAT,
      call_write 1 [9] 1]).free_blocks =
      [allocation_state_t.TAKEN, allocation_state_t.TAKEN] ∧
    get_open_file_entry (state_after [call_open ['/', 'f'] TFS_O_CREAT,
      call_write 0 [1, 2, 3, 4] 4, call_open ['/', 'f'] TFS_O_TRUNC, call_close 1,
      call_open ['/', 'g'] TFS_O_CREAT, call_write 1 [9] 1]) 0 = some ⟨1, 4⟩ ∧
    (inode_at (state_after [call_open ['/', 'f'] TFS_O_CREAT, call_write 0 [1, 2, 3, 4] 4,
      call_open ['/', 'f'] TFS_O_TRUNC, call_close 1, call_open ['/', 'g'] TFS_O_CREAT,
      call_write 1 [9] 1]) 1).i_size = 0 ∧
    (inode_at (state_after [call_open ['/', 'f'] TFS_O_CREAT, call_write 0 [1, 2, 3, 4] 4,
      call_open ['/', 'f'] TFS_O_TRUNC, call_close 1, call_open ['/', 'g'] TFS_O_CREAT,
      call_write 1 [9] 1]) 1).sym_link = false ∧
    (tfs_write (state_after [call_open ['/', 'f'] TFS_O_CREAT, call_write 0 [1, 2, 3, 4] 4,
      call_open ['/', 'f'] TFS_O_TRUNC, call_close 1, call_open ['/', 'g'] TFS_O_CREAT,
      call_write 1 [9] 1]) 0 [5] 1).map Prod.snd = some 0 :=
  ⟨reachable_state_after _ (by decide), by decide, by decide, by decide, by decide, by decide⟩

/-- C14: when `target` resolves to an inode with `sym_link = true`, `tfs_link`
returns `-1` for every `link_name` and hands back the state it was given: no
directory entry is added and no `hard_links` count changes. -/
theorem C14_tfs_link_refuses_symlinks (st : tfs_state) (target link_name : List Char)
    (p : Nat)
    (hres : inode_get st (tfs_lookup st target (inode_get st ROOT_DIR_INUM)) = some p)
    (hsym : (inode_at st p).sym_link = true) :
    tfs_link st target link_name = some (st, -1) := by
  obtain ⟨h0, _, _⟩ := inode_get_lt hres
  have hneg : ¬ tfs_lookup st target (inode_get st ROOT_DIR_INUM) < 0 := by omega
  unfold tfs_link
  simp only []
  split
  · rfl
  · simp only [hneg, if_false, hres, hsym, if_true]

/-- Witness for C14: `/s` is a symbolic link to the file `/f`;
`link("/s", "/h")` returns `-1` and changes nothing. -/
theorem C14_witness :
    tfs_link (state_after [call_open ['/', 'f'] TFS_O_CREAT, call_close 0,
        call_sym_link ['/', 'f'] ['/', 's']]) ['/', 's'] ['/', 'h'] =
      some (state_after [call_open ['/', 'f'] TFS_O_CREAT, call_close 0,
        call_sym_link ['/', 'f'] ['/', 's']], -1) :=
  C14_tfs_link_refuses_symlinks _ ['/', 's'] ['/', 'h'] 2 (by decide) (by decide)

/-- C15: `valid_pathname` holds exactly for the names that are non-empty, begin
with `/` and are longer than 1; and on a name that is not valid `tfs_open`,
`tfs_link` (either argument), `tfs_sym_link` (either argument) and `tfs_unlink`
return `-1` and hand back the state they were given. -/
theorem C15_path_validation (st : tfs_state) (name other : List Char) (mode : Nat) :
    (valid_pathname name = true ↔
      name ≠ [] ∧ name.head? = some '/' ∧ 1 < name.length) ∧
    (valid_pathname name = false →
      tfs_open st name mode = some (st, -1) ∧
      tfs_link st name other = some (st, -1) ∧
      tfs_link st other name = some (st, -1) ∧
      tfs_sym_link st name other = some (st, -1) ∧
      tfs_sym_link st other name = some (st, -1) ∧
      tfs_unlink st name = some (st, -1)) := by
  constructor
  · unfold valid_pathname
    cases name with
    | nil => simp
    | cons c cs => simp; tauto
  · intro h
    refine ⟨?_, ?_, ?_, ?_, ?_, ?_⟩
    · simp [tfs_open, h]
    · simp [tfs_link, h]
    · simp [tfs_link, h]
    · simp [tfs_sym_link, h]
    · simp [tfs_sym_link, h]
    · simp [tfs_unlink, h]

/-- Witness for C15: the name `f` (no leading `/`), the name `/` and the empty
name are not valid, `/f` is; `open("f", O_CREAT)` on the initial state returns
`-1` and changes nothing. -/
theorem C15_witness :
    valid_pathname ['f'] = false ∧ valid_pathname ['/'] = false ∧
    valid_pathname [] = false ∧ valid_pathname ['/', 'f'] = true ∧
    tfs_open (state_after []) ['f'] TFS_O_CREAT = some (state_after [], -1) :=
  ⟨by decide, by decide, by decide, by decide,
    ((C15_path_validation (state_after []) ['f'] [] TFS_O_CREAT).2 (by decide)).1⟩

/-- C17 at its failing input: the directory (3 entries) is full of names of one
file, whose `hard_links` is 3, and the sum over live inodes is 4 = 3 + 1.
`link("/f", "/x")` increments `hard_links` (line 215), fails to add the entry
and returns `-1` (lines 218 to 222) without taking the increment back: the sum
is 5 and the live entries are still 3. -/
theorem C17_failed_link_breaks_count :
    reachable (state_after [call_open ['/', 'f'] TFS_O_CREAT, call_close 0,
      call_link ['/', 'f'] ['/', 'g'], call_link ['/', 'f'] ['/', 'h']]) ∧
    hard_links_sum (state_after [call_open ['/', 'f'] TFS_O_CREAT, call_close 0,
      call_link ['/', 'f'] ['/', 'g'], call_link ['/', 'f'] ['/', 'h']]) = 4 ∧
    (live_dir (state_after [call_open ['/', 'f'] TFS_O_CREAT, call_close 0,
      call_link ['/', 'f'] ['/', 'g'], call_link ['/', 'f'] ['/', 'h']])).length = 3 ∧
    (tfs_link (state_after [call_open ['/', 'f'] TFS_O_CREAT, call_close 0,
      call_link ['/', 'f'] ['/', 'g'], call_link ['/', 'f'] ['/', 'h']])
      ['/', 'f'] ['/', 'x']).map
        (fun r => (r.2, hard_links_sum r.1, (live_dir r.1).length)) = some (-1, 5, 3) :=
  ⟨reachable_state_after _ (by decide), by decide, by decide, by decide⟩

/-- C18 (amended): in every state reached from `tfs_init` by calls of the public
operations among which none unlinks a name while an open-file entry holds its
inode and none opens with `TFS_O_TRUNC` a file that an open-file entry holds,
every open-file entry holds a live inode and an offset with
`0 ≤ offset ≤ size` of that inode. -/
theorem C18_offset_invariant (st : tfs_state) (f : open_file_entry_t)
    (hreach : reachable_where offset_guard st) (hf : some f ∈ st.open_file_table) :
    inode_live st f.of_inumber.toNat ∧ 0 ≤ f.of_offset ∧
      f.of_offset ≤ (inode_at st f.of_inumber.toNat).i_size := by
  have hinv : offset_inv st := by
    apply @reachable_where_induct offset_guard offset_inv _ _ st hreach
    · intro n params_ptr s hs
      exact offset_inv_tfs_init hs
    · intro s c res hr hp hok hstep
      exact offset_inv_step (reachable_inv hr) (reachable_link_inv hr) hp hok hstep
  exact ⟨(hinv f hf).1, Nat.zero_le _, (hinv f hf).2⟩

/-- Witness for C18: `/f` is written, closed, emptied by an `open` with
`TFS_O_TRUNC` while no handle is on it, written again and opened a second time
with `TFS_O_APPEND`; the handle of the second `open` stands at offset 2 in a
file of size 2. -/
theorem C18_witness :
    inode_live (state_after_where offset_guard [call_open ['/', 'f'] TFS_O_CREAT,
      call_write 0 [1, 2, 3] 3, call_close 0, call_open ['/', 'f'] TFS_O_TRUNC,
      call_write 0 [4, 5] 2, call_open ['/', 'f'] TFS_O_APPEND, call_read 0 1]) 1 ∧
    0 ≤ 2 ∧
    2 ≤ (inode_at (state_after_where offset_guard [call_open ['/', 'f'] TFS_O_CREAT,
      call_write 0 [1, 2, 3] 3, call_close 0, call_open ['/', 'f'] TFS_O_TRUNC,
      call_write 0 [4, 5] 2, call_open ['/', 'f'] TFS_O_APPEND, call_read 0 1]) 1).i_size :=
  C18_offset_invariant _ ⟨1, 2⟩ (reachable_where_state_after _ _ (by decide)) (by decide)

/-- Counterexample to C18 as stated: `/f` is open through handle 0, which stands
at offset 3 after a write of three bytes; a second `open("/f", TFS_O_TRUNC)`
sets the size to 0.  No file was unlinked, and handle 0 has offset 3 > size 0. -/
theorem C18_counterexample :
    reachable (state_after [call_open ['/', 'f'] TFS_O_CREAT, call_write 0 [1, 2, 3] 3,
      call_open ['/', 'f'] TFS_O_TRUNC]) ∧
    get_open_file_entry (state_after [call_open ['/', 'f'] TFS_O_CREAT,
      call_write 0 [1, 2, 3] 3, call_open ['/', 'f'] TFS_O_TRUNC]) 0 = some ⟨1, 3⟩ ∧
    (inode_at (state_after [call_open ['/', 'f'] TFS_O_CREAT, call_write 0 [1, 2, 3] 3,
      call_open ['/', 'f'] TFS_O_TRUNC]) 1).i_size = 0 :=
  ⟨reachable_state_after _ (by decide), by decide, by decide⟩

/-- C19 at its failing input: handle 0 stands at offset 1 of `/f` (one byte
written, block size 4) and `tfs_write` is called with `to_write = 2^64 - 1`.
The sum `to_write + of_offset` wraps to 0, the test of line 251 does not fire
and the count is not clamped to `block_size - offset = 3`: the call hands
`2^64 - 1` to `memcpy`, adds it to the offset, which wraps from 1 to 0, and
returns it as `(ssize_t) -1`; the size stays 1. -/
theorem C19_write_count_wraps :
    reachable (state_after [call_open ['/', 'f'] TFS_O_CREAT, call_write 0 [1] 1]) ∧
    get_open_file_entry (state_after [call_open ['/', 'f'] TFS_O_CREAT, call_write 0 [1] 1]) 0 =
      some ⟨1, 1⟩ ∧
    (state_after [call_open ['/', 'f'] TFS_O_CREAT, call_write 0 [1] 1]).block_size = 4 ∧
    min (SIZE_MOD - 1) (4 - 1) = 3 ∧
    ssize_cast (SIZE_MOD - 1) = -1 ∧
    (tfs_write (state_after [call_open ['/', 'f'] TFS_O_CREAT, call_write 0 [1] 1]) 0
      [5, 6, 7, 8, 9] (SIZE_MOD - 1)).map
        (fun r => (r.2, get_open_file_entry r.1 0, (inode_at r.1 1).i_size)) =
      some (-1, some ⟨1, 0⟩, 1) :=
  ⟨reachable_state_after _ (by decide), by decide, by decide, by decide, by decide,
    by decide⟩

/-- C20 (amended): in every state reached from `tfs_init` by calls of the public
operations among which none unlinks a name while an open-file entry holds its
inode and no `tfs_open` ends, after the hop through a symbolic link, on the
inode of a symbolic link, every live inode with `sym_link = true` has size 0 and
no data block. -/
theorem C20_symlink_holds_no_block (st : tfs_state) (p : Nat)
    (hreach : reachable_where symlink_guard st) (hlive : inode_live st p)
    (hsym : (inode_at st p).sym_link = true) :
    (inode_at st p).i_size = 0 ∧ (inode_at st p).i_data_block = -1 := by
  have hinv : symlink_inv st := by
    apply @reachable_where_induct symlink_guard symlink_inv _ _ st hreach
    · intro n params_ptr s hs
      exact symlink_inv_tfs_init hs
    · intro s c res hr hp hok hstep
      exact symlink_inv_step (reachable_inv hr) (reachable_link_inv hr) hp hok hstep
  exact hinv.1 p hlive hsym

/-- Witness for C20: `/s` is a symbolic link to the file `/f` and `/t` a clone of
`/s`; two bytes are written through `open("/s", 0)`.  The inode of `/t` (slot 3)
is a live symbolic link with size 0 and no block. -/
theorem C20_witness :
    (inode_at (state_after_where symlink_guard [call_open ['/', 'f'] TFS_O_CREAT,
      call_write 0 [7] 1, call_close 0, call_sym_link ['/', 'f'] ['/', 's'],
      call_sym_link ['/', 's'] ['/', 't'], call_open ['/', 's'] 0,
      call_write 0 [1, 2] 2]) 3).i_size = 0 ∧
    (inode_at (state_after_where symlink_guard [call_open ['/', 'f'] TFS_O_CREAT,
      call_write 0 [7] 1, call_close 0, call_sym_link ['/', 'f'] ['/', 's'],
      call_sym_link ['/', 's'] ['/', 't'], call_open ['/', 's'] 0,
      call_write 0 [1, 2] 2]) 3).i_data_block = -1 :=
  C20_symlink_holds_no_block _ 3 (reachable_where_state_after _ _ (by decide))
    (by unfold inode_live; decide) (by decide)

/-- Counterexample to C20 as stated.  First run: `/s` links to `/f`; `/f` is
unlinked and the name re-created as a clone of `/s`, a symbolic link with
`sym_path` `/f`; `open("/s", 0)` ends on that clone (inode 1) and a write of one
byte gives the live symbolic link size 1 and block 1.  Second run: `/f` is
unlinked while handle 0 is on it; `sym_link("/g", "/s")` takes the freed slot 1
and a write through handle 0 gives that symbolic link size 1 and block 1. -/
theorem C20_counterexample :
    reachable (state_after [call_open ['/', 'f'] TFS_O_CREAT, call_close 0,
      call_sym_link ['/', 'f'] ['/', 's'], call_unlink ['/', 'f'],
      call_sym_link ['/', 's'] ['/', 'f'], call_open ['/', 's'] 0, call_write 0 [7] 1]) ∧
    inode_live (state_after [call_open ['/', 'f'] TFS_O_CREAT, call_close 0,
      call_sym_link ['/', 'f'] ['/', 's'], call_unlink ['/', 'f'],
      call_sym_link ['/', 's'] ['/', 'f'], call_open ['/', 's'] 0, call_write 0 [7] 1]) 1 ∧
    inode_at (state_after [call_open ['/', 'f'] TFS_O_CREAT, call_close 0,
      call_sym_link ['/', 'f'] ['/', 's'], call_unlink ['/', 'f'],
      call_sym_link ['/', 's'] ['/', 'f'], call_open ['/', 's'] 0, call_write 0 [7] 1]) 1 =
      ⟨inode_type.T_FILE, 1, 1, 1, true, ['/', 'f']⟩ ∧
    reachable (state_after [call_open ['/', 'f'] TFS_O_CREAT,
      call_open ['/', 'g'] TFS_O_CREAT, call_unlink ['/', 'f'],
      call_sym_link ['/', 'g'] ['/', 's'], call_write 0 [7] 1]) ∧
    inode_live (state_after [call_open ['/', 'f'] TFS_O_CREAT,
      call_open ['/', 'g'] TFS_O_CREAT, call_unlink ['/', 'f'],
      call_sym_link ['/', 'g'] ['/', 's'], call_write 0 [7] 1]) 1 ∧
    inode_at (state_after [call_open ['/', 'f'] TFS_O_CREAT,
      call_open ['/', 'g'] TFS_O_CREAT, call_unlink ['/', 'f'],
      call_sym_link ['/', 'g'] ['/', 's'], call_write 0 [7] 1]) 1 =
      ⟨inode_type.T_FILE, 1, 1, 1, true, ['/', 'g']⟩ :=
  ⟨reachable_state_after _ (by decide), by unfold inode_live; decide, by decide,
    reachable_state_after _ (by decide), by unfold inode_live; decide, by decide⟩

/-! ## Exclusive ownership of data blocks -/

/-- The block invariant passes to a state whose live inodes that hold a block
were live with the same block, and whose bitmap still marks those blocks. -/
theorem block_inv_transfer {st st1 : tfs_state} (hb : block_inv st)
    (hS : ∀ p, inode_live st1 p → (inode_at st1 p).i_data_block ≠ -1 →
      inode_live st p ∧ (inode_at st1 p).i_data_block = (inode_at st p).i_data_block)
    (hF : ∀ p, inode_live st1 p → inode_live st p → (inode_at st p).i_data_block ≠ -1 →
      st.free_blocks[(inode_at st p).i_data_block.toNat]? = some allocation_state_t.TAKEN →
      st1.free_blocks[(inode_at st p).i_data_block.toNat]? =
        some allocation_state_t.TAKEN) :
    block_inv st1 := by
  refine ⟨fun p hp hne => ?_, fun p q hp hq hpq hne => ?_⟩
  · obtain ⟨h1, h2⟩ := hS p hp hne
    rw [h2] at hne ⊢
    obtain ⟨g1, g2⟩ := hb.1 p h1 hne
    exact ⟨g1, hF p hp h1 hne g2⟩
  · obtain ⟨h1, h2⟩ := hS p hp hne
    by_cases hq1 : (inode_at st1 q).i_data_block = -1
    · rw [hq1]; exact hne
    · obtain ⟨h3, h4⟩ := hS q hq hq1
      rw [h2, h4]
      rw [h2] at hne
      exact hb.2 p q h1 h3 hpq hne

/-- The state has the bitmaps of `st` and the blocks of its live inodes. -/
theorem block_inv_same {st st1 : tfs_state} (hb : block_inv st)
    (hf : st1.freeinode_ts = st.freeinode_ts) (hfb : st1.free_blocks = st.free_blocks)
    (ht : ∀ p, inode_live st p →
      (inode_at st1 p).i_data_block = (inode_at st p).i_data_block) :
    block_inv st1 := by
  apply block_inv_transfer hb
  · intro p hp _
    unfold inode_live at hp
    rw [hf] at hp
    exact ⟨hp, ht p hp⟩
  · intro p _ _ _ h
    rw [hfb]; exact h

/-- The state is `st` with an inode that holds no block in the lowest free slot. -/
theorem block_inv_create {st st1 : tfs_state} (hb : block_inv st) {q : Nat} {v : inode_t}
    (hql : q < st.inode_table.length) (hv : v.i_data_block = -1)
    (hf : st1.freeinode_ts = st.freeinode_ts.set q allocation_state_t.TAKEN)
    (hfb : st1.free_blocks = st.free_blocks)
    (ht : st1.inode_table = st.inode_table.set q v) : block_inv st1 := by
  apply block_inv_transfer hb
  · intro p hp hne
    by_cases hqp : q = p
    · subst hqp
      rw [inode_at_set_self ht hql] at hne
      exact absurd hv hne
    · unfold inode_live at hp
      rw [hf, List.getElem?_set_ne hqp] at hp
      exact ⟨hp, by rw [inode_at_set_ne ht hqp]⟩
  · intro p _ _ _ h
    rw [hfb]; exact h

/-- Deleting again an inode that holds no block leaves the block bitmap. -/
theorem rollback_free_blocks {st : tfs_state} {q : Nat} {v : inode_t}
    (hql : q < st.inode_table.length) (hv : v.i_data_block = -1) :
    (inode_delete { st with
        freeinode_ts := st.freeinode_ts.set q allocation_state_t.TAKEN
        inode_table := st.inode_table.set q v } (q : Int)).free_blocks = st.free_blocks := by
  have hget : inode_get { st with
      freeinode_ts := st.freeinode_ts.set q allocation_state_t.TAKEN
      inode_table := st.inode_table.set q v } (q : Int) = some q := by
    simp [inode_get, hql]
  obtain ⟨_, _, _, _, _, _, h7⟩ := inode_delete_fields _ hget
  rw [h7]
  have hat : (inode_at { st with
      freeinode_ts := st.freeinode_ts.set q allocation_state_t.TAKEN
      inode_table := st.inode_table.set q v } q).i_data_block = -1 := by
    rw [inode_at_set_self rfl hql]; exact hv
  rw [hat]
  rfl

/-- The state after a creation that was rolled back. -/
theorem block_inv_rollback {st st1 : tfs_state} (hb : block_inv st) {q : Nat} {v : inode_t}
    (hq : first_free st.freeinode_ts = some q)
    (hf : st1.freeinode_ts = st.freeinode_ts) (hfb : st1.free_blocks = st.free_blocks)
    (ht : st1.inode_table = st.inode_table.set q v) : block_inv st1 := by
  apply block_inv_same hb hf hfb
  intro p hp
  have hqp : q ≠ p := by
    intro h
    have := first_free_get hq
    unfold inode_live at hp
    rw [h, hp] at this
    cases this
  rw [inode_at_set_ne ht hqp]

theorem block_inv_tfs_open {st : tfs_state} {name : List Char} {mode : Nat}
    {res : tfs_state × Int} (hinv : state_inv st) (hb : block_inv st)
    (hg : ∀ p, inode_get st (open_target st name) = some p →
      has_flag mode TFS_O_TRUNC = true → (inode_at st p).i_size = 0)
    (h : tfs_open st name mode = some res) : block_inv res.1 := by
  rcases tfs_open_cases h with h1 | ⟨p, _, hp, h1⟩ | ⟨q, _, hq, h1⟩ |
    ⟨q, d, _, _, _, hq, _, hins, h1⟩
  · rw [h1]; exact hb
  · obtain ⟨s, hs, g1, _, _, _, _, _, g7, g8, g9, g10⟩ :=
      tfs_open_found_eq st (open_target st name) p mode
    have hbs : block_inv s := by
      by_cases htr : has_flag mode TFS_O_TRUNC = true
      · have hz := hg p hp htr
        apply block_inv_same hb g1
        · rcases g10 with g | ⟨g, _⟩
          · exact g
          · omega
        · intro r _
          by_cases hr : r = p
          · subst hr
            rw [g8, if_pos htr]
          · rw [g7 r hr]
      · rw [g9 (by simpa using htr)]
        exact hb
    rw [h1, hs]
    rcases add_to_open_file_table_cases s (open_target st name)
      (if has_flag mode TFS_O_APPEND then (inode_at s p).i_size else 0) with
      ⟨_, h2⟩ | ⟨k, _, h2⟩
    · rw [h2]; exact hbs
    · rw [h2]; exact hbs
  · have hql : q < st.inode_table.length := by
      have := first_free_lt hq
      rw [hinv.2.1] at this
      exact this
    obtain ⟨f1, _, _, f4⟩ :=
      @rollback_fields st q ⟨inode_type.T_FILE, 0, -1, 1, false, []⟩ hq hql
    rw [h1]
    exact block_inv_rollback hb hq f1 (rollback_free_blocks hql rfl) f4
  · have hql : q < st.inode_table.length := by
      have := first_free_lt hq
      rw [hinv.2.1] at this
      exact this
    have hbc : block_inv { st with
        freeinode_ts := st.freeinode_ts.set q allocation_state_t.TAKEN
        inode_table := st.inode_table.set q ⟨inode_type.T_FILE, 0, -1, 1, false, []⟩
        dir_entries := d } :=
      block_inv_create hb hql rfl rfl rfl rfl
    rw [h1]
    rcases add_to_open_file_table_cases { st with
        freeinode_ts := st.freeinode_ts.set q allocation_state_t.TAKEN
        inode_table := st.inode_table.set q ⟨inode_type.T_FILE, 0, -1, 1, false, []⟩
        dir_entries := d } (q : Int) 0 with ⟨_, h2⟩ | ⟨k, _, h2⟩
    · rw [h2]; exact hbc
    · rw [h2]; exact hbc

theorem block_inv_tfs_sym_link {st : tfs_state} {target link_name : List Char}
    {res : tfs_state × Int} (hinv : state_inv st) (hb : block_inv st)
    (hg : ∀ p, inode_get st (tfs_lookup st target (inode_get st ROOT_DIR_INUM)) = some p →
      (inode_at st p).sym_link = true → (inode_at st p).i_data_block = -1)
    (h : tfs_sym_link st target link_name = some res) : block_inv res.1 := by
  rcases tfs_sym_link_cases hinv h with h1 | ⟨p, q, v, hp, hq, hql, _, _, hv, h1⟩
  · rw [h1]; exact hb
  · have hvb : v.i_data_block = -1 := by
      rcases hv with hv | ⟨_, hsp, _, hv2⟩
      · exact hv.2
      · rw [hv2]; exact hg p hp hsp
    rcases h1 with ⟨d, _, h1⟩ | h1
    · rw [h1]
      exact block_inv_create hb hql hvb rfl rfl rfl
    · obtain ⟨f1, _, _, f4⟩ := @rollback_fields st q v hq hql
      rw [h1]
      exact block_inv_rollback hb hq f1 (rollback_free_blocks hql hvb) f4

/-- The state is `st` with another `hard_links` count in one inode. -/
theorem block_inv_hard_links {st st1 : tfs_state} (hb : block_inv st) {p n : Nat}
    (hpl : p < st.inode_table.length)
    (hf : st1.freeinode_ts = st.freeinode_ts) (hfb : st1.free_blocks = st.free_blocks)
    (ht : st1.inode_table =
      st.inode_table.set p { inode_at st p with hard_links := n }) : block_inv st1 := by
  apply block_inv_same hb hf hfb
  intro r _
  by_cases hr : p = r
  · subst hr
    rw [inode_at_set_self ht hpl]
  · rw [inode_at_set_ne ht hr]

theorem block_inv_tfs_link {st : tfs_state} {target link_name : List Char}
    {res : tfs_state × Int} (hl : link_inv st) (hb : block_inv st)
    (h : tfs_link st target link_name = some res) : block_inv res.1 := by
  rcases tfs_link_cases h with h1 | ⟨p, hp, _, hle, h1⟩
  · rw [h1]; exact hb
  · obtain ⟨_, _, hpl⟩ := inode_get_lt hp
    rcases h1 with ⟨d, _, h1⟩ | h1
    · rw [h1]
      exact block_inv_hard_links hb hpl rfl rfl rfl
    · have hneg : tfs_lookup st link_name (inode_get st ROOT_DIR_INUM) < 0 := by
        by_contra hn
        have := (lookup_live hl (by omega :
          0 ≤ tfs_lookup st link_name (inode_get st ROOT_DIR_INUM))).1
        omega
      rw [h1, inode_delete_none _ (inode_get_neg _ hneg)]
      exact block_inv_hard_links hb hpl rfl rfl rfl

theorem block_inv_tfs_unlink {st : tfs_state} {target : List Char}
    {res : tfs_state × Int} (hl : link_inv st) (hb : block_inv st)
    (h : tfs_unlink st target = some res) : block_inv res.1 := by
  rcases tfs_unlink_cases h with h1 | ⟨p, d, hp, _, _, h1⟩
  · rw [h1]; exact hb
  · obtain ⟨h0, hpe, hpl⟩ := inode_get_lt hp
    have hplive : inode_live st p := by
      have := (lookup_live hl h0).2
      rw [← hpe] at this
      exact this
    rcases h1 with ⟨_, h1⟩ | ⟨_, _, h1⟩
    · have hget : inode_get { st with dir_entries := d }
          (tfs_lookup st target (inode_get st ROOT_DIR_INUM)) = some p := hp
      obtain ⟨g1, _, _, _, _, g6, g7⟩ := inode_delete_fields _ hget
      have hat : ∀ r, inode_at (inode_delete { st with dir_entries := d }
          (tfs_lookup st target (inode_get st ROOT_DIR_INUM))) r = inode_at st r :=
        fun r => inode_at_congr g1 r
      have hlive : ∀ r, inode_live (inode_delete { st with dir_entries := d }
          (tfs_lookup st target (inode_get st ROOT_DIR_INUM))) r → p ≠ r ∧ inode_live st r := by
        intro r hr
        unfold inode_live at hr
        rw [g6] at hr
        simp only [] at hr
        have hpr : p ≠ r := by
          intro hpr
          rw [hpr, List.getElem?_set_self (by
            by_contra hn
            rw [List.getElem?_eq_none (by rw [List.length_set]; omega)] at hr
            cases hr)] at hr
          cases hr
        rw [List.getElem?_set_ne hpr] at hr
        exact ⟨hpr, hr⟩
      rw [h1]
      apply block_inv_transfer hb
      · intro r hr _
        exact ⟨(hlive r hr).2, by rw [hat]⟩
      · intro r hr hr0 hne hT
        rw [g7]
        have hpr := (hlive r hr).1
        have hpe2 : inode_at { st with dir_entries := d } p = inode_at st p := rfl
        rw [hpe2]
        unfold data_block_free
        split
        · rename_i hpb
          simp only []
          by_cases hpn : (inode_at st p).i_data_block = -1
          · rw [hpn] at hpb; omega
          · have hdiff := hb.2 p r hplive hr0 hpr hpn
            have hrb := (hb.1 r hr0 hne).1
            rw [List.getElem?_set_ne (by omega)]
            exact hT
        · exact hT
    · rw [h1]
      exact block_inv_hard_links hb hpl rfl rfl rfl

/-- What a `tfs_write` does to the bitmaps and the `i_data_block` fields:
nothing, or the lowest free block is marked used and entered in the inode
written to. -/
theorem tfs_write_blocks {st : tfs_state} {fhandle : Int} {buffer : List Nat}
    {to_write : Nat} {res : tfs_state × Int}
    (h : tfs_write st fhandle buffer to_write = some res) :
    res.1.freeinode_ts = st.freeinode_ts ∧
    ((res.1.free_blocks = st.free_blocks ∧
        ∀ q, (inode_at res.1 q).i_data_block = (inode_at st q).i_data_block) ∨
      ∃ (inode b : Nat), first_free st.free_blocks = some b ∧
        res.1.free_blocks = st.free_blocks.set b allocation_state_t.TAKEN ∧
        (inode_at res.1 inode).i_data_block = (b : Int) ∧
        ∀ q, q ≠ inode → (inode_at res.1 q).i_data_block = (inode_at st q).i_data_block) := by
  unfold tfs_write at h
  split at h
  · cases h; exact ⟨rfl, Or.inl ⟨rfl, fun _ => rfl⟩⟩
  · rename_i file hfile
    split at h
    · cases h
    · rename_i inode hinode
      obtain ⟨_, _, hlt⟩ := inode_get_lt hinode
      simp only [] at h
      generalize (if (to_write + file.of_offset) % SIZE_MOD > state_block_size st then
          (state_block_size st + SIZE_MOD - file.of_offset) % SIZE_MOD else to_write) = tw at h
      by_cases hpos : tw > 0
      swap
      · rw [if_neg hpos] at h
        cases h; exact ⟨rfl, Or.inl ⟨rfl, fun _ => rfl⟩⟩
      rw [if_pos hpos] at h
      by_cases hfail : (inode_at st inode).i_size = 0 ∧ (data_block_alloc st).2 = -1
      · rw [if_pos hfail] at h
        cases h; exact ⟨rfl, Or.inl ⟨rfl, fun _ => rfl⟩⟩
      rw [if_neg hfail] at h
      have h2 : (if (inode_at st inode).i_size = 0 then
            inode_put (data_block_alloc st).1 inode
              { inode_at (data_block_alloc st).1 inode with
                i_data_block := (data_block_alloc st).2 }
            else st).freeinode_ts = st.freeinode_ts ∧
          (if (inode_at st inode).i_size = 0 then
            inode_put (data_block_alloc st).1 inode
              { inode_at (data_block_alloc st).1 inode with
                i_data_block := (data_block_alloc st).2 }
            else st).inode_table.length = st.inode_table.length ∧
          (((if (inode_at st inode).i_size = 0 then
            inode_put (data_block_alloc st).1 inode
              { inode_at (data_block_alloc st).1 inode with
                i_data_block := (data_block_alloc st).2 }
            else st).free_blocks = st.free_blocks ∧
            ∀ q, (inode_at (if (inode_at st inode).i_size = 0 then
              inode_put (data_block_alloc st).1 inode
                { inode_at (data_block_alloc st).1 inode with
                  i_data_block := (data_block_alloc st).2 }
              else st) q).i_data_block = (inode_at st q).i_data_block) ∨
          ∃ b : Nat, first_free st.free_blocks = some b ∧
            (if (inode_at st inode).i_size = 0 then
              inode_put (data_block_alloc st).1 inode
                { inode_at (data_block_alloc st).1 inode with
                  i_data_block := (data_block_alloc st).2 }
              else st).free_blocks = st.free_blocks.set b allocation_state_t.TAKEN ∧
            (inode_at (if (inode_at st inode).i_size = 0 then
              inode_put (data_block_alloc st).1 inode
                { inode_at (data_block_alloc st).1 inode with
                  i_data_block := (data_block_alloc st).2 }
              else st) inode).i_data_block = (b : Int) ∧
            ∀ q, q ≠ inode → (inode_at (if (inode_at st inode).i_size = 0 then
              inode_put (data_block_alloc st).1 inode
                { inode_at (data_block_alloc st).1 inode with
                  i_data_block := (data_block_alloc st).2 }
              else st) q).i_data_block = (inode_at st q).i_data_block) := by
        split
        · rename_i hz
          have hne : (data_block_alloc st).2 ≠ -1 := fun hc => hfail ⟨hz, hc⟩
          unfold data_block_alloc at hne ⊢
          cases hb : first_free st.free_blocks with
          | none => rw [hb] at hne; exact absurd rfl hne
          | some b =>
            simp only []
            have hps : ∀ (s : tfs_state) (v : inode_t), s.inode_table = st.inode_table →
                inode_at (inode_put s inode v) inode = v :=
              fun s v e => inode_at_put_self (by rw [e]; exact hlt)
            refine ⟨rfl, by simp [inode_put], Or.inr ⟨b, rfl, rfl, ?_, ?_⟩⟩
            · rw [hps { st with free_blocks := st.free_blocks.set b allocation_state_t.TAKEN }
                _ rfl]
            · intro q hq
              rw [inode_at_put_ne (Ne.symm hq)]
              rfl
        · exact ⟨rfl, rfl, Or.inl ⟨rfl, fun _ => rfl⟩⟩
      generalize (if (inode_at st inode).i_size = 0 then
          inode_put (data_block_alloc st).1 inode
            { inode_at (data_block_alloc st).1 inode with
              i_data_block := (data_block_alloc st).2 }
          else st) = st2 at h h2
      obtain ⟨g1, g4, g5⟩ := h2
      cases hblock : data_block_get st2 (inode_at st2 inode).i_data_block with
      | none => rw [hblock] at h; cases h
      | some block =>
        rw [hblock] at h
        simp only [Option.some.injEq] at h
        subst h
        simp only []
        have hat4 : ∀ (b : Nat) (w : List Nat) (e : open_file_entry_t) (q : Nat),
            inode_at (file_put (block_put st2 b w) fhandle e) q = inode_at st2 q :=
          fun _ _ _ _ => rfl
        have hfin : ∀ s : tfs_state, s.freeinode_ts = st2.freeinode_ts →
            s.free_blocks = st2.free_blocks →
            (∀ q, (inode_at s q).i_data_block = (inode_at st2 q).i_data_block) →
            s.freeinode_ts = st.freeinode_ts ∧
            ((s.free_blocks = st.free_blocks ∧
                ∀ q, (inode_at s q).i_data_block = (inode_at st q).i_data_block) ∨
              ∃ (inode b : Nat), first_free st.free_blocks = some b ∧
                s.free_blocks = st.free_blocks.set b allocation_state_t.TAKEN ∧
                (inode_at s inode).i_data_block = (b : Int) ∧
                ∀ q, q ≠ inode →
                  (inode_at s q).i_data_block = (inode_at st q).i_data_block) := by
          intro s e1 e2 e3
          refine ⟨by rw [e1, g1], ?_⟩
          rcases g5 with ⟨k1, k2⟩ | ⟨b, k1, k2, k3, k4⟩
          · exact Or.inl ⟨by rw [e2, k1], fun q => by rw [e3, k2]⟩
          · exact Or.inr ⟨inode, b, k1, by rw [e2, k2], by rw [e3, k3],
              fun q hq => by rw [e3, k4 q hq]⟩
        split
        · refine hfin _ ?_ ?_ ?_
          · rfl
          · rfl
          intro q
          by_cases hq : inode = q
          · subst hq
            rw [inode_at_put_self (by simp [file_put, block_put, g4, hlt]), hat4]
          · rw [inode_at_put_ne hq, hat4]
        · refine hfin _ ?_ ?_ ?_
          · rfl
          · rfl
          · intro q; rfl

theorem block_inv_tfs_write {st : tfs_state} {fhandle : Int} {buffer : List Nat}
    {to_write : Nat} {res : tfs_state × Int} (hb : block_inv st)
    (h : tfs_write st fhandle buffer to_write = some res) : block_inv res.1 := by
  obtain ⟨hf, ⟨hfb, ht⟩ | ⟨p, b, hfree, hfb, hpb, ht⟩⟩ := tfs_write_blocks h
  · exact block_inv_same hb hf hfb (fun p _ => ht p)
  · have hbl := first_free_lt hfree
    have hbf := first_free_get hfree
    have hlive : ∀ r, inode_live res.1 r → inode_live st r := by
      intro r hr
      unfold inode_live at hr
      rw [hf] at hr
      exact hr
    have hold : ∀ r, inode_live st r → (inode_at st r).i_data_block ≠ -1 →
        (inode_at st r).i_data_block ≠ (b : Int) := by
      intro r hr hne hc
      obtain ⟨k1, k2⟩ := hb.1 r hr hne
      rw [hc, Int.toNat_ofNat, hbf] at k2
      cases k2
    refine ⟨fun r hr hne => ?_, fun r s hr hs hrs hne => ?_⟩
    · by_cases hrp : r = p
      · subst hrp
        rw [hpb, hfb, Int.toNat_ofNat]
        exact ⟨Int.ofNat_nonneg b, List.getElem?_set_self hbl⟩
      · rw [ht r hrp] at hne ⊢
        obtain ⟨k1, k2⟩ := hb.1 r (hlive r hr) hne
        refine ⟨k1, ?_⟩
        rw [hfb]
        by_cases hbe : b = (inode_at st r).i_data_block.toNat
        · rw [← hbe, List.getElem?_set_self hbl]
        · rw [List.getElem?_set_ne hbe]; exact k2
    · by_cases hrp : r = p
      · subst hrp
        have hsp : s ≠ r := Ne.symm hrs
        rw [hpb, ht s hsp]
        by_cases hs1 : (inode_at st s).i_data_block = -1
        · rw [hs1]; omega
        · exact Ne.symm (hold s (hlive s hs) hs1)
      · rw [ht r hrp] at hne ⊢
        by_cases hsp : s = p
        · subst hsp
          rw [hpb]
          exact hold r (hlive r hr) hne
        · rw [ht s hsp]
          exact hb.2 r s (hlive r hr) (hlive s hs) hrs hne

theorem block_inv_tfs_read {st : tfs_state} {fhandle : Int} {len : Nat}
    {res : tfs_state × Int × List Nat} (hb : block_inv st)
    (h : tfs_read st fhandle len = some res) : block_inv res.1 := by
  rcases tfs_read_effect h with h1 | ⟨_, _, _, _, _, _, h1⟩
  · rw [h1]; exact hb
  · rw [h1]; exact hb

theorem block_inv_tfs_close {st : tfs_state} (hb : block_inv st) (fhandle : Int) :
    block_inv (tfs_close st fhandle).1 := by
  rcases tfs_close_effect st fhandle with h1 | h1
  · rw [h1]; exact hb
  · rw [h1]; exact hb

theorem block_inv_step {st : tfs_state} {c : tfs_call} {res : tfs_state × Int}
    (hinv : state_inv st) (hl : link_inv st) (hb : block_inv st)
    (hg : block_guard st c = true) (h : tfs_step st c = some res) : block_inv res.1 := by
  cases c with
  | call_open name mode =>
    apply block_inv_tfs_open hinv hb _ h
    intro p hp htr
    simpa [block_guard, trunc_empty_guard, clone_guard, hp, htr] using hg
  | call_close fhandle =>
    simp only [tfs_step, Option.some.injEq] at h
    subst h
    exact block_inv_tfs_close hb _
  | call_read fhandle len =>
    simp only [tfs_step, Option.map_eq_some'] at h
    obtain ⟨r, hr, rfl⟩ := h
    exact block_inv_tfs_read hb hr
  | call_write fhandle buffer to_write => exact block_inv_tfs_write hb h
  | call_link target link_name => exact block_inv_tfs_link hl hb h
  | call_sym_link target link_name =>
    apply block_inv_tfs_sym_link hinv hb _ h
    intro p hp hsym
    simpa [block_guard, trunc_empty_guard, clone_guard, hp, hsym] using hg
  | call_unlink target => exact block_inv_tfs_unlink hl hb h

/-- The root directory that `inode_create` makes holds a block that the bitmap
marks used. -/
theorem inode_create_dir_block {s : tfs_state}
    (hlen : s.inode_table.length = s.freeinode_ts.length)
    (hroot : (inode_create s inode_type.T_DIRECTORY).2 = ROOT_DIR_INUM) :
    0 ≤ (inode_at (inode_create s inode_type.T_DIRECTORY).1 0).i_data_block ∧
      (inode_create s inode_type.T_DIRECTORY).1.free_blocks[
        (inode_at (inode_create s inode_type.T_DIRECTORY).1 0).i_data_block.toNat]? =
        some allocation_state_t.TAKEN := by
  have hq := (inode_create_dir_root hroot).1
  have hlt : 0 < s.inode_table.length := by
    rw [hlen]; exact first_free_lt hq
  unfold inode_create at hroot ⊢
  rw [hq] at hroot ⊢
  simp only [] at hroot ⊢
  by_cases ha : (data_block_alloc s).2 = -1
  · rw [if_pos ha] at hroot
    simp [ROOT_DIR_INUM] at hroot
  · rw [if_neg ha]
    unfold data_block_alloc at ha ⊢
    cases hb : first_free s.free_blocks with
    | none => rw [hb] at ha; exact absurd rfl ha
    | some b =>
      simp only []
      have hat : (inode_at { s with
          free_blocks := s.free_blocks.set b allocation_state_t.TAKEN
          freeinode_ts := s.freeinode_ts.set 0 allocation_state_t.TAKEN
          inode_table := s.inode_table.set 0
            ⟨inode_type.T_DIRECTORY, 0, (b : Int), 1, false, []⟩
          dir_entries := s.dir_entries.map (fun e => { e with d_inumber := -1 }) }
          0).i_data_block = (b : Int) := by
        rw [inode_at_set_self rfl hlt]
      rw [hat, Int.toNat_ofNat]
      exact ⟨Int.ofNat_nonneg b, List.getElem?_set_self (first_free_lt hb)⟩

/-- After `tfs_init` the root directory holds a block that the bitmap marks
used. -/
theorem tfs_init_root_block {n : Nat} {params_ptr : Option tfs_params} {st : tfs_state}
    (h : tfs_init n params_ptr = some st) :
    0 ≤ (inode_at st 0).i_data_block ∧
      st.free_blocks[(inode_at st 0).i_data_block.toNat]? =
        some allocation_state_t.TAKEN := by
  unfold tfs_init at h
  simp only [] at h
  split at h
  · cases h
  split at h
  · cases h
  · rename_i hroot
    cases h
    simp only [ne_eq, Decidable.not_not] at hroot
    exact inode_create_dir_block (by simp [state_init]) hroot

theorem block_inv_tfs_init {n : Nat} {params_ptr : Option tfs_params} {st : tfs_state}
    (h : tfs_init n params_ptr = some st) : block_inv st := by
  obtain ⟨_, hfree, _, _, _⟩ := tfs_init_fields h
  have hroot := tfs_init_root_block h
  refine ⟨fun p hp _ => ?_, fun p q hp hq hpq _ => ?_⟩
  · by_cases hp0 : p = 0
    · subst hp0; exact hroot
    · exact absurd hp (hfree p hp0)
  · by_cases hp0 : p = 0
    · by_cases hq0 : q = 0
      · omega
      · exact absurd hq (hfree q hq0)
    · exact absurd hp (hfree p hp0)

/-- The block invariant holds in every state reached by guarded calls. -/
theorem reachable_block_inv {st : tfs_state} (h : reachable_where block_guard st) :
    block_inv st := by
  apply @reachable_where_induct block_guard block_inv _ _ st h
  · intro n params_ptr s hs
    exact block_inv_tfs_init hs
  · intro s c res hr hp hok hstep
    exact block_inv_step (reachable_inv hr) (reachable_link_inv hr) hp hok hstep

/-! ## C21: exclusive block ownership -/

/-- C21 (amended): in every state reached from `tfs_init` by calls of the public
operations among which no `tfs_open` with `TFS_O_TRUNC` ends on an inode whose
size is not 0 and no `tfs_sym_link` has as target a symbolic link whose inode
holds a data block, no data block index is the `i_data_block` of two distinct
live inodes, and every data block referenced by a live inode is marked used in
the block bitmap. -/
theorem C21_exclusive_block_ownership (st : tfs_state)
    (hreach : reachable_where block_guard st) :
    (∀ p q : Nat, inode_live st p → inode_live st q → p ≠ q →
      (inode_at st p).i_data_block ≠ -1 →
      (inode_at st p).i_data_block ≠ (inode_at st q).i_data_block) ∧
    (∀ p : Nat, inode_live st p → (inode_at st p).i_data_block ≠ -1 →
      0 ≤ (inode_at st p).i_data_block ∧
        st.free_blocks[(inode_at st p).i_data_block.toNat]? =
          some allocation_state_t.TAKEN) := by
  have hinv : block_inv st := reachable_block_inv hreach
  exact ⟨hinv.2, hinv.1⟩

/-- Witness for C21: `/f` is created, opened again with `TFS_O_TRUNC` while it is
empty and one byte is written; `/s` is a symbolic link to `/f` and `/t` a clone
of `/s`.  The block of `/f` (inode 1) is not the block of the root directory
(inode 0) and the bitmap marks it used. -/
theorem C21_witness :
    (inode_at (state_after_where block_guard [call_open ['/', 'f'] TFS_O_CREAT,
      call_close 0, call_open ['/', 'f'] TFS_O_TRUNC, call_write 0 [7] 1,
      call_sym_link ['/', 'f'] ['/', 's'], call_sym_link ['/', 's'] ['/', 't']])
        1).i_data_block ≠
      (inode_at (state_after_where block_guard [call_open ['/', 'f'] TFS_O_CREAT,
        call_close 0, call_open ['/', 'f'] TFS_O_TRUNC, call_write 0 [7] 1,
        call_sym_link ['/', 'f'] ['/', 's'], call_sym_link ['/', 's'] ['/', 't']])
          0).i_data_block ∧
    (state_after_where block_guard [call_open ['/', 'f'] TFS_O_CREAT,
      call_close 0, call_open ['/', 'f'] TFS_O_TRUNC, call_write 0 [7] 1,
      call_sym_link ['/', 'f'] ['/', 's'], call_sym_link ['/', 's'] ['/', 't']]).free_blocks[
        (inode_at (state_after_where block_guard [call_open ['/', 'f'] TFS_O_CREAT,
          call_close 0, call_open ['/', 'f'] TFS_O_TRUNC, call_write 0 [7] 1,
          call_sym_link ['/', 'f'] ['/', 's'], call_sym_link ['/', 's'] ['/', 't']])
            1).i_data_block.toNat]? = some allocation_state_t.TAKEN :=
  ⟨(C21_exclusive_block_ownership _
      (reachable_where_state_after _ _ (by decide))).1 1 0
      (by unfold inode_live; decide) (by unfold inode_live; decide) (by decide) (by decide),
    ((C21_exclusive_block_ownership _
      (reachable_where_state_after _ _ (by decide))).2 1
      (by unfold inode_live; decide) (by decide)).2⟩

/-- Counterexample to C21 as stated.  First run: one byte is written to `/f`
and `open("/f", TFS_O_TRUNC)` frees its block 1 (line 106) while `i_data_block`
of the live inode 1 still is 1, a block the bitmap marks free.  Second run, the
first continued: `/g` is created and a write gives it the lowest free block, 1,
so that the live inodes 1 and 2 both have `i_data_block = 1`.  Third run: `/s`
links to `/f`; `/f` is unlinked and the name re-created as a clone of `/s`; a
write through `open("/s", 0)` gives that symbolic link (inode 1) block 1, and
`sym_link("/f", "/t")` copies `i_data_block` (line 167) into the clone `/t`
(inode 3). -/
theorem C21_counterexample :
    reachable (state_after [call_open ['/', 'f'] TFS_O_CREAT, call_write 0 [7] 1,
      call_close 0, call_open ['/', 'f'] TFS_O_TRUNC]) ∧
    inode_live (state_after [call_open ['/', 'f'] TFS_O_CREAT, call_write 0 [7] 1,
      call_close 0, call_open ['/', 'f'] TFS_O_TRUNC]) 1 ∧
    (inode_at (state_after [call_open ['/', 'f'] TFS_O_CREAT, call_write 0 [7] 1,
      call_close 0, call_open ['/', 'f'] TFS_O_TRUNC]) 1).i_data_block = 1 ∧
    (state_after [call_open ['/', 'f'] TFS_O_CREAT, call_write 0 [7] 1,
      call_close 0, call_open ['/', 'f'] TFS_O_TRUNC]).free_blocks[1]? =
        some allocation_state_t.FREE ∧
    reachable (state_after [call_open ['/', 'f'] TFS_O_CREAT, call_write 0 [7] 1,
      call_close 0, call_open ['/', 'f'] TFS_O_TRUNC, call_open ['/', 'g'] TFS_O_CREAT,
      call_write 1 [9] 1]) ∧
    inode_live (state_after [call_open ['/', 'f'] TFS_O_CREAT, call_write 0 [7] 1,
      call_close 0, call_open ['/', 'f'] TFS_O_TRUNC, call_open ['/', 'g'] TFS_O_CREAT,
      call_write 1 [9] 1]) 1 ∧
    inode_live (state_after [call_open ['/', 'f'] TFS_O_CREAT, call_write 0 [7] 1,
      call_close 0, call_open ['/', 'f'] TFS_O_TRUNC, call_open ['/', 'g'] TFS_O_CREAT,
      call_write 1 [9] 1]) 2 ∧
    (inode_at (state_after [call_open ['/', 'f'] TFS_O_CREAT, call_write 0 [7] 1,
      call_close 0, call_open ['/', 'f'] TFS_O_TRUNC, call_open ['/', 'g'] TFS_O_CREAT,
      call_write 1 [9] 1]) 1).i_data_block = 1 ∧
    (inode_at (state_after [call_open ['/', 'f'] TFS_O_CREAT, call_write 0 [7] 1,
      call_close 0, call_open ['/', 'f'] TFS_O_TRUNC, call_open ['/', 'g'] TFS_O_CREAT,
      call_write 1 [9] 1]) 2).i_data_block = 1 ∧
    reachable (state_after [call_open ['/', 'f'] TFS_O_CREAT, call_close 0,
      call_sym_link ['/', 'f'] ['/', 's'], call_unlink ['/', 'f'],
      call_sym_link ['/', 's'] ['/', 'f'], call_open ['/', 's'] 0, call_write 0 [7] 1,
      call_sym_link ['/', 'f'] ['/', 't']]) ∧
    inode_live (state_after [call_open ['/', 'f'] TFS_O_CREAT, call_close 0,
      call_sym_link ['/', 'f'] ['/', 's'], call_unlink ['/', 'f'],
      call_sym_link ['/', 's'] ['/', 'f'], call_open ['/', 's'] 0, call_write 0 [7] 1,
      call_sym_link ['/', 'f'] ['/', 't']]) 1 ∧
    inode_live (state_after [call_open ['/', 'f'] TFS_O_CREAT, call_close 0,
      call_sym_link ['/', 'f'] ['/', 's'], call_unlink ['/', 'f'],
      call_sym_link ['/', 's'] ['/', 'f'], call_open ['/', 's'] 0, call_write 0 [7] 1,
      call_sym_link ['/', 'f'] ['/', 't']]) 3 ∧
    (inode_at (state_after [call_open ['/', 'f'] TFS_O_CREAT, call_close 0,
      call_sym_link ['/', 'f'] ['/', 's'], call_unlink ['/', 'f'],
      call_sym_link ['/', 's'] ['/', 'f'], call_open ['/', 's'] 0, call_write 0 [7] 1,
      call_sym_link ['/', 'f'] ['/', 't']]) 1).i_data_block = 1 ∧
    (inode_at (state_after [call_open ['/', 'f'] TFS_O_CREAT, call_close 0,
      call_sym_link ['/', 'f'] ['/', 's'], call_unlink ['/', 'f'],
      call_sym_link ['/', 's'] ['/', 'f'], call_open ['/', 's'] 0, call_write 0 [7] 1,
      call_sym_link ['/', 'f'] ['/', 't']]) 3).i_data_block = 1 :=
  ⟨reachable_state_after _ (by decide), by unfold inode_live; decide, by decide, by decide,
    reachable_state_after _ (by decide), by unfold inode_live; decide,
    by unfold inode_live; decide, by decide, by decide,
    reachable_state_after _ (by decide), by unfold inode_live; decide,
    by unfold inode_live; decide, by decide, by decide⟩

/-! ## Lock calls -/

theorem lock_run_pair (p : Nat) :
    lock_run [] [lock_event.wrlock p, lock_event.unlock p] = some [] ∧
      lock_run [] [lock_event.rdlock p, lock_event.unlock p] = some [] := by
  simp [lock_run, lock_step]

/-- The lock functions of `tfs_read` and `tfs_write` return exactly when the
operations do. -/
theorem read_write_locks_isSome (st : tfs_state) (fhandle : Int) (buffer : List Nat)
    (n : Nat) :
    (tfs_read_locks st fhandle n).isSome = (tfs_read st fhandle n).isSome ∧
      (tfs_write_locks st fhandle n).isSome = (tfs_write st fhandle buffer n).isSome := by
  constructor
  · unfold tfs_read_locks tfs_read
    cases hf : get_open_file_entry st fhandle with
    | none => rfl
    | some file =>
      simp only []
      cases hi : inode_get st file.of_inumber with
      | none => rfl
      | some inode =>
        simp only []
        generalize (if ((inode_at st inode).i_size + SIZE_MOD - file.of_offset) % SIZE_MOD > n
          then n
          else ((inode_at st inode).i_size + SIZE_MOD - file.of_offset) % SIZE_MOD) = c
        by_cases hpos : c > 0
        · rw [if_pos hpos, if_pos hpos]
          cases hb : data_block_get st (inode_at st inode).i_data_block <;> rfl
        · rw [if_neg hpos, if_neg hpos]
          rfl
  · unfold tfs_write_locks tfs_write
    cases hf : get_open_file_entry st fhandle with
    | none => rfl
    | some file =>
      simp only []
      cases hi : inode_get st file.of_inumber with
      | none => rfl
      | some inode =>
        simp only []
        generalize (if (n + file.of_offset) % SIZE_MOD > state_block_size st then
          (state_block_size st + SIZE_MOD - file.of_offset) % SIZE_MOD else n) = tw
        by_cases hpos : tw > 0
        · rw [if_pos hpos, if_pos hpos]
          by_cases hfail : (inode_at st inode).i_size = 0 ∧ (data_block_alloc st).2 = -1
          · rw [if_pos hfail, if_pos hfail]
            rfl
          · rw [if_neg hfail, if_neg hfail]
            generalize (if (inode_at st inode).i_size = 0 then
              inode_put (data_block_alloc st).1 inode
                { inode_at (data_block_alloc st).1 inode with
                  i_data_block := (data_block_alloc st).2 }
              else st) = st2
            cases hb : data_block_get st2 (inode_at st2 inode).i_data_block <;> rfl
        · rw [if_neg hpos, if_neg hpos]
          rfl

/-- The lock functions of `tfs_link` and `tfs_sym_link` return exactly when the
operations do, and so does that of `tfs_unlink` when the root inode exists. -/
theorem link_locks_isSome (st : tfs_state) (target link_name : List Char) :
    (tfs_link_locks st target link_name).isSome = (tfs_link st target link_name).isSome ∧
      (tfs_sym_link_locks st target link_name).isSome =
        (tfs_sym_link st target link_name).isSome ∧
      (inode_get st ROOT_DIR_INUM ≠ none →
        (tfs_unlink_locks st target).isSome = (tfs_unlink st target).isSome) := by
  refine ⟨?_, ?_, ?_⟩
  · unfold tfs_link_locks tfs_link
    simp only []
    by_cases hv : (!valid_pathname target || !valid_pathname link_name) = true
    · rw [if_pos hv, if_pos hv]; rfl
    rw [if_neg hv, if_neg hv]
    by_cases hneg : tfs_lookup st target (inode_get st ROOT_DIR_INUM) < 0
    · rw [if_pos hneg, if_pos hneg]; rfl
    rw [if_neg hneg, if_neg hneg]
    cases hp : inode_get st (tfs_lookup st target (inode_get st ROOT_DIR_INUM)) with
    | none => rfl
    | some p =>
      simp only []
      by_cases hs : (inode_at st p).sym_link = true
      · rw [if_pos hs, if_pos hs]; rfl
      rw [if_neg hs, if_neg hs]
      by_cases hl : tfs_lookup st link_name (inode_get st ROOT_DIR_INUM) > 0
      · rw [if_pos hl, if_pos hl]; rfl
      rw [if_neg hl, if_neg hl]
      split <;> rfl
  · unfold tfs_sym_link_locks tfs_sym_link
    simp only []
    by_cases hv : (!valid_pathname target || !valid_pathname link_name) = true
    · rw [if_pos hv, if_pos hv]; rfl
    rw [if_neg hv, if_neg hv]
    by_cases hneg : tfs_lookup st target (inode_get st ROOT_DIR_INUM) < 0
    · rw [if_pos hneg, if_pos hneg]; rfl
    rw [if_neg hneg, if_neg hneg]
    cases hp : inode_get st (tfs_lookup st target (inode_get st ROOT_DIR_INUM)) with
    | none => rfl
    | some p =>
      simp only []
      by_cases hs : (inode_at st p).sym_link = true
      · rw [if_pos hs, if_pos hs]
        by_cases hc : (inode_create st inode_type.T_FILE).2 < 0
        · rw [if_pos hc, if_pos hc]; rfl
        rw [if_neg hc, if_neg hc]
        cases hq : inode_get (inode_create st inode_type.T_FILE).1
          (inode_create st inode_type.T_FILE).2 <;> rfl
      rw [if_neg hs, if_neg hs]
      by_cases hl : tfs_lookup st link_name (inode_get st ROOT_DIR_INUM) > 0
      · rw [if_pos hl, if_pos hl]; rfl
      rw [if_neg hl, if_neg hl]
      by_cases hc : (inode_create st inode_type.T_FILE).2 < 0
      · rw [if_pos hc, if_pos hc]; rfl
      rw [if_neg hc, if_neg hc]
      cases hq : inode_get (inode_create st inode_type.T_FILE).1
        (inode_create st inode_type.T_FILE).2 <;> rfl
  · intro hroot
    unfold tfs_unlink_locks tfs_unlink
    simp only []
    by_cases hv : (!valid_pathname target) = true
    · rw [if_pos hv, if_pos hv]; rfl
    rw [if_neg hv, if_neg hv]
    by_cases hneg : tfs_lookup st target (inode_get st ROOT_DIR_INUM) < 0
    · rw [if_pos hneg, if_pos hneg]
      cases hr : inode_get st ROOT_DIR_INUM with
      | none => exact absurd hr hroot
      | some r => rfl
    rw [if_neg hneg, if_neg hneg]
    cases hp : inode_get st (tfs_lookup st target (inode_get st ROOT_DIR_INUM)) with
    | none => rfl
    | some p =>
      simp only []
      by_cases hs : (inode_at st p).sym_link = true
      · rw [if_pos hs, if_pos hs]; rfl
      rw [if_neg hs, if_neg hs]
      by_cases hh : (inode_at st p).hard_links > 1
      · rw [if_pos hh, if_pos hh]; rfl
      rw [if_neg hh, if_neg hh]
      split <;> rfl

/-- The calls of `tfs_open`, `tfs_close`, `tfs_read`, `tfs_write` and `tfs_link`
release every rwlock they acquire and unlock no other, on every path on which
they return. -/
theorem locks_balanced (st : tfs_state) (c : tfs_call) (evs : List lock_event)
    (hc : (∀ t l, c ≠ call_sym_link t l) ∧ (∀ t, c ≠ call_unlink t))
    (h : tfs_step_locks st c = some evs) : lock_run [] evs = some [] := by
  cases c with
  | call_open name mode =>
    simp only [tfs_step_locks, tfs_open_locks, Option.map_eq_some'] at h
    obtain ⟨_, _, rfl⟩ := h
    rfl
  | call_close fhandle =>
    simp only [tfs_step_locks, Option.some.injEq] at h
    subst h
    rfl
  | call_read fhandle len =>
    simp only [tfs_step_locks] at h
    unfold tfs_read_locks at h
    simp only [] at h
    repeat' split at h
    all_goals cases h
    all_goals first
      | rfl
      | exact (lock_run_pair _).2
  | call_write fhandle buffer to_write =>
    simp only [tfs_step_locks] at h
    unfold tfs_write_locks at h
    simp only [] at h
    repeat' split at h
    all_goals cases h
    all_goals first
      | rfl
      | exact (lock_run_pair _).1
  | call_link target link_name =>
    simp only [tfs_step_locks] at h
    unfold tfs_link_locks at h
    simp only [] at h
    repeat' split at h
    all_goals cases h
    all_goals first
      | rfl
      | exact (lock_run_pair _).1
  | call_sym_link target link_name => exact absurd rfl (hc.1 target link_name)
  | call_unlink target => exact absurd rfl (hc.2 target)

/-- C22 at its failing inputs, in the state after `open("/f", O_CREAT); close(0)`
(`/f` is inode 1, the root inode 0).  `sym_link("/f", "/s")` returns 0 after
`wrlock` on inode 1, `wrlock` on the new inode 2 and `unlock` on inode 1: the
rwlock of inode 2 is still held.  `sym_link("/f", "/f")` returns `-1` after
`wrlock` on inode 1 alone.  `unlink("/x")` returns `-1` after an `unlock` on the
root inode, which it never locked.  `unlink("/f")` returns 0 after `wrlock` on
inode 1 alone. -/
theorem C22_locks_not_balanced :
    reachable (state_after [call_open ['/', 'f'] TFS_O_CREAT, call_close 0]) ∧
    (tfs_sym_link (state_after [call_open ['/', 'f'] TFS_O_CREAT, call_close 0])
      ['/', 'f'] ['/', 's']).map Prod.snd = some 0 ∧
    tfs_sym_link_locks (state_after [call_open ['/', 'f'] TFS_O_CREAT, call_close 0])
      ['/', 'f'] ['/', 's'] =
      some [lock_event.wrlock 1, lock_event.wrlock 2, lock_event.unlock 1] ∧
    lock_run [] [lock_event.wrlock 1, lock_event.wrlock 2, lock_event.unlock 1] = some [2] ∧
    (tfs_sym_link (state_after [call_open ['/', 'f'] TFS_O_CREAT, call_close 0])
      ['/', 'f'] ['/', 'f']).map Prod.snd = some (-1) ∧
    tfs_sym_link_locks (state_after [call_open ['/', 'f'] TFS_O_CREAT, call_close 0])
      ['/', 'f'] ['/', 'f'] = some [lock_event.wrlock 1] ∧
    (tfs_unlink (state_after [call_open ['/', 'f'] TFS_O_CREAT, call_close 0])
      ['/', 'x']).map Prod.snd = some (-1) ∧
    tfs_unlink_locks (state_after [call_open ['/', 'f'] TFS_O_CREAT, call_close 0])
      ['/', 'x'] = some [lock_event.unlock 0] ∧
    lock_run [] [lock_event.unlock 0] = none ∧
    (tfs_unlink (state_after [call_open ['/', 'f'] TFS_O_CREAT, call_close 0])
      ['/', 'f']).map Prod.snd = some 0 ∧
    tfs_unlink_locks (state_after [call_open ['/', 'f'] TFS_O_CREAT, call_close 0])
      ['/', 'f'] = some [lock_event.wrlock 1] ∧
    lock_run [] [lock_event.wrlock 1] = some [1] :=
  ⟨reachable_state_after _ (by decide), by decide, by decide, by decide, by decide,
    by decide, by decide, by decide, by decide, by decide, by decide, by decide⟩

end TFS
